import Mathlib

/-!
# Archive job of the Orthanc server: planning and stepping

A shallow embedding of `OrthancServer/Sources/ServerJobs/ArchiveJob.cpp`.

* `std::string` is a Lean `String`, read as one `Char` per byte.
* `uint64_t` and `unsigned int` are `Nat`, reduced `% 2 ^ 64` and `% 2 ^ 32`
  where the source can wrap.
* A C++ exception is the `error` side of `Except ErrorCode`.
* The collaborators that are not part of the file (the server index, the
  storage area, the transcoder, the toolbox) are parameters.
-/

namespace Orthanc

/-! ## Constants -/

/-- `static const uint64_t MEGA_BYTES = 1024 * 1024`. -/
def MEGA_BYTES : Nat := 1024 * 1024

/-- `static const uint64_t GIGA_BYTES = 1024 * 1024 * 1024`. -/
def GIGA_BYTES : Nat := 1024 * 1024 * 1024

/-- `static const char* const MEDIA_IMAGES_FOLDER = "IMAGES"`. -/
def MEDIA_IMAGES_FOLDER : String := "IMAGES"

/-- `static const int NB_THREAD = 3`. -/
def NB_THREAD : Nat := 3

/-- Error codes thrown as `OrthancException` by the embedded code.  `Undefined`
is not an Orthanc code: it marks an execution that leaves defined C++ (a failed
`assert`, a `printf` conversion outside the modelled ones), that ends in
`std::terminate` (a thread assigned to a handle that is still joinable), or
that throws an exception that is not an `OrthancException` (`join` on a handle
that is not joinable). -/
inductive ErrorCode where
  | UnknownResource
  | InternalError
  | BadSequenceOfCalls
  | ParameterOutOfRange
  | NullPointer
  | InexistentItem
  | BadFileFormat
  | Undefined
  deriving DecidableEq, Repr

/-- `enum ResourceType`, with `Patient < Study < Series < Instance`. -/
inductive ResourceType where
  | Patient
  | Study
  | Series
  | Instance
  deriving DecidableEq, Repr

/-- Numeric value of the enumeration, used for `level > level_`. -/
def ResourceType.rank : ResourceType → Nat
  | .Patient => 1
  | .Study => 2
  | .Series => 3
  | .Instance => 4

/-! ## ZIP64 decision -/

/-- `IsZip64Required(uncompressedSize, countInstances)`.  The two bounds are
computed on constants and do not wrap. -/
def IsZip64Required (uncompressedSize countInstances : Nat) : Bool :=
  let SAFETY_MARGIN := 64 * MEGA_BYTES
  let FILES_MARGIN := 10
  decide (uncompressedSize ≥ 2 * GIGA_BYTES - SAFETY_MARGIN) ||
    decide (countInstances ≥ 65535 - FILES_MARGIN)

/-! ## The fragment of `snprintf` used for file names -/

/-- An argument of `snprintf` after the default promotions. -/
inductive PrintfArg where
  | char (c : Char)
  | int (i : Int)
  deriving DecidableEq, Repr

/-- An `unsigned int` read by a `%d` conversion: the 32-bit pattern taken as a
signed `int`. -/
def toSignedInt (n : Nat) : Int :=
  if n % 2 ^ 32 < 2 ^ 31 then ((n % 2 ^ 32 : Nat) : Int)
  else ((n % 2 ^ 32 : Nat) : Int) - 2 ^ 32

/-- The text of a `%d`, `%Nd` or `%0Nd` conversion: sign, then the decimal
digits, padded on the left up to the width (with zeros after the sign when the
`0` flag is given, with blanks before it otherwise). -/
def formatDecimal (zeroFlag : Bool) (width : Nat) (i : Int) : List Char :=
  let sign : List Char := if i < 0 then ['-'] else []
  let digits := Nat.toDigits 10 i.natAbs
  let pad := width - (sign.length + digits.length)
  if zeroFlag then sign ++ List.replicate pad '0' ++ digits
  else List.replicate pad ' ' ++ sign ++ digits

/-- Where the interpretation of a format string stands: in plain text, right
after a `%`, or inside a conversion whose flag and width are being read. -/
inductive PrintfMode where
  | text
  | percent
  | spec (zeroFlag : Bool) (width : Nat)

/-- Interpretation of a format string, character by character.  Modelled
conversions: `%%`, `%c`, and `%d` with an optional `0` flag and width.  Any
other conversion, a conversion cut short by the end of the format, or a
conversion whose argument is missing or of the other kind gives `none`. -/
def printfGo : PrintfMode → List Char → List PrintfArg → Option (List Char)
  | .text, [], _ => some []
  | .text, c :: rest, args =>
    if c = '%' then printfGo .percent rest args
    else (printfGo .text rest args).map (fun out => c :: out)
  | .percent, [], _ => none
  | .percent, c :: rest, args =>
    if c = '%' then (printfGo .text rest args).map (fun out => '%' :: out)
    else if c = 'c' then
      match args with
      | .char a :: args' => (printfGo .text rest args').map (fun out => a :: out)
      | _ => none
    else if c = '0' then printfGo (.spec true 0) rest args
    else if c.isDigit then printfGo (.spec false (c.toNat - 48)) rest args
    else if c = 'd' then
      match args with
      | .int i :: args' =>
        (printfGo .text rest args').map (fun out => formatDecimal false 0 i ++ out)
      | _ => none
    else none
  | .spec _ _, [], _ => none
  | .spec z w, c :: rest, args =>
    if c.isDigit then printfGo (.spec z (w * 10 + (c.toNat - 48))) rest args
    else if c = 'd' then
      match args with
      | .int i :: args' =>
        (printfGo .text rest args').map (fun out => formatDecimal z w i ++ out)
      | _ => none
    else none

/-- The C string held by a buffer: its characters up to the first NUL. -/
def cString (buf : List Char) : List Char :=
  buf.takeWhile (fun c => c ≠ Char.ofNat 0)

/-- `snprintf(buffer, size, format, args...)` followed by reading the buffer
as a C string: at most `size - 1` characters are stored. -/
def snprintf (size : Nat) (format : List Char) (args : List PrintfArg) :
    Option (List Char) :=
  (printfGo .text format args).map (fun out => cString (out.take (size - 1)))

/-- `toupper` in the "C" locale. -/
def toupper (c : Char) : Char := c.toUpper

/-! ## Collaborators -/

/-- The main DICOM tags read by the archive visitor. -/
inductive DicomTag where
  | PATIENT_ID
  | PATIENT_NAME
  | ACCESSION_NUMBER
  | STUDY_DESCRIPTION
  | MODALITY
  | SERIES_DESCRIPTION
  deriving DecidableEq, Repr

/-- A `DicomValue`: null, binary, or a string. -/
inductive DicomValue where
  | null
  | binary (content : String)
  | string (content : String)
  deriving DecidableEq, Repr

/-- A `DicomMap`, seen through `TestAndGetValue` (`none` is the NULL pointer). -/
structure DicomMap where
  TestAndGetValue : DicomTag → Option DicomValue

/-- The part of `ServerIndex` the job calls.  `LookupAttachment` is asked for
`FileContentType_Dicom` and answers with the uncompressed size of the
attachment; `GetMainDicomTags` is called with the same level twice. -/
structure ServerIndex where
  LookupResourceType : String → Option ResourceType
  LookupParent : String → Option String
  GetChildren : String → List String
  LookupAttachment : String → Option Nat
  GetMainDicomTags : String → ResourceType → Option DicomMap

/-- A transfer syntax, named by its UID. -/
abbrev DicomTransferSyntax := String

/-- `DicomTransferSyntax_LittleEndianImplicit`. -/
def DicomTransferSyntax_LittleEndianImplicit : DicomTransferSyntax := "1.2.840.10008.1.2"

/-- A `ParsedDicomFile`, kept as the bytes it was parsed from. -/
structure ParsedDicomFile where
  bytes : String
  deriving DecidableEq, Repr

/-- The part of `ServerContext` the job calls: `GetIndex()`, `ReadDicom`
(which throws on failure), `Transcode` towards one accepted syntax with a new
SOP instance UID allowed (`none` when it returns false), and the constructor
`ParsedDicomFile(content)` (which throws on a buffer that is not DICOM). -/
structure ServerContext where
  index : ServerIndex
  ReadDicom : String → Except ErrorCode String
  Transcode : String → DicomTransferSyntax → Option (String × ParsedDicomFile)
  ParseDicom : String → Except ErrorCode ParsedDicomFile

/-- The functions of `Toolbox` and of the enumerations the archive visitor
calls; their code is not part of the file, so they are parameters. -/
structure Toolbox where
  StripSpaces : String → String
  ConvertToAscii : String → String
  EnumerationToString : ResourceType → String

/-- A `std::string` built from a `const char*`: cut at the first NUL. -/
def c_str (s : String) : String := String.mk (cString s.data)

/-! ## ResourceIdentifiers -/

/-- `ArchiveJob::ResourceIdentifiers`; the identifiers below `level_` stay
empty. -/
structure ResourceIdentifiers where
  level_ : ResourceType
  patient_ : String
  study_ : String
  series_ : String
  instance_ : String
  deriving DecidableEq, Repr

/-- `ResourceIdentifiers::GoToParent`. -/
def ResourceIdentifiers.GoToParent (index : ServerIndex) (current : String) :
    Except ErrorCode String :=
  match index.LookupParent current with
  | some tmp => .ok tmp
  | none => .error .UnknownResource

/-- The constructor `ResourceIdentifiers(index, publicId)`: the `switch`
without `break` climbs from the level of `publicId` to the patient. -/
def ResourceIdentifiers.create (index : ServerIndex) (publicId : String) :
    Except ErrorCode ResourceIdentifiers :=
  match index.LookupResourceType publicId with
  | none => .error .UnknownResource
  | some .Instance => do
    let series ← GoToParent index publicId
    let study ← GoToParent index series
    let patient ← GoToParent index study
    pure ⟨.Instance, patient, study, series, publicId⟩
  | some .Series => do
    let study ← GoToParent index publicId
    let patient ← GoToParent index study
    pure ⟨.Series, patient, study, publicId, ""⟩
  | some .Study => do
    let patient ← GoToParent index publicId
    pure ⟨.Study, patient, publicId, "", ""⟩
  | some .Patient => pure ⟨.Patient, publicId, "", "", ""⟩

/-- `ResourceIdentifiers::GetLevel`. -/
def ResourceIdentifiers.GetLevel (r : ResourceIdentifiers) : ResourceType := r.level_

/-- `ResourceIdentifiers::GetIdentifier`. -/
def ResourceIdentifiers.GetIdentifier (r : ResourceIdentifiers) (level : ResourceType) :
    Except ErrorCode String :=
  if level.rank > r.level_.rank then .error .InternalError
  else
    match level with
    | .Patient => .ok r.patient_
    | .Study => .ok r.study_
    | .Series => .ok r.series_
    | .Instance => .ok r.instance_

/-- `GetChildResourceType`, declared by the framework outside the file: the
level below a level (the instance level has none). -/
def GetChildResourceType : ResourceType → Option ResourceType
  | .Patient => some .Study
  | .Study => some .Series
  | .Series => some .Instance
  | .Instance => none

/-- The identifiers met when climbing from an identifier by `k` successive
calls of `LookupParent`, none of which fails. -/
def parentChain (index : ServerIndex) (publicId : String) : Nat → Option String
  | 0 => some publicId
  | k + 1 => (parentChain index publicId k).bind index.LookupParent


/-! ## ArchiveIndex -/

/-- `ArchiveIndex::Instance`. -/
structure Instance where
  id_ : String
  uncompressedSize_ : Nat
  deriving DecidableEq, Repr

/-- Order of `std::less<std::string>`: lexicographic on the bytes. -/
def lexLess : List Char → List Char → Bool
  | [], [] => false
  | [], _ :: _ => true
  | _ :: _, [] => false
  | a :: as, b :: bs =>
    if a.toNat < b.toNat then true
    else if b.toNat < a.toNat then false
    else lexLess as bs

/-- `typedef std::map<std::string, ArchiveIndex*> Resources`: the entries in
iteration order; the value `none` is the NULL pointer. -/
abbrev Resources (α : Type) := List (String × Option α)

/-- `resources_.find(id)`: `none` is `resources_.end()`. -/
def mapFind {α : Type} : Resources α → String → Option (Option α)
  | [], _ => none
  | (k, v) :: rest, id => if k = id then some v else mapFind rest id

/-- `resources_[id] = value`: replaces the value of an existing key, or inserts
the key at its place in the order. -/
def mapAssign {α : Type} : Resources α → String → Option α → Resources α
  | [], id, value => [(id, value)]
  | (k, v) :: rest, id, value =>
    if k = id then (k, value) :: rest
    else if lexLess id.data k.data then (id, value) :: (k, v) :: rest
    else (k, v) :: mapAssign rest id value

/-- The value of an existing entry changed in place, as `previous->second->Add`
does through the pointer found by `find`; the keys and their order stay. -/
def mapReplace {α : Type} : Resources α → String → Option α → Resources α
  | [], _, _ => []
  | (k, v) :: rest, id, value =>
    if k = id then (k, value) :: rest else (k, v) :: mapReplace rest id value

/-- The level of a node `depth` levels above the instance level.  The root is
built at depth 3 (`ResourceType_Patient`) and every child is built with
`GetChildResourceType(level_)`, one level down. -/
def levelOfDepth : Nat → ResourceType
  | 0 => .Instance
  | 1 => .Series
  | 2 => .Study
  | _ => .Patient

/-- `class ArchiveIndex`, indexed by the depth that stands for `level_`: at the
instance level the node holds `instances_`, above it holds `resources_`. -/
def ArchiveIndex : Nat → Type
  | 0 => List Instance
  | d + 1 => Resources (ArchiveIndex d)

/-- The constructor `ArchiveIndex(level)`: no resource, no instance. -/
def ArchiveIndex.empty : (d : Nat) → ArchiveIndex d
  | 0 => ([] : List Instance)
  | d + 1 => ([] : Resources (ArchiveIndex d))

/-- `ArchiveIndex::AddResourceToExpand`. -/
def ArchiveIndex.AddResourceToExpand (index : ServerIndex) :
    (d : Nat) → ArchiveIndex d → String → ArchiveIndex d
  | 0, (instances : List Instance), id =>
    match index.LookupAttachment id with
    | some size => (instances ++ [⟨id, size⟩] : List Instance)
    | none => instances
  | d + 1, (resources : Resources (ArchiveIndex d)), id =>
    (mapAssign resources id none : Resources (ArchiveIndex d))

/-- `ArchiveIndex::Add`. -/
def ArchiveIndex.Add (index : ServerIndex) (resource : ResourceIdentifiers) :
    (d : Nat) → ArchiveIndex d → Except ErrorCode (ArchiveIndex d)
  | 0, node =>
    match resource.GetIdentifier (levelOfDepth 0) with
    | .error e => .error e
    | .ok id => .ok (AddResourceToExpand index 0 node id)
  | d + 1, (resources : Resources (ArchiveIndex d)) =>
    match resource.GetIdentifier (levelOfDepth (d + 1)) with
    | .error e => .error e
    | .ok id =>
      if resource.GetLevel = levelOfDepth (d + 1) then
        .ok (mapAssign resources id none : Resources (ArchiveIndex d))
      else
        match mapFind resources id with
        | none =>
          match Add index resource d (empty d) with
          | .error e => .error e
          | .ok child => .ok (mapAssign resources id (some child) : Resources (ArchiveIndex d))
        | some (some previous) =>
          match Add index resource d previous with
          | .error e => .error e
          | .ok child => .ok (mapReplace resources id (some child) : Resources (ArchiveIndex d))
        | some none => .ok resources

/-- Whether the entry of a resource, reached from a node by the identifiers of
the resource level by level through expanded entries, is marked for expansion
(its value is NULL). -/
def ArchiveIndex.IsPending (resource : ResourceIdentifiers) : (d : Nat) → ArchiveIndex d → Bool
  | 0, _ => false
  | d + 1, (resources : Resources (ArchiveIndex d)) =>
    match resource.GetIdentifier (levelOfDepth (d + 1)) with
    | .error _ => false
    | .ok id =>
      match mapFind resources id with
      | none => false
      | some none => decide (resource.GetLevel = levelOfDepth (d + 1))
      | some (some child) =>
        !decide (resource.GetLevel = levelOfDepth (d + 1)) && IsPending resource d child

/-- Whether the entry of a strict ancestor of a resource, reached as in
`IsPending`, is marked for expansion: the resource then has no entry of its
own, it comes with the expansion of that ancestor. -/
def ArchiveIndex.IsUnderPending (resource : ResourceIdentifiers) :
    (d : Nat) → ArchiveIndex d → Bool
  | 0, _ => false
  | d + 1, (resources : Resources (ArchiveIndex d)) =>
    match resource.GetIdentifier (levelOfDepth (d + 1)) with
    | .error _ => false
    | .ok id =>
      match mapFind resources id with
      | none => false
      | some none => !decide (resource.GetLevel = levelOfDepth (d + 1))
      | some (some child) =>
        !decide (resource.GetLevel = levelOfDepth (d + 1)) && IsUnderPending resource d child

/-- The body of the loop of `Expand` for one entry whose value is NULL: the
children returned by the index are added to a new child node. -/
def ArchiveIndex.expandChildren (index : ServerIndex) (d : Nat) (id : String) :
    ArchiveIndex d :=
  (index.GetChildren id).foldl (fun child id2 => AddResourceToExpand index d child id2)
    (empty d)

/-- `ArchiveIndex::Expand`. -/
def ArchiveIndex.Expand (index : ServerIndex) : (d : Nat) → ArchiveIndex d → ArchiveIndex d
  | 0, node => node
  | d + 1, (resources : Resources (ArchiveIndex d)) =>
    (resources.map (fun entry =>
      match entry.2 with
      | none => (entry.1, some (Expand index d (expandChildren index d entry.1)))
      | some child => (entry.1, some (Expand index d child))) :
      Resources (ArchiveIndex d))

/-- The tree with one patient, one study and one series, whose entry holds
the given value. -/
def singleSeriesTree (patient study series : String) (value : Option (ArchiveIndex 0)) :
    ArchiveIndex 3 :=
  ([(patient, some ([(study, some ([(series, value)] : Resources (ArchiveIndex 0)))] :
    Resources (ArchiveIndex 1)))] : Resources (ArchiveIndex 2))

/-- The leaves `Expand` builds for a series: its children in the order of the
index, without those that have no DICOM attachment. -/
def leavesOf (index : ServerIndex) (series : String) : List Instance :=
  (index.GetChildren series).filterMap
    (fun id => (index.LookupAttachment id).map (fun size => (⟨id, size⟩ : Instance)))

/-- Whether the entry of a resource, reached as in `IsPending`, holds the node
that `Expand` builds from the children the index returns for the resource. -/
def ArchiveIndex.IsExpandedFromIndex (index : ServerIndex) (resource : ResourceIdentifiers) :
    (d : Nat) → ArchiveIndex d → Prop
  | 0, _ => False
  | d + 1, (resources : Resources (ArchiveIndex d)) =>
    match resource.GetIdentifier (levelOfDepth (d + 1)) with
    | .error _ => False
    | .ok id =>
      match mapFind resources id with
      | some (some child) =>
        if resource.GetLevel = levelOfDepth (d + 1) then
          child = Expand index d (expandChildren index d id)
        else IsExpandedFromIndex index resource d child
      | _ => False

/-- `class IArchiveVisitor`, over the state `σ` of the visitor. -/
structure IArchiveVisitor (σ : Type) where
  Open : ResourceType → String → σ → Except ErrorCode σ
  Close : σ → Except ErrorCode σ
  AddInstance : String → Nat → σ → Except ErrorCode σ

/-- The loop of `ArchiveIndex::Apply` at the instance level. -/
def ArchiveIndex.applyInstances {σ : Type} (visitor : IArchiveVisitor σ) :
    List Instance → σ → Except ErrorCode σ
  | [], s => .ok s
  | it :: rest, s =>
    match visitor.AddInstance it.id_ it.uncompressedSize_ s with
    | .error e => .error e
    | .ok s1 => applyInstances visitor rest s1

/-- The loop of `ArchiveIndex::Apply` above the instance level; `applyChild`
is `it->second->Apply(visitor)`.  A NULL value fails the assertion. -/
def ArchiveIndex.applyResources {σ α : Type} (visitor : IArchiveVisitor σ)
    (level : ResourceType) (applyChild : α → σ → Except ErrorCode σ) :
    Resources α → σ → Except ErrorCode σ
  | [], s => .ok s
  | (_, none) :: _, _ => .error .Undefined
  | (id, some child) :: rest, s =>
    match visitor.Open level id s with
    | .error e => .error e
    | .ok s1 =>
      match applyChild child s1 with
      | .error e => .error e
      | .ok s2 =>
        match visitor.Close s2 with
        | .error e => .error e
        | .ok s3 => applyResources visitor level applyChild rest s3

/-- `ArchiveIndex::Apply`. -/
def ArchiveIndex.Apply {σ : Type} (visitor : IArchiveVisitor σ) :
    (d : Nat) → ArchiveIndex d → σ → Except ErrorCode σ
  | 0, (instances : List Instance), s => applyInstances visitor instances s
  | d + 1, (resources : Resources (ArchiveIndex d)), s =>
    applyResources visitor (levelOfDepth (d + 1)) (Apply visitor d) resources s

/-- The leaves of a tree in the order in which `Apply` visits them; an entry
marked for expansion has none. -/
def ArchiveIndex.leaves : (d : Nat) → ArchiveIndex d → List Instance
  | 0, (instances : List Instance) => instances
  | d + 1, (resources : Resources (ArchiveIndex d)) =>
    (resources.map (fun entry =>
      match entry.2 with
      | none => []
      | some child => leaves d child)).flatten


/-- A call made on the `ServerIndex` by `Expand`. -/
inductive CatalogQuery where
  | GetChildren (id : String)
  | LookupAttachment (id : String)
  deriving DecidableEq, Repr

/-- The calls that `AddResourceToExpand` makes on the index: one
`LookupAttachment` at the instance level, none above. -/
def ArchiveIndex.addQueries (d : Nat) (id : String) : List CatalogQuery :=
  if d = 0 then [.LookupAttachment id] else []

/-- The calls that `ArchiveIndex::Expand` makes on the index, in order: for an
entry whose value is NULL, `GetChildren` and the calls of `AddResourceToExpand`
on each child; then, for every entry, those of `Expand` on its node. -/
def ArchiveIndex.expandQueries (index : ServerIndex) : (d : Nat) → ArchiveIndex d → List CatalogQuery
  | 0, _ => []
  | d + 1, (resources : Resources (ArchiveIndex d)) =>
    (resources.map (fun entry =>
      match entry.2 with
      | none =>
        [CatalogQuery.GetChildren entry.1] ++
          ((index.GetChildren entry.1).map (addQueries d)).flatten ++
          expandQueries index d (expandChildren index d entry.1)
      | some child => expandQueries index d child)).flatten


/-! ## ZipCommands -/

/-- `ZipCommands::Type`. -/
inductive CommandType where
  | Type_OpenDirectory
  | Type_CloseDirectory
  | Type_WriteInstance
  deriving DecidableEq, Repr

/-- `ZipCommands::Command`; a field that a constructor does not set is the
empty string. -/
structure Command where
  type_ : CommandType
  filename_ : String
  instanceId_ : String
  deriving DecidableEq, Repr

/-- `Command::IsWriteInstance`. -/
def Command.IsWriteInstance (c : Command) : Bool :=
  decide (c.type_ = .Type_WriteInstance)

/-- `class ZipCommands`: the commands, and the two aggregates. -/
structure ZipCommands where
  commands_ : List Command
  uncompressedSize_ : Nat
  instancesCount_ : Nat
  deriving DecidableEq, Repr

/-- The constructor `ZipCommands()`. -/
def ZipCommands.new : ZipCommands := ⟨[], 0, 0⟩

/-- `ZipCommands::GetSize`. -/
def ZipCommands.GetSize (z : ZipCommands) : Nat := z.commands_.length

/-- `ZipCommands::GetInstancesCount`. -/
def ZipCommands.GetInstancesCount (z : ZipCommands) : Nat := z.instancesCount_

/-- `ZipCommands::GetUncompressedSize`. -/
def ZipCommands.GetUncompressedSize (z : ZipCommands) : Nat := z.uncompressedSize_

/-- `ZipCommands::AddOpenDirectory`. -/
def ZipCommands.AddOpenDirectory (z : ZipCommands) (filename : String) : ZipCommands :=
  { z with commands_ := z.commands_ ++ [⟨.Type_OpenDirectory, filename, ""⟩] }

/-- `ZipCommands::AddCloseDirectory`. -/
def ZipCommands.AddCloseDirectory (z : ZipCommands) : ZipCommands :=
  { z with commands_ := z.commands_ ++ [⟨.Type_CloseDirectory, "", ""⟩] }

/-- `ZipCommands::AddWriteInstance`: `instancesCount_` is an `unsigned int`,
`uncompressedSize_` a `uint64_t`. -/
def ZipCommands.AddWriteInstance (z : ZipCommands) (filename instanceId : String)
    (uncompressedSize : Nat) : ZipCommands :=
  { commands_ := z.commands_ ++ [⟨.Type_WriteInstance, filename, instanceId⟩]
    instancesCount_ := (z.instancesCount_ + 1) % 2 ^ 32
    uncompressedSize_ := (z.uncompressedSize_ + uncompressedSize) % 2 ^ 64 }

/-- `ZipCommands::IsZip64`. -/
def ZipCommands.IsZip64 (z : ZipCommands) : Bool :=
  IsZip64Required z.GetUncompressedSize z.GetInstancesCount

/-! ## The two visitors -/

/-- `class ArchiveIndexVisitor`: the commands it appends to, the format of the
file names (`char instanceFormat_[24]`) and the counter (`unsigned int`). -/
structure ArchiveIndexVisitor where
  commands_ : ZipCommands
  instanceFormat_ : List Char
  counter_ : Nat
  deriving DecidableEq, Repr

/-- `ArchiveIndexVisitor::GetTag`. -/
def ArchiveIndexVisitor.GetTag (tags : DicomMap) (tag : DicomTag) : String :=
  match tags.TestAndGetValue tag with
  | some (.string content) => content
  | _ => ""

/-- The constructor `ArchiveIndexVisitor(commands, context)`. -/
def ArchiveIndexVisitor.new (commands : ZipCommands) : Except ErrorCode ArchiveIndexVisitor :=
  if commands.GetSize ≠ 0 then .error .BadSequenceOfCalls
  else
    match snprintf 23 "%%08d.dcm".data [] with
    | some format => .ok ⟨commands, format, 0⟩
    | none => .error .Undefined

/-- The three cases of `Open` at the series level that write
`instanceFormat_` from the modality. -/
def ArchiveIndexVisitor.formatOfModality (modality : String) : Option (List Char) :=
  match modality.data with
  | [] => snprintf 23 "%%08d.dcm".data []
  | [c0] => snprintf 23 "%c%%07d.dcm".data [.char (toupper c0)]
  | c0 :: c1 :: _ => snprintf 23 "%c%c%%06d.dcm".data [.char (toupper c0), .char (toupper c1)]

/-- The end of `ArchiveIndexVisitor::Open`, the name given to the directory:
the path is converted, stripped, replaced when empty, and passed as
`path.c_str()`. -/
def ArchiveIndexVisitor.directoryName (toolbox : Toolbox) (level : ResourceType)
    (path : String) : String :=
  let path1 := toolbox.StripSpaces (toolbox.ConvertToAscii path)
  let path2 := if path1.data = [] then "Unknown " ++ toolbox.EnumerationToString level else path1
  c_str path2

/-- The end of `ArchiveIndexVisitor::Open`: the command is appended. -/
def ArchiveIndexVisitor.openDirectory (toolbox : Toolbox) (level : ResourceType)
    (path : String) (v : ArchiveIndexVisitor) : ArchiveIndexVisitor :=
  { v with commands_ := v.commands_.AddOpenDirectory (directoryName toolbox level path) }

/-- `ArchiveIndexVisitor::Open`. -/
def ArchiveIndexVisitor.Open (context : ServerContext) (toolbox : Toolbox)
    (level : ResourceType) (publicId : String) (v : ArchiveIndexVisitor) :
    Except ErrorCode ArchiveIndexVisitor :=
  match context.index.GetMainDicomTags publicId level with
  | some tags =>
    match level with
    | .Patient =>
      .ok (openDirectory toolbox level
        (GetTag tags .PATIENT_ID ++ " " ++ GetTag tags .PATIENT_NAME) v)
    | .Study =>
      .ok (openDirectory toolbox level
        (GetTag tags .ACCESSION_NUMBER ++ " " ++ GetTag tags .STUDY_DESCRIPTION) v)
    | .Series =>
      let modality := GetTag tags .MODALITY
      match formatOfModality modality with
      | some format =>
        .ok (openDirectory toolbox level
          (modality ++ " " ++ GetTag tags .SERIES_DESCRIPTION)
          { v with instanceFormat_ := format, counter_ := 0 })
      | none => .error .Undefined
    | .Instance => .error .InternalError
  | none => .ok (openDirectory toolbox level "" v)

/-- `ArchiveIndexVisitor::Close`. -/
def ArchiveIndexVisitor.Close (v : ArchiveIndexVisitor) : Except ErrorCode ArchiveIndexVisitor :=
  .ok { v with commands_ := v.commands_.AddCloseDirectory }

/-- `ArchiveIndexVisitor::AddInstance`: the counter is passed to a `%d`. -/
def ArchiveIndexVisitor.AddInstance (instanceId : String) (uncompressedSize : Nat)
    (v : ArchiveIndexVisitor) : Except ErrorCode ArchiveIndexVisitor :=
  match snprintf 23 v.instanceFormat_ [.int (toSignedInt v.counter_)] with
  | some filename =>
    .ok { v with
          counter_ := (v.counter_ + 1) % 2 ^ 32
          commands_ := v.commands_.AddWriteInstance (String.mk filename) instanceId
            uncompressedSize }
  | none => .error .Undefined

/-- `ArchiveIndexVisitor` as an `IArchiveVisitor`. -/
def ArchiveIndexVisitor.visitor (context : ServerContext) (toolbox : Toolbox) :
    IArchiveVisitor ArchiveIndexVisitor :=
  { Open := ArchiveIndexVisitor.Open context toolbox
    Close := ArchiveIndexVisitor.Close
    AddInstance := ArchiveIndexVisitor.AddInstance }

/-- `class MediaIndexVisitor`. -/
structure MediaIndexVisitor where
  commands_ : ZipCommands
  counter_ : Nat
  deriving DecidableEq, Repr

/-- The constructor `MediaIndexVisitor(commands)`. -/
def MediaIndexVisitor.new (commands : ZipCommands) : MediaIndexVisitor := ⟨commands, 0⟩

/-- `MediaIndexVisitor::AddInstance`: `boost::lexical_cast` of the counter is
its decimal writing. -/
def MediaIndexVisitor.AddInstance (instanceId : String) (uncompressedSize : Nat)
    (v : MediaIndexVisitor) : Except ErrorCode MediaIndexVisitor :=
  let filename := "IM" ++ String.mk (Nat.toDigits 10 v.counter_)
  .ok { commands_ := v.commands_.AddWriteInstance filename instanceId uncompressedSize
        counter_ := (v.counter_ + 1) % 2 ^ 32 }

/-- `MediaIndexVisitor` as an `IArchiveVisitor`: `Open` and `Close` are empty. -/
def MediaIndexVisitor.visitor : IArchiveVisitor MediaIndexVisitor :=
  { Open := fun _ _ v => .ok v
    Close := fun v => .ok v
    AddInstance := MediaIndexVisitor.AddInstance }

/-- The path that `ArchiveIndexVisitor::Open` builds from the main DICOM tags
of a resource, before it is converted: empty when the index has no tags. -/
def ArchiveIndexVisitor.tagPath (context : ServerContext) (level : ResourceType)
    (publicId : String) : String :=
  match context.index.GetMainDicomTags publicId level with
  | none => ""
  | some tags =>
    match level with
    | .Patient => GetTag tags .PATIENT_ID ++ " " ++ GetTag tags .PATIENT_NAME
    | .Study => GetTag tags .ACCESSION_NUMBER ++ " " ++ GetTag tags .STUDY_DESCRIPTION
    | .Series => GetTag tags .MODALITY ++ " " ++ GetTag tags .SERIES_DESCRIPTION
    | .Instance => ""

/-- What is assumed of the toolbox, whose code is not part of the file: the
converted and stripped text of the empty string is empty, and neither that
text nor the name of a level holds a NUL character (`ConvertToAscii` drops the
control characters). -/
structure Toolbox.IsPlain (toolbox : Toolbox) : Prop where
  empty : toolbox.StripSpaces (toolbox.ConvertToAscii "") = ""
  noNul : ∀ s, Char.ofNat 0 ∉ (toolbox.StripSpaces (toolbox.ConvertToAscii s)).data
  levelNoNul : ∀ level, Char.ofNat 0 ∉ (toolbox.EnumerationToString level).data


/-! ## ZipWriterIterator: planning -/

/-- The commands planned by the constructor of `ZipWriterIterator`, with the
archive as `Expand` leaves it. -/
def planCommands (context : ServerContext) (toolbox : Toolbox) (archive : ArchiveIndex 3)
    (isMedia : Bool) : Except ErrorCode (ArchiveIndex 3 × ZipCommands) :=
  if isMedia then
    let visitor := MediaIndexVisitor.new ZipCommands.new
    let expanded := ArchiveIndex.Expand context.index 3 archive
    let visitor1 := { visitor with
      commands_ := visitor.commands_.AddOpenDirectory MEDIA_IMAGES_FOLDER }
    match ArchiveIndex.Apply MediaIndexVisitor.visitor 3 expanded visitor1 with
    | .error e => .error e
    | .ok visitor2 => .ok (expanded, visitor2.commands_.AddCloseDirectory)
  else
    match ArchiveIndexVisitor.new ZipCommands.new with
    | .error e => .error e
    | .ok visitor =>
      let expanded := ArchiveIndex.Expand context.index 3 archive
      match ArchiveIndex.Apply (ArchiveIndexVisitor.visitor context toolbox) 3 expanded
          visitor with
      | .error e => .error e
      | .ok visitor1 => .ok (expanded, visitor1.commands_)

/-- The media layout of a list of leaves: `IMAGES` is opened, leaf number `k`
is written under the name `IM` followed by the decimal writing of `k`, and the
directory is closed. -/
def mediaLayout (leaves : List Instance) : List Command :=
  [⟨.Type_OpenDirectory, MEDIA_IMAGES_FOLDER, ""⟩] ++
    leaves.mapIdx (fun k leaf =>
      (⟨.Type_WriteInstance, "IM" ++ String.mk (Nat.toDigits 10 k), leaf.id_⟩ : Command)) ++
    [⟨.Type_CloseDirectory, "", ""⟩]


/-! ## ZipWriterIterator: running the commands -/

/-- A call received by the `HierarchicalZipWriter`. -/
inductive ZipCall where
  | OpenDirectory (name : String)
  | CloseDirectory
  | OpenFile (name : String)
  | Write (data : String)
  | CancelStream
  | Close
  deriving DecidableEq, Repr

/-- The `HierarchicalZipWriter`, whose code is not part of the file: whether it
was set to ZIP64, and the calls it has received, oldest first. -/
structure HierarchicalZipWriter where
  isZip64 : Bool
  calls : List ZipCall
  deriving DecidableEq, Repr

/-- One more call on the writer. -/
def HierarchicalZipWriter.call (z : HierarchicalZipWriter) (c : ZipCall) :
    HierarchicalZipWriter :=
  { z with calls := z.calls ++ [c] }

/-- The `DicomDirWriter`, whose code is not part of the file: the option set
at construction and the `Add(folder, filename, parsed)` calls, oldest first. -/
structure DicomDirWriter where
  extendedSopClass : Bool
  entries : List (String × String × ParsedDicomFile)
  deriving DecidableEq, Repr

/-- `DicomDirWriter::Add`. -/
def DicomDirWriter.Add (d : DicomDirWriter) (folder filename : String)
    (parsed : ParsedDicomFile) : DicomDirWriter :=
  { d with entries := d.entries ++ [(folder, filename, parsed)] }

/-- The code of the framework that the job calls on its outputs and that is
not part of the file: the size the ZIP writer reports after a list of calls,
the encoding of a DICOMDIR, the path of the temporary file created by the
configuration, and the identifier under which the media archive stores a
file. -/
structure Framework where
  GetArchiveSize : List ZipCall → Nat
  Encode : DicomDirWriter → String
  CreateTemporaryFile : String
  MediaArchiveAdd : String → String

/-- What `Command::Apply` works on: the ZIP writer, the DICOMDIR writer (`none`
is the NULL pointer of the archive flavor) and the buffer `content`. -/
structure ApplyState where
  writer : HierarchicalZipWriter
  dicomDir : Option DicomDirWriter
  content : String
  deriving DecidableEq, Repr

/-- `Command::Apply`.  The state is returned also when an exception leaves the
function. -/
def Command.Apply (c : Command) (context : ServerContext) (dicomDirFolder : String)
    (transcode : Bool) (transferSyntax : DicomTransferSyntax) (reading : Bool)
    (s : ApplyState) : ApplyState × Except ErrorCode Unit :=
  match c.type_ with
  | .Type_OpenDirectory =>
    ({ s with writer := s.writer.call (.OpenDirectory (c_str c.filename_)) }, .ok ())
  | .Type_CloseDirectory =>
    ({ s with writer := s.writer.call .CloseDirectory }, .ok ())
  | .Type_WriteInstance =>
    if reading then
      match context.ReadDicom c.instanceId_ with
      | .ok data => ({ s with content := data }, .ok ())
      | .error _ => (s, .ok ())
    else
      let s1 := { s with writer := s.writer.call (.OpenFile (c_str c.filename_)) }
      match (if transcode then context.Transcode s1.content transferSyntax else none) with
      | some (data, parsed) =>
        ({ s1 with
           writer := s1.writer.call (.Write data)
           dicomDir := s1.dicomDir.map (fun d => d.Add dicomDirFolder c.filename_ parsed) },
         .ok ())
      | none =>
        let s2 := { s1 with writer := s1.writer.call (.Write s1.content) }
        match s2.dicomDir with
        | none => (s2, .ok ())
        | some d =>
          match context.ParseDicom s2.content with
          | .ok parsed =>
            ({ s2 with dicomDir := some (d.Add dicomDirFolder c.filename_ parsed) }, .ok ())
          | .error e => (s2, .error e)

/-- `class ZipWriterIterator`. -/
structure ZipWriterIterator where
  commands_ : ZipCommands
  zip_ : Option HierarchicalZipWriter
  dicomDir_ : Option DicomDirWriter
  isMedia_ : Bool
  isStream_ : Bool
  deriving DecidableEq, Repr

/-- The constructor of `ZipWriterIterator`; the expanded archive is returned
with it. -/
def ZipWriterIterator.new (context : ServerContext) (toolbox : Toolbox)
    (archive : ArchiveIndex 3) (isMedia enableExtendedSopClass : Bool) :
    Except ErrorCode (ArchiveIndex 3 × ZipWriterIterator) :=
  match planCommands context toolbox archive isMedia with
  | .error e => .error e
  | .ok (expanded, commands) =>
    .ok (expanded,
      { commands_ := commands
        zip_ := none
        dicomDir_ := if isMedia then some ⟨enableExtendedSopClass, []⟩ else none
        isMedia_ := isMedia
        isStream_ := false })

/-- `ZipWriterIterator::CurrentCommandIsWriteInstance`; `none` is an index
outside the deque. -/
def ZipWriterIterator.CurrentCommandIsWriteInstance (w : ZipWriterIterator) (index : Nat) :
    Option Bool :=
  (w.commands_.commands_[index]?).map Command.IsWriteInstance

/-- `ZipWriterIterator::SetOutputFile`. -/
def ZipWriterIterator.SetOutputFile (w : ZipWriterIterator) :
    Except ErrorCode ZipWriterIterator :=
  match w.zip_ with
  | none => .ok { w with zip_ := some ⟨w.commands_.IsZip64, []⟩, isStream_ := false }
  | some _ => .error .BadSequenceOfCalls

/-- `ZipWriterIterator::AcquireOutputStream`. -/
def ZipWriterIterator.AcquireOutputStream (w : ZipWriterIterator) :
    Except ErrorCode ZipWriterIterator :=
  match w.zip_ with
  | none => .ok { w with zip_ := some ⟨w.commands_.IsZip64, []⟩, isStream_ := true }
  | some _ => .error .BadSequenceOfCalls

/-- `ZipWriterIterator::CancelStream`. -/
def ZipWriterIterator.CancelStream (w : ZipWriterIterator) :
    Except ErrorCode ZipWriterIterator :=
  match w.zip_ with
  | none => .error .BadSequenceOfCalls
  | some zip => if w.isStream_ then .ok { w with zip_ := some (zip.call .CancelStream) } else .ok w

/-- `ZipWriterIterator::Close`. -/
def ZipWriterIterator.Close (w : ZipWriterIterator) : Except ErrorCode ZipWriterIterator :=
  match w.zip_ with
  | none => .error .BadSequenceOfCalls
  | some zip => .ok { w with zip_ := some (zip.call .Close) }

/-- `ZipWriterIterator::GetArchiveSize`. -/
def ZipWriterIterator.GetArchiveSize (framework : Framework) (w : ZipWriterIterator) :
    Except ErrorCode Nat :=
  match w.zip_ with
  | none => .error .BadSequenceOfCalls
  | some zip => .ok (framework.GetArchiveSize zip.calls)

/-- `ZipWriterIterator::GetStepsCount`. -/
def ZipWriterIterator.GetStepsCount (w : ZipWriterIterator) : Nat := w.commands_.GetSize + 1

/-- `ZipWriterIterator::RunStep`, with `ZipCommands::Apply` and `ApplyInternal`
inlined.  The writer and the buffer are returned also when an exception leaves
the function. -/
def ZipWriterIterator.RunStep (context : ServerContext) (w : ZipWriterIterator) (index : Nat)
    (transcode : Bool) (transferSyntax : DicomTransferSyntax) (reading : Bool)
    (content : String) : (ZipWriterIterator × String) × Except ErrorCode Unit :=
  if index > w.commands_.GetSize then ((w, content), .error .ParameterOutOfRange)
  else
    match w.zip_ with
    | none => ((w, content), .error .BadSequenceOfCalls)
    | some zip =>
      if index ≠ w.commands_.GetSize then
        match w.commands_.commands_[index]? with
        | none => ((w, content), .error .ParameterOutOfRange)
        | some command =>
          if w.isMedia_ then
            match w.dicomDir_ with
            | none => ((w, content), .error .Undefined)
            | some dicomDir =>
              let r := command.Apply context MEDIA_IMAGES_FOLDER transcode transferSyntax reading
                ⟨zip, some dicomDir, content⟩
              (({ w with zip_ := some r.1.writer, dicomDir_ := r.1.dicomDir }, r.1.content), r.2)
          else
            let r := command.Apply context "" transcode transferSyntax reading
              ⟨zip, none, content⟩
            (({ w with zip_ := some r.1.writer }, r.1.content), r.2)
      else ((w, content), .ok ())

/-- `ZipWriterIterator::LastStep`. -/
def ZipWriterIterator.LastStep (framework : Framework) (w : ZipWriterIterator) :
    Except ErrorCode ZipWriterIterator :=
  if w.isMedia_ then
    match w.dicomDir_, w.zip_ with
    | some dicomDir, some zip =>
      .ok { w with
            zip_ := some ((zip.call (.OpenFile "DICOMDIR")).call (.Write (framework.Encode dicomDir))) }
    | _, _ => .error .Undefined
  else .ok w

/-- `ZipWriterIterator::GetInstancesCount`. -/
def ZipWriterIterator.GetInstancesCount (w : ZipWriterIterator) : Nat :=
  w.commands_.GetInstancesCount

/-- `ZipWriterIterator::GetUncompressedSize`. -/
def ZipWriterIterator.GetUncompressedSize (w : ZipWriterIterator) : Nat :=
  w.commands_.GetUncompressedSize

/-! ## The fragment of `float` arithmetic used for the progress -/

/-- A value of type `float`, as far as the quotient of two counters can be
one: a finite value, an infinity, or a NaN.  The sign is not kept, no operand
being negative. -/
inductive FloatValue where
  | finite (q : ℚ)
  | infinity
  | nan
  deriving DecidableEq

/-- `static_cast<float>(n)` of an unsigned integer: `n` rounded to a value of
the type.  The rounding of the platform is the parameter `round`. -/
def toFloat (round : ℚ → ℚ) (n : Nat) : FloatValue := .finite (round n)

/-- The division of two `float`: zero by zero and infinity by infinity give a
NaN, another value by zero an infinity, and a finite quotient is rounded. -/
def floatDiv (round : ℚ → ℚ) : FloatValue → FloatValue → FloatValue
  | .finite a, .finite b =>
    if b = 0 then (if a = 0 then .nan else .infinity) else .finite (round (a / b))
  | .finite _, .infinity => .finite 0
  | .infinity, .finite _ => .infinity
  | _, _ => .nan

/-- What is assumed of the rounding to `float` (binary32, to nearest): it is
monotone, and it keeps the integers up to `2 ^ 24` and the value
`1 - 2 ^ (-24)`, which are representable. -/
structure IsRounding (round : ℚ → ℚ) : Prop where
  mono : Monotone round
  exact_nat : ∀ n : Nat, n ≤ 2 ^ 24 → round n = n
  exact_below_one : round (1 - 1 / 2 ^ 24) = 1 - 1 / 2 ^ 24


/-! ## ArchiveJob -/

/-- `struct Threads`, one prefetch slot.  `thread` is the `std::thread` handle,
as far as the code depends on it: whether it is joinable, that is, holds a
thread that was launched and has not been joined since.  The body of a reading
thread is run to its end when the thread is launched, which `Step` cannot tell
apart since it reads `content` only after `join`.  `threadFinished` is written
as the host thread writes it; what the scan loop observes of it while workers
are running comes from the schedule given to `Step`. -/
structure Threads where
  thread : Bool
  boolRead : Bool
  content : String
  threadFinished : Bool
  threadCurrentStep : Nat
  deriving DecidableEq, Repr

/-- `enum JobStepCode`, as far as `Step` returns it. -/
inductive JobStepResult where
  | Continue
  | Success
  deriving DecidableEq, Repr

/-- `class ArchiveJob`, with the two file-scope variables `threads_` and
`threadsActive_` that its methods work on.  `synchronousTarget_` records whether
the pointer is set, `asynchronousTarget_` holds the path of the temporary
file.  `closed_` is not a member: it keeps the ZIP writer that `writer_.reset()`
destroyed, for the calls that its target (the temporary file or the output
stream) has received; no method reads it. -/
structure ArchiveJob where
  archive_ : ArchiveIndex 3
  isMedia_ : Bool
  enableExtendedSopClass_ : Bool
  description_ : String
  writer_ : Option ZipWriterIterator
  synchronousTarget_ : Bool
  asynchronousTarget_ : Option String
  mediaArchiveId_ : String
  currentStep_ : Nat
  instancesCount_ : Nat
  uncompressedSize_ : Nat
  archiveSize_ : Nat
  transcode_ : Bool
  transferSyntax_ : DicomTransferSyntax
  threads_ : List Threads
  threadsActive_ : Nat
  closed_ : Option HierarchicalZipWriter

/-- The constructor `ArchiveJob(context, isMedia, enableExtendedSopClass)`, run
when the file-scope array `threads_` holds `slots`: `threadsActive_` is set to 0
and `threadFinished` to true in every slot; the handles, the buffers,
`boolRead` and `threadCurrentStep` stay as the jobs constructed before in the
process left them. -/
def ArchiveJob.newOver (slots : List Threads) (isMedia enableExtendedSopClass : Bool) :
    ArchiveJob :=
  { archive_ := ArchiveIndex.empty 3
    isMedia_ := isMedia
    enableExtendedSopClass_ := enableExtendedSopClass
    description_ := ""
    writer_ := none
    synchronousTarget_ := false
    asynchronousTarget_ := none
    mediaArchiveId_ := ""
    currentStep_ := 0
    instancesCount_ := 0
    uncompressedSize_ := 0
    archiveSize_ := 0
    transcode_ := false
    transferSyntax_ := DicomTransferSyntax_LittleEndianImplicit
    threads_ := slots.map (fun slot => { slot with threadFinished := true })
    threadsActive_ := 0
    closed_ := none }

/-- The constructor run for the first job of a process: the array `threads_`
is as the zero-initialisation of the globals leaves it. -/
def ArchiveJob.new (isMedia enableExtendedSopClass : Bool) : ArchiveJob :=
  ArchiveJob.newOver (List.replicate NB_THREAD ⟨false, false, "", false, 0⟩) isMedia
    enableExtendedSopClass

/-- `ArchiveJob::AcquireSynchronousTarget` with a target that is not NULL. -/
def ArchiveJob.AcquireSynchronousTarget (j : ArchiveJob) : ArchiveJob × Except ErrorCode Unit :=
  if j.writer_.isSome ∨ j.synchronousTarget_ = true ∨ j.asynchronousTarget_.isSome then
    (j, .error .BadSequenceOfCalls)
  else ({ j with synchronousTarget_ := true }, .ok ())

/-- `ArchiveJob::AddResource`. -/
def ArchiveJob.AddResource (context : ServerContext) (publicId : String) (j : ArchiveJob) :
    ArchiveJob × Except ErrorCode Unit :=
  match j.writer_ with
  | some _ => (j, .error .BadSequenceOfCalls)
  | none =>
    match ResourceIdentifiers.create context.index publicId with
    | .error e => (j, .error e)
    | .ok resource =>
      match ArchiveIndex.Add context.index resource 3 j.archive_ with
      | .error e => (j, .error e)
      | .ok archive => ({ j with archive_ := archive }, .ok ())

/-- `ArchiveJob::SetTranscode`. -/
def ArchiveJob.SetTranscode (transferSyntax : DicomTransferSyntax) (j : ArchiveJob) :
    ArchiveJob × Except ErrorCode Unit :=
  match j.writer_ with
  | some _ => (j, .error .BadSequenceOfCalls)
  | none => ({ j with transcode_ := true, transferSyntax_ := transferSyntax }, .ok ())

/-- `ArchiveJob::Start`. -/
def ArchiveJob.Start (context : ServerContext) (toolbox : Toolbox) (framework : Framework)
    (j : ArchiveJob) : ArchiveJob × Except ErrorCode Unit :=
  match j.writer_ with
  | some _ => (j, .error .BadSequenceOfCalls)
  | none =>
    if j.synchronousTarget_ = false then
      match j.asynchronousTarget_ with
      | some _ => (j, .error .InternalError)
      | none =>
        let j1 := { j with asynchronousTarget_ := some framework.CreateTemporaryFile }
        match ZipWriterIterator.new context toolbox j1.archive_ j1.isMedia_
            j1.enableExtendedSopClass_ with
        | .error e => (j1, .error e)
        | .ok (expanded, writer) =>
          match writer.SetOutputFile with
          | .error e => ({ j1 with archive_ := expanded, writer_ := some writer }, .error e)
          | .ok writer1 =>
            ({ j1 with
               archive_ := expanded
               writer_ := some writer1
               instancesCount_ := writer1.GetInstancesCount
               uncompressedSize_ := writer1.GetUncompressedSize }, .ok ())
    else
      match ZipWriterIterator.new context toolbox j.archive_ j.isMedia_
          j.enableExtendedSopClass_ with
      | .error e => (j, .error e)
      | .ok (expanded, writer) =>
        match writer.AcquireOutputStream with
        | .error e =>
          ({ j with archive_ := expanded, writer_ := some writer, synchronousTarget_ := false },
            .error e)
        | .ok writer1 =>
          ({ j with
             archive_ := expanded
             writer_ := some writer1
             synchronousTarget_ := false
             instancesCount_ := writer1.GetInstancesCount
             uncompressedSize_ := writer1.GetUncompressedSize }, .ok ())

/-- `ArchiveJob::FinalizeTarget`. -/
def ArchiveJob.FinalizeTarget (framework : Framework) (j : ArchiveJob) :
    ArchiveJob × Except ErrorCode Unit :=
  let r : ArchiveJob × Except ErrorCode Unit :=
    match j.writer_ with
    | none => (j, .ok ())
    | some writer =>
      match writer.Close with
      | .error e => (j, .error e)
      | .ok writer1 =>
        match writer1.GetArchiveSize framework with
        | .error e => ({ j with writer_ := some writer1 }, .error e)
        | .ok size =>
          ({ j with writer_ := none, archiveSize_ := size, closed_ := writer1.zip_ }, .ok ())
  match r.2 with
  | .error e => (r.1, .error e)
  | .ok _ =>
    match r.1.asynchronousTarget_ with
    | none => (r.1, .ok ())
    | some path =>
      ({ r.1 with
         mediaArchiveId_ := framework.MediaArchiveAdd path
         asynchronousTarget_ := none }, .ok ())

/-- `ArchiveJob::RunStepReadInstance`, the body of a reading thread, up to the
store to `threadFinished` (see `Threads`).  An exception that leaves a thread
ends the program. -/
def ArchiveJob.RunStepReadInstance (context : ServerContext) (numThread : Nat)
    (j : ArchiveJob) : ArchiveJob × Except ErrorCode Unit :=
  match j.writer_, j.threads_[numThread]? with
  | some writer, some slot =>
    let r := writer.RunStep context slot.threadCurrentStep j.transcode_ j.transferSyntax_
      slot.boolRead slot.content
    match r.2 with
    | .error _ => (j, .error .Undefined)
    | .ok _ =>
      ({ j with
         writer_ := some r.1.1
         threads_ := j.threads_.set numThread { slot with content := r.1.2 } }, .ok ())
  | _, _ => (j, .error .Undefined)

/-- `ArchiveJob::EndThreadIndexOf`: the thread is joined, then its command is
run in write mode.  `join` on a handle that is not joinable throws
`std::system_error`. -/
def ArchiveJob.EndThreadIndexOf (context : ServerContext) (threadNumber : Nat)
    (j : ArchiveJob) : ArchiveJob × Except ErrorCode Bool :=
  match j.writer_, j.threads_[threadNumber]? with
  | some writer, some slot =>
    if slot.thread = false then (j, .error .Undefined)
    else
      let slot1 := { slot with thread := false, threadFinished := true, boolRead := false }
      let r := writer.RunStep context slot1.threadCurrentStep j.transcode_ j.transferSyntax_
        slot1.boolRead slot1.content
      match r.2 with
      | .error e =>
        ({ j with
           writer_ := some r.1.1
           threads_ := j.threads_.set threadNumber { slot1 with content := r.1.2 } }, .error e)
      | .ok _ =>
        ({ j with
           writer_ := some r.1.1
           threads_ := j.threads_.set threadNumber { slot1 with boolRead := true, content := "" } },
          .ok true)
  | _, _ => (j, .error .Undefined)

/-- The loop `for (int i = 0; i < threadsActive_; i++) EndThreadIndexOf(i)` of
`Step`, from `i` on, with `remaining = threadsActive_ - i`. -/
def ArchiveJob.endThreadsFrom (context : ServerContext) :
    Nat → Nat → ArchiveJob → ArchiveJob × Except ErrorCode Unit
  | 0, _, j => (j, .ok ())
  | remaining + 1, i, j =>
    match EndThreadIndexOf context i j with
    | (j1, .error e) => (j1, .error e)
    | (j1, .ok _) => endThreadsFrom context remaining (i + 1) j1

/-- The scan `while (!threadFound)` of `Step`, entered with `i`, when the next
`waiting` reads of `threads_[i].threadFinished` give false and the one after
them gives true: the slot at which the scan stops. -/
def ArchiveJob.scanFinished : Nat → Nat → Nat
  | 0, i => i
  | waiting + 1, i => scanFinished waiting ((i + 1) % 3)

/-- The part of `Step` inside `try`, for a command that opens or closes a
directory.  `threads_[threadsActive_]` is read also when `threadsActive_` is
`NB_THREAD`, one past the array; the command ignores what is read there. -/
def ArchiveJob.stepDirectory (context : ServerContext) (j : ArchiveJob) : ArchiveJob × Except ErrorCode Unit :=
  match endThreadsFrom context j.threadsActive_ 0 j with
  | (j1, .error e) => (j1, .error e)
  | (j1, .ok _) =>
    match j1.writer_ with
    | none => (j1, .error .Undefined)
    | some writer1 =>
      let slot := (j1.threads_[j1.threadsActive_]?).getD ⟨false, false, "", true, 0⟩
      let r := writer1.RunStep context j1.currentStep_ j1.transcode_ j1.transferSyntax_
        slot.boolRead slot.content
      match r.2 with
      | .error e => ({ j1 with writer_ := some r.1.1 }, .error e)
      | .ok _ => ({ j1 with writer_ := some r.1.1, threadsActive_ := 0 }, .ok ())

/-- A reading thread is launched on slot `i`, whose fields are set: the
assignment `threads_[i].thread = std::thread(&ArchiveJob::RunStepReadInstance,
this, i)`.  Assigning to a handle that is still joinable calls
`std::terminate`; else the handle becomes joinable and the body of the thread
runs. -/
def ArchiveJob.launch (context : ServerContext) (i : Nat) (j : ArchiveJob) :
    ArchiveJob × Except ErrorCode Unit :=
  match j.threads_[i]? with
  | none => (j, .error .Undefined)
  | some slot =>
    if slot.thread then (j, .error .Undefined)
    else RunStepReadInstance context i
      { j with threads_ := j.threads_.set i { slot with thread := true } }

/-- The part of `Step` inside `try`, for a `WriteInstance` command: a free slot
is filled, or the first slot seen finished is written and filled again. -/
def ArchiveJob.stepInstance (context : ServerContext) (waiting : Nat) (j : ArchiveJob) :
    ArchiveJob × Except ErrorCode Unit :=
  if j.threadsActive_ < NB_THREAD then
    match j.threads_[j.threadsActive_]? with
    | none => (j, .error .Undefined)
    | some slot =>
      let j1 := { j with
        threads_ := j.threads_.set j.threadsActive_
          { slot with threadFinished := false, boolRead := true,
                      threadCurrentStep := j.currentStep_ } }
      match launch context j.threadsActive_ j1 with
      | (j2, .error e) => (j2, .error e)
      | (j2, .ok _) => ({ j2 with threadsActive_ := j2.threadsActive_ + 1 }, .ok ())
  else
    let i := scanFinished waiting 0
    match EndThreadIndexOf context i j with
    | (j1, .error e) => (j1, .error e)
    | (j1, .ok _) =>
      match j1.threads_[i]? with
      | none => (j1, .error .Undefined)
      | some slot =>
        let j2 := { j1 with
          threads_ := j1.threads_.set i
            { slot with threadFinished := false, threadCurrentStep := j1.currentStep_ } }
        launch context i j2

/-- The handler `catch (OrthancException&)` of `Step`: the stream is cancelled
and the exception thrown again. -/
def ArchiveJob.stepCatch (e : ErrorCode) (j : ArchiveJob) : ArchiveJob × ErrorCode :=
  match j.writer_ with
  | none => (j, .Undefined)
  | some writer =>
    match writer.CancelStream with
    | .error e1 => (j, e1)
    | .ok writer1 => ({ j with writer_ := some writer1 }, e)

/-- The part of `Step` after `try`, when `currentStep_` is the last step: the
slots are drained, then `LastStep` runs. -/
def ArchiveJob.stepLast (context : ServerContext) (framework : Framework) (j : ArchiveJob) :
    ArchiveJob × Except ErrorCode Unit :=
  match endThreadsFrom context j.threadsActive_ 0 j with
  | (j1, .error e) => (j1, .error e)
  | (j1, .ok _) =>
    match j1.writer_ with
    | none => (j1, .error .Undefined)
    | some writer1 =>
      match writer1.LastStep framework with
      | .error e => (j1, .error e)
      | .ok writer2 => ({ j1 with writer_ := some writer2, threadsActive_ := 0 }, .ok ())

/-- The block inside `try` of `Step`: nothing at the last step, else the
command at `currentStep_` is dispatched on its kind. -/
def ArchiveJob.stepTry (context : ServerContext) (waiting : Nat) (writer : ZipWriterIterator)
    (j : ArchiveJob) : ArchiveJob × Except ErrorCode Unit :=
  if j.currentStep_ ≠ writer.GetStepsCount - 1 then
    match writer.CurrentCommandIsWriteInstance j.currentStep_ with
    | none => (j, .error .Undefined)
    | some false => stepDirectory context j
    | some true => stepInstance context waiting j
  else (j, .ok ())

/-- The end of `Step`, after the last step if any: `currentStep_` is
incremented, and the job is finalized or reports the size of the archive. -/
def ArchiveJob.stepFinish (framework : Framework) (writer : ZipWriterIterator)
    (j : ArchiveJob) : ArchiveJob × Except ErrorCode JobStepResult :=
  let j3 := { j with currentStep_ := j.currentStep_ + 1 }
  if j3.currentStep_ = writer.GetStepsCount then
    match FinalizeTarget framework j3 with
    | (j4, .error e) => (j4, .error e)
    | (j4, .ok _) => (j4, .ok .Success)
  else
    match j3.writer_ with
    | none => (j3, .error .Undefined)
    | some writer3 =>
      match writer3.GetArchiveSize framework with
      | .error e => (j3, .error e)
      | .ok size => ({ j3 with archiveSize_ := size }, .ok .Continue)

/-- `ArchiveJob::Step`.  `waiting` is what the scan loop observes of the
reading threads during this call (see `scanFinished`); it is read only when all
the slots are in flight.  `writer_->GetStepsCount()` does not change during the
call. -/
def ArchiveJob.Step (context : ServerContext) (framework : Framework) (waiting : Nat)
    (j : ArchiveJob) : ArchiveJob × Except ErrorCode JobStepResult :=
  match j.writer_ with
  | none => (j, .error .Undefined)
  | some writer =>
    if writer.GetStepsCount = 0 then
      match FinalizeTarget framework j with
      | (j1, .error e) => (j1, .error e)
      | (j1, .ok _) => (j1, .ok .Success)
    else
      match stepTry context waiting writer j with
      | (j1, .error e) => ((stepCatch e j1).1, .error (stepCatch e j1).2)
      | (j1, .ok _) =>
        let last : ArchiveJob × Except ErrorCode Unit :=
          if j1.currentStep_ = writer.GetStepsCount - 1 then stepLast context framework j1
          else (j1, .ok ())
        match last with
        | (j2, .error e) => (j2, .error e)
        | (j2, .ok _) => stepFinish framework writer j2

/-- Successive calls of `Step`, one per entry of the schedule, stopping at the
first call that does not return `Continue`; the result of the last call made
is returned (`Continue` for an empty schedule). -/
def ArchiveJob.runSteps (context : ServerContext) (framework : Framework) :
    List Nat → ArchiveJob → ArchiveJob × Except ErrorCode JobStepResult
  | [], j => (j, .ok .Continue)
  | waiting :: rest, j =>
    match Step context framework waiting j with
    | (j1, .ok .Continue) => runSteps context framework rest j1
    | (j1, r) => (j1, r)

/-- The calls the ZIP writer of the job has received: those of the writer it
holds, or of the one it has destroyed. -/
def ArchiveJob.zipCalls (j : ArchiveJob) : List ZipCall :=
  match j.writer_ with
  | some writer =>
    match writer.zip_ with
    | some zip => zip.calls
    | none => []
  | none =>
    match j.closed_ with
    | some zip => zip.calls
    | none => []

/-- `ArchiveJob::GetProgress`; the `int` 1 is returned as the `float` 1. -/
def ArchiveJob.GetProgress (round : ℚ → ℚ) (j : ArchiveJob) : FloatValue :=
  match j.writer_ with
  | none => .finite 1
  | some writer =>
    if writer.GetStepsCount = 0 then .finite 1
    else floatDiv round (toFloat round j.currentStep_) (toFloat round (writer.GetStepsCount - 1))


/-- `enum JobStopReason`, declared by the framework outside the file: the three
values that `Stop` tests, and `Other` for the remaining ones. -/
inductive JobStopReason where
  | Canceled
  | Failure
  | Retry
  | Other
  deriving DecidableEq, Repr

/-- `ArchiveJob::Stop`.  `writer_` is dereferenced without a test: on a job
that holds no writer the call leaves defined C++.  No slot is touched: a
reading thread in flight is not joined and its handle stays joinable (the model
takes its body as finished; in C++ a thread still running would go on reading
through the writer that `reset` destroys). -/
def ArchiveJob.Stop (reason : JobStopReason) (j : ArchiveJob) :
    ArchiveJob × Except ErrorCode Unit :=
  if reason = .Canceled ∨ reason = .Failure ∨ reason = .Retry then
    match j.writer_ with
    | none => (j, .error .Undefined)
    | some writer =>
      match writer.CancelStream with
      | .error e => (j, .error e)
      | .ok writer1 =>
        ({ j with
           writer_ := none
           closed_ := writer1.zip_
           synchronousTarget_ := false
           asynchronousTarget_ := none }, .ok ())
  else (j, .ok ())


/-! ## What a run is expected to write -/

/-- The buffer of a slot after its reading thread has run on an empty buffer:
the bytes of the instance, or nothing when `ReadDicom` throws. -/
def Command.payload (context : ServerContext) (c : Command) : String :=
  match context.ReadDicom c.instanceId_ with
  | .ok data => data
  | .error _ => ""

/-- The calls that one command is expected to make on the ZIP writer: the
directory call, or `OpenFile` and one `Write` of the payload, transcoded when
transcoding is set and succeeds. -/
def Command.zipCalls (context : ServerContext) (transcode : Bool)
    (transferSyntax : DicomTransferSyntax) (c : Command) : List ZipCall :=
  match c.type_ with
  | .Type_OpenDirectory => [.OpenDirectory (c_str c.filename_)]
  | .Type_CloseDirectory => [.CloseDirectory]
  | .Type_WriteInstance =>
    [.OpenFile (c_str c.filename_),
     .Write (match (if transcode then context.Transcode (c.payload context) transferSyntax
                    else none) with
             | some (data, _) => data
             | none => c.payload context)]

/-- The calls expected for the commands taken at the given indices, in the
order of the indices. -/
def callsOf (context : ServerContext) (transcode : Bool) (transferSyntax : DicomTransferSyntax)
    (commands : List Command) (order : List Nat) : List ZipCall :=
  (order.map (fun k =>
    match commands[k]? with
    | some c => c.zipCalls context transcode transferSyntax
    | none => [])).flatten

/-- Whether the command at an index is a `WriteInstance`. -/
def isWriteAt (commands : List Command) (k : Nat) : Prop :=
  (commands[k]?).map Command.IsWriteInstance = some true

/-- The commands planned for a started job. -/
def ArchiveJob.commands (j : ArchiveJob) : List Command :=
  match j.writer_ with
  | some writer => writer.commands_.commands_
  | none => []


/-- The first job of a process as the constructor and the calls made before
`Start` leave it: no writer, no step done, and the slots as the constructor
leaves the zero-initialised globals. -/
def ArchiveJob.IsFresh (j : ArchiveJob) : Prop :=
  j.writer_ = none ∧ j.currentStep_ = 0 ∧ j.threadsActive_ = 0 ∧
    j.threads_ = List.replicate NB_THREAD ⟨false, false, "", true, 0⟩

/-- Any job as the constructor and the calls made before `Start` leave it, in
a process where no handle of the array is joinable when the job is constructed
(no earlier job has left a thread that was launched and never joined): no
writer, no step done, `threadsActive_` zero.  The buffers, `boolRead`,
`threadFinished` and `threadCurrentStep` of the three slots are whatever the
earlier jobs left. -/
def ArchiveJob.IsConstructed (j : ArchiveJob) : Prop :=
  j.writer_ = none ∧ j.currentStep_ = 0 ∧ j.threadsActive_ = 0 ∧
    j.threads_.length = NB_THREAD ∧ ∀ t ∈ j.threads_, t.thread = false

/-- The buffers of the slots of a job. -/
def ArchiveJob.buffers (j : ArchiveJob) : List String :=
  j.threads_.map (fun t => t.content)

/-- What the buffer of a slot can hold after the reading thread of command `c`
has run, in a job whose slots held the buffers `stale` at its construction:
the bytes of the instance, or, when `ReadDicom` throws, what the buffer held
before the read, which is nothing or one of `stale`. -/
def Command.IsBuffer (context : ServerContext) (stale : List String) (c : Command)
    (content : String) : Prop :=
  match context.ReadDicom c.instanceId_ with
  | .ok data => content = data
  | .error _ => content = "" ∨ content ∈ stale

/-- The calls that one command makes on the ZIP writer when the buffer it is
applied with holds `content`: the directory call, or `OpenFile` and one `Write`
of the buffer, transcoded when transcoding is set and succeeds. -/
def Command.callsWith (context : ServerContext) (transcode : Bool)
    (transferSyntax : DicomTransferSyntax) (c : Command) (content : String) : List ZipCall :=
  match c.type_ with
  | .Type_OpenDirectory => [.OpenDirectory (c_str c.filename_)]
  | .Type_CloseDirectory => [.CloseDirectory]
  | .Type_WriteInstance =>
    [.OpenFile (c_str c.filename_),
     .Write (match (if transcode then context.Transcode content transferSyntax
                    else none) with
             | some (data, _) => data
             | none => content)]

/-- The calls made for a list of applied commands, each given by its index and
the buffer it was applied with, in the order of the list. -/
def callsWith (context : ServerContext) (transcode : Bool) (transferSyntax : DicomTransferSyntax)
    (commands : List Command) (written : List (Nat × String)) : List ZipCall :=
  (written.map (fun p =>
    match commands[p.1]? with
    | some c => c.callsWith context transcode transferSyntax p.2
    | none => [])).flatten

/-- An applied command and its buffer: if the command is a `WriteInstance`, the
buffer is one its reading thread can have left. -/
def Held (context : ServerContext) (stale : List String) (commands : List Command)
    (p : Nat × String) : Prop :=
  ∀ c, commands[p.1]? = some c → c.IsWriteInstance = true → c.IsBuffer context stale p.2

/-- No exception can leave the write phase of a command: in media mode every
buffer is parsed by `ParsedDicomFile`; in archive mode nothing is parsed. -/
def NoParseError (context : ServerContext) (isMedia : Bool) : Prop :=
  isMedia = true → ∀ content, ∃ parsed, context.ParseDicom content = .ok parsed

/-- The write phase of a `WriteInstance` does not throw on the buffer
`content`: in media mode, when the buffer is written as it is (transcoding is
not set, or `Transcode` returns false), `ParsedDicomFile` accepts it.  In
archive mode nothing is parsed. -/
def Parses (context : ServerContext) (isMedia transcode : Bool)
    (transferSyntax : DicomTransferSyntax) (content : String) : Prop :=
  isMedia = true → (if transcode then context.Transcode content transferSyntax else none) = none →
    ∃ parsed, context.ParseDicom content = .ok parsed

/-- No exception leaves a write phase of the run: `Parses` holds of every
buffer that the reading thread of a `WriteInstance` of the stream can leave. -/
def WritesParse (context : ServerContext) (stale : List String) (commands : List Command)
    (isMedia transcode : Bool) (transferSyntax : DicomTransferSyntax) : Prop :=
  ∀ c ∈ commands, c.IsWriteInstance = true → ∀ content, c.IsBuffer context stale content →
    Parses context isMedia transcode transferSyntax content

/-- A slot in flight: its handle is joinable, it was launched in read mode for
a `WriteInstance` command, and its buffer is one the reading thread of that
command can have left. -/
def Loaded (context : ServerContext) (stale : List String) (commands : List Command)
    (t : Threads) : Prop :=
  t.thread = true ∧ t.boolRead = true ∧
    ∃ c, commands[t.threadCurrentStep]? = some c ∧ c.IsWriteInstance = true ∧
      c.IsBuffer context stale t.content

/-- The three slots: those from `lo` up to `hi` are in flight; the handles of
the others are not joinable, and their buffers are empty or as the job found
them. -/
def SlotsOk (context : ServerContext) (stale : List String) (commands : List Command)
    (threads : List Threads) (lo hi : Nat) : Prop :=
  threads.length = 3 ∧
    ∀ k t, threads[k]? = some t →
      (lo ≤ k ∧ k < hi → Loaded context stale commands t) ∧
      (¬ (lo ≤ k ∧ k < hi) → t.thread = false ∧ (t.content = "" ∨ t.content ∈ stale))

/-- The indices for which the slots from `lo` up to `hi` were launched. -/
def slotSteps (threads : List Threads) (lo hi : Nat) : List Nat :=
  ((threads.drop lo).take (hi - lo)).map (fun t => t.threadCurrentStep)

/-- The indices for which the slots from `lo` up to `hi` were launched, each
with the buffer of its slot. -/
def slotWrites (threads : List Threads) (lo hi : Nat) : List (Nat × String) :=
  ((threads.drop lo).take (hi - lo)).map (fun t => (t.threadCurrentStep, t.content))

/-- The indices for which the slots in flight were launched, in slot order. -/
def ArchiveJob.inFlight (j : ArchiveJob) : List Nat :=
  slotSteps j.threads_ 0 j.threadsActive_

/-- One call of `Step` seen on the indices: `order` lists the commands applied
to the ZIP writer so far and `inflight` those of the slots in flight.  A
directory command drains the slots in slot order and is applied; a
`WriteInstance` takes a free slot, or, when the three slots are in flight, the
command of one of them is applied and the slot is taken. -/
def SlotStep (commands : List Command) (cur : Nat) (order inflight order1 inflight1 : List Nat) :
    Prop :=
  (¬ isWriteAt commands cur ∧ order1 = order ++ inflight ++ [cur] ∧ inflight1 = []) ∨
  (isWriteAt commands cur ∧ inflight.length < 3 ∧ order1 = order ∧
    inflight1 = inflight ++ [cur]) ∨
  (isWriteAt commands cur ∧ inflight.length = 3 ∧
    ∃ i x, inflight[i]? = some x ∧ order1 = order ++ [x] ∧ inflight1 = inflight.set i cur)

/-- A job between two calls of `Step`, `cur` calls after `Start`: its writer
holds the commands and a ZIP writer that has received the calls of the
commands listed in `written`, each with the buffer listed for it; the first
`threadsActive_` slots are in flight and the others are free. -/
structure Running (context : ServerContext) (stale : List String) (commands : List Command)
    (isMedia : Bool) (transcode : Bool) (tsx : DicomTransferSyntax) (cur : Nat)
    (written : List (Nat × String)) (j : ArchiveJob) : Prop where
  writer : ∃ w zip, j.writer_ = some w ∧ w.zip_ = some zip ∧ w.commands_.commands_ = commands ∧
    w.isMedia_ = isMedia ∧ zip.calls = callsWith context transcode tsx commands written ∧
    (isMedia = true → ∃ d, w.dicomDir_ = some d)
  settings : j.transcode_ = transcode ∧ j.transferSyntax_ = tsx ∧ j.currentStep_ = cur
  active : j.threadsActive_ ≤ 3
  slots : SlotsOk context stale commands j.threads_ 0 j.threadsActive_
  held : ∀ p ∈ written, Held context stale commands p

/-- Two indices of an order are in stream order, or all the commands from the
second to the first are `WriteInstance` (they lie between the same two
directory commands). -/
def InOrderOrSameRun (commands : List Command) (a b : Nat) : Prop :=
  a < b ∨ ∀ k, b ≤ k → k ≤ a → isWriteAt commands k

/-- What holds of the indices after `cur` calls of `Step`: every command
before `cur` is applied or in flight, exactly once; the applied ones are in
stream order up to exchanges inside a run of `WriteInstance` commands; a
command in flight is followed by `WriteInstance` commands only; and when no
run is longer than 3, applied and in-flight commands are in stream order. -/
structure SlotInv (commands : List Command) (cur : Nat) (order inflight : List Nat) : Prop where
  perm : (order ++ inflight).Perm (List.range cur)
  sorted : order.Pairwise (InOrderOrSameRun commands)
  run : ∀ b ∈ inflight, ∀ k, b ≤ k → k < cur → isWriteAt commands k
  few : inflight.length ≤ 3
  inOrder : (∀ k, ¬ (isWriteAt commands k ∧ isWriteAt commands (k + 1) ∧
    isWriteAt commands (k + 2) ∧ isWriteAt commands (k + 3))) → order ++ inflight = List.range cur

/-- A catalog with one series `R` of four instances `I0` to `I3`, and no main
DICOM tags. -/
def fourIndex : ServerIndex :=
  { LookupResourceType := fun id =>
      if id = "P" then some .Patient
      else if id = "S" then some .Study
      else if id = "R" then some .Series
      else if id = "I0" ∨ id = "I1" ∨ id = "I2" ∨ id = "I3" then some .Instance
      else none
    LookupParent := fun id =>
      if id = "S" then some "P"
      else if id = "R" then some "S"
      else if id = "I0" ∨ id = "I1" ∨ id = "I2" ∨ id = "I3" then some "R"
      else none
    GetChildren := fun id =>
      if id = "P" then ["S"]
      else if id = "S" then ["R"]
      else if id = "R" then ["I0", "I1", "I2", "I3"]
      else []
    LookupAttachment := fun id =>
      if id = "I0" ∨ id = "I1" ∨ id = "I2" ∨ id = "I3" then some 10 else none
    GetMainDicomTags := fun _ _ => none }

/-- A new job after `AddResource` on each identifier in turn. -/
def selectedJob (context : ServerContext) (isMedia : Bool) (publicIds : List String) :
    ArchiveJob :=
  publicIds.foldl (fun j publicId => (ArchiveJob.AddResource context publicId j).1)
    (ArchiveJob.new isMedia false)

/-- A new job after `AddResource` on each identifier in turn, then `Start`. -/
def startedJob (context : ServerContext) (toolbox : Toolbox) (framework : Framework)
    (isMedia : Bool) (publicIds : List String) : ArchiveJob :=
  (ArchiveJob.Start context toolbox framework (selectedJob context isMedia publicIds)).1

/-! ## Catalogs of the scenarios -/

/-- Modelled from the spec: the toolbox functions, whose code is not part of
the file.  `StripSpaces` removes the leading and trailing blanks,
`ConvertToAscii` keeps the 7-bit printable characters, `EnumerationToString`
gives the name of the level. -/
def scenarioToolbox : Toolbox :=
  { StripSpaces := fun s =>
      String.mk (((s.data.dropWhile (fun c => c = ' ')).reverse.dropWhile
        (fun c => c = ' ')).reverse)
    ConvertToAscii := fun s => String.mk (s.data.filter (fun c => 32 ≤ c.toNat ∧ c.toNat < 127))
    EnumerationToString := fun level =>
      match level with
      | .Patient => "Patient"
      | .Study => "Study"
      | .Series => "Series"
      | .Instance => "Instance" }

/-- A `DicomMap` holding the given string values. -/
def tagsOf (values : List (DicomTag × String)) : DicomMap :=
  ⟨fun tag => (values.lookup tag).map DicomValue.string⟩

/-- A context over an index; every instance can be read, nothing is
transcoded, every buffer parses. -/
def contextOf (index : ServerIndex) : ServerContext :=
  { index := index
    ReadDicom := fun id => .ok ("dicom:" ++ id)
    Transcode := fun _ _ => none
    ParseDicom := fun bytes => .ok ⟨bytes⟩ }

/-- A framework for the scenarios: the archive size is the number of calls. -/
def scenarioFramework : Framework :=
  { GetArchiveSize := fun calls => calls.length
    Encode := fun d => String.join (d.entries.map (fun e => e.2.1 ++ ";"))
    CreateTemporaryFile := "/tmp/archive"
    MediaArchiveAdd := fun _ => "archive-id" }

/-- The catalog of scenario S1: patient `PT1`, study `ST1`, series `SR1`
(modality CT, instances `I1` and `I2` of 512 KiB) and `SR2` (modality MR,
instance `I3` of 1 MiB). -/
def s1Index : ServerIndex :=
  { LookupResourceType := fun id =>
      if id = "PT1" then some .Patient
      else if id = "ST1" then some .Study
      else if id = "SR1" ∨ id = "SR2" then some .Series
      else if id = "I1" ∨ id = "I2" ∨ id = "I3" then some .Instance
      else none
    LookupParent := fun id =>
      if id = "ST1" then some "PT1"
      else if id = "SR1" ∨ id = "SR2" then some "ST1"
      else if id = "I1" ∨ id = "I2" then some "SR1"
      else if id = "I3" then some "SR2"
      else none
    GetChildren := fun id =>
      if id = "PT1" then ["ST1"]
      else if id = "ST1" then ["SR1", "SR2"]
      else if id = "SR1" then ["I1", "I2"]
      else if id = "SR2" then ["I3"]
      else []
    LookupAttachment := fun id =>
      if id = "I1" ∨ id = "I2" then some (512 * 1024)
      else if id = "I3" then some (1024 * 1024)
      else none
    GetMainDicomTags := fun id _ =>
      if id = "PT1" then some (tagsOf [(.PATIENT_ID, "P001"), (.PATIENT_NAME, "DOE^JOHN")])
      else if id = "ST1" then
        some (tagsOf [(.ACCESSION_NUMBER, "A1"), (.STUDY_DESCRIPTION, "Head")])
      else if id = "SR1" then some (tagsOf [(.MODALITY, "CT"), (.SERIES_DESCRIPTION, "Axial")])
      else if id = "SR2" then some (tagsOf [(.MODALITY, "MR"), (.SERIES_DESCRIPTION, "T1")])
      else none }

/-- A catalog with one patient `PT1`, one study `ST1` and one series `SR1` of
the given modality, holding the instances `I1` and `I2`. -/
def seriesIndex (modality : String) : ServerIndex :=
  { LookupResourceType := fun id =>
      if id = "PT1" then some .Patient
      else if id = "ST1" then some .Study
      else if id = "SR1" then some .Series
      else if id = "I1" ∨ id = "I2" then some .Instance
      else none
    LookupParent := fun id =>
      if id = "ST1" then some "PT1"
      else if id = "SR1" then some "ST1"
      else if id = "I1" ∨ id = "I2" then some "SR1"
      else none
    GetChildren := fun id =>
      if id = "PT1" then ["ST1"]
      else if id = "ST1" then ["SR1"]
      else if id = "SR1" then ["I1", "I2"]
      else []
    LookupAttachment := fun id => if id = "I1" ∨ id = "I2" then some 1024 else none
    GetMainDicomTags := fun id _ =>
      if id = "SR1" then some (tagsOf [(.MODALITY, modality)]) else none }

/-- The catalog of scenario S1 after the series `SR2` and its instance `I3`
have been deleted. -/
def s1IndexWithoutSR2 : ServerIndex :=
  { s1Index with
    LookupResourceType := fun id =>
      if id = "SR2" ∨ id = "I3" then none else s1Index.LookupResourceType id
    LookupParent := fun id => if id = "SR2" ∨ id = "I3" then none else s1Index.LookupParent id
    GetChildren := fun id =>
      if id = "ST1" then ["SR1"] else if id = "SR2" then [] else s1Index.GetChildren id
    LookupAttachment := fun id => if id = "I3" then none else s1Index.LookupAttachment id
    GetMainDicomTags := fun id level =>
      if id = "SR2" then none else s1Index.GetMainDicomTags id level }

/-- The tree in which only the series `SR1` of scenario S1 is selected: its
entry is marked for expansion. -/
def s1SeriesPending : ArchiveIndex 3 := singleSeriesTree "PT1" "ST1" "SR1" none

/-- The file names of the `WriteInstance` commands of a plan, in order. -/
def writtenNames (planned : Except ErrorCode ZipCommands) : List String :=
  match planned with
  | .error _ => []
  | .ok commands => (commands.commands_.filter Command.IsWriteInstance).map (fun c => c.filename_)

/-- The tree of a new job after `AddResource` on each identifier in turn. -/
def archiveOf (index : ServerIndex) (publicIds : List String) : Except ErrorCode (ArchiveIndex 3) :=
  publicIds.foldlM (fun archive publicId =>
    match ResourceIdentifiers.create index publicId with
    | .error e => .error e
    | .ok resource => ArchiveIndex.Add index resource 3 archive) (ArchiveIndex.empty 3)

/-- The commands planned for a selection: `archiveOf`, then `planCommands`. -/
def planOf (context : ServerContext) (toolbox : Toolbox) (publicIds : List String)
    (isMedia : Bool) : Except ErrorCode ZipCommands :=
  match archiveOf context.index publicIds with
  | .error e => .error e
  | .ok archive =>
    match planCommands context toolbox archive isMedia with
    | .error e => .error e
    | .ok planned => .ok planned.2

/-- Scenario S1 in archive mode: a new job, `AddResource("ST1")`, `Start`. -/
def s1Started : ArchiveJob :=
  startedJob (contextOf s1Index) scenarioToolbox scenarioFramework false ["ST1"]

/-- Scenario S1 run to its end: the job and the result of the last call, after
the 12 calls of `Step`, every read being complete when it is looked at. -/
def s1Finished : ArchiveJob × Except ErrorCode JobStepResult :=
  ArchiveJob.runSteps (contextOf s1Index) scenarioFramework (List.replicate 12 0) s1Started

/-- Scenario S1 cancelled: the job and the result of `Stop(Canceled)` called
right after `Start`. -/
def s1Canceled : ArchiveJob × Except ErrorCode Unit :=
  ArchiveJob.Stop .Canceled s1Started

/-- The identifiers of the leaves of the tree of a job, in traversal order. -/
def ArchiveJob.leafIds (j : ArchiveJob) : List String :=
  (ArchiveIndex.leaves 3 j.archive_).map (fun i => i.id_)

/-- A context over an index in which one instance has been removed from the
storage area after the job was issued: `ReadDicom` throws for it. -/
def contextMissing (index : ServerIndex) (missing : String) : ServerContext :=
  { contextOf index with
    ReadDicom := fun id => if id = missing then .error .InexistentItem else .ok ("dicom:" ++ id) }

/-- The same context with a parser that rejects the empty buffer, which is
not a DICOM file. -/
def contextMissingStrict (index : ServerIndex) (missing : String) : ServerContext :=
  { contextMissing index missing with
    ParseDicom := fun bytes => if bytes = "" then .error .BadFileFormat else .ok ⟨bytes⟩ }

/-- The error of a result, if any. -/
def errorOf {α : Type} (r : Except ErrorCode α) : Option ErrorCode :=
  match r with
  | .error e => some e
  | .ok _ => none


/-- A context over an index with a parser that rejects the empty buffer, which
is not a DICOM file; every instance can be read. -/
def contextStrict (index : ServerIndex) : ServerContext :=
  { contextOf index with
    ParseDicom := fun bytes => if bytes = "" then .error .BadFileFormat else .ok ⟨bytes⟩ }

/-- A context over the catalog of S1 in which the file of `I3` is not a DICOM
file (`ParsedDicomFile` throws on it, as on the empty buffer) and `I2` has been
removed from the storage area (`ReadDicom` throws for it). -/
def contextFaulty : ServerContext :=
  { contextOf s1Index with
    ReadDicom := fun id => if id = "I2" then .error .InexistentItem else .ok ("dicom:" ++ id)
    ParseDicom := fun bytes =>
      if bytes = "" ∨ bytes = "dicom:I3" then .error .BadFileFormat else .ok ⟨bytes⟩ }

/-- A job constructed when the array `threads_` holds `slots`, then
`AddResource` on each identifier in turn. -/
def jobOver (slots : List Threads) (context : ServerContext) (isMedia : Bool)
    (publicIds : List String) : ArchiveJob :=
  publicIds.foldl (fun j publicId => (ArchiveJob.AddResource context publicId j).1)
    (ArchiveJob.newOver slots isMedia false)

/-- Scenario S1 cancelled with two slots in flight: `Stop(Canceled)` after the
five calls of `Step` that open the three directories and launch the reading
threads of `I1` and `I2`. -/
def s1CanceledInFlight : ArchiveJob × Except ErrorCode Unit :=
  ArchiveJob.Stop .Canceled
    (ArchiveJob.runSteps (contextOf s1Index) scenarioFramework (List.replicate 5 0) s1Started).1

/-- The members of the job that neither `Step` nor `Stop` writes, as far as
the published content and the output depend on them: the two totals taken by
`Start`, and the settings. -/
def ArchiveJob.fixed (j : ArchiveJob) : Nat × Nat × String × Bool × DicomTransferSyntax :=
  (j.instancesCount_, j.uncompressedSize_, j.description_, j.transcode_, j.transferSyntax_)


/-- The value built by `ArchiveJob::GetPublicContent`, one field per key of
the JSON object; `Transcode` is absent when no transcoding is set. -/
structure PublicContent where
  Description : String
  InstancesCount : Nat
  UncompressedSizeMB : Nat
  ArchiveSizeMB : Nat
  ArchiveSize : String
  UncompressedSize : String
  Transcode : Option String
  deriving DecidableEq, Repr

/-- `ArchiveJob::GetPublicContent`: the two sizes in megabytes are cast to
`unsigned int`, the exact sizes are printed by `boost::lexical_cast`. -/
def ArchiveJob.GetPublicContent (j : ArchiveJob) : PublicContent :=
  { Description := j.description_
    InstancesCount := j.instancesCount_
    UncompressedSizeMB := (j.uncompressedSize_ / MEGA_BYTES) % 2 ^ 32
    ArchiveSizeMB := (j.archiveSize_ / MEGA_BYTES) % 2 ^ 32
    ArchiveSize := String.mk (Nat.toDigits 10 j.archiveSize_)
    UncompressedSize := String.mk (Nat.toDigits 10 j.uncompressedSize_)
    Transcode := if j.transcode_ then some j.transferSyntax_ else none }

/-- A call made by the jobs engine on a started job. -/
inductive JobCall where
  | Step (waiting : Nat)
  | Stop (reason : JobStopReason)
  deriving DecidableEq, Repr

/-- The job after a sequence of calls of `Step` and `Stop`, whatever each of
them returns or throws. -/
def ArchiveJob.afterCalls (context : ServerContext) (framework : Framework) :
    List JobCall → ArchiveJob → ArchiveJob
  | [], j => j
  | .Step waiting :: rest, j => afterCalls context framework rest (Step context framework waiting j).1
  | .Stop reason :: rest, j => afterCalls context framework rest (Stop reason j).1


/-- Whether the writer of a job, if it holds one, writes to the stream of a
synchronous target (`isStream_`). -/
def ArchiveJob.isStream (j : ArchiveJob) : Option Bool :=
  j.writer_.map (fun w => w.isStream_)

/-- `ArchiveJob::GetOutput`.  `mediaArchive` is the shared archive of the
context: the content of the file it holds under an identifier, if any.  `none`
is the result `false`; the MIME type of an output is always `MimeType_Zip`. -/
def ArchiveJob.GetOutput (mediaArchive : String → Option String) (key : String)
    (j : ArchiveJob) : Option String :=
  if key = "archive" ∧ j.mediaArchiveId_ ≠ "" then mediaArchive j.mediaArchiveId_ else none

/-- A new job after `AddResource` on each identifier in turn, then
`AcquireSynchronousTarget`. -/
def synchronousJob (context : ServerContext) (isMedia : Bool) (publicIds : List String) :
    ArchiveJob :=
  (ArchiveJob.AcquireSynchronousTarget (selectedJob context isMedia publicIds)).1


/-- A catalog in which one instance has lost its DICOM attachment:
`LookupAttachment` finds nothing for it. -/
def withoutAttachment (index : ServerIndex) (missing : String) : ServerIndex :=
  { index with
    LookupAttachment := fun id => if id = missing then none else index.LookupAttachment id }


/-- `ZipWriterIterator::LastStep` when `DicomDirWriter::Encode` may throw:
`encode` gives the encoded DICOMDIR, or the code of the exception thrown.  The
exception leaves `LastStep` before the ZIP writer is called. -/
def ZipWriterIterator.LastStepOrThrow (encode : DicomDirWriter → Except ErrorCode String)
    (w : ZipWriterIterator) : Except ErrorCode ZipWriterIterator :=
  if w.isMedia_ then
    match w.dicomDir_, w.zip_ with
    | some dicomDir, some zip =>
      match encode dicomDir with
      | .error e => .error e
      | .ok s => .ok { w with zip_ := some ((zip.call (.OpenFile "DICOMDIR")).call (.Write s)) }
    | _, _ => .error .Undefined
  else .ok w

/-- The part of `Step` after `try`, when `currentStep_` is the last step, with
an encoder that may throw. -/
def ArchiveJob.stepLastOrThrow (context : ServerContext)
    (encode : DicomDirWriter → Except ErrorCode String) (j : ArchiveJob) :
    ArchiveJob × Except ErrorCode Unit :=
  match endThreadsFrom context j.threadsActive_ 0 j with
  | (j1, .error e) => (j1, .error e)
  | (j1, .ok _) =>
    match j1.writer_ with
    | none => (j1, .error .Undefined)
    | some writer1 =>
      match writer1.LastStepOrThrow encode with
      | .error e => (j1, .error e)
      | .ok writer2 => ({ j1 with writer_ := some writer2, threadsActive_ := 0 }, .ok ())

/-- `ArchiveJob::Step` with an encoder of the DICOMDIR that may throw: the
block of the last step comes after the `try` block and its handler. -/
def ArchiveJob.StepOrThrow (context : ServerContext) (framework : Framework)
    (encode : DicomDirWriter → Except ErrorCode String) (waiting : Nat) (j : ArchiveJob) :
    ArchiveJob × Except ErrorCode JobStepResult :=
  match j.writer_ with
  | none => (j, .error .Undefined)
  | some writer =>
    if writer.GetStepsCount = 0 then
      match FinalizeTarget framework j with
      | (j1, .error e) => (j1, .error e)
      | (j1, .ok _) => (j1, .ok .Success)
    else
      match stepTry context waiting writer j with
      | (j1, .error e) => ((stepCatch e j1).1, .error (stepCatch e j1).2)
      | (j1, .ok _) =>
        let last : ArchiveJob × Except ErrorCode Unit :=
          if j1.currentStep_ = writer.GetStepsCount - 1 then stepLastOrThrow context encode j1
          else (j1, .ok ())
        match last with
        | (j2, .error e) => (j2, .error e)
        | (j2, .ok _) => stepFinish framework writer j2

/-- Scenario S1 in media mode on a synchronous target: `AddResource("ST1")`,
`AcquireSynchronousTarget`, `Start`, then the five calls of `Step` that
dispatch the five commands; the call of the last step remains. -/
def s1MediaAtLastStep : ArchiveJob :=
  (ArchiveJob.runSteps (contextOf s1Index) scenarioFramework (List.replicate 5 0)
    (ArchiveJob.Start (contextOf s1Index) scenarioToolbox scenarioFramework
      (synchronousJob (contextOf s1Index) true ["ST1"])).1).1


/-- The indices at which the loop `for (int i = 0; i < threadsActive_; i++)
EndThreadIndexOf(i)` of `Step` accesses `threads_`, from `i` on, with
`remaining = threadsActive_ - i`; the loop ends at the first call that
throws. -/
def ArchiveJob.endThreadsIndices (context : ServerContext) :
    Nat → Nat → ArchiveJob → List Nat
  | 0, _, _ => []
  | remaining + 1, i, j =>
    i :: match EndThreadIndexOf context i j with
         | (_, .error _) => []
         | (j1, .ok _) => endThreadsIndices context remaining (i + 1) j1

/-- The subscripts with which one call of `Step` accesses the array
`threads_`, in order, following the branches of `Step`: for a directory
command those of the loop over the slots in flight, then
`threads_[threadsActive_]` read for the arguments of `RunStep`; for a
`WriteInstance` the free slot `threadsActive_`, or, when the slots are all in
flight, the slots the scan looks at; at the last step those of the loop. -/
def ArchiveJob.slotIndices (context : ServerContext) (waiting : Nat) (j : ArchiveJob) :
    List Nat :=
  match j.writer_ with
  | none => []
  | some writer =>
    if writer.GetStepsCount = 0 then []
    else if j.currentStep_ ≠ writer.GetStepsCount - 1 then
      match writer.CurrentCommandIsWriteInstance j.currentStep_ with
      | none => []
      | some false =>
        match endThreadsFrom context j.threadsActive_ 0 j with
        | (_, .error _) => endThreadsIndices context j.threadsActive_ 0 j
        | (j1, .ok _) => endThreadsIndices context j.threadsActive_ 0 j ++ [j1.threadsActive_]
      | some true =>
        if j.threadsActive_ < NB_THREAD then [j.threadsActive_]
        else (List.range (waiting + 1)).map (fun k => k % 3)
    else endThreadsIndices context j.threadsActive_ 0 j

/-- The levels for which `ArchiveIndex::Add` calls `GetIdentifier`, in order,
following the recursion of `Add`. -/
def ArchiveIndex.addLevels (resource : ResourceIdentifiers) :
    (d : Nat) → ArchiveIndex d → List ResourceType
  | 0, _ => [levelOfDepth 0]
  | d + 1, (resources : Resources (ArchiveIndex d)) =>
    levelOfDepth (d + 1) ::
      match resource.GetIdentifier (levelOfDepth (d + 1)) with
      | .error _ => []
      | .ok id =>
        if resource.GetLevel = levelOfDepth (d + 1) then []
        else
          match mapFind resources id with
          | none => addLevels resource d (empty d)
          | some (some previous) => addLevels resource d previous
          | some none => []


/-- A call received by an `IArchiveVisitor`. -/
inductive VisitorCall where
  | Open (level : ResourceType) (publicId : String)
  | Close
  | AddInstance (instanceId : String) (uncompressedSize : Nat)
  deriving DecidableEq, Repr

/-- An `IArchiveVisitor` that records the calls it receives, oldest first. -/
def recordingVisitor : IArchiveVisitor (List VisitorCall) :=
  { Open := fun level publicId calls => .ok (calls ++ [.Open level publicId])
    Close := fun calls => .ok (calls ++ [.Close])
    AddInstance := fun instanceId size calls => .ok (calls ++ [.AddInstance instanceId size]) }

/-- The traversal as the specification words it, to be compared with `Apply`:
at an internal level, for each entry in the order of the map, `Open(level,
id)`, the calls of the subtree of the entry, `Close()`; at the instance level
one `AddInstance(id, size)` per leaf in the order of the list, and neither
`Open` nor `Close`. -/
def ArchiveIndex.preorder : (d : Nat) → ArchiveIndex d → List VisitorCall
  | 0, (instances : List Instance) =>
    instances.map (fun i => VisitorCall.AddInstance i.id_ i.uncompressedSize_)
  | d + 1, (resources : Resources (ArchiveIndex d)) =>
    (resources.map (fun entry =>
      match entry.2 with
      | none => []
      | some child =>
        [VisitorCall.Open (levelOfDepth (d + 1)) entry.1] ++ preorder d child ++
          [VisitorCall.Close])).flatten

/-- Whether no entry of a tree, at any level, is NULL. -/
def ArchiveIndex.IsExpanded : (d : Nat) → ArchiveIndex d → Bool
  | 0, _ => true
  | d + 1, (resources : Resources (ArchiveIndex d)) =>
    resources.all (fun entry =>
      match entry.2 with
      | none => false
      | some child => IsExpanded d child)

/-- The entries of a tree at all its levels, each with the level of the node
that holds it. -/
def ArchiveIndex.entries : (d : Nat) → ArchiveIndex d → List (ResourceType × String)
  | 0, _ => []
  | d + 1, (resources : Resources (ArchiveIndex d)) =>
    (resources.map (fun entry =>
      (levelOfDepth (d + 1), entry.1) ::
        match entry.2 with
        | none => []
        | some child => entries d child)).flatten

/-- The keys of a map come in strictly ascending order of `std::less`. -/
def keysAscending {α : Type} (m : Resources α) : Prop :=
  (m.map (fun entry => entry.1)).Pairwise (fun a b => lexLess a.data b.data = true)

/-- At every level of a tree the entries come in strictly ascending order of
their identifiers. -/
def ArchiveIndex.IsSorted : (d : Nat) → ArchiveIndex d → Prop
  | 0, _ => True
  | d + 1, (resources : Resources (ArchiveIndex d)) =>
    keysAscending resources ∧
      ∀ entry ∈ resources,
        match entry.2 with
        | none => True
        | some child => IsSorted d child


/-- Whether a command is an `OpenDirectory`. -/
def Command.IsOpenDirectory (c : Command) : Bool :=
  decide (c.type_ = .Type_OpenDirectory)

/-- Whether a command is a `CloseDirectory`. -/
def Command.IsCloseDirectory (c : Command) : Bool :=
  decide (c.type_ = .Type_CloseDirectory)

/-- A list of commands is well bracketed, with its files at a given depth: it
has as many `CloseDirectory` as `OpenDirectory`; before every position the
`CloseDirectory` are not more than the `OpenDirectory` and the directories
open, which are the difference, are at most `depth`; and at the position of
every `WriteInstance` exactly `depth` directories are open. -/
def WellBracketed (depth : Nat) (commands : List Command) : Prop :=
  commands.countP Command.IsCloseDirectory = commands.countP Command.IsOpenDirectory ∧
  ∀ n,
    (commands.take n).countP Command.IsCloseDirectory ≤
      (commands.take n).countP Command.IsOpenDirectory ∧
    (commands.take n).countP Command.IsOpenDirectory ≤
      (commands.take n).countP Command.IsCloseDirectory + depth ∧
    ∀ c, commands[n]? = some c → c.IsWriteInstance = true →
      (commands.take n).countP Command.IsOpenDirectory =
        (commands.take n).countP Command.IsCloseDirectory + depth


/-- Claim C6: `IsZip64Required s c` holds exactly when `s` is at least
2 GiB - 64 MiB = 2080374784 or `c` is at least 65535 - 10 = 65525; the boundary
values and the two scenarios fall on the stated sides, and
`ZipCommands::IsZip64` applies the function to the aggregates of the stream. -/
theorem zip64_decision :
    (∀ s c : Nat, IsZip64Required s c = true ↔ (s ≥ 2080374784 ∨ c ≥ 65525)) ∧
    2 * GIGA_BYTES - 64 * MEGA_BYTES = 2080374784 ∧ 65535 - 10 = 65525 ∧
    IsZip64Required 2080374783 1 = false ∧ IsZip64Required 0 65524 = false ∧
    IsZip64Required 2080374784 1 = true ∧ IsZip64Required 0 65525 = true ∧
    IsZip64Required (70000 * 1024) 70000 = true ∧
    IsZip64Required (5 * GIGA_BYTES / 2) 1 = true ∧
    (∀ z : ZipCommands, z.IsZip64 = IsZip64Required z.uncompressedSize_ z.instancesCount_) := by
  refine ⟨?_, by decide, by decide, by decide, by decide, by decide, by decide, by decide,
    by decide, fun z => rfl⟩
  intro s c
  simp [IsZip64Required, GIGA_BYTES, MEGA_BYTES]

/-! ## File names of the archive visitor -/

/-- A result whose `toOption` is `some a` is `ok a`. -/
theorem eq_ok_of_toOption {ε α : Type} {x : Except ε α} {a : α}
    (h : x.toOption = some a) : x = .ok a := by
  cases x with
  | error e => simp [Except.toOption] at h
  | ok b => simp [Except.toOption] at h; rw [h]

/-- Claim C7, evaluated where the code departs from it: for a series whose
Modality is the one character `%`, the format built by `Open` is `%%07d.dcm`,
so both instances of the series are named `%07d.dcm` whatever the counter;
and a counter of 2^31 read by `%d` gives the name `-2147483648.dcm`. -/
theorem percent_modality_names :
    writtenNames (planOf (contextOf (seriesIndex "%")) scenarioToolbox ["SR1"] false) =
      ["%07d.dcm", "%07d.dcm"] ∧
    ArchiveIndexVisitor.formatOfModality "%" = some "%%07d.dcm".data ∧
    ((ArchiveIndexVisitor.AddInstance "I1" 1024 ⟨ZipCommands.new, "%08d.dcm".data, 2 ^ 31⟩).map
        (fun v => v.commands_.commands_.map (fun c => c.filename_))).toOption =
      some ["-2147483648.dcm"] := by
  refine ⟨by decide!, by decide!, by decide!⟩

/-- Claim C8 fails as stated: for the Modality `ct` the format is not
`C%07d.dcm` and the first file is not named `C0000000.dcm`. -/
theorem ct_first_name_counterexample :
    ¬ (ArchiveIndexVisitor.formatOfModality "ct" = some "C%07d.dcm".data ∧
       (writtenNames (planOf (contextOf (seriesIndex "ct")) scenarioToolbox ["SR1"]
          false)).head? = some "C0000000.dcm") := by
  intro h
  exact absurd h.1 (by decide!)

/-- Claim C8 as amended: for a series whose main DICOM tags are found with
Modality `ct`, `Open` sets the format to `CT%06d.dcm` and the counter to 0, and
the first instance added after it is named `CT000000.dcm`. -/
theorem ct_series_format (context : ServerContext) (toolbox : Toolbox) (publicId : String)
    (tags : DicomMap) (v : ArchiveIndexVisitor)
    (h1 : context.index.GetMainDicomTags publicId .Series = some tags)
    (h2 : ArchiveIndexVisitor.GetTag tags .MODALITY = "ct") :
    ∃ v1, ArchiveIndexVisitor.Open context toolbox .Series publicId v = .ok v1 ∧
      v1.instanceFormat_ = "CT%06d.dcm".data ∧ v1.counter_ = 0 ∧
      ∀ id size, ∃ v2, ArchiveIndexVisitor.AddInstance id size v1 = .ok v2 ∧
        v2.commands_.commands_ =
          v1.commands_.commands_ ++ [⟨.Type_WriteInstance, "CT000000.dcm", id⟩] := by
  have hf : ArchiveIndexVisitor.formatOfModality "ct" = some "CT%06d.dcm".data := by decide
  have hn : snprintf 23 "CT%06d.dcm".data [.int (toSignedInt 0)] = some "CT000000.dcm".data := by
    decide
  refine ⟨ArchiveIndexVisitor.openDirectory toolbox .Series
    ("ct" ++ " " ++ ArchiveIndexVisitor.GetTag tags .SERIES_DESCRIPTION)
    { v with instanceFormat_ := "CT%06d.dcm".data, counter_ := 0 }, ?_, rfl, rfl, ?_⟩
  · simp only [ArchiveIndexVisitor.Open, h1, h2, hf]
  · intro id size
    simp only [ArchiveIndexVisitor.AddInstance, ArchiveIndexVisitor.openDirectory, hn]
    exact ⟨_, rfl, rfl⟩

/-- Witness of `ct_series_format`: the series `SR1` of a catalog where its
Modality is `ct`, opened by a visitor whose counter stood at 5. -/
theorem ct_series_format_witness :
    ∃ v1, ArchiveIndexVisitor.Open (contextOf (seriesIndex "ct")) scenarioToolbox .Series "SR1"
        ⟨ZipCommands.new, "%08d.dcm".data, 5⟩ = .ok v1 ∧
      v1.instanceFormat_ = "CT%06d.dcm".data ∧ v1.counter_ = 0 ∧
      ∀ id size, ∃ v2, ArchiveIndexVisitor.AddInstance id size v1 = .ok v2 ∧
        v2.commands_.commands_ =
          v1.commands_.commands_ ++ [⟨.Type_WriteInstance, "CT000000.dcm", id⟩] :=
  ct_series_format (contextOf (seriesIndex "ct")) scenarioToolbox "SR1"
    (tagsOf [(.MODALITY, "ct")]) ⟨ZipCommands.new, "%08d.dcm".data, 5⟩ (by rfl) (by decide!)

/-- Claim C9, evaluated where the code departs from it: the series `SR1` and
the instance `I3` of `SR2` are selected, then `SR2` is deleted before the plan
is made.  `Open` finds no main DICOM tags for `SR2`, so it neither resets the
counter nor the format: the first file of `SR2` is named `CT000002.dcm`. -/
theorem stale_counter_names :
    ((archiveOf s1Index ["SR1", "I3"]).map (fun archive =>
      writtenNames ((planCommands (contextOf s1IndexWithoutSR2) scenarioToolbox archive
        false).map Prod.snd))).toOption =
      some ["CT000000.dcm", "CT000001.dcm", "CT000002.dcm"] := by
  decide!

/-! ## Scenario S1 -/

/-- Claim C10 fails as stated: in scenario S1 the files of the CT series are
not named `C0000000.dcm` and `C0000001.dcm`. -/
theorem s1_names_counterexample :
    writtenNames (planOf (contextOf s1Index) scenarioToolbox ["ST1"] false) ≠
      ["C0000000.dcm", "C0000001.dcm", "MR000000.dcm"] := by
  decide!

/-- Claim C10 as amended: in archive mode, selecting the study `ST1` of
scenario S1 plans exactly the 11 commands OpenDir(patient), OpenDir(study),
OpenDir(CT series), Write `CT000000.dcm`, Write `CT000001.dcm`, CloseDir,
OpenDir(MR series), Write `MR000000.dcm`, CloseDir, CloseDir, CloseDir, with 3
instances and 2 MiB of uncompressed size, which gives Zip32. -/
theorem s1_plan :
    planOf (contextOf s1Index) scenarioToolbox ["ST1"] false = .ok
      { commands_ :=
          [⟨.Type_OpenDirectory, "P001 DOE^JOHN", ""⟩,
           ⟨.Type_OpenDirectory, "A1 Head", ""⟩,
           ⟨.Type_OpenDirectory, "CT Axial", ""⟩,
           ⟨.Type_WriteInstance, "CT000000.dcm", "I1"⟩,
           ⟨.Type_WriteInstance, "CT000001.dcm", "I2"⟩,
           ⟨.Type_CloseDirectory, "", ""⟩,
           ⟨.Type_OpenDirectory, "MR T1", ""⟩,
           ⟨.Type_WriteInstance, "MR000000.dcm", "I3"⟩,
           ⟨.Type_CloseDirectory, "", ""⟩,
           ⟨.Type_CloseDirectory, "", ""⟩,
           ⟨.Type_CloseDirectory, "", ""⟩]
        uncompressedSize_ := 2097152
        instancesCount_ := 3 } ∧
    2 * MEGA_BYTES = 2097152 ∧
    ZipCommands.IsZip64 ⟨[], 2097152, 3⟩ = false := by
  refine ⟨eq_ok_of_toOption (by decide!), by decide!, by decide!⟩

/-! ## The selection tree -/

theorem mapFind_mapAssign {α : Type} (m : Resources α) (id : String) (v : Option α) :
    mapFind (mapAssign m id v) id = some v := by
  induction m with
  | nil => simp [mapAssign, mapFind]
  | cons e rest ih =>
    obtain ⟨k, w⟩ := e
    by_cases h1 : k = id
    · simp [mapAssign, mapFind, h1]
    · by_cases h2 : lexLess id.data k.data = true
      · simp [mapAssign, mapFind, h1, h2]
      · simp [mapAssign, mapFind, h1, h2, ih]

theorem mapAssign_idem {α : Type} (m : Resources α) (id : String) (v : Option α) :
    mapAssign (mapAssign m id v) id v = mapAssign m id v := by
  induction m with
  | nil => simp [mapAssign]
  | cons e rest ih =>
    obtain ⟨k, w⟩ := e
    by_cases h1 : k = id
    · simp [mapAssign, h1]
    · by_cases h2 : lexLess id.data k.data = true
      · simp [mapAssign, h1, h2]
      · simp [mapAssign, h1, h2, ih]

theorem mapReplace_of_mapFind {α : Type} (m : Resources α) (id : String) (v : Option α)
    (h : mapFind m id = some v) : mapReplace m id v = m := by
  induction m with
  | nil => simp [mapFind] at h
  | cons e rest ih =>
    obtain ⟨k, w⟩ := e
    by_cases h1 : k = id
    · simp [mapFind, h1] at h
      simp [mapReplace, h1, h]
    · simp [mapFind, h1] at h
      simp [mapReplace, h1, ih h]

theorem mapFind_mapReplace {α : Type} (m : Resources α) (id : String) (v w : Option α)
    (h : mapFind m id = some w) : mapFind (mapReplace m id v) id = some v := by
  induction m with
  | nil => simp [mapFind] at h
  | cons e rest ih =>
    obtain ⟨k, u⟩ := e
    by_cases h1 : k = id
    · simp [mapReplace, mapFind, h1]
    · simp [mapFind, h1] at h
      simp [mapReplace, mapFind, h1, ih h]

theorem add_idem (index : ServerIndex) (resource : ResourceIdentifiers)
    (hlevel : resource.GetLevel ≠ .Instance) :
    ∀ (d : Nat) (archive added : ArchiveIndex d),
      ArchiveIndex.Add index resource d archive = .ok added →
      ArchiveIndex.Add index resource d added = .ok added := by
  intro d
  induction d with
  | zero =>
    intro archive added h
    have : resource.GetIdentifier (levelOfDepth 0) = .error .InternalError := by
      cases hl : resource.level_ <;>
        simp_all [ResourceIdentifiers.GetIdentifier, ResourceIdentifiers.GetLevel, levelOfDepth,
          ResourceType.rank]
    simp [ArchiveIndex.Add, this] at h
  | succ d ih =>
    intro archive added h
    rw [ArchiveIndex.Add] at h ⊢
    cases hid : resource.GetIdentifier (levelOfDepth (d + 1)) with
    | error e => simp [hid] at h
    | ok id =>
      simp only [hid] at h ⊢
      by_cases hterm : resource.GetLevel = levelOfDepth (d + 1)
      · simp only [hterm, if_true] at h ⊢
        injection h with h
        subst h
        rw [mapAssign_idem]
      · simp only [hterm, if_false] at h ⊢
        cases hfind : mapFind archive id with
        | none =>
          simp only [hfind] at h
          cases hadd : ArchiveIndex.Add index resource d (ArchiveIndex.empty d) with
          | error e => simp [hadd] at h
          | ok child =>
            simp only [hadd] at h
            injection h with h
            subst h
            simp only [mapFind_mapAssign, ih _ _ hadd]
            rw [mapReplace_of_mapFind _ _ _ (mapFind_mapAssign _ _ _)]
        | some previous =>
          cases previous with
          | none =>
            simp only [hfind] at h
            injection h with h
            subst h
            simp only [hfind]
          | some child0 =>
            simp only [hfind] at h
            cases hadd : ArchiveIndex.Add index resource d child0 with
            | error e => simp [hadd] at h
            | ok child =>
              simp only [hadd] at h
              injection h with h
              subst h
              simp only [mapFind_mapReplace _ _ _ _ hfind, ih _ _ hadd]
              rw [mapReplace_of_mapFind _ _ _ (mapFind_mapReplace _ _ _ _ hfind)]

/-- Adding a resource below a pending entry changes nothing. -/
theorem add_below_pending (index : ServerIndex) (coarse fine : ResourceIdentifiers)
    (hdeeper : coarse.GetLevel.rank < fine.GetLevel.rank)
    (hsame : ∀ level id, coarse.GetIdentifier level = .ok id → fine.GetIdentifier level = .ok id) :
    ∀ (d : Nat) (archive : ArchiveIndex d),
      ArchiveIndex.IsPending coarse d archive = true →
      ArchiveIndex.Add index fine d archive = .ok archive := by
  intro d
  induction d with
  | zero => intro archive h; simp [ArchiveIndex.IsPending] at h
  | succ d ih =>
    intro archive h
    rw [ArchiveIndex.IsPending] at h
    rw [ArchiveIndex.Add]
    cases hid : coarse.GetIdentifier (levelOfDepth (d + 1)) with
    | error e => simp [hid] at h
    | ok id =>
      simp only [hid] at h
      have hrank : (levelOfDepth (d + 1)).rank ≤ coarse.GetLevel.rank := by
        by_contra hc
        simp [ResourceIdentifiers.GetIdentifier, ResourceIdentifiers.GetLevel] at hid hc
        simp [hc] at hid
      have hne : fine.GetLevel ≠ levelOfDepth (d + 1) := by
        intro heq
        rw [heq] at hdeeper
        omega
      simp only [hsame _ _ hid, hne, if_false]
      cases hfind : mapFind archive id with
      | none => simp [hfind] at h
      | some previous =>
        cases previous with
        | none => rfl
        | some child =>
          simp only [hfind, Bool.and_eq_true] at h
          simp only [ih child h.2]
          rw [mapReplace_of_mapFind _ _ _ hfind]

/-- What the constructor of `ResourceIdentifiers` has looked up when it
succeeds. -/
theorem create_ok (index : ServerIndex) (publicId : String) (r : ResourceIdentifiers)
    (h : ResourceIdentifiers.create index publicId = .ok r) :
    index.LookupResourceType publicId = some r.level_ ∧
    (r.level_ = .Patient → r.patient_ = publicId) ∧
    (r.level_ = .Study → r.study_ = publicId ∧ index.LookupParent r.study_ = some r.patient_) ∧
    (r.level_ = .Series → r.series_ = publicId ∧ index.LookupParent r.series_ = some r.study_ ∧
      index.LookupParent r.study_ = some r.patient_) ∧
    (r.level_ = .Instance → r.instance_ = publicId ∧
      index.LookupParent r.instance_ = some r.series_ ∧
      index.LookupParent r.series_ = some r.study_ ∧
      index.LookupParent r.study_ = some r.patient_) := by
  unfold ResourceIdentifiers.create at h
  cases hl : index.LookupResourceType publicId with
  | none => simp [hl] at h
  | some level =>
    cases level <;> simp only [hl] at h
    · injection h with h; subst h; simp
    · cases h1 : index.LookupParent publicId <;>
        simp [ResourceIdentifiers.GoToParent, h1, bind, Except.bind, pure, Except.pure] at h
      subst h; simp [h1]
    · cases h1 : index.LookupParent publicId with
      | none => simp [ResourceIdentifiers.GoToParent, h1, bind, Except.bind] at h
      | some p1 =>
        cases h2 : index.LookupParent p1 <;>
          simp [ResourceIdentifiers.GoToParent, h1, h2, bind, Except.bind, pure, Except.pure] at h
        subst h; simp [h1, h2]
    · cases h1 : index.LookupParent publicId with
      | none => simp [ResourceIdentifiers.GoToParent, h1, bind, Except.bind] at h
      | some p1 =>
        cases h2 : index.LookupParent p1 with
        | none => simp [ResourceIdentifiers.GoToParent, h1, h2, bind, Except.bind] at h
        | some p2 =>
          cases h3 : index.LookupParent p2 <;>
            simp [ResourceIdentifiers.GoToParent, h1, h2, h3, bind, Except.bind, pure,
              Except.pure] at h
          subst h; simp [h1, h2, h3]

/-- The identifiers built for a resource and for one of its ancestors agree
at the levels of the ancestor. -/
theorem create_agree (index : ServerIndex) (C F : String) (coarse fine : ResourceIdentifiers)
    (hc : ResourceIdentifiers.create index C = .ok coarse)
    (hf : ResourceIdentifiers.create index F = .ok fine)
    (hanc : fine.GetIdentifier coarse.GetLevel = .ok C) :
    ∀ level id, coarse.GetIdentifier level = .ok id → fine.GetIdentifier level = .ok id := by
  obtain ⟨-, c1, c2, c3, c4⟩ := create_ok index C coarse hc
  obtain ⟨-, f1, f2, f3, f4⟩ := create_ok index F fine hf
  intro level id hid
  obtain ⟨cl, cp, cst, cse, ci⟩ := coarse
  obtain ⟨fl, fp, fst, fse, fi⟩ := fine
  cases cl <;> cases fl <;> cases level <;>
    simp_all [ResourceIdentifiers.GetIdentifier, ResourceIdentifiers.GetLevel, ResourceType.rank]

theorem mapFind_expand (index : ServerIndex) (d : Nat) (m : Resources (ArchiveIndex d))
    (id : String) :
    mapFind (ArchiveIndex.Expand index (d + 1) m : Resources (ArchiveIndex d)) id =
      (mapFind m id).map (fun v =>
        match v with
        | none => some (ArchiveIndex.Expand index d (ArchiveIndex.expandChildren index d id))
        | some child => some (ArchiveIndex.Expand index d child)) := by
  induction m with
  | nil => simp [ArchiveIndex.Expand, mapFind]
  | cons e rest ih =>
    obtain ⟨k, v⟩ := e
    have ih' : mapFind (List.map (fun entry : String × Option (ArchiveIndex d) =>
        match entry.2 with
        | none => (entry.1, some (ArchiveIndex.Expand index d
            (ArchiveIndex.expandChildren index d entry.1)))
        | some child => (entry.1, some (ArchiveIndex.Expand index d child))) rest) id = _ := ih
    by_cases h : k = id
    · subst h
      cases v <;> simp [ArchiveIndex.Expand, mapFind]
    · cases v <;> simp [ArchiveIndex.Expand, mapFind, h] <;> exact ih'

theorem expand_pending (index : ServerIndex) (resource : ResourceIdentifiers) :
    ∀ (d : Nat) (archive : ArchiveIndex d),
      ArchiveIndex.IsPending resource d archive = true →
      ArchiveIndex.IsExpandedFromIndex index resource d (ArchiveIndex.Expand index d archive) := by
  intro d
  induction d with
  | zero => intro archive h; simp [ArchiveIndex.IsPending] at h
  | succ d ih =>
    intro archive h
    rw [ArchiveIndex.IsPending] at h
    rw [ArchiveIndex.IsExpandedFromIndex]
    cases hid : resource.GetIdentifier (levelOfDepth (d + 1)) with
    | error e => simp [hid] at h
    | ok id =>
      simp only [hid] at h ⊢
      rw [mapFind_expand]
      cases hfind : mapFind archive id with
      | none => simp [hfind] at h
      | some previous =>
        cases previous with
        | none =>
          simp only [hfind, decide_eq_true_eq] at h
          simp [h]
        | some child =>
          simp only [hfind, Bool.and_eq_true, Bool.not_eq_true', decide_eq_false_iff_not] at h
          simp only [Option.map_some', h.1, if_false]
          exact ih child h.2


/-- Claim C3 fails as stated: an instance added twice is planned twice. -/
theorem add_instance_twice_counterexample :
    planOf (contextOf (seriesIndex "CT")) scenarioToolbox ["I1", "I1"] false ≠
      planOf (contextOf (seriesIndex "CT")) scenarioToolbox ["I1"] false := by
  intro h
  have h2 := congrArg writtenNames h
  revert h2
  decide!

/-- Claim C3 as amended: for a resource of level patient, study or series,
and every tree, a second `Add` of the resource succeeds and leaves the tree as
the first `Add` made it, so the plan (commands, instance count, uncompressed
size) is the same. -/
theorem add_twice_same_plan (context : ServerContext) (toolbox : Toolbox)
    (resource : ResourceIdentifiers) (archive once : ArchiveIndex 3) (isMedia : Bool)
    (hlevel : resource.GetLevel ≠ .Instance)
    (hadd : ArchiveIndex.Add context.index resource 3 archive = .ok once) :
    ArchiveIndex.Add context.index resource 3 once = .ok once ∧
    ∀ twice, ArchiveIndex.Add context.index resource 3 once = .ok twice →
      planCommands context toolbox twice isMedia = planCommands context toolbox once isMedia := by
  have h := add_idem context.index resource hlevel 3 archive once hadd
  refine ⟨h, ?_⟩
  intro twice h2
  rw [h] at h2
  injection h2 with h2
  rw [h2]

/-- Witness of `add_twice_same_plan`: the series `SR1` of scenario S1 added
to the empty tree. -/
theorem add_twice_same_plan_witness :
    ArchiveIndex.Add (contextOf s1Index).index ⟨.Series, "PT1", "ST1", "SR1", ""⟩ 3
        s1SeriesPending = .ok s1SeriesPending ∧
    ∀ twice, ArchiveIndex.Add (contextOf s1Index).index ⟨.Series, "PT1", "ST1", "SR1", ""⟩ 3
        s1SeriesPending = .ok twice →
      planCommands (contextOf s1Index) scenarioToolbox twice false =
        planCommands (contextOf s1Index) scenarioToolbox s1SeriesPending false :=
  add_twice_same_plan (contextOf s1Index) scenarioToolbox ⟨.Series, "PT1", "ST1", "SR1", ""⟩
    (ArchiveIndex.empty 3) s1SeriesPending false (by decide) (by rfl)

/-- Claim C5: when the entry of a resource C is marked for expansion, adding
a strict descendant F of C returns the tree unchanged; C is still marked, and
`Expand` gives its entry the node built from all the children the index
returns for C. -/
theorem add_finer_under_pending (index : ServerIndex) (C F : String)
    (coarse fine : ResourceIdentifiers) (archive : ArchiveIndex 3)
    (hc : ResourceIdentifiers.create index C = .ok coarse)
    (hf : ResourceIdentifiers.create index F = .ok fine)
    (hbelow : coarse.GetLevel.rank < fine.GetLevel.rank)
    (hanc : fine.GetIdentifier coarse.GetLevel = .ok C)
    (hp : ArchiveIndex.IsPending coarse 3 archive = true) :
    ArchiveIndex.Add index fine 3 archive = .ok archive ∧
    (∀ added, ArchiveIndex.Add index fine 3 archive = .ok added →
      ArchiveIndex.IsPending coarse 3 added = true ∧
      ArchiveIndex.IsExpandedFromIndex index coarse 3 (ArchiveIndex.Expand index 3 added)) := by
  have h := add_below_pending index coarse fine hbelow (create_agree index C F coarse fine hc hf hanc)
    3 archive hp
  refine ⟨h, ?_⟩
  intro added hadd
  rw [h] at hadd
  injection hadd with hadd
  subst hadd
  exact ⟨hp, expand_pending index coarse 3 archive hp⟩

/-- Witness of `add_finer_under_pending`: in scenario S1 the series `SR1` is
marked for expansion and its instance `I1` is added. -/
theorem add_finer_under_pending_witness :
    ArchiveIndex.Add s1Index ⟨.Instance, "PT1", "ST1", "SR1", "I1"⟩ 3 s1SeriesPending =
      .ok s1SeriesPending ∧
    (∀ added, ArchiveIndex.Add s1Index ⟨.Instance, "PT1", "ST1", "SR1", "I1"⟩ 3
        s1SeriesPending = .ok added →
      ArchiveIndex.IsPending ⟨.Series, "PT1", "ST1", "SR1", ""⟩ 3 added = true ∧
      ArchiveIndex.IsExpandedFromIndex s1Index ⟨.Series, "PT1", "ST1", "SR1", ""⟩ 3
        (ArchiveIndex.Expand s1Index 3 added)) :=
  add_finer_under_pending s1Index "SR1" "I1" ⟨.Series, "PT1", "ST1", "SR1", ""⟩
    ⟨.Instance, "PT1", "ST1", "SR1", "I1"⟩ s1SeriesPending
    (eq_ok_of_toOption (by decide!)) (eq_ok_of_toOption (by decide!)) (by decide)
    (eq_ok_of_toOption (by decide!)) (by decide!)

/-! ## A series selected after one of its instances -/

theorem expandChildren_zero (index : ServerIndex) (series : String) :
    ArchiveIndex.expandChildren index 0 series = leavesOf index series := by
  have key : ∀ (ids : List String) (acc : List Instance),
      List.foldl (fun child id2 => ArchiveIndex.AddResourceToExpand index 0 child id2) acc ids =
        acc ++ ids.filterMap
          (fun id => (index.LookupAttachment id).map (fun size => (⟨id, size⟩ : Instance))) := by
    intro ids
    induction ids with
    | nil => intro acc; simp
    | cons id rest ih =>
      intro acc
      rw [List.foldl_cons, ih]
      cases h : index.LookupAttachment id <;>
        simp [ArchiveIndex.AddResourceToExpand, h, List.filterMap_cons]
  exact (key _ _).trans (by simp [leavesOf, ArchiveIndex.empty])

theorem formatOfModality_isSome (modality : String) :
    ∃ format, ArchiveIndexVisitor.formatOfModality modality = some format := by
  unfold ArchiveIndexVisitor.formatOfModality
  split
  · exact ⟨_, rfl⟩
  · exact ⟨_, rfl⟩
  · exact ⟨_, rfl⟩

/-- `Open` of the archive visitor above the instance level appends one
`OpenDirectory` command and nothing else. -/
theorem open_archive (context : ServerContext) (toolbox : Toolbox) (level : ResourceType)
    (publicId : String) (v : ArchiveIndexVisitor) (hl : level ≠ .Instance) :
    ∃ v1 name, ArchiveIndexVisitor.Open context toolbox level publicId v = .ok v1 ∧
      v1.commands_.commands_ = v.commands_.commands_ ++ [⟨.Type_OpenDirectory, name, ""⟩] := by
  unfold ArchiveIndexVisitor.Open
  cases ht : context.index.GetMainDicomTags publicId level with
  | none => exact ⟨_, _, rfl, rfl⟩
  | some tags =>
    cases level with
    | Patient => exact ⟨_, _, rfl, rfl⟩
    | Study => exact ⟨_, _, rfl, rfl⟩
    | Series =>
      obtain ⟨format, hf⟩ := formatOfModality_isSome (ArchiveIndexVisitor.GetTag tags .MODALITY)
      simp only [hf]
      exact ⟨_, _, rfl, rfl⟩
    | Instance => exact absurd rfl hl

/-- The instances added by the archive visitor: when the loop returns, it has
appended one `WriteInstance` per leaf, in order. -/
theorem applyInstances_archive (context : ServerContext) (toolbox : Toolbox) :
    ∀ (leaves : List Instance) (v v1 : ArchiveIndexVisitor),
      ArchiveIndex.applyInstances (ArchiveIndexVisitor.visitor context toolbox) leaves v = .ok v1 →
      ∃ added, v1.commands_.commands_ = v.commands_.commands_ ++ added ∧
        added.map (fun c => c.type_) = List.replicate leaves.length .Type_WriteInstance ∧
        added.map (fun c => c.instanceId_) = leaves.map (fun i => i.id_) := by
  intro leaves
  induction leaves with
  | nil =>
    intro v v1 h
    simp [ArchiveIndex.applyInstances] at h
    subst h
    exact ⟨[], by simp⟩
  | cons leaf rest ih =>
    intro v v1 h
    rw [ArchiveIndex.applyInstances] at h
    cases ha : (ArchiveIndexVisitor.visitor context toolbox).AddInstance leaf.id_
        leaf.uncompressedSize_ v with
    | error e => simp [ha] at h
    | ok v2 =>
      simp only [ha] at h
      obtain ⟨added, h1, h2, h3⟩ := ih v2 v1 h
      simp only [ArchiveIndexVisitor.visitor, ArchiveIndexVisitor.AddInstance] at ha
      cases hn : snprintf 23 v.instanceFormat_ [.int (toSignedInt v.counter_)] with
      | none => simp [hn] at ha
      | some name =>
        simp only [hn] at ha
        injection ha with ha
        subst ha
        refine ⟨⟨.Type_WriteInstance, String.mk name, leaf.id_⟩ :: added, ?_, ?_, ?_⟩
        · simp [h1, ZipCommands.AddWriteInstance]
        · simp [h2, List.replicate_succ]
        · simp [h3]

/-- The instances added by the media visitor: the loop returns and has
appended one `WriteInstance` per leaf, in order. -/
theorem applyInstances_media :
    ∀ (leaves : List Instance) (v : MediaIndexVisitor),
      ∃ v1 added, ArchiveIndex.applyInstances MediaIndexVisitor.visitor leaves v = .ok v1 ∧
        v1.commands_.commands_ = v.commands_.commands_ ++ added ∧
        added.map (fun c => c.type_) = List.replicate leaves.length .Type_WriteInstance ∧
        added.map (fun c => c.instanceId_) = leaves.map (fun i => i.id_) := by
  intro leaves
  induction leaves with
  | nil => intro v; exact ⟨v, [], rfl, by simp⟩
  | cons leaf rest ih =>
    intro v
    obtain ⟨v1, added, h0, h1, h2, h3⟩ := ih
      { commands_ := v.commands_.AddWriteInstance ("IM" ++ String.mk (Nat.toDigits 10 v.counter_))
          leaf.id_ leaf.uncompressedSize_
        counter_ := (v.counter_ + 1) % 2 ^ 32 }
    refine ⟨v1, ⟨.Type_WriteInstance, "IM" ++ String.mk (Nat.toDigits 10 v.counter_), leaf.id_⟩ ::
      added, ?_, ?_, ?_, ?_⟩
    · rw [ArchiveIndex.applyInstances]
      simpa [MediaIndexVisitor.visitor, MediaIndexVisitor.AddInstance] using h0
    · simp [h1, ZipCommands.AddWriteInstance]
    · simp [h2, List.replicate_succ]
    · simp [h3]

/-- The instances added by the archive visitor when the format prints every
counter: the loop returns. -/
theorem applyInstances_archive_ok (context : ServerContext) (toolbox : Toolbox)
    (format : List Char) (hformat : ∀ i, ∃ name, snprintf 23 format [.int i] = some name) :
    ∀ (leaves : List Instance) (v : ArchiveIndexVisitor), v.instanceFormat_ = format →
      ∃ v1, ArchiveIndex.applyInstances (ArchiveIndexVisitor.visitor context toolbox) leaves v =
        .ok v1 := by
  intro leaves
  induction leaves with
  | nil => intro v _; exact ⟨v, rfl⟩
  | cons leaf rest ih =>
    intro v hv
    obtain ⟨name, hn⟩ := hformat (toSignedInt v.counter_)
    rw [ArchiveIndex.applyInstances]
    simp only [ArchiveIndexVisitor.visitor, ArchiveIndexVisitor.AddInstance, hv, hn]
    exact ih _ rfl

theorem applyResources_single {σ α : Type} (visitor : IArchiveVisitor σ) (level : ResourceType)
    (applyChild : α → σ → Except ErrorCode σ) (id : String) (child : α) (s : σ) :
    ArchiveIndex.applyResources visitor level applyChild [(id, some child)] s =
      match visitor.Open level id s with
      | .error e => .error e
      | .ok s1 =>
        match applyChild child s1 with
        | .error e => .error e
        | .ok s2 => visitor.Close s2 := by
  simp only [ArchiveIndex.applyResources]
  cases h1 : visitor.Open level id s with
  | error e => rfl
  | ok s1 =>
    simp only []
    cases h2 : applyChild child s1 with
    | error e => rfl
    | ok s2 =>
      simp only []
      cases h3 : visitor.Close s2 <;> rfl

theorem toupper_ne_percent (c : Char) (h : c ≠ '%') : toupper c ≠ '%' := by
  unfold toupper Char.toUpper
  simp only []
  by_cases hr : c.toNat ≥ 97 ∧ c.toNat ≤ 122
  · rw [if_pos hr]
    obtain ⟨h1, h2⟩ := hr
    generalize c.toNat = n at h1 h2
    interval_cases n <;> decide
  · rw [if_neg hr]
    exact h

theorem format_prints (modality : String) (h : modality.data.head? ≠ some '%') :
    ∃ format, ArchiveIndexVisitor.formatOfModality modality = some format ∧
      ∀ i, ∃ name, snprintf 23 format [.int i] = some name := by
  unfold ArchiveIndexVisitor.formatOfModality
  cases hm : modality.data with
  | nil => exact ⟨_, rfl, fun i => ⟨_, rfl⟩⟩
  | cons c0 rest =>
    have hc0 : c0 ≠ '%' := by
      intro heq
      rw [hm, heq] at h
      exact h rfl
    have hu0 := toupper_ne_percent c0 hc0
    cases rest with
    | nil =>
      refine ⟨_, rfl, ?_⟩
      intro i
      by_cases hz : toupper c0 = Char.ofNat 0
      · simp [snprintf, printfGo, cString, hz]
      · simp [snprintf, printfGo, cString, hz, hu0]
    | cons c1 rest2 =>
      refine ⟨_, rfl, ?_⟩
      intro i
      by_cases hz : toupper c0 = Char.ofNat 0
      · simp [snprintf, printfGo, cString, hz]
      · by_cases hz1 : toupper c1 = Char.ofNat 0
        · simp [snprintf, printfGo, cString, hz, hz1, hu0]
        · by_cases hp1 : toupper c1 = '%'
          · simp [snprintf, printfGo, cString, hz, hz1, hu0, hp1]
          · simp [snprintf, printfGo, cString, hz, hz1, hu0, hp1]

theorem add_instance_then_series (index : ServerIndex) (I S St P : String) :
    ArchiveIndex.Add index ⟨.Instance, P, St, S, I⟩ 3 (ArchiveIndex.empty 3) =
      .ok (singleSeriesTree P St S
        (some (ArchiveIndex.AddResourceToExpand index 0 (ArchiveIndex.empty 0) I))) ∧
    ArchiveIndex.Add index ⟨.Series, P, St, S, ""⟩ 3 (singleSeriesTree P St S
        (some (ArchiveIndex.AddResourceToExpand index 0 (ArchiveIndex.empty 0) I))) =
      .ok (singleSeriesTree P St S none) := by
  constructor
  · simp [ArchiveIndex.Add, ArchiveIndex.empty, ResourceIdentifiers.GetIdentifier,
      ResourceIdentifiers.GetLevel, levelOfDepth, ResourceType.rank, mapFind, mapAssign,
      singleSeriesTree]
  · simp [ArchiveIndex.Add, ResourceIdentifiers.GetIdentifier,
      ResourceIdentifiers.GetLevel, levelOfDepth, ResourceType.rank, mapFind, mapAssign, mapReplace,
      singleSeriesTree]

theorem expand_single_pending (index : ServerIndex) (S St P : String) :
    ArchiveIndex.Expand index 3 (singleSeriesTree P St S none) =
      singleSeriesTree P St S (some (ArchiveIndex.expandChildren index 0 S)) := by
  simp [ArchiveIndex.Expand, singleSeriesTree]

theorem isPending_single (S St P : String) :
    ArchiveIndex.IsPending ⟨.Series, P, St, S, ""⟩ 3 (singleSeriesTree P St S none) = true := by
  simp [ArchiveIndex.IsPending, singleSeriesTree, ResourceIdentifiers.GetIdentifier,
      ResourceIdentifiers.GetLevel, levelOfDepth, ResourceType.rank, mapFind]

theorem apply_single_series {σ : Type} (visitor : IArchiveVisitor σ) (P St S : String)
    (leaves : List Instance) (s : σ) :
    ArchiveIndex.Apply visitor 3 (singleSeriesTree P St S (some leaves)) s =
      match visitor.Open .Patient P s with
      | .error e => .error e
      | .ok s1 =>
        match (match visitor.Open .Study St s1 with
          | .error e => Except.error e
          | .ok s2 =>
            match (match visitor.Open .Series S s2 with
              | .error e => Except.error e
              | .ok s3 =>
                match ArchiveIndex.applyInstances visitor leaves s3 with
                | .error e => Except.error e
                | .ok s4 => visitor.Close s4) with
            | .error e => Except.error e
            | .ok s5 => visitor.Close s5) with
        | .error e => .error e
        | .ok s6 => visitor.Close s6 := by
  simp only [singleSeriesTree, ArchiveIndex.Apply, applyResources_single, levelOfDepth]

/-- A list of commands that are all `WriteInstance` passes the filter whole. -/
theorem filter_writes (added : List Command) (n : Nat)
    (h : added.map (fun c => c.type_) = List.replicate n .Type_WriteInstance) :
    added.filter Command.IsWriteInstance = added := by
  rw [List.filter_eq_self]
  intro c hc
  have : c.type_ ∈ added.map (fun c => c.type_) := List.mem_map_of_mem _ hc
  rw [h] at this
  simp [Command.IsWriteInstance, (List.mem_replicate.mp this).2]

/-- The archive plan of a tree with one series: when it is returned, it is
three `OpenDirectory`, one `WriteInstance` per leaf in order, and three
`CloseDirectory`. -/
theorem plan_single_series_archive (context : ServerContext) (toolbox : Toolbox)
    (P St S : String) (leaves : List Instance) (v0 v : ArchiveIndexVisitor)
    (h : ArchiveIndex.Apply (ArchiveIndexVisitor.visitor context toolbox) 3
      (singleSeriesTree P St S (some leaves)) v0 = .ok v) (h0 : v0.commands_.commands_ = []) :
    v.commands_.commands_.map (fun c => c.type_) =
        [.Type_OpenDirectory, .Type_OpenDirectory, .Type_OpenDirectory] ++
          List.replicate leaves.length .Type_WriteInstance ++
          [.Type_CloseDirectory, .Type_CloseDirectory, .Type_CloseDirectory] ∧
      (v.commands_.commands_.filter Command.IsWriteInstance).map (fun c => c.instanceId_) =
        leaves.map (fun i => i.id_) := by
  rw [apply_single_series] at h
  obtain ⟨v1, n1, ho1, hc1⟩ := open_archive context toolbox .Patient P v0 (by decide)
  obtain ⟨v2, n2, ho2, hc2⟩ := open_archive context toolbox .Study St v1 (by decide)
  obtain ⟨v3, n3, ho3, hc3⟩ := open_archive context toolbox .Series S v2 (by decide)
  simp only [ArchiveIndexVisitor.visitor] at h
  simp only [ho1, ho2, ho3] at h
  cases ha : ArchiveIndex.applyInstances (ArchiveIndexVisitor.visitor context toolbox) leaves v3 with
  | error e =>
    simp only [ArchiveIndexVisitor.visitor] at ha
    simp [ha] at h
  | ok v4 =>
    obtain ⟨added, h1, h2, h3⟩ := applyInstances_archive context toolbox leaves v3 v4 ha
    simp only [ArchiveIndexVisitor.visitor] at ha
    simp only [ha, ArchiveIndexVisitor.Close] at h
    injection h with h
    subst h
    have hf := filter_writes added _ h2
    simp only [ZipCommands.AddCloseDirectory, h1, hc3, hc2, hc1, h0]
    constructor
    · simp [h2]
    · simp [List.filter_append, hf, h3, Command.IsWriteInstance, List.filter_cons]

/-- The format left by `Open` of the archive visitor: above the series level
it is unchanged; at the series level it is the format of the modality when the
tags are found, and unchanged otherwise. -/
theorem open_archive_format (context : ServerContext) (toolbox : Toolbox) (level : ResourceType)
    (publicId : String) (v v1 : ArchiveIndexVisitor)
    (h : ArchiveIndexVisitor.Open context toolbox level publicId v = .ok v1) :
    (level ≠ .Series → v1.instanceFormat_ = v.instanceFormat_) ∧
    (level = .Series →
      match context.index.GetMainDicomTags publicId .Series with
      | none => v1.instanceFormat_ = v.instanceFormat_
      | some tags => ArchiveIndexVisitor.formatOfModality
          (ArchiveIndexVisitor.GetTag tags .MODALITY) = some v1.instanceFormat_) := by
  unfold ArchiveIndexVisitor.Open at h
  cases level with
  | Patient =>
    refine ⟨fun _ => ?_, fun hl => absurd hl (by decide)⟩
    cases ht : context.index.GetMainDicomTags publicId .Patient <;> simp only [ht] at h <;>
      (injection h with h; subst h; rfl)
  | Study =>
    refine ⟨fun _ => ?_, fun hl => absurd hl (by decide)⟩
    cases ht : context.index.GetMainDicomTags publicId .Study <;> simp only [ht] at h <;>
      (injection h with h; subst h; rfl)
  | Series =>
    refine ⟨fun hl => absurd rfl hl, fun _ => ?_⟩
    cases ht : context.index.GetMainDicomTags publicId .Series with
    | none =>
      simp only [ht] at h
      injection h with h; subst h; rfl
    | some tags =>
      simp only [ht] at h
      cases hf : ArchiveIndexVisitor.formatOfModality (ArchiveIndexVisitor.GetTag tags .MODALITY) with
      | none => simp [hf] at h
      | some format =>
        simp only [hf] at h
        injection h with h; subst h; exact hf
  | Instance =>
    cases ht : context.index.GetMainDicomTags publicId .Instance <;> simp [ht] at h
    refine ⟨fun _ => ?_, fun hl => absurd hl (by decide)⟩
    subst h; rfl

/-- The selection of a series after one of its instances, on a new job:
`AddResource(I)` then `AddResource(S)`, where I is an instance of the series S,
leaves the entry of S marked for expansion; `Expand` gives it one leaf per child
of S that has a DICOM attachment, in the order of the index; the archive plan,
when the file names are defined, and the media plan hold one `WriteInstance`
per such leaf, in that order, between the directory commands. -/
theorem series_after_instance_on_new_job (context : ServerContext) (toolbox : Toolbox)
    (I S St P : String) (isMedia extended : Bool)
    (hI : ResourceIdentifiers.create context.index I = .ok ⟨.Instance, P, St, S, I⟩)
    (hS : ResourceIdentifiers.create context.index S = .ok ⟨.Series, P, St, S, ""⟩) :
    (ArchiveJob.AddResource context S
      (ArchiveJob.AddResource context I (ArchiveJob.new isMedia extended)).1).1.archive_ =
        singleSeriesTree P St S none ∧
    ArchiveIndex.IsPending ⟨.Series, P, St, S, ""⟩ 3 (singleSeriesTree P St S none) = true ∧
    ArchiveIndex.Expand context.index 3 (singleSeriesTree P St S none) =
      singleSeriesTree P St S (some (leavesOf context.index S)) ∧
    (∀ planned, planCommands context toolbox (singleSeriesTree P St S none) false = .ok planned →
      planned.2.commands_.map (fun c => c.type_) =
        [.Type_OpenDirectory, .Type_OpenDirectory, .Type_OpenDirectory] ++
          List.replicate (leavesOf context.index S).length .Type_WriteInstance ++
          [.Type_CloseDirectory, .Type_CloseDirectory, .Type_CloseDirectory] ∧
      (planned.2.commands_.filter Command.IsWriteInstance).map (fun c => c.instanceId_) =
        (leavesOf context.index S).map (fun i => i.id_)) ∧
    ((∀ tags, context.index.GetMainDicomTags S .Series = some tags →
        (ArchiveIndexVisitor.GetTag tags .MODALITY).data.head? ≠ some '%') →
      ∃ planned, planCommands context toolbox (singleSeriesTree P St S none) false = .ok planned) ∧
    (∃ planned, planCommands context toolbox (singleSeriesTree P St S none) true = .ok planned ∧
      planned.2.commands_.map (fun c => c.type_) =
        [.Type_OpenDirectory] ++
          List.replicate (leavesOf context.index S).length .Type_WriteInstance ++
          [.Type_CloseDirectory] ∧
      (planned.2.commands_.filter Command.IsWriteInstance).map (fun c => c.instanceId_) =
        (leavesOf context.index S).map (fun i => i.id_)) := by
  have hexp := (expand_single_pending context.index S St P).trans
    (by rw [expandChildren_zero])
  refine ⟨?_, isPending_single S St P, hexp, ?_, ?_, ?_⟩
  · obtain ⟨h1, h2⟩ := add_instance_then_series context.index I S St P
    simp [ArchiveJob.AddResource, ArchiveJob.new, ArchiveJob.newOver, hI, hS, h1, h2]
  · intro planned hplan
    simp only [planCommands, hexp, Bool.false_eq_true, if_false] at hplan
    have hnew : ArchiveIndexVisitor.new ZipCommands.new =
        .ok ⟨ZipCommands.new, "%08d.dcm".data, 0⟩ := eq_ok_of_toOption (by decide!)
    simp only [hnew] at hplan
    cases ha : ArchiveIndex.Apply (ArchiveIndexVisitor.visitor context toolbox) 3
        (singleSeriesTree P St S (some (leavesOf context.index S)))
        ⟨ZipCommands.new, "%08d.dcm".data, 0⟩ with
    | error e => simp [ha] at hplan
    | ok v =>
      simp only [ha] at hplan
      injection hplan with hplan
      subst hplan
      exact plan_single_series_archive context toolbox P St S _ _ v ha rfl
  · intro hbenign
    simp only [planCommands, hexp, Bool.false_eq_true, if_false]
    have hnew : ArchiveIndexVisitor.new ZipCommands.new =
        .ok ⟨ZipCommands.new, "%08d.dcm".data, 0⟩ := eq_ok_of_toOption (by decide!)
    simp only [hnew, apply_single_series]
    obtain ⟨v1, n1, ho1, -⟩ := open_archive context toolbox .Patient P
      ⟨ZipCommands.new, "%08d.dcm".data, 0⟩ (by decide)
    obtain ⟨v2, n2, ho2, -⟩ := open_archive context toolbox .Study St v1 (by decide)
    obtain ⟨v3, n3, ho3, -⟩ := open_archive context toolbox .Series S v2 (by decide)
    have f1 := (open_archive_format context toolbox .Patient P _ v1 ho1).1 (by decide)
    have f2 := (open_archive_format context toolbox .Study St _ v2 ho2).1 (by decide)
    have f3 := (open_archive_format context toolbox .Series S _ v3 ho3).2 rfl
    have hprints : ∀ i, ∃ name, snprintf 23 v3.instanceFormat_ [.int i] = some name := by
      cases ht : context.index.GetMainDicomTags S .Series with
      | none =>
        simp only [ht] at f3
        rw [f3, f2, f1]
        intro i
        exact ⟨_, rfl⟩
      | some tags =>
        simp only [ht] at f3
        obtain ⟨format, hf1, hf2⟩ := format_prints _ (hbenign tags ht)
        rw [hf1] at f3
        injection f3 with f3
        rw [← f3]
        exact hf2
    obtain ⟨v4, ha⟩ := applyInstances_archive_ok context toolbox _ hprints
      (leavesOf context.index S) v3 rfl
    simp only [ArchiveIndexVisitor.visitor] at ha ⊢
    simp only [ho1, ho2, ho3, ha, ArchiveIndexVisitor.Close]
    exact ⟨_, rfl⟩
  · simp only [planCommands, hexp, if_true, apply_single_series]
    obtain ⟨v1, added, h0, h1, h2, h3⟩ := applyInstances_media (leavesOf context.index S)
      { MediaIndexVisitor.new ZipCommands.new with
        commands_ := (MediaIndexVisitor.new ZipCommands.new).commands_.AddOpenDirectory
          MEDIA_IMAGES_FOLDER }
    simp only [MediaIndexVisitor.visitor] at h0 ⊢
    simp only [h0]
    refine ⟨_, rfl, ?_, ?_⟩
    · simp [ZipCommands.AddCloseDirectory, h1, h2, ZipCommands.AddOpenDirectory,
        MediaIndexVisitor.new, ZipCommands.new]
    · have hf := filter_writes added _ h2
      simp [ZipCommands.AddCloseDirectory, h1, ZipCommands.AddOpenDirectory,
        MediaIndexVisitor.new, ZipCommands.new, List.filter_append, hf, h3,
        Command.IsWriteInstance, List.filter_cons]

/-- The statement `series_after_instance_on_new_job` for the instance `I1` and
the series `SR1` of scenario S1. -/
theorem series_after_instance_on_new_job_s1 :
    (ArchiveJob.AddResource (contextOf s1Index) "SR1"
      (ArchiveJob.AddResource (contextOf s1Index) "I1" (ArchiveJob.new false false)).1).1.archive_ =
        singleSeriesTree "PT1" "ST1" "SR1" none ∧
    ArchiveIndex.IsPending ⟨.Series, "PT1", "ST1", "SR1", ""⟩ 3
      (singleSeriesTree "PT1" "ST1" "SR1" none) = true :=
  have h := series_after_instance_on_new_job (contextOf s1Index) scenarioToolbox "I1" "SR1" "ST1"
    "PT1" false false (eq_ok_of_toOption (by decide!)) (eq_ok_of_toOption (by decide!))
  ⟨h.1, h.2.1⟩

/-! ## The steps of a job -/

theorem getElem?_lt {α : Type} {l : List α} {i : Nat} {a : α} (h : l[i]? = some a) :
    i < l.length := by
  by_contra hn
  rw [List.getElem?_eq_none (by omega)] at h
  cases h

/-- `RunStep` on a command that opens or closes a directory makes the call of
the command and leaves the buffer as it is. -/
theorem runStep_directory (context : ServerContext) (w : ZipWriterIterator)
    (zip : HierarchicalZipWriter) (index : Nat) (c : Command)
    (transcode : Bool) (tsx : DicomTransferSyntax) (reading : Bool) (content buffer : String)
    (hzip : w.zip_ = some zip) (hmedia : w.isMedia_ = true → ∃ d, w.dicomDir_ = some d)
    (hc : w.commands_.commands_[index]? = some c) (hdir : c.IsWriteInstance = false) :
    w.RunStep context index transcode tsx reading content =
      (({ w with
          zip_ := some ⟨zip.isZip64, zip.calls ++ c.callsWith context transcode tsx buffer⟩ },
        content), .ok ()) := by
  have hlt := getElem?_lt hc
  obtain ⟨⟨cmds, usize, icount⟩, zip_, dicomDir, isMedia, isStream⟩ := w
  simp only at hzip hmedia hc hlt
  subst hzip
  have h1 : ¬ (index > cmds.length) := by omega
  have h2 : index ≠ cmds.length := by omega
  cases isMedia with
  | true =>
    obtain ⟨d, hd⟩ := hmedia rfl
    subst hd
    cases ht : c.type_ with
    | Type_WriteInstance => simp [Command.IsWriteInstance, ht] at hdir
    | Type_OpenDirectory =>
      simp [ZipWriterIterator.RunStep, ZipCommands.GetSize, h1, h2, hc, Command.Apply, ht,
        HierarchicalZipWriter.call, Command.callsWith]
    | Type_CloseDirectory =>
      simp [ZipWriterIterator.RunStep, ZipCommands.GetSize, h1, h2, hc, Command.Apply, ht,
        HierarchicalZipWriter.call, Command.callsWith]
  | false =>
    cases ht : c.type_ with
    | Type_WriteInstance => simp [Command.IsWriteInstance, ht] at hdir
    | Type_OpenDirectory =>
      simp [ZipWriterIterator.RunStep, ZipCommands.GetSize, h1, h2, hc, Command.Apply, ht,
        HierarchicalZipWriter.call, Command.callsWith]
    | Type_CloseDirectory =>
      simp [ZipWriterIterator.RunStep, ZipCommands.GetSize, h1, h2, hc, Command.Apply, ht,
        HierarchicalZipWriter.call, Command.callsWith]

/-- `RunStep` in read mode on a `WriteInstance` leaves the writer as it is; the
buffer takes the bytes of the instance, or stays as it was when `ReadDicom`
throws. -/
theorem runStep_read (context : ServerContext) (w : ZipWriterIterator)
    (zip : HierarchicalZipWriter) (index : Nat) (c : Command)
    (transcode : Bool) (tsx : DicomTransferSyntax) (content : String)
    (hzip : w.zip_ = some zip) (hmedia : w.isMedia_ = true → ∃ d, w.dicomDir_ = some d)
    (hc : w.commands_.commands_[index]? = some c) (hwrite : c.IsWriteInstance = true) :
    ∃ content1, w.RunStep context index transcode tsx true content = ((w, content1), .ok ()) ∧
      (∀ data, context.ReadDicom c.instanceId_ = .ok data → content1 = data) ∧
      (∀ e, context.ReadDicom c.instanceId_ = .error e → content1 = content) := by
  have hlt := getElem?_lt hc
  obtain ⟨⟨cmds, usize, icount⟩, zip_, dicomDir, isMedia, isStream⟩ := w
  simp only at hzip hmedia hc hlt
  subst hzip
  have h1 : ¬ (index > cmds.length) := by omega
  have h2 : index ≠ cmds.length := by omega
  have ht : c.type_ = .Type_WriteInstance := by
    simpa [Command.IsWriteInstance] using hwrite
  cases isMedia with
  | true =>
    obtain ⟨d, hd⟩ := hmedia rfl
    subst hd
    cases hr : context.ReadDicom c.instanceId_ with
    | ok data =>
      exact ⟨data, by simp [ZipWriterIterator.RunStep, ZipCommands.GetSize, h1, h2, hc,
        Command.Apply, ht, hr], by simp, by simp⟩
    | error e =>
      exact ⟨content, by simp [ZipWriterIterator.RunStep, ZipCommands.GetSize, h1, h2, hc,
        Command.Apply, ht, hr], by simp, by simp⟩
  | false =>
    cases hr : context.ReadDicom c.instanceId_ with
    | ok data =>
      exact ⟨data, by simp [ZipWriterIterator.RunStep, ZipCommands.GetSize, h1, h2, hc,
        Command.Apply, ht, hr], by simp, by simp⟩
    | error e =>
      exact ⟨content, by simp [ZipWriterIterator.RunStep, ZipCommands.GetSize, h1, h2, hc,
        Command.Apply, ht, hr], by simp, by simp⟩

/-- The buffer that a read leaves in a slot that was free is one of those that
`IsBuffer` allows. -/
theorem isBuffer_of_read (context : ServerContext) (stale : List String) (c : Command)
    (content content1 : String) (hfree : content = "" ∨ content ∈ stale)
    (hok : ∀ data, context.ReadDicom c.instanceId_ = .ok data → content1 = data)
    (herr : ∀ e, context.ReadDicom c.instanceId_ = .error e → content1 = content) :
    c.IsBuffer context stale content1 := by
  unfold Command.IsBuffer
  cases hr : context.ReadDicom c.instanceId_ with
  | ok data => exact hok data hr
  | error e =>
    rw [herr e hr]
    exact hfree

/-- `RunStep` in write mode on a `WriteInstance` whose buffer does not make the
write phase throw makes the calls of the command with that buffer; in media
mode the DICOMDIR writer takes one more entry. -/
theorem runStep_write (context : ServerContext) (w : ZipWriterIterator)
    (zip : HierarchicalZipWriter) (index : Nat) (c : Command)
    (transcode : Bool) (tsx : DicomTransferSyntax) (content : String)
    (hzip : w.zip_ = some zip) (hmedia : w.isMedia_ = true → ∃ d, w.dicomDir_ = some d)
    (hparse : Parses context w.isMedia_ transcode tsx content)
    (hc : w.commands_.commands_[index]? = some c) (hwrite : c.IsWriteInstance = true) :
    ∃ dicomDir, (w.isMedia_ = true → ∃ d, dicomDir = some d) ∧
      w.RunStep context index transcode tsx false content =
        (({ w with
            zip_ := some ⟨zip.isZip64, zip.calls ++ c.callsWith context transcode tsx content⟩
            dicomDir_ := dicomDir }, content), .ok ()) := by
  have hlt := getElem?_lt hc
  obtain ⟨⟨cmds, usize, icount⟩, zip_, dicomDir, isMedia, isStream⟩ := w
  simp only at hzip hmedia hc hlt hparse
  subst hzip
  have h1 : ¬ (index > cmds.length) := by omega
  have h2 : index ≠ cmds.length := by omega
  have ht : c.type_ = .Type_WriteInstance := by
    simpa [Command.IsWriteInstance] using hwrite
  cases isMedia with
  | true =>
    obtain ⟨d, hd⟩ := hmedia rfl
    subst hd
    cases htr : (if transcode then context.Transcode content tsx else none) with
    | none =>
      obtain ⟨parsed, hp⟩ := hparse rfl htr
      refine ⟨some (d.Add MEDIA_IMAGES_FOLDER c.filename_ parsed), fun _ => ⟨_, rfl⟩, ?_⟩
      simp [ZipWriterIterator.RunStep, ZipCommands.GetSize, h1, h2, hc, Command.Apply, ht,
        HierarchicalZipWriter.call, Command.callsWith, htr, hp]
    | some r =>
      refine ⟨some (d.Add MEDIA_IMAGES_FOLDER c.filename_ r.2), fun _ => ⟨_, rfl⟩, ?_⟩
      simp [ZipWriterIterator.RunStep, ZipCommands.GetSize, h1, h2, hc, Command.Apply, ht,
        HierarchicalZipWriter.call, Command.callsWith, htr]
  | false =>
    refine ⟨dicomDir, fun h => by simp at h, ?_⟩
    cases htr : (if transcode then context.Transcode content tsx else none) with
    | none =>
      simp [ZipWriterIterator.RunStep, ZipCommands.GetSize, h1, h2, hc, Command.Apply, ht,
        HierarchicalZipWriter.call, Command.callsWith, htr]
    | some r =>
      simp [ZipWriterIterator.RunStep, ZipCommands.GetSize, h1, h2, hc, Command.Apply, ht,
        HierarchicalZipWriter.call, Command.callsWith, htr]


/-- `EndThreadIndexOf` on a slot in flight joins its thread, makes the calls of
its command with the buffer of the slot and empties the buffer. -/
theorem endThreadIndexOf_loaded (context : ServerContext) (j : ArchiveJob)
    (w : ZipWriterIterator) (zip : HierarchicalZipWriter) (k : Nat) (t : Threads) (c : Command)
    (hw : j.writer_ = some w) (hzip : w.zip_ = some zip)
    (hmedia : w.isMedia_ = true → ∃ d, w.dicomDir_ = some d)
    (ht : j.threads_[k]? = some t) (hjoin : t.thread = true)
    (hparse : Parses context w.isMedia_ j.transcode_ j.transferSyntax_ t.content)
    (hc : w.commands_.commands_[t.threadCurrentStep]? = some c)
    (hwrite : c.IsWriteInstance = true) :
    ∃ dicomDir, (w.isMedia_ = true → ∃ d, dicomDir = some d) ∧
      ArchiveJob.EndThreadIndexOf context k j =
        ({ j with
           writer_ := some { w with
             zip_ := some ⟨zip.isZip64,
               zip.calls ++ c.callsWith context j.transcode_ j.transferSyntax_ t.content⟩
             dicomDir_ := dicomDir }
           threads_ := j.threads_.set k ⟨false, true, "", true, t.threadCurrentStep⟩ },
          .ok true) := by
  obtain ⟨dicomDir, hd, hrun⟩ := runStep_write context w zip t.threadCurrentStep c j.transcode_
    j.transferSyntax_ t.content hzip hmedia hparse hc hwrite
  refine ⟨dicomDir, hd, ?_⟩
  simp only [ArchiveJob.EndThreadIndexOf, hw, ht, hjoin, Bool.true_eq_false, if_false, hrun]


theorem callsOf_nil (context : ServerContext) (transcode : Bool) (tsx : DicomTransferSyntax)
    (commands : List Command) : callsOf context transcode tsx commands [] = [] := by
  simp [callsOf]

theorem callsOf_append (context : ServerContext) (transcode : Bool) (tsx : DicomTransferSyntax)
    (commands : List Command) (a b : List Nat) :
    callsOf context transcode tsx commands (a ++ b) =
      callsOf context transcode tsx commands a ++ callsOf context transcode tsx commands b := by
  simp [callsOf]

theorem callsOf_single (context : ServerContext) (transcode : Bool) (tsx : DicomTransferSyntax)
    (commands : List Command) (k : Nat) (c : Command) (hc : commands[k]? = some c) :
    callsOf context transcode tsx commands [k] = c.zipCalls context transcode tsx := by
  simp [callsOf, hc]

theorem callsWith_nil (context : ServerContext) (transcode : Bool) (tsx : DicomTransferSyntax)
    (commands : List Command) : callsWith context transcode tsx commands [] = [] := by
  simp [callsWith]

theorem callsWith_append (context : ServerContext) (transcode : Bool)
    (tsx : DicomTransferSyntax) (commands : List Command) (a b : List (Nat × String)) :
    callsWith context transcode tsx commands (a ++ b) =
      callsWith context transcode tsx commands a ++
        callsWith context transcode tsx commands b := by
  simp [callsWith]

theorem callsWith_single (context : ServerContext) (transcode : Bool)
    (tsx : DicomTransferSyntax) (commands : List Command) (k : Nat) (content : String)
    (c : Command) (hc : commands[k]? = some c) :
    callsWith context transcode tsx commands [(k, content)] =
      c.callsWith context transcode tsx content := by
  simp [callsWith, hc]

/-- The calls expected of a command are those it makes with its payload as
buffer. -/
theorem zipCalls_eq_callsWith (context : ServerContext) (transcode : Bool)
    (tsx : DicomTransferSyntax) (c : Command) :
    c.zipCalls context transcode tsx = c.callsWith context transcode tsx (c.payload context) := by
  cases ht : c.type_ <;> simp [Command.zipCalls, Command.callsWith, ht]

/-- The calls expected for a list of indices are those made when every command
is applied with its payload as buffer. -/
theorem callsOf_eq_callsWith (context : ServerContext) (transcode : Bool)
    (tsx : DicomTransferSyntax) (commands : List Command) (order : List Nat) :
    callsOf context transcode tsx commands order =
      callsWith context transcode tsx commands
        (order.map (fun k => (k, match commands[k]? with
          | some c => c.payload context
          | none => ""))) := by
  induction order with
  | nil => simp [callsOf, callsWith]
  | cons k rest ih =>
    have h1 : callsOf context transcode tsx commands (k :: rest) =
        callsOf context transcode tsx commands [k] ++
          callsOf context transcode tsx commands rest :=
      callsOf_append context transcode tsx commands [k] rest
    rw [h1, ih, List.map_cons]
    have h2 : ∀ (p : Nat × String) (l : List (Nat × String)),
        callsWith context transcode tsx commands (p :: l) =
          callsWith context transcode tsx commands [p] ++
            callsWith context transcode tsx commands l :=
      fun p l => callsWith_append context transcode tsx commands [p] l
    rw [h2]
    congr 1
    cases hk : commands[k]? with
    | none => simp [callsOf, callsWith, hk]
    | some c =>
      rw [callsOf_single context transcode tsx commands k c hk,
        callsWith_single context transcode tsx commands k _ c hk, zipCalls_eq_callsWith]

theorem slotSteps_self (threads : List Threads) (i : Nat) : slotSteps threads i i = [] := by
  simp [slotSteps]

theorem slotWrites_self (threads : List Threads) (i : Nat) : slotWrites threads i i = [] := by
  simp [slotWrites]

theorem slotWrites_fst (threads : List Threads) (lo hi : Nat) :
    (slotWrites threads lo hi).map Prod.fst = slotSteps threads lo hi := by
  simp [slotWrites, slotSteps, List.map_map, Function.comp_def]

theorem slotWrites_succ (threads : List Threads) (i rem : Nat) (t x : Threads)
    (ht : threads[i]? = some t) :
    slotWrites threads i (i + (rem + 1)) =
      (t.threadCurrentStep, t.content) ::
        slotWrites (threads.set i x) (i + 1) (i + 1 + rem) := by
  have hlt := getElem?_lt ht
  have hget : threads[i] = t := by
    rw [List.getElem?_eq_getElem hlt] at ht
    exact Option.some.inj ht
  have h1 : threads.drop i = t :: threads.drop (i + 1) := by
    rw [← hget]
    exact List.drop_eq_getElem_cons hlt
  have h2 : (threads.set i x).drop (i + 1) = threads.drop (i + 1) := by
    rw [List.drop_set_of_lt _ _ (by omega)]
  simp only [slotWrites, h1, h2]
  have e1 : i + (rem + 1) - i = rem + 1 := by omega
  have e2 : i + 1 + rem - (i + 1) = rem := by omega
  rw [e1, e2]
  simp [List.take_succ_cons]

/-- The slots in flight hold buffers that their reading threads can have
left. -/
theorem slotWrites_held (context : ServerContext) (stale : List String)
    (commands : List Command) (threads : List Threads) (lo hi : Nat)
    (h : SlotsOk context stale commands threads lo hi) :
    ∀ p ∈ slotWrites threads lo hi, Held context stale commands p := by
  intro p hp
  simp only [slotWrites, List.mem_map] at hp
  obtain ⟨t, ht, rfl⟩ := hp
  obtain ⟨n, hn⟩ := List.mem_iff_getElem?.mp ht
  rw [List.getElem?_take] at hn
  split at hn
  · rw [List.getElem?_drop] at hn
    have hlt := getElem?_lt hn
    obtain ⟨-, -, c, hc, -, hbuf⟩ := (h.2 _ _ hn).1 ⟨by omega, by omega⟩
    intro c1 hc1 _
    simp only at hc1
    rw [hc] at hc1
    injection hc1 with hc1
    subst hc1
    exact hbuf
  · cases hn


/-- The drain loop on slots that are all in flight makes the calls of their
commands in slot order, each with the buffer of its slot, and leaves every slot
free. -/
theorem endThreadsFrom_loaded (context : ServerContext) (stale : List String) :
    ∀ (rem i : Nat) (j : ArchiveJob) (w : ZipWriterIterator) (zip : HierarchicalZipWriter),
      j.writer_ = some w → w.zip_ = some zip →
      (w.isMedia_ = true → ∃ d, w.dicomDir_ = some d) →
      WritesParse context stale w.commands_.commands_ w.isMedia_ j.transcode_
        j.transferSyntax_ →
      SlotsOk context stale w.commands_.commands_ j.threads_ i (i + rem) → i + rem ≤ 3 →
      ∃ dicomDir threads, (w.isMedia_ = true → ∃ d, dicomDir = some d) ∧
        SlotsOk context stale w.commands_.commands_ threads (i + rem) (i + rem) ∧
        ArchiveJob.endThreadsFrom context rem i j =
          ({ j with
             writer_ := some { w with
               zip_ := some ⟨zip.isZip64, zip.calls ++
                 callsWith context j.transcode_ j.transferSyntax_ w.commands_.commands_
                   (slotWrites j.threads_ i (i + rem))⟩
               dicomDir_ := dicomDir }
             threads_ := threads }, .ok ()) := by
  intro rem
  induction rem with
  | zero =>
    intro i j w zip hw hzip hmedia _ hslots _
    refine ⟨w.dicomDir_, j.threads_, hmedia, hslots, ?_⟩
    simp only [ArchiveJob.endThreadsFrom, Nat.add_zero, slotWrites_self, callsWith_nil,
      List.append_nil]
    obtain ⟨cmds, zip_, dicomDir, isMedia, isStream⟩ := w
    simp only at hzip
    subst hzip
    rw [← hw]
  | succ rem ih =>
    intro i j w zip hw hzip hmedia hparse hslots hle
    obtain ⟨hlen, hall⟩ := hslots
    have hi : i < j.threads_.length := by omega
    have ht : j.threads_[i]? = some j.threads_[i] := List.getElem?_eq_getElem hi
    obtain ⟨hjoin, -, c, hc, hwrite, hbuf⟩ := (hall i _ ht).1 ⟨le_refl _, by omega⟩
    have hp := hparse c (List.mem_iff_getElem?.mpr ⟨_, hc⟩) hwrite _ hbuf
    obtain ⟨dd1, hdd1, hend⟩ := endThreadIndexOf_loaded context j w zip i _ c hw hzip hmedia
      ht hjoin hp hc hwrite
    have hslots1 : SlotsOk context stale w.commands_.commands_
        (j.threads_.set i ⟨false, true, "", true, j.threads_[i].threadCurrentStep⟩) (i + 1)
        (i + 1 + rem) := by
      refine ⟨by simp [hlen], ?_⟩
      intro k t hk
      by_cases hki : k = i
      · subst hki
        rw [List.getElem?_set_self hi] at hk
        injection hk with hk
        subst hk
        exact ⟨fun h => absurd h.1 (by omega), fun _ => ⟨rfl, Or.inl rfl⟩⟩
      · rw [List.getElem?_set_ne (Ne.symm hki)] at hk
        obtain ⟨h1, h2⟩ := hall k t hk
        exact ⟨fun h => h1 ⟨by omega, by omega⟩, fun h => h2 (by omega)⟩
    obtain ⟨dd2, threads, hdd2, hslots2, hrest⟩ := ih (i + 1)
      { j with
        writer_ := some { w with
          zip_ := some ⟨zip.isZip64,
            zip.calls ++ c.callsWith context j.transcode_ j.transferSyntax_
              (j.threads_[i]).content⟩
          dicomDir_ := dd1 }
        threads_ := j.threads_.set i ⟨false, true, "", true, j.threads_[i].threadCurrentStep⟩ }
      { w with
        zip_ := some ⟨zip.isZip64,
          zip.calls ++ c.callsWith context j.transcode_ j.transferSyntax_
            (j.threads_[i]).content⟩
        dicomDir_ := dd1 }
      ⟨zip.isZip64, zip.calls ++ c.callsWith context j.transcode_ j.transferSyntax_
        (j.threads_[i]).content⟩
      rfl rfl hdd1 hparse hslots1 (by omega)
    refine ⟨dd2, threads, hdd2, ?_, ?_⟩
    · have e : i + (rem + 1) = i + 1 + rem := by omega
      rw [e]
      exact hslots2
    · rw [ArchiveJob.endThreadsFrom, hend]
      simp only [hrest]
      rw [slotWrites_succ j.threads_ i rem _
        ⟨false, true, "", true, j.threads_[i].threadCurrentStep⟩ ht]
      have hsplit : ∀ (a : Nat × String) (l : List (Nat × String)),
          callsWith context j.transcode_ j.transferSyntax_ w.commands_.commands_ (a :: l) =
            callsWith context j.transcode_ j.transferSyntax_ w.commands_.commands_ [a] ++
              callsWith context j.transcode_ j.transferSyntax_ w.commands_.commands_ l :=
        fun a l => callsWith_append context _ _ _ [a] l
      rw [hsplit, callsWith_single context _ _ _ _ _ c hc]
      simp only [List.append_assoc]


theorem scanFinished_lt : ∀ (waiting i : Nat), i < 3 → ArchiveJob.scanFinished waiting i < 3 := by
  intro waiting
  induction waiting with
  | zero => intro i h; simpa [ArchiveJob.scanFinished] using h
  | succ n ih =>
    intro i _
    rw [ArchiveJob.scanFinished]
    exact ih _ (Nat.mod_lt _ (by decide))

theorem slotsOk_empty (context : ServerContext) (stale : List String) (commands : List Command)
    (threads : List Threads) (a b : Nat) (h : SlotsOk context stale commands threads a a) :
    SlotsOk context stale commands threads b b := by
  refine ⟨h.1, ?_⟩
  intro k t hk
  exact ⟨fun hr => absurd hr.2 (by omega), fun _ => (h.2 k t hk).2 (by omega)⟩

/-- When no slot is in flight, no handle is joinable. -/
theorem slotsOk_idle (context : ServerContext) (stale : List String) (commands : List Command)
    (threads : List Threads) (a : Nat) (h : SlotsOk context stale commands threads a a) :
    threads.length = 3 ∧ ∀ t ∈ threads, t.thread = false := by
  refine ⟨h.1, ?_⟩
  intro t ht
  obtain ⟨k, hk⟩ := List.mem_iff_getElem?.mp ht
  exact ((h.2 k t hk).2 (by omega)).1

theorem inFlight_eq (j : ArchiveJob) :
    j.inFlight = (slotWrites j.threads_ 0 j.threadsActive_).map Prod.fst := by
  rw [slotWrites_fst]
  rfl

/-- The try block on a directory command: the slots in flight are drained in
slot order, then the command is applied. -/
theorem stepTry_directory (context : ServerContext) (stale : List String)
    (commands : List Command)
    (isMedia transcode : Bool) (tsx : DicomTransferSyntax) (cur : Nat)
    (written : List (Nat × String))
    (waiting : Nat) (j : ArchiveJob) (w : ZipWriterIterator) (c : Command)
    (hrun : Running context stale commands isMedia transcode tsx cur written j)
    (hparse : WritesParse context stale commands isMedia transcode tsx)
    (hw : j.writer_ = some w)
    (hc : commands[cur]? = some c) (hdir : c.IsWriteInstance = false) :
    ∃ j1, ArchiveJob.stepTry context waiting w j = (j1, .ok ()) ∧
      Running context stale commands isMedia transcode tsx cur
        (written ++ slotWrites j.threads_ 0 j.threadsActive_ ++ [(cur, "")]) j1 ∧
      j1.threadsActive_ = 0 := by
  obtain ⟨⟨w0, zip, hw0, hzip, hcmds, hmedia, hcalls, hdd⟩, ⟨htr, htsx, hcur⟩, hact, hslots,
    hheld⟩ := hrun
  rw [hw] at hw0
  injection hw0 with hw0
  subst hw0
  have hlt := getElem?_lt hc
  subst hcmds hmedia htr htsx
  have hslots0 : SlotsOk context stale w.commands_.commands_ j.threads_ 0
      (0 + j.threadsActive_) := by
    simpa using hslots
  obtain ⟨dd, threads, hdd1, hslots1, hdrain⟩ := endThreadsFrom_loaded context stale
    j.threadsActive_ 0 j w zip hw hzip hdd hparse hslots0 (by omega)
  have hstep : cur ≠ w.GetStepsCount - 1 := by
    simp [ZipWriterIterator.GetStepsCount, ZipCommands.GetSize]
    omega
  have hkind : w.CurrentCommandIsWriteInstance cur = some false := by
    simp [ZipWriterIterator.CurrentCommandIsWriteInstance, hc, hdir]
  have hrunstep := runStep_directory context
    { w with
      zip_ := some ⟨zip.isZip64, zip.calls ++
        callsWith context j.transcode_ j.transferSyntax_ w.commands_.commands_
          (slotWrites j.threads_ 0 (0 + j.threadsActive_))⟩
      dicomDir_ := dd }
    ⟨zip.isZip64, zip.calls ++
        callsWith context j.transcode_ j.transferSyntax_ w.commands_.commands_
          (slotWrites j.threads_ 0 (0 + j.threadsActive_))⟩
    cur c j.transcode_ j.transferSyntax_
    ((threads[j.threadsActive_]?).getD ⟨false, false, "", true, 0⟩).boolRead
    ((threads[j.threadsActive_]?).getD ⟨false, false, "", true, 0⟩).content ""
    rfl hdd1 hc hdir
  refine ⟨{ j with
      writer_ := some { w with
        zip_ := some ⟨zip.isZip64, (zip.calls ++
          callsWith context j.transcode_ j.transferSyntax_ w.commands_.commands_
            (slotWrites j.threads_ 0 (0 + j.threadsActive_))) ++
          c.callsWith context j.transcode_ j.transferSyntax_ ""⟩
        dicomDir_ := dd }
      threads_ := threads
      threadsActive_ := 0 }, ?_, ?_, ?_⟩
  · simp only [ArchiveJob.stepTry, hstep, ne_eq, not_false_eq_true, if_true, hkind,
      ArchiveJob.stepDirectory, hdrain, hcur, hrunstep]
  · refine ⟨⟨_, _, rfl, rfl, rfl, rfl, ?_, hdd1⟩, ⟨rfl, rfl, hcur⟩, by simp, ?_, ?_⟩
    · simp only [callsWith_append, hcalls, Nat.zero_add,
        callsWith_single context _ _ _ _ _ c hc, List.append_assoc]
    · exact slotsOk_empty context _ _ _ _ _ hslots1
    · intro p hp
      rw [List.mem_append, List.mem_append, List.mem_singleton] at hp
      rcases hp with (hp | hp) | hp
      · exact hheld p hp
      · exact slotWrites_held context stale _ _ _ _ hslots p hp
      · subst hp
        intro c1 hc1 hw1
        simp only at hc1
        rw [hc] at hc1
        injection hc1 with hc1
        subst hc1
        rw [hdir] at hw1
        cases hw1
  · rfl


theorem slotSteps_zero (threads : List Threads) (n : Nat) :
    slotSteps threads 0 n = (threads.take n).map (fun t => t.threadCurrentStep) := by
  simp [slotSteps]

theorem take_set_self {α : Type} (l : List α) (a : Nat) (x : α) :
    (l.set a x).take a = l.take a := by
  apply List.ext_getElem?
  intro i
  rw [List.getElem?_take, List.getElem?_take]
  split
  · rw [List.getElem?_set_ne (by omega)]
  · rfl

theorem slotSteps_launch (threads : List Threads) (a : Nat) (x : Threads)
    (h : a < threads.length) :
    slotSteps (threads.set a x) 0 (a + 1) = slotSteps threads 0 a ++ [x.threadCurrentStep] := by
  rw [slotSteps_zero, slotSteps_zero, List.take_succ, List.getElem?_set_self h, take_set_self]
  simp

theorem slotSteps_all (threads : List Threads) (h : threads.length = 3) :
    slotSteps threads 0 3 = threads.map (fun t => t.threadCurrentStep) := by
  rw [slotSteps_zero, List.take_of_length_le (by omega)]

theorem slotWrites_all (threads : List Threads) (h : threads.length = 3) :
    slotWrites threads 0 3 = threads.map (fun t => (t.threadCurrentStep, t.content)) := by
  simp only [slotWrites, List.drop_zero, Nat.sub_zero]
  rw [List.take_of_length_le (by omega)]

/-- The try block on a `WriteInstance` when a slot is free: the slot is
launched for the command and nothing is written. -/
theorem stepTry_launch (context : ServerContext) (stale : List String)
    (commands : List Command)
    (isMedia transcode : Bool) (tsx : DicomTransferSyntax) (cur : Nat)
    (written : List (Nat × String))
    (waiting : Nat) (j : ArchiveJob) (w : ZipWriterIterator) (c : Command)
    (hrun : Running context stale commands isMedia transcode tsx cur written j)
    (hw : j.writer_ = some w)
    (hc : commands[cur]? = some c) (hwrite : c.IsWriteInstance = true)
    (hfree : j.threadsActive_ < 3) :
    ∃ j1, ArchiveJob.stepTry context waiting w j = (j1, .ok ()) ∧
      Running context stale commands isMedia transcode tsx cur written j1 ∧
      j1.inFlight = j.inFlight ++ [cur] := by
  obtain ⟨⟨w0, zip, hw0, hzip, hcmds, hmedia, hcalls, hdd⟩, ⟨htr, htsx, hcur⟩, hact, hslots,
    hheld⟩ := hrun
  rw [hw] at hw0
  injection hw0 with hw0
  subst hw0
  have hlt := getElem?_lt hc
  subst hcmds hmedia
  obtain ⟨hlen, hall⟩ := hslots
  have ha : j.threadsActive_ < j.threads_.length := by omega
  have hslot : j.threads_[j.threadsActive_]? = some j.threads_[j.threadsActive_] :=
    List.getElem?_eq_getElem ha
  obtain ⟨hnojoin, hstale⟩ := (hall _ _ hslot).2 (by omega)
  have hstep : cur ≠ w.GetStepsCount - 1 := by
    simp [ZipWriterIterator.GetStepsCount, ZipCommands.GetSize]
    omega
  have hkind : w.CurrentCommandIsWriteInstance cur = some true := by
    simp [ZipWriterIterator.CurrentCommandIsWriteInstance, hc, hwrite]
  obtain ⟨content1, hread, hok, herr⟩ := runStep_read context w zip cur c j.transcode_
    j.transferSyntax_ (j.threads_[j.threadsActive_]).content hzip hdd hc hwrite
  have hbuf := isBuffer_of_read context stale c _ content1 hstale hok herr
  have hnb : j.threadsActive_ < NB_THREAD := hfree
  refine ⟨{ j with
      writer_ := some w
      threads_ := j.threads_.set j.threadsActive_ ⟨true, true, content1, false, cur⟩
      threadsActive_ := j.threadsActive_ + 1 }, ?_, ?_, ?_⟩
  · simp only [ArchiveJob.stepTry, hcur, hstep, ne_eq, not_false_eq_true, if_true, hkind,
      ArchiveJob.stepInstance, hnb, hslot, ArchiveJob.launch, ArchiveJob.RunStepReadInstance, hw,
      List.getElem?_set_self ha, hnojoin, Bool.false_eq_true, if_false, hread, List.set_set,
      List.length_set]
  · refine ⟨⟨w, zip, rfl, hzip, rfl, rfl, hcalls, hdd⟩, ⟨htr, htsx, hcur⟩, by simp; omega, ?_,
      hheld⟩
    refine ⟨by simp [hlen], ?_⟩
    intro k t hk
    by_cases hka : k = j.threadsActive_
    · subst hka
      simp only [List.getElem?_set_self ha] at hk
      injection hk with hk
      subst hk
      exact ⟨fun _ => ⟨rfl, rfl, c, hc, hwrite, hbuf⟩, fun h => absurd h (by simp)⟩
    · simp only [List.getElem?_set_ne (Ne.symm hka)] at hk
      obtain ⟨h1, h2⟩ := hall k t hk
      exact ⟨fun h => h1 ⟨by omega, by simp at h; omega⟩, fun h => h2 (by simp at h ⊢; omega)⟩
  · simp only [ArchiveJob.inFlight]
    rw [slotSteps_launch _ _ _ ha]


/-- The try block on a `WriteInstance` when the three slots are in flight:
the command of the slot the scan stops at is written with the buffer of the
slot, and the slot is launched for the current command. -/
theorem stepTry_scan (context : ServerContext) (stale : List String)
    (commands : List Command)
    (isMedia transcode : Bool) (tsx : DicomTransferSyntax) (cur : Nat)
    (written : List (Nat × String))
    (waiting : Nat) (j : ArchiveJob) (w : ZipWriterIterator) (c : Command)
    (hrun : Running context stale commands isMedia transcode tsx cur written j)
    (hparse : WritesParse context stale commands isMedia transcode tsx)
    (hw : j.writer_ = some w)
    (hc : commands[cur]? = some c) (hwrite : c.IsWriteInstance = true)
    (hfull : j.threadsActive_ = 3) :
    ∃ j1 i x content, ArchiveJob.stepTry context waiting w j = (j1, .ok ()) ∧
      Running context stale commands isMedia transcode tsx cur (written ++ [(x, content)]) j1 ∧
      j.inFlight[i]? = some x ∧ j1.inFlight = j.inFlight.set i cur := by
  obtain ⟨⟨w0, zip, hw0, hzip, hcmds, hmedia, hcalls, hdd⟩, ⟨htr, htsx, hcur⟩, hact, hslots,
    hheld⟩ := hrun
  rw [hw] at hw0
  injection hw0 with hw0
  subst hw0
  have hlt := getElem?_lt hc
  subst hcmds hmedia htr htsx
  obtain ⟨hlen, hall⟩ := hslots
  have hi3 := scanFinished_lt waiting 0 (by decide)
  generalize hidef : ArchiveJob.scanFinished waiting 0 = i at hi3
  have hi : i < j.threads_.length := by omega
  have hslot : j.threads_[i]? = some j.threads_[i] := List.getElem?_eq_getElem hi
  obtain ⟨hjoin, -, ci, hci, hwi, hbufi⟩ := (hall _ _ hslot).1 ⟨by omega, by omega⟩
  have hp := hparse ci (List.mem_iff_getElem?.mpr ⟨_, hci⟩) hwi _ hbufi
  obtain ⟨dd1, hdd1, hend⟩ := endThreadIndexOf_loaded context j w zip i _ ci hw hzip hdd
    hslot hjoin hp hci hwi
  have hstep : cur ≠ w.GetStepsCount - 1 := by
    simp [ZipWriterIterator.GetStepsCount, ZipCommands.GetSize]
    omega
  have hkind : w.CurrentCommandIsWriteInstance cur = some true := by
    simp [ZipWriterIterator.CurrentCommandIsWriteInstance, hc, hwrite]
  obtain ⟨content1, hread, hok, herr⟩ := runStep_read context
    { w with
      zip_ := some ⟨zip.isZip64, zip.calls ++
        ci.callsWith context j.transcode_ j.transferSyntax_ (j.threads_[i]).content⟩
      dicomDir_ := dd1 }
    ⟨zip.isZip64, zip.calls ++
      ci.callsWith context j.transcode_ j.transferSyntax_ (j.threads_[i]).content⟩
    cur c j.transcode_ j.transferSyntax_ "" rfl hdd1 hc hwrite
  have hbuf := isBuffer_of_read context stale c "" content1 (Or.inl rfl) hok herr
  have hnb : ¬ j.threadsActive_ < NB_THREAD := by simp [NB_THREAD, hfull]
  refine ⟨{ j with
      writer_ := some { w with
        zip_ := some ⟨zip.isZip64,
          zip.calls ++ ci.callsWith context j.transcode_ j.transferSyntax_
            (j.threads_[i]).content⟩
        dicomDir_ := dd1 }
      threads_ := j.threads_.set i ⟨true, true, content1, false, cur⟩ },
    i, (j.threads_[i]).threadCurrentStep, (j.threads_[i]).content, ?_, ?_, ?_, ?_⟩
  · simp only [ArchiveJob.stepTry, hcur, hstep, ne_eq, not_false_eq_true, if_true, hkind,
      ArchiveJob.stepInstance, hnb, if_false, hidef, hend, List.getElem?_set_self hi,
      ArchiveJob.launch, ArchiveJob.RunStepReadInstance, List.set_set, Bool.false_eq_true,
      List.length_set, hread]
  · refine ⟨⟨_, _, rfl, rfl, rfl, rfl, ?_, hdd1⟩, ⟨rfl, rfl, hcur⟩, by simp; omega, ?_, ?_⟩
    · simp only [callsWith_append, hcalls, callsWith_single context _ _ _ _ _ ci hci]
    · refine ⟨by simp [hlen], ?_⟩
      intro k t hk
      by_cases hka : k = i
      · subst hka
        simp only [List.getElem?_set_self hi] at hk
        injection hk with hk
        subst hk
        exact ⟨fun _ => ⟨rfl, rfl, c, hc, hwrite, hbuf⟩, fun h => absurd h (by simp; omega)⟩
      · simp only [List.getElem?_set_ne (Ne.symm hka)] at hk
        exact hall k t hk
    · intro p hp
      rw [List.mem_append, List.mem_singleton] at hp
      rcases hp with hp | hp
      · exact hheld p hp
      · subst hp
        intro c1 hc1 _
        simp only at hc1
        rw [hci] at hc1
        injection hc1 with hc1
        subst hc1
        exact hbufi
  · simp only [ArchiveJob.inFlight, hfull, slotSteps_all _ hlen]
    simp [hslot]
  · simp only [ArchiveJob.inFlight, hfull]
    rw [slotSteps_all _ hlen, slotSteps_all _ (by simp [hlen]), List.map_set]


/-- After a try block that returns before the last step, `Step` increments
`currentStep_`, records the size of the archive and returns `Continue`. -/
theorem step_of_try (context : ServerContext) (framework : Framework) (stale : List String)
    (commands : List Command) (isMedia transcode : Bool) (tsx : DicomTransferSyntax)
    (cur : Nat) (written1 : List (Nat × String)) (waiting : Nat) (j j1 : ArchiveJob)
    (w : ZipWriterIterator)
    (hw : j.writer_ = some w) (hcmds : w.commands_.commands_ = commands)
    (hlt : cur < commands.length)
    (htry : ArchiveJob.stepTry context waiting w j = (j1, .ok ()))
    (hrun1 : Running context stale commands isMedia transcode tsx cur written1 j1) :
    ∃ j2, ArchiveJob.Step context framework waiting j = (j2, .ok .Continue) ∧
      Running context stale commands isMedia transcode tsx (cur + 1) written1 j2 ∧
      j2.inFlight = j1.inFlight ∧ j2.threadsActive_ = j1.threadsActive_ ∧
      j2.threads_ = j1.threads_ := by
  obtain ⟨⟨w1, zip1, hw1, hzip1, hcmds1, hmedia1, hcalls1, hdd1⟩, ⟨htr, htsx, hcur⟩, hact,
    hslots, hheld⟩ := hrun1
  have hcount : w.GetStepsCount = commands.length + 1 := by
    simp [ZipWriterIterator.GetStepsCount, ZipCommands.GetSize, hcmds]
  refine ⟨{ j1 with currentStep_ := cur + 1, archiveSize_ := framework.GetArchiveSize zip1.calls },
    ?_, ?_, rfl, rfl, rfl⟩
  · have h1 : ¬ (cur = commands.length + 1 - 1) := by omega
    have h2 : ¬ (cur + 1 = commands.length + 1) := by omega
    simp only [ArchiveJob.Step, hw, hcount, Nat.add_one_ne_zero, if_false, htry, hcur, h1,
      ArchiveJob.stepFinish, h2, hw1, ZipWriterIterator.GetArchiveSize, hzip1]
  · exact ⟨⟨w1, zip1, hw1, hzip1, hcmds1, hmedia1, hcalls1, hdd1⟩, ⟨htr, htsx, rfl⟩, hact, hslots,
      hheld⟩

/-- One call of `Step` before the last step returns `Continue`, and acts on
the indices as `SlotStep` says. -/
theorem step_continue (context : ServerContext) (framework : Framework) (stale : List String)
    (commands : List Command) (isMedia transcode : Bool) (tsx : DicomTransferSyntax)
    (cur : Nat) (written : List (Nat × String)) (waiting : Nat) (j : ArchiveJob)
    (hrun : Running context stale commands isMedia transcode tsx cur written j)
    (hparse : WritesParse context stale commands isMedia transcode tsx)
    (hlt : cur < commands.length) :
    ∃ j2 written1, ArchiveJob.Step context framework waiting j = (j2, .ok .Continue) ∧
      Running context stale commands isMedia transcode tsx (cur + 1) written1 j2 ∧
      SlotStep commands cur (written.map Prod.fst) j.inFlight (written1.map Prod.fst)
        j2.inFlight ∧
      (¬ isWriteAt commands cur → j2.threadsActive_ = 0) := by
  obtain ⟨w, zip, hw, hzip, hcmds, -⟩ := hrun.writer
  have hc : commands[cur]? = some commands[cur] := List.getElem?_eq_getElem hlt
  have hlen : j.inFlight.length = j.threadsActive_ := by
    simp [ArchiveJob.inFlight, slotSteps_zero, hrun.slots.1]
    exact hrun.active
  cases hkind : (commands[cur]).IsWriteInstance with
  | false =>
    obtain ⟨j1, htry, hrun1, hact1⟩ := stepTry_directory context stale commands isMedia
      transcode tsx cur written waiting j w _ hrun hparse hw hc hkind
    obtain ⟨j2, hstep, hrun2, hin, hact2, -⟩ := step_of_try context framework stale commands
      isMedia transcode tsx cur _ waiting j j1 w hw hcmds hlt htry hrun1
    refine ⟨j2, _, hstep, hrun2, Or.inl ⟨?_, ?_, ?_⟩, fun _ => by rw [hact2, hact1]⟩
    · simp [isWriteAt, hc, hkind]
    · simp only [List.map_append, List.map_cons, List.map_nil, ← inFlight_eq]
    · rw [hin]
      simp [ArchiveJob.inFlight, hact1, slotSteps_self]
  | true =>
    have hwa : isWriteAt commands cur := by simp [isWriteAt, hc, hkind]
    by_cases hfree : j.threadsActive_ < 3
    · obtain ⟨j1, htry, hrun1, hin1⟩ := stepTry_launch context stale commands isMedia
        transcode tsx cur written waiting j w _ hrun hw hc hkind hfree
      obtain ⟨j2, hstep, hrun2, hin, -, -⟩ := step_of_try context framework stale commands
        isMedia transcode tsx cur _ waiting j j1 w hw hcmds hlt htry hrun1
      refine ⟨j2, _, hstep, hrun2, Or.inr (Or.inl ⟨hwa, by omega, rfl, ?_⟩),
        fun h => absurd hwa h⟩
      rw [hin, hin1]
    · have hfull : j.threadsActive_ = 3 := by have := hrun.active; omega
      obtain ⟨j1, i, x, content, htry, hrun1, hx, hin1⟩ := stepTry_scan context stale commands
        isMedia transcode tsx cur written waiting j w _ hrun hparse hw hc hkind hfull
      obtain ⟨j2, hstep, hrun2, hin, -, -⟩ := step_of_try context framework stale commands
        isMedia transcode tsx cur _ waiting j j1 w hw hcmds hlt htry hrun1
      refine ⟨j2, _, hstep, hrun2, Or.inr (Or.inr ⟨hwa, by omega, i, x, hx, ?_, ?_⟩),
        fun h => absurd hwa h⟩
      · simp
      · rw [hin, hin1]


/-- The last call of `Step` drains the slots in slot order, runs `LastStep`,
closes the ZIP writer and returns `Success`; no handle is left joinable. -/
theorem step_final (context : ServerContext) (framework : Framework) (stale : List String)
    (commands : List Command) (isMedia transcode : Bool) (tsx : DicomTransferSyntax)
    (written : List (Nat × String)) (waiting : Nat) (j : ArchiveJob)
    (hrun : Running context stale commands isMedia transcode tsx commands.length written j)
    (hparse : WritesParse context stale commands isMedia transcode tsx) :
    ∃ j1 tail, ArchiveJob.Step context framework waiting j = (j1, .ok .Success) ∧
      j1.zipCalls = callsWith context transcode tsx commands
        (written ++ slotWrites j.threads_ 0 j.threadsActive_) ++ tail ∧
      j1.writer_ = none ∧ j1.threadsActive_ = 0 ∧
      (isMedia = false → tail = [.Close]) ∧
      (isMedia = true → ∃ data, tail = [.OpenFile "DICOMDIR", .Write data, .Close]) ∧
      j1.threads_.length = 3 ∧ (∀ t ∈ j1.threads_, t.thread = false) := by
  obtain ⟨⟨w, zip, hw, hzip, hcmds, hmedia, hcalls, hdd⟩, ⟨htr, htsx, hcur⟩, hact, hslots,
    hheld⟩ := hrun
  subst hcmds hmedia htr htsx
  have hslots0 : SlotsOk context stale w.commands_.commands_ j.threads_ 0
      (0 + j.threadsActive_) := by
    simpa using hslots
  obtain ⟨dd, threads, hdd1, hslots1, hdrain⟩ := endThreadsFrom_loaded context stale
    j.threadsActive_ 0 j w zip hw hzip hdd hparse hslots0 (by omega)
  obtain ⟨hidle1, hidle2⟩ := slotsOk_idle context stale _ _ _ hslots1
  have hcount : w.GetStepsCount = w.commands_.commands_.length + 1 := by
    simp [ZipWriterIterator.GetStepsCount, ZipCommands.GetSize]
  have htry : ArchiveJob.stepTry context waiting w j = (j, .ok ()) := by
    simp [ArchiveJob.stepTry, hcount, hcur]
  cases hm : w.isMedia_ with
  | false =>
    have hS : ArchiveJob.Step context framework waiting j =
        ArchiveJob.stepFinish framework w
          { j with
            writer_ := some { w with
              zip_ := some ⟨zip.isZip64, zip.calls ++
                callsWith context j.transcode_ j.transferSyntax_ w.commands_.commands_
                  (slotWrites j.threads_ 0 (0 + j.threadsActive_))⟩
              dicomDir_ := dd }
            threads_ := threads
            threadsActive_ := 0 } := by
      simp only [ArchiveJob.Step, hw, hcount, Nat.add_one_ne_zero, if_false, htry, hcur,
        Nat.add_sub_cancel, if_true, ArchiveJob.stepLast, hdrain, ZipWriterIterator.LastStep, hm,
        Bool.false_eq_true]
    have hthreads : (ArchiveJob.Step context framework waiting j).1.threads_ = threads := by
      rw [hS]
      cases hat : j.asynchronousTarget_ <;>
        simp [ArchiveJob.stepFinish, hcount, hcur, ArchiveJob.FinalizeTarget,
          ZipWriterIterator.Close, ZipWriterIterator.GetArchiveSize, hat]
    refine ⟨(ArchiveJob.Step context framework waiting j).1, [.Close], ?_, ?_, ?_, ?_,
      fun _ => rfl, fun h => by simp at h, by rw [hthreads]; exact hidle1,
      by rw [hthreads]; exact hidle2⟩
    · rw [Prod.ext_iff]
      refine ⟨rfl, ?_⟩
      show (ArchiveJob.Step context framework waiting j).2 = _
      rw [hS]
      cases hat : j.asynchronousTarget_ <;>
        simp [ArchiveJob.stepFinish, hcount, hcur, ArchiveJob.FinalizeTarget,
          ZipWriterIterator.Close, ZipWriterIterator.GetArchiveSize, hat]
    · rw [hS]
      cases hat : j.asynchronousTarget_ <;>
        simp [ArchiveJob.stepFinish, hcount, hcur, ArchiveJob.FinalizeTarget,
          ZipWriterIterator.Close, ZipWriterIterator.GetArchiveSize, hat,
          ArchiveJob.zipCalls, HierarchicalZipWriter.call, callsWith_append, hcalls]
    · rw [hS]
      cases hat : j.asynchronousTarget_ <;>
        simp [ArchiveJob.stepFinish, hcount, hcur, ArchiveJob.FinalizeTarget,
          ZipWriterIterator.Close, ZipWriterIterator.GetArchiveSize, hat]
    · rw [hS]
      cases hat : j.asynchronousTarget_ <;>
        simp [ArchiveJob.stepFinish, hcount, hcur, ArchiveJob.FinalizeTarget,
          ZipWriterIterator.Close, ZipWriterIterator.GetArchiveSize, hat]
  | true =>
    obtain ⟨d, hd⟩ := hdd1 hm
    subst hd
    have hS : ArchiveJob.Step context framework waiting j =
        ArchiveJob.stepFinish framework w
          { j with
            writer_ := some { w with
              zip_ := some ⟨zip.isZip64, (zip.calls ++
                callsWith context j.transcode_ j.transferSyntax_ w.commands_.commands_
                  (slotWrites j.threads_ 0 (0 + j.threadsActive_))) ++
                  [.OpenFile "DICOMDIR", .Write (framework.Encode d)]⟩
              dicomDir_ := some d }
            threads_ := threads
            threadsActive_ := 0 } := by
      simp only [ArchiveJob.Step, hw, hcount, Nat.add_one_ne_zero, if_false, htry, hcur,
        Nat.add_sub_cancel, if_true, ArchiveJob.stepLast, hdrain, ZipWriterIterator.LastStep, hm,
        HierarchicalZipWriter.call, List.append_assoc, List.singleton_append]
    have hthreads : (ArchiveJob.Step context framework waiting j).1.threads_ = threads := by
      rw [hS]
      cases hat : j.asynchronousTarget_ <;>
        simp [ArchiveJob.stepFinish, hcount, hcur, ArchiveJob.FinalizeTarget,
          ZipWriterIterator.Close, ZipWriterIterator.GetArchiveSize, hat]
    refine ⟨(ArchiveJob.Step context framework waiting j).1,
      [.OpenFile "DICOMDIR", .Write (framework.Encode d), .Close], ?_, ?_, ?_, ?_,
      fun h => by simp at h, fun _ => ⟨_, rfl⟩, by rw [hthreads]; exact hidle1,
      by rw [hthreads]; exact hidle2⟩
    · rw [Prod.ext_iff]
      refine ⟨rfl, ?_⟩
      show (ArchiveJob.Step context framework waiting j).2 = _
      rw [hS]
      cases hat : j.asynchronousTarget_ <;>
        simp [ArchiveJob.stepFinish, hcount, hcur, ArchiveJob.FinalizeTarget,
          ZipWriterIterator.Close, ZipWriterIterator.GetArchiveSize, hat]
    · rw [hS]
      cases hat : j.asynchronousTarget_ <;>
        simp [ArchiveJob.stepFinish, hcount, hcur, ArchiveJob.FinalizeTarget,
          ZipWriterIterator.Close, ZipWriterIterator.GetArchiveSize, hat,
          ArchiveJob.zipCalls, HierarchicalZipWriter.call, callsWith_append, hcalls]
    · rw [hS]
      cases hat : j.asynchronousTarget_ <;>
        simp [ArchiveJob.stepFinish, hcount, hcur, ArchiveJob.FinalizeTarget,
          ZipWriterIterator.Close, ZipWriterIterator.GetArchiveSize, hat]
    · rw [hS]
      cases hat : j.asynchronousTarget_ <;>
        simp [ArchiveJob.stepFinish, hcount, hcur, ArchiveJob.FinalizeTarget,
          ZipWriterIterator.Close, ZipWriterIterator.GetArchiveSize, hat]

theorem slotInv_lt {commands : List Command} {cur : Nat} {order inflight : List Nat}
    (h : SlotInv commands cur order inflight) {a : Nat} (ha : a ∈ order ++ inflight) : a < cur := by
  have := (h.perm.mem_iff).mp ha
  simpa using this

/-- Applied then in-flight commands are in stream order up to exchanges inside
a run. -/
theorem slotInv_pairwise {commands : List Command} {cur : Nat} {order inflight : List Nat}
    (h : SlotInv commands cur order inflight) :
    (order ++ inflight).Pairwise (InOrderOrSameRun commands) := by
  rw [List.pairwise_append]
  refine ⟨h.sorted, ?_, ?_⟩
  · rw [List.pairwise_iff_getElem]
    intro i k hi hk _
    by_cases hlt : inflight[i] < inflight[k]
    · exact Or.inl hlt
    · right
      intro m h1 h2
      have hk' : inflight[k] ∈ order ++ inflight :=
        List.mem_append_right _ (List.getElem_mem _)
      have hi' : inflight[i] ∈ order ++ inflight :=
        List.mem_append_right _ (List.getElem_mem _)
      have := slotInv_lt h hi'
      exact h.run _ (List.getElem_mem _) m h1 (by omega)
  · intro a ha b hb
    by_cases hlt : a < b
    · exact Or.inl hlt
    · right
      intro m h1 h2
      have := slotInv_lt h (List.mem_append_left _ ha)
      exact h.run b hb m h1 (by omega)

theorem slotInv_init (commands : List Command) : SlotInv commands 0 [] [] where
  perm := by simp
  sorted := List.Pairwise.nil
  run := by simp
  few := by simp
  inOrder := by simp


/-- The invariant of the indices is kept by one call of `Step`. -/
theorem slotInv_step {commands : List Command} {cur : Nat} {order inflight order1 inflight1 : List Nat}
    (h : SlotInv commands cur order inflight)
    (hstep : SlotStep commands cur order inflight order1 inflight1) :
    SlotInv commands (cur + 1) order1 inflight1 := by
  have hlt : ∀ a ∈ order ++ inflight, a < cur := fun a ha => slotInv_lt h ha
  rcases hstep with ⟨hdir, ho, hi⟩ | ⟨hw, hlen, ho, hi⟩ | ⟨hw, hlen, i, x, hx, ho, hi⟩
  · subst ho hi
    refine ⟨?_, ?_, by simp, by simp, ?_⟩
    · rw [List.append_nil, List.range_succ]
      exact h.perm.append_right [cur]
    · rw [List.pairwise_append]
      refine ⟨slotInv_pairwise h, List.pairwise_singleton _ _, ?_⟩
      intro a ha b hb
      rw [List.mem_singleton] at hb
      subst hb
      exact Or.inl (hlt a ha)
    · intro h3
      rw [List.append_nil, List.range_succ, h.inOrder h3]
  · subst ho hi
    refine ⟨?_, h.sorted, ?_, by simp; omega, ?_⟩
    · rw [← List.append_assoc, List.range_succ]
      exact h.perm.append_right [cur]
    · intro b hb k h1 h2
      rw [List.mem_append, List.mem_singleton] at hb
      by_cases hk : k = cur
      · subst hk; exact hw
      · rcases hb with hb | hb
        · exact h.run b hb k h1 (by omega)
        · omega
    · intro h3
      rw [← List.append_assoc, List.range_succ, h.inOrder h3]
  · subst ho hi
    have hxm : x ∈ inflight := List.mem_iff_getElem?.mpr ⟨_, hx⟩
    have hi3 : i < inflight.length := getElem?_lt hx
    refine ⟨?_, ?_, ?_, by simp; exact h.few, ?_⟩
    · rw [List.range_succ]
      refine List.Perm.trans ?_ (h.perm.append_right [cur])
      rw [List.perm_iff_count]
      intro a
      match inflight, hlen, hx with
      | [a0, a1, a2], _, hx =>
        have : i = 0 ∨ i = 1 ∨ i = 2 := by simp at hi3; omega
        rcases this with rfl | rfl | rfl <;>
          (simp at hx; subst hx; simp [List.count_cons]; omega)
    · rw [List.pairwise_append]
      refine ⟨h.sorted, List.pairwise_singleton _ _, ?_⟩
      intro a ha b hb
      rw [List.mem_singleton] at hb
      subst hb
      by_cases hab : a < b
      · exact Or.inl hab
      · right
        intro m h1 h2
        have := hlt a (List.mem_append_left _ ha)
        exact h.run b hxm m h1 (by omega)
    · intro b hb k h1 h2
      by_cases hk : k = cur
      · subst hk; exact hw
      · rcases List.mem_or_eq_of_mem_set hb with hb | hb
        · exact h.run b hb k h1 (by omega)
        · omega
    · intro h3
      exfalso
      have heq := h.inOrder h3
      have hlen2 : order.length + 3 = cur := by
        have := congrArg List.length heq
        simp [hlen] at this
        exact this
      have h0 : inflight[0]? = some (cur - 3) := by
        have : (order ++ inflight)[order.length + 0]? = (List.range cur)[order.length + 0]? := by
          rw [heq]
        rw [List.getElem?_append_right (by omega)] at this
        simp at this
        rw [this, List.getElem?_range (by omega)]
        congr 1
        omega
      have hm : cur - 3 ∈ inflight := List.mem_iff_getElem?.mpr ⟨_, h0⟩
      have hr := h.run (cur - 3) hm
      apply h3 (cur - 3)
      refine ⟨hr _ (by omega) (by omega), hr _ (by omega) (by omega), hr _ (by omega) (by omega), ?_⟩
      have e : cur - 3 + 3 = cur := by omega
      rw [e]
      exact hw


/-- A complete run: with one call of `Step` per command and one more, the
last call returns `Success`; the ZIP writer has received the calls of the
commands in an order that the invariant describes, each `WriteInstance` with a
buffer its reading thread can have left, then those of the last step; and no
handle is left joinable. -/
theorem runSteps_complete (context : ServerContext) (framework : Framework)
    (stale : List String)
    (commands : List Command) (isMedia transcode : Bool) (tsx : DicomTransferSyntax)
    (hparse : WritesParse context stale commands isMedia transcode tsx) :
    ∀ (sched : List Nat) (cur : Nat) (written : List (Nat × String)) (j : ArchiveJob),
      Running context stale commands isMedia transcode tsx cur written j →
      SlotInv commands cur (written.map Prod.fst) j.inFlight →
      cur ≤ commands.length →
      cur + sched.length = commands.length + 1 →
      ∃ j1 written1 tail, ArchiveJob.runSteps context framework sched j = (j1, .ok .Success) ∧
        j1.zipCalls = callsWith context transcode tsx commands written1 ++ tail ∧
        SlotInv commands commands.length (written1.map Prod.fst) [] ∧
        (isMedia = false → tail = [.Close]) ∧
        (isMedia = true → ∃ data, tail = [.OpenFile "DICOMDIR", .Write data, .Close]) ∧
        (∀ p ∈ written1, Held context stale commands p) ∧
        j1.writer_ = none ∧ j1.threadsActive_ = 0 ∧
        j1.threads_.length = 3 ∧ (∀ t ∈ j1.threads_, t.thread = false) := by
  intro sched
  induction sched with
  | nil =>
    intro cur written j _ _ hcur hle
    simp only [List.length_nil, Nat.add_zero] at hle
    omega
  | cons waiting rest ih =>
    intro cur written j hrun hinv hcur hle
    simp only [List.length_cons] at hle
    by_cases hlt : cur < commands.length
    · obtain ⟨j2, written2, hstep, hrun2, hslot, -⟩ := step_continue context framework stale
        commands isMedia transcode tsx cur written waiting j hrun hparse hlt
      obtain ⟨j3, written3, tail, hrest, h3⟩ := ih (cur + 1) written2 j2 hrun2
        (slotInv_step hinv hslot) (by omega) (by omega)
      refine ⟨j3, written3, tail, ?_, h3⟩
      simp only [ArchiveJob.runSteps, hstep, hrest]
    · have hcur : cur = commands.length := by omega
      subst hcur
      have hrest : rest = [] := List.eq_nil_of_length_eq_zero (by omega)
      subst hrest
      obtain ⟨j1, tail, hstep, hcalls, hnone, hact, ht1, ht2, hl1, hl2⟩ := step_final context
        framework stale commands isMedia transcode tsx written waiting j hrun hparse
      have hmap : (written ++ slotWrites j.threads_ 0 j.threadsActive_).map Prod.fst =
          written.map Prod.fst ++ j.inFlight := by
        rw [List.map_append, ← inFlight_eq]
      refine ⟨j1, written ++ slotWrites j.threads_ 0 j.threadsActive_, tail, ?_, hcalls, ?_,
        ht1, ht2, ?_, hnone, hact, hl1, hl2⟩
      · simp only [ArchiveJob.runSteps, hstep]
      · rw [hmap]
        exact ⟨by simpa using hinv.perm, slotInv_pairwise hinv, by simp, by simp,
          fun h3 => by simpa using hinv.inOrder h3⟩
      · intro p hp
        rw [List.mem_append] at hp
        rcases hp with hp | hp
        · exact hrun.held p hp
        · exact slotWrites_held context stale _ _ _ _ hrun.slots p hp


/-- A job that `Start` has just started is running, with nothing applied and
nothing in flight. -/
theorem start_running (context : ServerContext) (toolbox : Toolbox) (framework : Framework)
    (j j0 : ArchiveJob) (hnew : j.IsConstructed)
    (hstart : ArchiveJob.Start context toolbox framework j = (j0, .ok ())) :
    Running context j.buffers j0.commands j.isMedia_ j.transcode_ j.transferSyntax_ 0 [] j0 ∧
      j0.inFlight = [] := by
  obtain ⟨hw, hcur, hact, hlength, hthreads⟩ := hnew
  have hslots : SlotsOk context j.buffers j0.commands j.threads_ 0 0 := by
    refine ⟨by simpa [NB_THREAD] using hlength, ?_⟩
    intro k t hk
    have hmem := List.mem_iff_getElem?.mpr ⟨k, hk⟩
    refine ⟨fun h => absurd h.2 (by omega), fun _ => ⟨hthreads t hmem, Or.inr ?_⟩⟩
    exact List.mem_map.mpr ⟨t, hmem, rfl⟩
  unfold ArchiveJob.Start at hstart
  simp only [hw] at hstart
  cases hsync : j.synchronousTarget_ with
  | false =>
    simp only [hsync, if_true] at hstart
    cases hasync : j.asynchronousTarget_ with
    | some p => simp [hasync] at hstart
    | none =>
      simp only [hasync] at hstart
      cases hnew : ZipWriterIterator.new context toolbox j.archive_ j.isMedia_
          j.enableExtendedSopClass_ with
      | error e => simp [hnew] at hstart
      | ok r =>
        obtain ⟨expanded, writer⟩ := r
        simp only [hnew] at hstart
        have hnew2 := hnew
        simp only [ZipWriterIterator.new] at hnew2
        cases hplan : planCommands context toolbox j.archive_ j.isMedia_ with
        | error e => simp [hplan] at hnew2
        | ok planned =>
          simp only [hplan] at hnew2
          injection hnew2 with hnew2
          injection hnew2 with he hwr
          subst hwr
          simp only [ZipWriterIterator.SetOutputFile] at hstart
          injection hstart with hj0 _
          subst hj0
          refine ⟨⟨⟨_, _, rfl, rfl, rfl, rfl, by simp [callsWith], ?_⟩, ⟨rfl, rfl, hcur⟩,
            by simp [hact], by simpa [hact] using hslots, by simp⟩,
            by simp [ArchiveJob.inFlight, hact, slotSteps_self]⟩
          intro hm
          simp [hm]
  | true =>
    simp only [hsync, Bool.true_eq_false, if_false] at hstart
    cases hnew : ZipWriterIterator.new context toolbox j.archive_ j.isMedia_
        j.enableExtendedSopClass_ with
    | error e => simp [hnew] at hstart
    | ok r =>
      obtain ⟨expanded, writer⟩ := r
      simp only [hnew] at hstart
      have hnew2 := hnew
      simp only [ZipWriterIterator.new] at hnew2
      cases hplan : planCommands context toolbox j.archive_ j.isMedia_ with
      | error e => simp [hplan] at hnew2
      | ok planned =>
        simp only [hplan] at hnew2
        injection hnew2 with hnew2
        injection hnew2 with he hwr
        subst hwr
        simp only [ZipWriterIterator.AcquireOutputStream] at hstart
        injection hstart with hj0 _
        subst hj0
        refine ⟨⟨⟨_, _, rfl, rfl, rfl, rfl, by simp [callsWith], ?_⟩, ⟨rfl, rfl, hcur⟩,
          by simp [hact], by simpa [hact] using hslots, by simp⟩,
          by simp [ArchiveJob.inFlight, hact, slotSteps_self]⟩
        intro hm
        simp [hm]

/-- The first job of a process is a constructed job, and its buffers are
empty. -/
theorem isFresh_isConstructed (j : ArchiveJob) (h : j.IsFresh) :
    j.IsConstructed ∧ ∀ s ∈ j.buffers, s = "" := by
  obtain ⟨hw, hcur, hact, hthreads⟩ := h
  refine ⟨⟨hw, hcur, hact, by simp [hthreads], ?_⟩, ?_⟩
  · intro t ht
    rw [hthreads, List.mem_replicate] at ht
    rw [ht.2]
  · intro s hs
    simp only [ArchiveJob.buffers, hthreads, List.mem_map, List.mem_replicate] at hs
    obtain ⟨t, ht, rfl⟩ := hs
    rw [ht.2]

/-- The constructor gives a constructed job whenever no handle of the array is
joinable. -/
theorem newOver_isConstructed (slots : List Threads) (isMedia enableExtendedSopClass : Bool)
    (hlen : slots.length = NB_THREAD) (hjoin : ∀ t ∈ slots, t.thread = false) :
    (ArchiveJob.newOver slots isMedia enableExtendedSopClass).IsConstructed := by
  refine ⟨rfl, rfl, rfl, by simp [ArchiveJob.newOver, hlen], ?_⟩
  intro t ht
  simp only [ArchiveJob.newOver, List.mem_map] at ht
  obtain ⟨t0, ht0, rfl⟩ := ht
  exact hjoin t0 ht0

/-- When every buffer that can be written is parsed, no exception leaves a
write phase. -/
theorem writesParse_of_noParseError (context : ServerContext) (stale : List String)
    (commands : List Command) (isMedia transcode : Bool) (tsx : DicomTransferSyntax)
    (h : NoParseError context isMedia) :
    WritesParse context stale commands isMedia transcode tsx :=
  fun _ _ _ content _ hm _ => h hm content

/-- In archive mode no exception leaves a write phase. -/
theorem writesParse_archive (context : ServerContext) (stale : List String)
    (commands : List Command) (transcode : Bool) (tsx : DicomTransferSyntax) :
    WritesParse context stale commands false transcode tsx :=
  fun _ _ _ _ _ hm _ => absurd hm (by decide)

/-- A complete run leaves no handle joinable: the job constructed after a job
that has run to `Success` is a constructed job again. -/
theorem constructed_after_success (context : ServerContext) (toolbox : Toolbox)
    (framework : Framework) (j j0 : ArchiveJob) (sched : List Nat)
    (isMedia enableExtendedSopClass : Bool)
    (hnew : j.IsConstructed)
    (hstart : ArchiveJob.Start context toolbox framework j = (j0, .ok ()))
    (hparse : WritesParse context j.buffers j0.commands j.isMedia_ j.transcode_
      j.transferSyntax_)
    (hsched : sched.length = j0.commands.length + 1) :
    ∃ j1, ArchiveJob.runSteps context framework sched j0 = (j1, .ok .Success) ∧
      (ArchiveJob.newOver j1.threads_ isMedia enableExtendedSopClass).IsConstructed := by
  obtain ⟨hrun, hin⟩ := start_running context toolbox framework j j0 hnew hstart
  have hinv : SlotInv j0.commands 0 (([] : List (Nat × String)).map Prod.fst) j0.inFlight := by
    rw [hin]; exact slotInv_init _
  obtain ⟨j1, written, tail, hsteps, -, -, -, -, -, -, -, hl1, hl2⟩ := runSteps_complete
    context framework j.buffers j0.commands j.isMedia_ j.transcode_ j.transferSyntax_ hparse
    sched 0 [] j0 hrun hinv (by omega) (by omega)
  exact ⟨j1, hsteps, newOver_isConstructed _ _ _ (by simpa [NB_THREAD] using hl1) hl2⟩

/-- The loop of `Apply` at the instance level over two lists in a row. -/
theorem applyInstances_append {σ : Type} (visitor : IArchiveVisitor σ) :
    ∀ (l1 l2 : List Instance) (s : σ),
      ArchiveIndex.applyInstances visitor (l1 ++ l2) s =
        match ArchiveIndex.applyInstances visitor l1 s with
        | .error e => .error e
        | .ok s1 => ArchiveIndex.applyInstances visitor l2 s1 := by
  intro l1
  induction l1 with
  | nil => intro l2 s; rfl
  | cons a rest ih =>
    intro l2 s
    simp only [List.cons_append, ArchiveIndex.applyInstances]
    cases h : visitor.AddInstance a.id_ a.uncompressedSize_ s with
    | error e => rfl
    | ok s1 => exact ih l2 s1

/-- The media visitor on a list of leaves: leaf number `k` is named by the
counter, which has advanced `k` times modulo `2 ^ 32`; the aggregates are the
count and the sum of the sizes, modulo `2 ^ 32` and `2 ^ 64`. -/
theorem applyInstances_media_names :
    ∀ (leaves : List Instance) (v : MediaIndexVisitor), v.counter_ < 2 ^ 32 →
      v.commands_.uncompressedSize_ < 2 ^ 64 → v.commands_.instancesCount_ < 2 ^ 32 →
      ArchiveIndex.applyInstances MediaIndexVisitor.visitor leaves v =
        .ok { commands_ :=
                { commands_ := v.commands_.commands_ ++ leaves.mapIdx (fun k leaf =>
                    (⟨.Type_WriteInstance,
                      "IM" ++ String.mk (Nat.toDigits 10 ((v.counter_ + k) % 2 ^ 32)),
                      leaf.id_⟩ : Command))
                  uncompressedSize_ := (v.commands_.uncompressedSize_ +
                      (leaves.map (fun i => i.uncompressedSize_)).sum) % 2 ^ 64
                  instancesCount_ := (v.commands_.instancesCount_ + leaves.length) % 2 ^ 32 }
              counter_ := (v.counter_ + leaves.length) % 2 ^ 32 } := by
  intro leaves
  induction leaves with
  | nil =>
    intro v hv hu hc
    obtain ⟨⟨cmds, usize, count⟩, counter⟩ := v
    simp only at hv hu hc
    simp only [ArchiveIndex.applyInstances, List.mapIdx_nil, List.append_nil, List.map_nil,
      List.sum_nil, List.length_nil, Nat.add_zero, Nat.mod_eq_of_lt hv, Nat.mod_eq_of_lt hu,
      Nat.mod_eq_of_lt hc]
  | cons leaf rest ih =>
    intro v hv hu hc
    rw [ArchiveIndex.applyInstances]
    simp only [MediaIndexVisitor.visitor, MediaIndexVisitor.AddInstance]
    have := ih { commands_ := v.commands_.AddWriteInstance
                    ("IM" ++ String.mk (Nat.toDigits 10 v.counter_)) leaf.id_
                    leaf.uncompressedSize_
                 counter_ := (v.counter_ + 1) % 2 ^ 32 } (Nat.mod_lt _ (by decide))
      (Nat.mod_lt _ (by decide)) (Nat.mod_lt _ (by decide))
    simp only [MediaIndexVisitor.visitor] at this
    rw [this]
    have hf : ∀ k : Nat, ((v.counter_ + 1) % 2 ^ 32 + k) % 2 ^ 32 =
        (v.counter_ + (k + 1)) % 2 ^ 32 := by
      intro k
      rw [Nat.mod_add_mod]
      congr 1
      omega
    have h0 : v.counter_ % 2 ^ 32 = v.counter_ := Nat.mod_eq_of_lt hv
    simp only [ZipCommands.AddWriteInstance, List.mapIdx_cons, hf, Nat.add_zero, h0,
      List.append_assoc, List.singleton_append, List.map_cons, List.sum_cons, List.length_cons,
      Nat.mod_add_mod]
    congr 3
    · congr 1; omega
    · congr 1; omega

/-- The media visitor on an expanded tree: `Open` and `Close` do nothing, so
the walk is the loop over the leaves in traversal order. -/
theorem apply_media_expanded (index : ServerIndex) :
    ∀ (d : Nat) (tree : ArchiveIndex d) (v : MediaIndexVisitor),
      ArchiveIndex.Apply MediaIndexVisitor.visitor d (ArchiveIndex.Expand index d tree) v =
        ArchiveIndex.applyInstances MediaIndexVisitor.visitor
          (ArchiveIndex.leaves d (ArchiveIndex.Expand index d tree)) v := by
  intro d
  induction d with
  | zero => intro tree v; rfl
  | succ d ih =>
    intro tree v
    have key : ∀ (resources : Resources (ArchiveIndex d)) (v : MediaIndexVisitor),
        ArchiveIndex.applyResources MediaIndexVisitor.visitor (levelOfDepth (d + 1))
          (ArchiveIndex.Apply MediaIndexVisitor.visitor d)
          (ArchiveIndex.Expand index (d + 1) resources : Resources (ArchiveIndex d)) v =
        ArchiveIndex.applyInstances MediaIndexVisitor.visitor
          (ArchiveIndex.leaves (d + 1) (ArchiveIndex.Expand index (d + 1) resources)) v := by
      intro resources
      induction resources with
      | nil => intro v; rfl
      | cons entry rest ihr =>
        intro v
        obtain ⟨id, value⟩ := entry
        have hrest := ihr
        simp only [ArchiveIndex.Expand, ArchiveIndex.leaves] at hrest ⊢
        cases value with
        | none =>
          simp only [List.map_cons, ArchiveIndex.applyResources, List.flatten_cons,
            applyInstances_append]
          simp only [MediaIndexVisitor.visitor] at ih hrest ⊢
          rw [ih]
          obtain ⟨v1, added, h0, -⟩ := applyInstances_media
            (ArchiveIndex.leaves d (ArchiveIndex.Expand index d
              (ArchiveIndex.expandChildren index d id))) v
          simp only [MediaIndexVisitor.visitor] at h0
          rw [h0]
          exact hrest v1
        | some child =>
          simp only [List.map_cons, ArchiveIndex.applyResources, List.flatten_cons,
            applyInstances_append]
          simp only [MediaIndexVisitor.visitor] at ih hrest ⊢
          rw [ih]
          obtain ⟨v1, added, h0, -⟩ := applyInstances_media
            (ArchiveIndex.leaves d (ArchiveIndex.Expand index d child)) v
          simp only [MediaIndexVisitor.visitor] at h0
          rw [h0]
          exact hrest v1
    exact key tree v

/-- The media plan of any tree: `Expand`, then the media layout of the leaves
with the counter taken modulo `2 ^ 32`. -/
theorem plan_media (context : ServerContext) (toolbox : Toolbox) (archive : ArchiveIndex 3) :
    planCommands context toolbox archive true =
      .ok (ArchiveIndex.Expand context.index 3 archive,
        { commands_ := [⟨.Type_OpenDirectory, MEDIA_IMAGES_FOLDER, ""⟩] ++
            (ArchiveIndex.leaves 3 (ArchiveIndex.Expand context.index 3 archive)).mapIdx
              (fun k leaf => (⟨.Type_WriteInstance,
                "IM" ++ String.mk (Nat.toDigits 10 (k % 2 ^ 32)), leaf.id_⟩ : Command)) ++
            [⟨.Type_CloseDirectory, "", ""⟩]
          uncompressedSize_ :=
            ((ArchiveIndex.leaves 3 (ArchiveIndex.Expand context.index 3 archive)).map
              (fun i => i.uncompressedSize_)).sum % 2 ^ 64
          instancesCount_ :=
            (ArchiveIndex.leaves 3 (ArchiveIndex.Expand context.index 3 archive)).length %
              2 ^ 32 }) := by
  have h := applyInstances_media_names
    (ArchiveIndex.leaves 3 (ArchiveIndex.Expand context.index 3 archive))
    { commands_ := ZipCommands.new.AddOpenDirectory MEDIA_IMAGES_FOLDER, counter_ := 0 }
    (by decide) (by decide) (by decide)
  simp only [planCommands, if_true, MediaIndexVisitor.new, apply_media_expanded, h]
  simp [ZipCommands.AddCloseDirectory, ZipCommands.AddOpenDirectory, ZipCommands.new]

/-- Renumbering: a name that depends on the index modulo `2 ^ 32` is the name
of the index itself on a list of at most `2 ^ 32` elements. -/
theorem mapIdx_mod {α β : Type} (f : Nat → α → β) (l : List α) (h : l.length ≤ 2 ^ 32) :
    l.mapIdx (fun k a => f (k % 2 ^ 32) a) = l.mapIdx f := by
  apply List.ext_getElem?
  intro k
  rw [List.getElem?_mapIdx, List.getElem?_mapIdx]
  by_cases hk : k < l.length
  · rw [Nat.mod_eq_of_lt (by omega)]
  · rw [List.getElem?_eq_none (by omega)]
    rfl

/-- Claim C11: for every tree whose leaves after `Expand`, in traversal order,
are at most `2 ^ 32` (the range of the `unsigned int` counter), the media plan
is `OpenDirectory("IMAGES")`, then for leaf number `k` a `WriteInstance` named
`IM` followed by the decimal writing of `k` (one counter for the whole
archive), then `CloseDirectory`, with no other directory command; the
aggregates are the number of leaves and the sum of their sizes.  For the
selection of scenario S1 the plan is `IMAGES`, `IM0`, `IM1`, `IM2`, close. -/
theorem media_layout :
    (∀ (context : ServerContext) (toolbox : Toolbox) (archive : ArchiveIndex 3),
      (ArchiveIndex.leaves 3 (ArchiveIndex.Expand context.index 3 archive)).length ≤ 2 ^ 32 →
      planCommands context toolbox archive true =
        .ok (ArchiveIndex.Expand context.index 3 archive,
          { commands_ :=
              mediaLayout (ArchiveIndex.leaves 3 (ArchiveIndex.Expand context.index 3 archive))
            uncompressedSize_ :=
              ((ArchiveIndex.leaves 3 (ArchiveIndex.Expand context.index 3 archive)).map
                (fun i => i.uncompressedSize_)).sum % 2 ^ 64
            instancesCount_ :=
              (ArchiveIndex.leaves 3 (ArchiveIndex.Expand context.index 3 archive)).length %
                2 ^ 32 })) ∧
    planOf (contextOf s1Index) scenarioToolbox ["ST1"] true =
      .ok { commands_ :=
              [⟨.Type_OpenDirectory, "IMAGES", ""⟩, ⟨.Type_WriteInstance, "IM0", "I1"⟩,
               ⟨.Type_WriteInstance, "IM1", "I2"⟩, ⟨.Type_WriteInstance, "IM2", "I3"⟩,
               ⟨.Type_CloseDirectory, "", ""⟩]
            uncompressedSize_ := 2 * 1024 * 1024
            instancesCount_ := 3 } := by
  refine ⟨?_, eq_ok_of_toOption (by decide!)⟩
  intro context toolbox archive hcount
  have hm := mapIdx_mod (fun k (leaf : Instance) =>
    (⟨.Type_WriteInstance, "IM" ++ String.mk (Nat.toDigits 10 k), leaf.id_⟩ : Command)) _ hcount
  simp only at hm
  rw [plan_media, hm]
  rfl

/-- Witness of `media_layout`: the tree in which the study `ST1` of scenario
S1 is marked for expansion has three leaves. -/
theorem media_layout_witness :
    (ArchiveIndex.leaves 3 (ArchiveIndex.Expand (contextOf s1Index).index 3
      ([("PT1", some ([("ST1", none)] : Resources (ArchiveIndex 1)))] :
        Resources (ArchiveIndex 2)))).map (fun i => i.id_) = ["I1", "I2", "I3"] ∧
    ∃ planned, planCommands (contextOf s1Index) scenarioToolbox
      ([("PT1", some ([("ST1", none)] : Resources (ArchiveIndex 1)))] :
        Resources (ArchiveIndex 2)) true = .ok planned ∧
      planned.2.commands_.map (fun c => c.filename_) = ["IMAGES", "IM0", "IM1", "IM2", ""] :=
  ⟨by decide!, _, media_layout.1 (contextOf s1Index) scenarioToolbox
      ([("PT1", some ([("ST1", none)] : Resources (ArchiveIndex 1)))] :
        Resources (ArchiveIndex 2)) (by decide!), by decide!⟩

/-! ## Length of the media file names -/

/-- The command that follows `k + 1` others in a layout: the one of element
number `k`. -/
theorem layout_getElem? {α β : Type} (f : Nat → α → β) (l : List α) (first last : β) (k : Nat)
    (hk : k < l.length) :
    ([first] ++ l.mapIdx f ++ [last])[k + 1]? = some (f k l[k]) := by
  rw [List.append_assoc, List.singleton_append, List.getElem?_cons_succ,
    List.getElem?_append_left (by rw [List.length_mapIdx]; exact hk),
    List.getElem?_mapIdx, List.getElem?_eq_getElem hk]
  rfl

/-- Claim C12 fails: in the media plan of a tree with more than 1000000 leaves
(and at most `2 ^ 32`), the command of index 1000001 is the `WriteInstance` of
leaf number 1000000, and `MediaIndexVisitor::AddInstance` has named it
`IM1000000`, which has 9 characters. -/
theorem media_name_nine_characters (context : ServerContext) (toolbox : Toolbox)
    (archive : ArchiveIndex 3)
    (hmany : 1000000 <
      (ArchiveIndex.leaves 3 (ArchiveIndex.Expand context.index 3 archive)).length)
    (hcount :
      (ArchiveIndex.leaves 3 (ArchiveIndex.Expand context.index 3 archive)).length ≤ 2 ^ 32) :
    ∃ planned c, planCommands context toolbox archive true = .ok planned ∧
      planned.2.commands_[1000000 + 1]? = some c ∧ c.IsWriteInstance = true ∧
      c.filename_ = "IM1000000" ∧ c.filename_.length = 9 := by
  have hm := mapIdx_mod (fun k (leaf : Instance) =>
    (⟨.Type_WriteInstance, "IM" ++ String.mk (Nat.toDigits 10 k), leaf.id_⟩ : Command)) _ hcount
  simp only at hm
  refine ⟨_, ⟨.Type_WriteInstance, "IM" ++ String.mk (Nat.toDigits 10 1000000),
    ((ArchiveIndex.leaves 3 (ArchiveIndex.Expand context.index 3 archive))[1000000]).id_⟩,
    plan_media context toolbox archive, ?_, ?_, ?_, ?_⟩
  · simp only [hm]
    exact layout_getElem? _ _ _ _ 1000000 hmany
  · rfl
  · show "IM" ++ String.mk (Nat.toDigits 10 1000000) = "IM1000000"
    decide
  · show ("IM" ++ String.mk (Nat.toDigits 10 1000000)).length = 9
    decide

/-- Witness of `media_name_nine_characters`: one series holding 1000001
leaves. -/
theorem media_name_nine_characters_witness :
    ∃ planned c, planCommands (contextOf fourIndex) scenarioToolbox
        (singleSeriesTree "P" "S" "R" (some (List.replicate 1000001 ⟨"I0", 10⟩))) true =
          .ok planned ∧
      planned.2.commands_[1000000 + 1]? = some c ∧ c.IsWriteInstance = true ∧
      c.filename_ = "IM1000000" ∧ c.filename_.length = 9 :=
  have hleaves : ArchiveIndex.leaves 3 (ArchiveIndex.Expand (contextOf fourIndex).index 3
      (singleSeriesTree "P" "S" "R" (some (List.replicate 1000001 ⟨"I0", 10⟩)))) =
      List.replicate 1000001 ⟨"I0", 10⟩ := by
    simp only [singleSeriesTree, ArchiveIndex.Expand, ArchiveIndex.leaves, List.map_cons,
      List.map_nil, List.flatten_cons, List.flatten_nil, List.append_nil]
  media_name_nine_characters (contextOf fourIndex) scenarioToolbox
    (singleSeriesTree "P" "S" "R" (some (List.replicate 1000001 ⟨"I0", 10⟩)))
    (by rw [hleaves, List.length_replicate]; decide)
    (by rw [hleaves, List.length_replicate]; decide)

/-! ## The terminal step -/

/-- The calls of commands that are all `WriteInstance` open and write files
only. -/
theorem callsOf_writes (context : ServerContext) (transcode : Bool) (tsx : DicomTransferSyntax)
    (commands : List Command) (order : List Nat)
    (h : ∀ k ∈ order, isWriteAt commands k) :
    ∀ call ∈ callsOf context transcode tsx commands order,
      (∃ name, call = .OpenFile name) ∨ (∃ data, call = .Write data) := by
  intro call hcall
  simp only [callsOf, List.mem_flatten, List.mem_map] at hcall
  obtain ⟨l, ⟨k, hk, hl⟩, hmem⟩ := hcall
  have hw := h k hk
  unfold isWriteAt at hw
  cases hc : commands[k]? with
  | none => simp [hc] at hw
  | some c =>
    simp only [hc, Option.map_some', Option.some.injEq, Command.IsWriteInstance,
      decide_eq_true_eq] at hw
    simp only [hc] at hl
    subst hl
    simp only [Command.zipCalls, hw, List.mem_cons, List.mem_singleton, List.not_mem_nil,
      or_false] at hmem
    rcases hmem with hmem | hmem
    · exact Or.inl ⟨_, hmem⟩
    · exact Or.inr ⟨_, hmem⟩

/-- The rounding that changes nothing is a rounding. -/
theorem isRounding_id : IsRounding id where
  mono := monotone_id
  exact_nat := fun _ _ => rfl
  exact_below_one := rfl

theorem isRounding_zero {round : ℚ → ℚ} (hr : IsRounding round) : round 0 = 0 := by
  have := hr.exact_nat 0 (by norm_num)
  simpa using this

/-- Claim C15 fails: a new archive-mode job started without any resource has a
stream of 0 commands and 1 step; before its only call of `Step`, `GetProgress`
divides the `float` 0 by the `float` 0, which is a NaN, not a number of
`[0, 1]`. -/
theorem progress_nan_on_empty_selection (context : ServerContext) (toolbox : Toolbox)
    (framework : Framework) (extended : Bool) (round : ℚ → ℚ) (hr : IsRounding round) :
    (ArchiveJob.Start context toolbox framework (ArchiveJob.new false extended)).2 = .ok () ∧
    (ArchiveJob.Start context toolbox framework (ArchiveJob.new false extended)).1.commands = [] ∧
    (∃ w, (ArchiveJob.Start context toolbox framework (ArchiveJob.new false extended)).1.writer_ =
      some w ∧ w.GetStepsCount = 1) ∧
    (ArchiveJob.Start context toolbox framework (ArchiveJob.new false extended)).1.GetProgress
      round = .nan := by
  have hplan : planCommands context toolbox (ArchiveIndex.empty 3) false =
      .ok (ArchiveIndex.empty 3, ZipCommands.new) := rfl
  have hstart : ArchiveJob.Start context toolbox framework (ArchiveJob.new false extended) =
      ({ ArchiveJob.new false extended with
          asynchronousTarget_ := some framework.CreateTemporaryFile
          writer_ := some ⟨ZipCommands.new, some ⟨false, []⟩, none, false, false⟩ }, .ok ()) := by
    simp [ArchiveJob.Start, ArchiveJob.new, ArchiveJob.newOver, ZipWriterIterator.new, hplan,
      ZipWriterIterator.SetOutputFile, ZipWriterIterator.GetInstancesCount,
      ZipWriterIterator.GetUncompressedSize, ZipCommands.GetInstancesCount,
      ZipCommands.GetUncompressedSize, ZipCommands.new, ZipCommands.IsZip64, IsZip64Required,
      MEGA_BYTES, GIGA_BYTES]
  rw [hstart]
  refine ⟨rfl, rfl, ⟨_, rfl, rfl⟩, ?_⟩
  simp [ArchiveJob.GetProgress, ZipWriterIterator.GetStepsCount, ZipCommands.GetSize,
    ZipCommands.new, ArchiveJob.new, ArchiveJob.newOver, toFloat, floatDiv, isRounding_zero hr]

/-- Witness of `progress_nan_on_empty_selection`: the catalog of scenario S1
and exact arithmetic. -/
theorem progress_nan_on_empty_selection_witness :
    (ArchiveJob.Start (contextOf s1Index) scenarioToolbox scenarioFramework
      (ArchiveJob.new false false)).1.GetProgress id = .nan :=
  (progress_nan_on_empty_selection (contextOf s1Index) scenarioToolbox scenarioFramework false id
    isRounding_id).2.2.2

/-- Claim C18 fails after the end of the job: `AddResource` and `SetTranscode`
test `writer_` only.  While the job holds a writer they throw
`BadSequenceOfCalls` and change nothing.  But in scenario S1, after the call of
`Step` that returns `Success`, and also after `Stop(Canceled)` on the started
job, the job holds no writer: `AddResource("I1")` returns normally and adds a
leaf to the tree, and `SetTranscode` returns normally and sets the transcoding. -/
theorem setters_accepted_after_the_end :
    (∀ (context : ServerContext) (publicId : String) (tsx : DicomTransferSyntax)
      (j : ArchiveJob) (w : ZipWriterIterator), j.writer_ = some w →
      ArchiveJob.AddResource context publicId j = (j, .error .BadSequenceOfCalls) ∧
      ArchiveJob.SetTranscode tsx j = (j, .error .BadSequenceOfCalls)) ∧
    (s1Finished.2 = .ok .Success ∧
      s1Finished.1.leafIds = ["I1", "I2", "I3"] ∧
      (ArchiveJob.AddResource (contextOf s1Index) "I1" s1Finished.1).2 = .ok () ∧
      (ArchiveJob.AddResource (contextOf s1Index) "I1" s1Finished.1).1.leafIds =
        ["I1", "I2", "I1", "I3"] ∧
      s1Finished.1.transcode_ = false ∧
      (ArchiveJob.SetTranscode "1.2.840.10008.1.2.1" s1Finished.1).2 = .ok () ∧
      (ArchiveJob.SetTranscode "1.2.840.10008.1.2.1" s1Finished.1).1.transcode_ = true) ∧
    (s1Canceled.2 = .ok () ∧
      s1Canceled.1.leafIds = ["I1", "I2", "I3"] ∧
      (ArchiveJob.AddResource (contextOf s1Index) "I1" s1Canceled.1).2 = .ok () ∧
      (ArchiveJob.AddResource (contextOf s1Index) "I1" s1Canceled.1).1.leafIds =
        ["I1", "I2", "I1", "I3"] ∧
      s1Canceled.1.transcode_ = false ∧
      (ArchiveJob.SetTranscode "1.2.840.10008.1.2.1" s1Canceled.1).2 = .ok () ∧
      (ArchiveJob.SetTranscode "1.2.840.10008.1.2.1" s1Canceled.1).1.transcode_ = true) := by
  refine ⟨?_, ⟨eq_ok_of_toOption (by decide!), by decide!, eq_ok_of_toOption (by decide!),
    by decide!, by decide!, eq_ok_of_toOption (by decide!), by decide!⟩,
    ⟨eq_ok_of_toOption (by decide!), by decide!, eq_ok_of_toOption (by decide!), by decide!,
      by decide!, eq_ok_of_toOption (by decide!), by decide!⟩⟩
  intro context publicId tsx j w hw
  simp [ArchiveJob.AddResource, ArchiveJob.SetTranscode, hw]

/-- Claim C19 fails: `Start` tests `writer_` only.  On a job that holds a
writer it throws `BadSequenceOfCalls` and changes nothing.  But in scenario S1,
after the call of `Step` that returned `Success`, and also after
`Stop(Canceled)`, a second `Start` returns normally and leaves the job with a
writer again, planned from the tree; `currentStep_` is not reset. -/
theorem start_accepted_after_the_end :
    (∀ (context : ServerContext) (toolbox : Toolbox) (framework : Framework)
      (j : ArchiveJob) (w : ZipWriterIterator), j.writer_ = some w →
      ArchiveJob.Start context toolbox framework j = (j, .error .BadSequenceOfCalls)) ∧
    (s1Finished.2 = .ok .Success ∧ s1Finished.1.writer_.isSome = false ∧
      (ArchiveJob.Start (contextOf s1Index) scenarioToolbox scenarioFramework s1Finished.1).2 =
        .ok () ∧
      (ArchiveJob.Start (contextOf s1Index) scenarioToolbox scenarioFramework
        s1Finished.1).1.writer_.isSome = true ∧
      (ArchiveJob.Start (contextOf s1Index) scenarioToolbox scenarioFramework
        s1Finished.1).1.commands.length = 11 ∧
      (ArchiveJob.Start (contextOf s1Index) scenarioToolbox scenarioFramework
        s1Finished.1).1.currentStep_ = 12) ∧
    (s1Canceled.2 = .ok () ∧ s1Canceled.1.writer_.isSome = false ∧
      (ArchiveJob.Start (contextOf s1Index) scenarioToolbox scenarioFramework s1Canceled.1).2 =
        .ok () ∧
      (ArchiveJob.Start (contextOf s1Index) scenarioToolbox scenarioFramework
        s1Canceled.1).1.writer_.isSome = true ∧
      (ArchiveJob.Start (contextOf s1Index) scenarioToolbox scenarioFramework
        s1Canceled.1).1.commands.length = 11) := by
  refine ⟨?_, ⟨eq_ok_of_toOption (by decide!), by decide!, eq_ok_of_toOption (by decide!),
    by decide!, by decide!, by decide!⟩,
    ⟨eq_ok_of_toOption (by decide!), by decide!, eq_ok_of_toOption (by decide!), by decide!,
      by decide!⟩⟩
  intro context toolbox framework j w hw
  simp [ArchiveJob.Start, hw]

/-! ## An instance removed after the job was issued -/

/-- Claim C20 fails: the read phase of a `WriteInstance` whose instance cannot
be read returns with an empty buffer, and the write phase of the command runs
all the same.  For a job that `Start` has started, when `ReadDicom` throws for
the instance of the command of index `k`, a complete run ends with `Success`
and the ZIP writer has received `OpenFile` with the file name of the command
followed by a `Write` (of the empty buffer without transcoding): the archive
holds an empty entry under that name.  In scenario S1 with `I2` removed the
calls are listed; in media mode with a parser that rejects the empty buffer,
the call of `Step` that drains the slot throws `BadFileFormat`. -/
theorem missing_instance_written_empty :
    (∀ (context : ServerContext) (toolbox : Toolbox) (framework : Framework)
      (j j0 : ArchiveJob) (sched : List Nat) (k : Nat) (c : Command) (e : ErrorCode),
      j.IsFresh → ArchiveJob.Start context toolbox framework j = (j0, .ok ()) →
      NoParseError context j.isMedia_ → sched.length = j0.commands.length + 1 →
      j0.commands[k]? = some c → c.IsWriteInstance = true →
      context.ReadDicom c.instanceId_ = .error e →
      ∃ j1 before data after,
        ArchiveJob.runSteps context framework sched j0 = (j1, .ok .Success) ∧
        j1.zipCalls = before ++ [.OpenFile (c_str c.filename_), .Write data] ++ after ∧
        (j.transcode_ = false → data = "")) ∧
    ((ArchiveJob.runSteps (contextMissing s1Index "I2") scenarioFramework (List.replicate 12 0)
        (startedJob (contextMissing s1Index "I2") scenarioToolbox scenarioFramework false
          ["ST1"])).2 = .ok .Success ∧
      (ArchiveJob.runSteps (contextMissing s1Index "I2") scenarioFramework (List.replicate 12 0)
        (startedJob (contextMissing s1Index "I2") scenarioToolbox scenarioFramework false
          ["ST1"])).1.zipCalls =
        [.OpenDirectory "P001 DOE^JOHN", .OpenDirectory "A1 Head", .OpenDirectory "CT Axial",
         .OpenFile "CT000000.dcm", .Write "dicom:I1",
         .OpenFile "CT000001.dcm", .Write "",
         .CloseDirectory, .OpenDirectory "MR T1",
         .OpenFile "MR000000.dcm", .Write "dicom:I3",
         .CloseDirectory, .CloseDirectory, .CloseDirectory, .Close]) ∧
    errorOf (ArchiveJob.runSteps (contextMissingStrict s1Index "I2") scenarioFramework
      (List.replicate 6 0)
      (startedJob (contextMissingStrict s1Index "I2") scenarioToolbox scenarioFramework true
        ["ST1"])).2 = some .BadFileFormat := by
  refine ⟨?_, ⟨eq_ok_of_toOption (by decide!), by decide!⟩, by decide!⟩
  intro context toolbox framework j j0 sched k c e hfresh hstart hparse hsched hk hwrite hread
  obtain ⟨hnew, hempty⟩ := isFresh_isConstructed j hfresh
  obtain ⟨hrun, hin⟩ := start_running context toolbox framework j j0 hnew hstart
  have hinv : SlotInv j0.commands 0 (([] : List (Nat × String)).map Prod.fst) j0.inFlight := by
    rw [hin]; exact slotInv_init _
  obtain ⟨j1, written, tail, hsteps, hcalls, hfinal, -, -, hheld, -⟩ := runSteps_complete context
    framework j.buffers j0.commands j.isMedia_ j.transcode_ j.transferSyntax_
    (writesParse_of_noParseError context _ _ _ _ _ hparse) sched 0 [] j0 hrun
    hinv (by omega) (by omega)
  have hmem : k ∈ written.map Prod.fst := by
    have hp : (written.map Prod.fst).Perm (List.range j0.commands.length) := by
      simpa using hfinal.perm
    rw [hp.mem_iff, List.mem_range]
    exact getElem?_lt hk
  obtain ⟨p, hp, hpk⟩ := List.mem_map.mp hmem
  obtain ⟨a, b, hsplit⟩ := List.append_of_mem hp
  have hty : c.type_ = .Type_WriteInstance := by
    simpa [Command.IsWriteInstance] using hwrite
  have hbuf := hheld p hp c (by rw [hpk]; exact hk) hwrite
  have hpay : p.2 = "" := by
    unfold Command.IsBuffer at hbuf
    rw [hread] at hbuf
    rcases hbuf with h | h
    · exact h
    · exact hempty _ h
  refine ⟨j1, callsWith context j.transcode_ j.transferSyntax_ j0.commands a,
    (match (if j.transcode_ then context.Transcode p.2 j.transferSyntax_
            else none) with
     | some (data, _) => data
     | none => p.2),
    callsWith context j.transcode_ j.transferSyntax_ j0.commands b ++ tail, hsteps, ?_, ?_⟩
  · rw [hcalls, hsplit]
    have e1 : a ++ p :: b = a ++ [p] ++ b := by simp
    have hkp : j0.commands[p.1]? = some c := by rw [hpk]; exact hk
    rw [e1, callsWith_append, callsWith_append, callsWith_single _ _ _ _ p.1 p.2 c hkp]
    simp only [Command.callsWith, hty, List.append_assoc]
  · intro hno
    simp [hno, hpay]

/-! ## The identifiers of a selected resource -/

/-- Claim C26: `ResourceIdentifiers(index, P)` returns exactly when
`LookupResourceType(P)` finds a level `L` and the `rank L - 1` successive calls
of `LookupParent` that climb from `P` to the patient all succeed; then
`GetLevel()` is `L`, `GetIdentifier(L)` is `P`, and for every level above `L`
the identifier of that level is the `LookupParent` of the identifier one level
below; in every other case the constructor throws `UnknownResource`. -/
theorem identifiers_resolved (index : ServerIndex) (P : String) :
    ((∃ r, ResourceIdentifiers.create index P = .ok r) ↔
      ∃ L, index.LookupResourceType P = some L ∧
        ∀ k, k < L.rank → (parentChain index P k).isSome = true) ∧
    (∀ r, ResourceIdentifiers.create index P = .ok r →
      index.LookupResourceType P = some r.GetLevel ∧
      r.GetIdentifier r.GetLevel = .ok P ∧
      ∀ above below, GetChildResourceType above = some below →
        below.rank ≤ r.GetLevel.rank →
        ∃ a b, r.GetIdentifier above = .ok a ∧ r.GetIdentifier below = .ok b ∧
          index.LookupParent b = some a) ∧
    (∀ e, ResourceIdentifiers.create index P = .error e → e = .UnknownResource) := by
  refine ⟨?_, ?_, ?_⟩
  · constructor
    · rintro ⟨r, hr⟩
      obtain ⟨hl, hp, hst, hse, hin⟩ := create_ok index P r hr
      refine ⟨r.level_, hl, ?_⟩
      intro k hk
      cases hlev : r.level_ with
      | Patient =>
        rw [hlev] at hk
        have : k = 0 := by simp [ResourceType.rank] at hk; omega
        subst this; rfl
      | Study =>
        rw [hlev] at hk
        obtain ⟨h1, h2⟩ := hst hlev
        have : k = 0 ∨ k = 1 := by simp [ResourceType.rank] at hk; omega
        rcases this with rfl | rfl
        · rfl
        · simp [parentChain, ← h1, h2]
      | Series =>
        rw [hlev] at hk
        obtain ⟨h1, h2, h3⟩ := hse hlev
        have : k = 0 ∨ k = 1 ∨ k = 2 := by simp [ResourceType.rank] at hk; omega
        rcases this with rfl | rfl | rfl
        · rfl
        · simp [parentChain, ← h1, h2]
        · simp [parentChain, ← h1, h2, h3]
      | Instance =>
        rw [hlev] at hk
        obtain ⟨h1, h2, h3, h4⟩ := hin hlev
        have : k = 0 ∨ k = 1 ∨ k = 2 ∨ k = 3 := by simp [ResourceType.rank] at hk; omega
        rcases this with rfl | rfl | rfl | rfl
        · rfl
        · simp [parentChain, ← h1, h2]
        · simp [parentChain, ← h1, h2, h3]
        · simp [parentChain, ← h1, h2, h3, h4]
    · rintro ⟨L, hL, hchain⟩
      cases L with
      | Patient => exact ⟨⟨.Patient, P, "", "", ""⟩, by simp [ResourceIdentifiers.create, hL, pure, Except.pure]⟩
      | Study =>
        have h1 := hchain 1 (by decide)
        simp only [parentChain, Option.some_bind, Option.isSome_iff_exists] at h1
        obtain ⟨a, ha⟩ := h1
        exact ⟨⟨.Study, a, P, "", ""⟩, by
          simp [ResourceIdentifiers.create, hL, ResourceIdentifiers.GoToParent, ha, bind,
            Except.bind, pure, Except.pure, Functor.map, Except.map]⟩
      | Series =>
        have h1 := hchain 1 (by decide)
        have h2 := hchain 2 (by decide)
        simp only [parentChain, Option.some_bind, Option.isSome_iff_exists] at h1 h2
        obtain ⟨a, ha⟩ := h1
        simp only [ha, Option.some_bind] at h2
        obtain ⟨b, hb⟩ := h2
        exact ⟨⟨.Series, b, a, P, ""⟩, by
          simp [ResourceIdentifiers.create, hL, ResourceIdentifiers.GoToParent, ha, hb, bind,
            Except.bind, pure, Except.pure, Functor.map, Except.map]⟩
      | Instance =>
        have h1 := hchain 1 (by decide)
        have h2 := hchain 2 (by decide)
        have h3 := hchain 3 (by decide)
        simp only [parentChain, Option.some_bind, Option.isSome_iff_exists] at h1 h2 h3
        obtain ⟨a, ha⟩ := h1
        simp only [ha, Option.some_bind] at h2 h3
        obtain ⟨b, hb⟩ := h2
        simp only [hb, Option.some_bind] at h3
        obtain ⟨c, hc⟩ := h3
        exact ⟨⟨.Instance, c, b, a, P⟩, by
          simp [ResourceIdentifiers.create, hL, ResourceIdentifiers.GoToParent, ha, hb, hc, bind,
            Except.bind, pure, Except.pure, Functor.map, Except.map]⟩
  · intro r hr
    obtain ⟨hl, hp, hst, hse, hin⟩ := create_ok index P r hr
    refine ⟨hl, ?_, ?_⟩
    · cases hlev : r.level_ with
      | Patient => simp [ResourceIdentifiers.GetIdentifier, ResourceIdentifiers.GetLevel, hlev, hp hlev]
      | Study =>
        simp [ResourceIdentifiers.GetIdentifier, ResourceIdentifiers.GetLevel, hlev, (hst hlev).1]
      | Series =>
        simp [ResourceIdentifiers.GetIdentifier, ResourceIdentifiers.GetLevel, hlev, (hse hlev).1]
      | Instance =>
        simp [ResourceIdentifiers.GetIdentifier, ResourceIdentifiers.GetLevel, hlev, (hin hlev).1]
    · intro above below hchild hrank
      cases hlev : r.level_ with
      | Patient =>
        cases above <;> simp [GetChildResourceType] at hchild <;> subst hchild <;>
          simp [ResourceIdentifiers.GetLevel, hlev, ResourceType.rank] at hrank
      | Study =>
        obtain ⟨h1, h2⟩ := hst hlev
        cases above <;> simp [GetChildResourceType] at hchild <;> subst hchild <;>
          simp [ResourceIdentifiers.GetLevel, hlev, ResourceType.rank] at hrank <;>
          simp [ResourceIdentifiers.GetIdentifier, hlev, ResourceType.rank, h2]
      | Series =>
        obtain ⟨h1, h2, h3⟩ := hse hlev
        cases above <;> simp [GetChildResourceType] at hchild <;> subst hchild <;>
          simp [ResourceIdentifiers.GetLevel, hlev, ResourceType.rank] at hrank <;>
          simp [ResourceIdentifiers.GetIdentifier, hlev, ResourceType.rank, h2, h3]
      | Instance =>
        obtain ⟨h1, h2, h3, h4⟩ := hin hlev
        cases above <;> simp [GetChildResourceType] at hchild <;> subst hchild <;>
          simp [ResourceIdentifiers.GetIdentifier, hlev, ResourceType.rank, h2, h3, h4]
  · intro e he
    unfold ResourceIdentifiers.create at he
    cases hL : index.LookupResourceType P with
    | none => simp [hL] at he; exact he.symm
    | some L =>
      cases L <;> simp only [hL] at he
      · cases he
      · cases h1 : index.LookupParent P <;>
          simp [ResourceIdentifiers.GoToParent, h1, bind, Except.bind, pure, Except.pure] at he
        exact he.symm
      · cases h1 : index.LookupParent P with
        | none =>
          simp [ResourceIdentifiers.GoToParent, h1, bind, Except.bind, pure, Except.pure] at he
          exact he.symm
        | some a =>
          cases h2 : index.LookupParent a <;>
            simp [ResourceIdentifiers.GoToParent, h1, h2, bind, Except.bind, pure,
              Except.pure] at he
          exact he.symm
      · cases h1 : index.LookupParent P with
        | none =>
          simp [ResourceIdentifiers.GoToParent, h1, bind, Except.bind, pure, Except.pure] at he
          exact he.symm
        | some a =>
          cases h2 : index.LookupParent a with
          | none =>
            simp [ResourceIdentifiers.GoToParent, h1, h2, bind, Except.bind, pure,
              Except.pure] at he
            exact he.symm
          | some b =>
            cases h3 : index.LookupParent b <;>
              simp [ResourceIdentifiers.GoToParent, h1, h2, h3, bind, Except.bind, pure,
                Except.pure] at he
            exact he.symm

/-! ## A second expansion -/

/-- After `Expand`, no entry of the tree is NULL: a second `Expand`, whatever
the index answers, returns the tree as it is and makes no call on the index. -/
theorem expand_expand (index1 index2 : ServerIndex) :
    ∀ (d : Nat) (tree : ArchiveIndex d),
      ArchiveIndex.Expand index2 d (ArchiveIndex.Expand index1 d tree) =
        ArchiveIndex.Expand index1 d tree ∧
      ArchiveIndex.expandQueries index2 d (ArchiveIndex.Expand index1 d tree) = [] := by
  intro d
  induction d with
  | zero => intro tree; exact ⟨rfl, rfl⟩
  | succ d ih =>
    intro tree
    have key : ∀ (resources : Resources (ArchiveIndex d)),
        ArchiveIndex.Expand index2 (d + 1)
          (ArchiveIndex.Expand index1 (d + 1) resources : Resources (ArchiveIndex d)) =
          ArchiveIndex.Expand index1 (d + 1) resources ∧
        ArchiveIndex.expandQueries index2 (d + 1)
          (ArchiveIndex.Expand index1 (d + 1) resources : Resources (ArchiveIndex d)) = [] := by
      intro resources
      induction resources with
      | nil => exact ⟨rfl, rfl⟩
      | cons entry rest ihr =>
        obtain ⟨id, value⟩ := entry
        obtain ⟨h1, h2⟩ := ihr
        simp only [ArchiveIndex.Expand, ArchiveIndex.expandQueries] at h1 h2 ⊢
        cases value with
        | none =>
          simp only [List.map_cons, List.flatten_cons, (ih _).1, (ih _).2, List.nil_append]
          exact ⟨by rw [h1], h2⟩
        | some child =>
          simp only [List.map_cons, List.flatten_cons, (ih _).1, (ih _).2, List.nil_append]
          exact ⟨by rw [h1], h2⟩
    exact key tree

/-- Claim C30: for every tree and every index, `Expand` applied a second time
makes no call of `GetChildren` or `LookupAttachment` (whatever the index would
answer) and returns the tree unchanged; the constructor of
`ZipWriterIterator`, which expands before planning, then plans the same
commands from the expanded tree as from the tree.  For comparison, the first
`Expand` of the study `ST1` of scenario S1 makes six calls. -/
theorem expand_idempotent (context : ServerContext) (toolbox : Toolbox) (index2 : ServerIndex)
    (tree : ArchiveIndex 3) (isMedia : Bool) :
    ArchiveIndex.Expand index2 3 (ArchiveIndex.Expand context.index 3 tree) =
      ArchiveIndex.Expand context.index 3 tree ∧
    ArchiveIndex.expandQueries index2 3 (ArchiveIndex.Expand context.index 3 tree) = [] ∧
    planCommands context toolbox (ArchiveIndex.Expand context.index 3 tree) isMedia =
      planCommands context toolbox tree isMedia ∧
    ArchiveIndex.expandQueries s1Index 3
      ([("PT1", some ([("ST1", none)] : Resources (ArchiveIndex 1)))] :
        Resources (ArchiveIndex 2)) =
      [.GetChildren "ST1", .GetChildren "SR1", .LookupAttachment "I1", .LookupAttachment "I2",
       .GetChildren "SR2", .LookupAttachment "I3"] := by
  refine ⟨(expand_expand context.index index2 3 tree).1,
    (expand_expand context.index index2 3 tree).2, ?_, by decide!⟩
  simp only [planCommands, (expand_expand context.index context.index 3 tree).1]

/-! ## Names of the directories -/

/-- A buffer without NUL is its own C string. -/
theorem cString_of_noNul (l : List Char) (h : Char.ofNat 0 ∉ l) : cString l = l := by
  unfold cString
  rw [List.takeWhile_eq_self_iff]
  intro c hc
  simp only [ne_eq, decide_eq_true_eq]
  intro heq
  exact h (heq ▸ hc)

theorem c_str_of_noNul (s : String) (h : Char.ofNat 0 ∉ s.data) : c_str s = s := by
  unfold c_str
  rw [cString_of_noNul _ h]

theorem scenarioToolbox_isPlain : scenarioToolbox.IsPlain where
  empty := by decide
  noNul := by
    intro s
    simp only [scenarioToolbox]
    intro h
    have h1 := List.mem_reverse.mp h
    have h2 := (List.dropWhile_sublist _).subset h1
    have h3 := List.mem_reverse.mp h2
    have h4 := (List.dropWhile_sublist _).subset h3
    have h5 := List.mem_filter.mp h4
    simp at h5
  levelNoNul := by
    intro level
    cases level <;> decide

/-- Claim C28: for the levels Patient, Study and Series, `Open` of the archive
visitor returns and appends one `OpenDirectory` whose name is the path built
from the main DICOM tags, converted to ASCII and stripped, or `Unknown`
followed by the name of the level when that text is empty, as it is when the
index has no tags for the resource; the name is never empty. -/
theorem directory_name_never_empty (context : ServerContext) (toolbox : Toolbox)
    (level : ResourceType) (publicId : String) (v : ArchiveIndexVisitor)
    (hl : level ≠ .Instance) (ht : toolbox.IsPlain) :
    ∃ v1 name, ArchiveIndexVisitor.Open context toolbox level publicId v = .ok v1 ∧
      v1.commands_.commands_ = v.commands_.commands_ ++ [⟨.Type_OpenDirectory, name, ""⟩] ∧
      name ≠ "" ∧
      (toolbox.StripSpaces (toolbox.ConvertToAscii
          (ArchiveIndexVisitor.tagPath context level publicId)) ≠ "" →
        name = toolbox.StripSpaces (toolbox.ConvertToAscii
          (ArchiveIndexVisitor.tagPath context level publicId))) ∧
      (toolbox.StripSpaces (toolbox.ConvertToAscii
          (ArchiveIndexVisitor.tagPath context level publicId)) = "" →
        name = "Unknown " ++ toolbox.EnumerationToString level) ∧
      (context.index.GetMainDicomTags publicId level = none →
        name = "Unknown " ++ toolbox.EnumerationToString level) := by
  have hname : ∀ path, ArchiveIndexVisitor.directoryName toolbox level path ≠ "" ∧
      (toolbox.StripSpaces (toolbox.ConvertToAscii path) ≠ "" →
        ArchiveIndexVisitor.directoryName toolbox level path =
          toolbox.StripSpaces (toolbox.ConvertToAscii path)) ∧
      (toolbox.StripSpaces (toolbox.ConvertToAscii path) = "" →
        ArchiveIndexVisitor.directoryName toolbox level path =
          "Unknown " ++ toolbox.EnumerationToString level) := by
    intro path
    have hunknown : c_str ("Unknown " ++ toolbox.EnumerationToString level) =
        "Unknown " ++ toolbox.EnumerationToString level := by
      apply c_str_of_noNul
      rw [String.data_append]
      intro h
      rcases List.mem_append.mp h with h | h
      · revert h; decide
      · exact ht.levelNoNul level h
    by_cases he : toolbox.StripSpaces (toolbox.ConvertToAscii path) = ""
    · have hd : (toolbox.StripSpaces (toolbox.ConvertToAscii path)).data = [] := by rw [he]
      have hn : ArchiveIndexVisitor.directoryName toolbox level path =
          "Unknown " ++ toolbox.EnumerationToString level := by
        simp only [ArchiveIndexVisitor.directoryName, hd, if_true, hunknown]
      refine ⟨?_, fun h => absurd he h, fun _ => hn⟩
      rw [hn]
      intro h
      have := congrArg String.data h
      rw [String.data_append] at this
      simp at this
    · have hd : (toolbox.StripSpaces (toolbox.ConvertToAscii path)).data ≠ [] := by
        intro h
        apply he
        exact String.ext h
      have hn : ArchiveIndexVisitor.directoryName toolbox level path =
          toolbox.StripSpaces (toolbox.ConvertToAscii path) := by
        simp only [ArchiveIndexVisitor.directoryName, hd, if_false]
        exact c_str_of_noNul _ (ht.noNul path)
      exact ⟨by rw [hn]; exact he, fun _ => hn, fun h => absurd h he⟩
  have hopen : ArchiveIndexVisitor.Open context toolbox level publicId v =
      .ok (ArchiveIndexVisitor.openDirectory toolbox level
        (ArchiveIndexVisitor.tagPath context level publicId)
        (match level, context.index.GetMainDicomTags publicId level with
         | .Series, some tags =>
           { v with
             instanceFormat_ := ((ArchiveIndexVisitor.formatOfModality
               (ArchiveIndexVisitor.GetTag tags .MODALITY)).getD v.instanceFormat_)
             counter_ := 0 }
         | _, _ => v)) := by
    unfold ArchiveIndexVisitor.Open ArchiveIndexVisitor.tagPath
    cases htags : context.index.GetMainDicomTags publicId level with
    | none => cases level <;> rfl
    | some tags =>
      cases level with
      | Patient => rfl
      | Study => rfl
      | Series =>
        obtain ⟨format, hf⟩ := formatOfModality_isSome (ArchiveIndexVisitor.GetTag tags .MODALITY)
        simp only [hf, Option.getD_some]
      | Instance => exact absurd rfl hl
  obtain ⟨h1, h2, h3⟩ := hname (ArchiveIndexVisitor.tagPath context level publicId)
  refine ⟨_, _, hopen, ?_, h1, h2, h3, ?_⟩
  · cases level <;> cases context.index.GetMainDicomTags publicId .Series <;>
      simp [ArchiveIndexVisitor.openDirectory, ZipCommands.AddOpenDirectory]
  · intro hnone
    apply h3
    simp only [ArchiveIndexVisitor.tagPath, hnone]
    exact ht.empty

/-- Witness of `directory_name_never_empty`: the series `SR1` of scenario S1
and the toolbox of the scenarios. -/
theorem directory_name_never_empty_witness :
    ∃ v1 name,
      ArchiveIndexVisitor.Open (contextOf s1Index) scenarioToolbox .Series "SR1"
        ⟨ZipCommands.new, [], 0⟩ = .ok v1 ∧
      v1.commands_.commands_ = [⟨.Type_OpenDirectory, name, ""⟩] ∧ name ≠ "" :=
  let ⟨v1, name, h1, h2, h3, _⟩ := directory_name_never_empty (contextOf s1Index) scenarioToolbox
    .Series "SR1" ⟨ZipCommands.new, [], 0⟩ (by decide) scenarioToolbox_isPlain
  ⟨v1, name, h1, h2, h3⟩

/-! ## The write phase of an instance -/

/-- Claim C22 fails as stated: a write phase can fail.  In media mode without
transcoding, on a buffer that `ParsedDicomFile` rejects (the empty buffer that a
failed read leaves, or a stored file that is not DICOM), `RunStep` in write
mode makes `OpenFile` and `Write` of the buffer, then throws `BadFileFormat`;
nothing is added to the DICOMDIR. -/
theorem write_phase_throws_on_unparsed_buffer :
    (ZipWriterIterator.RunStep (contextStrict s1Index)
      ⟨⟨[⟨.Type_WriteInstance, "IM0", "I1"⟩], 10, 1⟩, some ⟨false, []⟩, some ⟨false, []⟩, true,
        false⟩ 0 false "" false "").1 =
      (⟨⟨[⟨.Type_WriteInstance, "IM0", "I1"⟩], 10, 1⟩,
        some ⟨false, [.OpenFile "IM0", .Write ""]⟩, some ⟨false, []⟩, true, false⟩, "") ∧
    errorOf (ZipWriterIterator.RunStep (contextStrict s1Index)
      ⟨⟨[⟨.Type_WriteInstance, "IM0", "I1"⟩], 10, 1⟩, some ⟨false, []⟩, some ⟨false, []⟩, true,
        false⟩ 0 false "" false "").2 = some .BadFileFormat ∧
    (ZipWriterIterator.RunStep contextFaulty
      ⟨⟨[⟨.Type_WriteInstance, "IM0", "I3"⟩], 10, 1⟩, some ⟨false, []⟩, some ⟨false, []⟩, true,
        false⟩ 0 false "" false "dicom:I3").1 =
      (⟨⟨[⟨.Type_WriteInstance, "IM0", "I3"⟩], 10, 1⟩,
        some ⟨false, [.OpenFile "IM0", .Write "dicom:I3"]⟩, some ⟨false, []⟩, true, false⟩,
        "dicom:I3") ∧
    errorOf (ZipWriterIterator.RunStep contextFaulty
      ⟨⟨[⟨.Type_WriteInstance, "IM0", "I3"⟩], 10, 1⟩, some ⟨false, []⟩, some ⟨false, []⟩, true,
        false⟩ 0 false "" false "dicom:I3").2 = some .BadFileFormat := by
  refine ⟨by decide!, by decide!, by decide!, by decide!⟩

/-- Claim C22 as amended: the write phase of a `WriteInstance` command on a
buffer `p` makes `OpenFile` with the file name and then exactly one `Write`.
When transcoding is set and `Transcode` succeeds, the `Write` carries the
transcoded bytes, the phase returns normally and, in media mode, the transcoded
file is added to the DICOMDIR under `IMAGES` with the file name.  When
transcoding is not set or `Transcode` fails, the `Write` carries `p`; in
archive mode the phase returns normally; in media mode the file parsed from `p`
is added in the same way and the phase returns normally when
`ParsedDicomFile` accepts `p`, and when it throws the exception leaves the
phase after the `Write`, with no entry added to the DICOMDIR. -/
theorem write_phase_best_effort (context : ServerContext) (w : ZipWriterIterator)
    (zip : HierarchicalZipWriter) (index : Nat) (c : Command)
    (transcode : Bool) (tsx : DicomTransferSyntax) (p : String)
    (hzip : w.zip_ = some zip)
    (hc : w.commands_.commands_[index]? = some c) (hwrite : c.IsWriteInstance = true) :
    (∀ t parsed, transcode = true → context.Transcode p tsx = some (t, parsed) →
      (w.isMedia_ = false →
        w.RunStep context index transcode tsx false p =
          (({ w with zip_ := some ⟨zip.isZip64,
                zip.calls ++ [.OpenFile (c_str c.filename_), .Write t]⟩ }, p), .ok ())) ∧
      (∀ d, w.isMedia_ = true → w.dicomDir_ = some d →
        w.RunStep context index transcode tsx false p =
          (({ w with
              zip_ := some ⟨zip.isZip64,
                zip.calls ++ [.OpenFile (c_str c.filename_), .Write t]⟩
              dicomDir_ := some ⟨d.extendedSopClass,
                d.entries ++ [("IMAGES", c.filename_, parsed)]⟩ }, p), .ok ()))) ∧
    ((transcode = false ∨ context.Transcode p tsx = none) →
      (w.isMedia_ = false →
        w.RunStep context index transcode tsx false p =
          (({ w with zip_ := some ⟨zip.isZip64,
                zip.calls ++ [.OpenFile (c_str c.filename_), .Write p]⟩ }, p), .ok ())) ∧
      (∀ d parsed, w.isMedia_ = true → w.dicomDir_ = some d →
        context.ParseDicom p = .ok parsed →
        w.RunStep context index transcode tsx false p =
          (({ w with
              zip_ := some ⟨zip.isZip64,
                zip.calls ++ [.OpenFile (c_str c.filename_), .Write p]⟩
              dicomDir_ := some ⟨d.extendedSopClass,
                d.entries ++ [("IMAGES", c.filename_, parsed)]⟩ }, p), .ok ())) ∧
      (∀ d e, w.isMedia_ = true → w.dicomDir_ = some d →
        context.ParseDicom p = .error e →
        w.RunStep context index transcode tsx false p =
          (({ w with
              zip_ := some ⟨zip.isZip64,
                zip.calls ++ [.OpenFile (c_str c.filename_), .Write p]⟩ }, p), .error e))) := by
  have hlt := getElem?_lt hc
  have hty : c.type_ = .Type_WriteInstance := by
    simpa [Command.IsWriteInstance] using hwrite
  obtain ⟨⟨cmds, usize, icount⟩, zip_, dicomDir, isMedia, isStream⟩ := w
  simp only at hzip hc hlt
  subst hzip
  have h1 : ¬ (index > cmds.length) := by omega
  have h2 : index ≠ cmds.length := by omega
  refine ⟨fun t parsed htr ht => ⟨fun hm => ?_, fun d hm hd => ?_⟩,
    fun hno => ⟨fun hm => ?_, fun d parsed hm hd hp => ?_, fun d e hm hd hp => ?_⟩⟩
  · simp only at hm
    subst hm htr
    simp [ZipWriterIterator.RunStep, ZipCommands.GetSize, h1, h2, hc, Command.Apply, hty, ht,
      HierarchicalZipWriter.call]
  · simp only at hm hd
    subst hm hd htr
    simp [ZipWriterIterator.RunStep, ZipCommands.GetSize, h1, h2, hc, Command.Apply, hty, ht,
      HierarchicalZipWriter.call, DicomDirWriter.Add, MEDIA_IMAGES_FOLDER]
  · simp only at hm
    subst hm
    have hT : (if transcode = true then context.Transcode p tsx else none) = none := by
      rcases hno with h | h
      · simp [h]
      · simp [h]
    simp [ZipWriterIterator.RunStep, ZipCommands.GetSize, h1, h2, hc, Command.Apply, hty, hT,
      HierarchicalZipWriter.call]
  · simp only at hm hd
    subst hm hd
    have hT : (if transcode = true then context.Transcode p tsx else none) = none := by
      rcases hno with h | h
      · simp [h]
      · simp [h]
    simp [ZipWriterIterator.RunStep, ZipCommands.GetSize, h1, h2, hc, Command.Apply, hty, hT,
      HierarchicalZipWriter.call, DicomDirWriter.Add, MEDIA_IMAGES_FOLDER, hp]
  · simp only at hm hd
    subst hm hd
    have hT : (if transcode = true then context.Transcode p tsx else none) = none := by
      rcases hno with h | h
      · simp [h]
      · simp [h]
    simp [ZipWriterIterator.RunStep, ZipCommands.GetSize, h1, h2, hc, Command.Apply, hty, hT,
      HierarchicalZipWriter.call, hp]

/-- Witness of `write_phase_best_effort`: a media writer holding one command,
without transcoding, with a parser that rejects the empty buffer. -/
theorem write_phase_best_effort_witness :
    ZipWriterIterator.RunStep (contextStrict s1Index)
      ⟨⟨[⟨.Type_WriteInstance, "IM0", "I1"⟩], 10, 1⟩, some ⟨false, []⟩, some ⟨false, []⟩, true,
        false⟩ 0 false "" false "dicom:I1" =
      ((⟨⟨[⟨.Type_WriteInstance, "IM0", "I1"⟩], 10, 1⟩,
        some ⟨false, [] ++ [.OpenFile (c_str "IM0"), .Write "dicom:I1"]⟩,
        some ⟨false, [] ++ [("IMAGES", "IM0", ⟨"dicom:I1"⟩)]⟩, true, false⟩, "dicom:I1"), .ok ()) :=
  ((write_phase_best_effort (contextStrict s1Index)
    ⟨⟨[⟨.Type_WriteInstance, "IM0", "I1"⟩], 10, 1⟩, some ⟨false, []⟩, some ⟨false, []⟩, true,
      false⟩ ⟨false, []⟩ 0 ⟨.Type_WriteInstance, "IM0", "I1"⟩ false "" "dicom:I1" rfl rfl rfl).2
    (Or.inl rfl)).2.1 ⟨false, []⟩ ⟨"dicom:I1"⟩ rfl rfl (eq_ok_of_toOption (by decide!))

/-! ## The work of a reading thread -/

theorem runStepReadInstance_fixed (context : ServerContext) (numThread : Nat) (j : ArchiveJob) :
    (ArchiveJob.RunStepReadInstance context numThread j).1.fixed = j.fixed ∧
    (ArchiveJob.RunStepReadInstance context numThread j).1.mediaArchiveId_ =
      j.mediaArchiveId_ := by
  unfold ArchiveJob.RunStepReadInstance
  split
  · try dsimp only
    split <;> exact ⟨rfl, rfl⟩
  · exact ⟨rfl, rfl⟩

theorem endThreadIndexOf_fixed (context : ServerContext) (threadNumber : Nat) (j : ArchiveJob) :
    (ArchiveJob.EndThreadIndexOf context threadNumber j).1.fixed = j.fixed ∧
    (ArchiveJob.EndThreadIndexOf context threadNumber j).1.mediaArchiveId_ =
      j.mediaArchiveId_ := by
  unfold ArchiveJob.EndThreadIndexOf
  split
  · split
    · exact ⟨rfl, rfl⟩
    · try dsimp only
      split <;> exact ⟨rfl, rfl⟩
  · exact ⟨rfl, rfl⟩

theorem launch_fixed (context : ServerContext) (i : Nat) (j : ArchiveJob) :
    (ArchiveJob.launch context i j).1.fixed = j.fixed ∧
    (ArchiveJob.launch context i j).1.mediaArchiveId_ = j.mediaArchiveId_ := by
  unfold ArchiveJob.launch
  split
  · exact ⟨rfl, rfl⟩
  · rename_i slot hslot
    split
    · exact ⟨rfl, rfl⟩
    · exact runStepReadInstance_fixed context i
        { j with threads_ := j.threads_.set i { slot with thread := true } }

theorem endThreadsFrom_fixed (context : ServerContext) :
    ∀ (remaining i : Nat) (j : ArchiveJob),
      (ArchiveJob.endThreadsFrom context remaining i j).1.fixed = j.fixed ∧
      (ArchiveJob.endThreadsFrom context remaining i j).1.mediaArchiveId_ =
        j.mediaArchiveId_ := by
  intro remaining
  induction remaining with
  | zero => intro i j; exact ⟨rfl, rfl⟩
  | succ remaining ih =>
    intro i j
    have h := endThreadIndexOf_fixed context i j
    unfold ArchiveJob.endThreadsFrom
    cases hE : ArchiveJob.EndThreadIndexOf context i j with
    | mk j1 r =>
      rw [hE] at h
      cases r with
      | error e => exact h
      | ok b =>
        have h2 := ih (i + 1) j1
        exact ⟨h2.1.trans h.1, h2.2.trans h.2⟩

theorem stepDirectory_fixed (context : ServerContext) (j : ArchiveJob) :
    (ArchiveJob.stepDirectory context j).1.fixed = j.fixed ∧
    (ArchiveJob.stepDirectory context j).1.mediaArchiveId_ = j.mediaArchiveId_ := by
  have h := endThreadsFrom_fixed context j.threadsActive_ 0 j
  unfold ArchiveJob.stepDirectory
  cases hE : ArchiveJob.endThreadsFrom context j.threadsActive_ 0 j with
  | mk j1 r =>
    rw [hE] at h
    cases r with
    | error e => exact h
    | ok u =>
      try dsimp only
      split
      · exact h
      · try dsimp only
        split <;> exact h

theorem stepInstance_fixed (context : ServerContext) (waiting : Nat) (j : ArchiveJob) :
    (ArchiveJob.stepInstance context waiting j).1.fixed = j.fixed ∧
    (ArchiveJob.stepInstance context waiting j).1.mediaArchiveId_ = j.mediaArchiveId_ := by
  unfold ArchiveJob.stepInstance
  split
  · split
    · exact ⟨rfl, rfl⟩
    · rename_i slot hslot
      try dsimp only
      have h := launch_fixed context j.threadsActive_
        { j with
          threads_ := j.threads_.set j.threadsActive_
            { slot with threadFinished := false, boolRead := true,
                        threadCurrentStep := j.currentStep_ } }
      cases hR : ArchiveJob.launch context j.threadsActive_
        { j with
          threads_ := j.threads_.set j.threadsActive_
            { slot with threadFinished := false, boolRead := true,
                        threadCurrentStep := j.currentStep_ } } with
      | mk j2 r =>
        rw [hR] at h
        cases r <;> exact h
  · try dsimp only
    have h := endThreadIndexOf_fixed context (ArchiveJob.scanFinished waiting 0) j
    cases hE : ArchiveJob.EndThreadIndexOf context (ArchiveJob.scanFinished waiting 0) j with
    | mk j1 r =>
      rw [hE] at h
      cases r with
      | error e => exact h
      | ok b =>
        try dsimp only
        split
        · exact h
        · rename_i slot hslot
          have h2 := launch_fixed context (ArchiveJob.scanFinished waiting 0)
            { j1 with
              threads_ := j1.threads_.set (ArchiveJob.scanFinished waiting 0)
                { slot with threadFinished := false, threadCurrentStep := j1.currentStep_ } }
          exact ⟨h2.1.trans h.1, h2.2.trans h.2⟩

theorem stepTry_fixed (context : ServerContext) (waiting : Nat) (writer : ZipWriterIterator)
    (j : ArchiveJob) :
    (ArchiveJob.stepTry context waiting writer j).1.fixed = j.fixed ∧
    (ArchiveJob.stepTry context waiting writer j).1.mediaArchiveId_ = j.mediaArchiveId_ := by
  unfold ArchiveJob.stepTry
  split
  · split
    · exact ⟨rfl, rfl⟩
    · exact stepDirectory_fixed context j
    · exact stepInstance_fixed context waiting j
  · exact ⟨rfl, rfl⟩

theorem stepCatch_fixed (e : ErrorCode) (j : ArchiveJob) :
    (ArchiveJob.stepCatch e j).1.fixed = j.fixed ∧
    (ArchiveJob.stepCatch e j).1.mediaArchiveId_ = j.mediaArchiveId_ := by
  unfold ArchiveJob.stepCatch
  split
  · exact ⟨rfl, rfl⟩
  · split <;> exact ⟨rfl, rfl⟩

theorem stepLast_fixed (context : ServerContext) (framework : Framework) (j : ArchiveJob) :
    (ArchiveJob.stepLast context framework j).1.fixed = j.fixed ∧
    (ArchiveJob.stepLast context framework j).1.mediaArchiveId_ = j.mediaArchiveId_ := by
  have h := endThreadsFrom_fixed context j.threadsActive_ 0 j
  unfold ArchiveJob.stepLast
  cases hE : ArchiveJob.endThreadsFrom context j.threadsActive_ 0 j with
  | mk j1 r =>
    rw [hE] at h
    cases r with
    | error e => exact h
    | ok u =>
      try dsimp only
      split
      · exact h
      · split <;> exact h

theorem finalizeTarget_fixed (framework : Framework) (j : ArchiveJob) :
    (ArchiveJob.FinalizeTarget framework j).1.fixed = j.fixed := by
  unfold ArchiveJob.FinalizeTarget
  try dsimp only
  cases j.writer_ with
  | none =>
    try dsimp only
    split <;> rfl
  | some writer =>
    try dsimp only
    cases writer.Close with
    | error e => rfl
    | ok writer1 =>
      try dsimp only
      cases writer1.GetArchiveSize framework with
      | error e => rfl
      | ok size =>
        try dsimp only
        split <;> rfl

theorem stepFinish_fixed (framework : Framework) (writer : ZipWriterIterator) (j : ArchiveJob) :
    (ArchiveJob.stepFinish framework writer j).1.fixed = j.fixed ∧
    ((ArchiveJob.stepFinish framework writer j).2 = .ok .Continue →
      (ArchiveJob.stepFinish framework writer j).1.mediaArchiveId_ = j.mediaArchiveId_) := by
  unfold ArchiveJob.stepFinish
  try dsimp only
  split
  · have h := finalizeTarget_fixed framework { j with currentStep_ := j.currentStep_ + 1 }
    cases hF : ArchiveJob.FinalizeTarget framework { j with currentStep_ := j.currentStep_ + 1 } with
    | mk j4 r =>
      rw [hF] at h
      cases r with
      | error e => exact ⟨h, fun h2 => by simp at h2⟩
      | ok u => exact ⟨h, fun h2 => by simp at h2⟩
  · split
    · exact ⟨rfl, fun _ => rfl⟩
    · split
      · exact ⟨rfl, fun _ => rfl⟩
      · exact ⟨rfl, fun _ => rfl⟩

/-- `Step` never writes the totals or the settings, and writes
`mediaArchiveId_` only in the call that returns `Success`. -/
theorem step_fixed (context : ServerContext) (framework : Framework) (waiting : Nat)
    (j : ArchiveJob) :
    (ArchiveJob.Step context framework waiting j).1.fixed = j.fixed ∧
    ((ArchiveJob.Step context framework waiting j).2 = .ok .Continue →
      (ArchiveJob.Step context framework waiting j).1.mediaArchiveId_ = j.mediaArchiveId_) := by
  unfold ArchiveJob.Step
  split
  · exact ⟨rfl, fun _ => rfl⟩
  · rename_i writer hw
    split
    · have h := finalizeTarget_fixed framework j
      cases hF : ArchiveJob.FinalizeTarget framework j with
      | mk j1 r =>
        rw [hF] at h
        cases r with
        | error e => exact ⟨h, fun h2 => by simp at h2⟩
        | ok u => exact ⟨h, fun h2 => by simp at h2⟩
    · have h := stepTry_fixed context waiting writer j
      cases hT : ArchiveJob.stepTry context waiting writer j with
      | mk j1 r =>
        rw [hT] at h
        cases r with
        | error e =>
          have hc := stepCatch_fixed e j1
          exact ⟨hc.1.trans h.1, fun h2 => by simp at h2⟩
        | ok u =>
          try dsimp only
          by_cases hlast : j1.currentStep_ = writer.GetStepsCount - 1
          · rw [if_pos hlast]
            have hl := stepLast_fixed context framework j1
            cases hL : ArchiveJob.stepLast context framework j1 with
            | mk j2 r2 =>
              rw [hL] at hl
              cases r2 with
              | error e => exact ⟨hl.1.trans h.1, fun h2 => by simp at h2⟩
              | ok u2 =>
                have hf := stepFinish_fixed framework writer j2
                exact ⟨hf.1.trans (hl.1.trans h.1),
                  fun h2 => (hf.2 h2).trans (hl.2.trans h.2)⟩
          · rw [if_neg hlast]
            have hf := stepFinish_fixed framework writer j1
            exact ⟨hf.1.trans h.1, fun h2 => (hf.2 h2).trans h.2⟩

/-- `Stop` never writes the totals or the settings. -/
theorem stop_fixed (reason : JobStopReason) (j : ArchiveJob) :
    (ArchiveJob.Stop reason j).1.fixed = j.fixed ∧
    (ArchiveJob.Stop reason j).1.mediaArchiveId_ = j.mediaArchiveId_ := by
  unfold ArchiveJob.Stop
  split
  · split
    · exact ⟨rfl, rfl⟩
    · split <;> exact ⟨rfl, rfl⟩
  · exact ⟨rfl, rfl⟩

/-! ## The totals of a plan -/

/-- The identifiers of the instances written by a stream, in order. -/
theorem writeIds_append (a b : List Command) :
    ((a ++ b).filter Command.IsWriteInstance).map (fun c => c.instanceId_) =
      (a.filter Command.IsWriteInstance).map (fun c => c.instanceId_) ++
        (b.filter Command.IsWriteInstance).map (fun c => c.instanceId_) := by
  simp [List.filter_append]

/-- `Open` of the archive visitor, when it returns, has appended one
`OpenDirectory` and left the totals of the stream as they were. -/
theorem open_archive_totals (context : ServerContext) (toolbox : Toolbox) (level : ResourceType)
    (publicId : String) (v v1 : ArchiveIndexVisitor)
    (h : ArchiveIndexVisitor.Open context toolbox level publicId v = .ok v1) :
    (∃ name, v1.commands_.commands_ = v.commands_.commands_ ++ [⟨.Type_OpenDirectory, name, ""⟩]) ∧
      v1.commands_.instancesCount_ = v.commands_.instancesCount_ ∧
      v1.commands_.uncompressedSize_ = v.commands_.uncompressedSize_ := by
  unfold ArchiveIndexVisitor.Open at h
  cases ht : context.index.GetMainDicomTags publicId level with
  | none =>
    simp only [ht] at h
    injection h with h
    subst h
    exact ⟨⟨_, rfl⟩, rfl, rfl⟩
  | some tags =>
    simp only [ht] at h
    cases level with
    | Patient =>
      injection h with h
      subst h
      exact ⟨⟨_, rfl⟩, rfl, rfl⟩
    | Study =>
      injection h with h
      subst h
      exact ⟨⟨_, rfl⟩, rfl, rfl⟩
    | Series =>
      simp only at h
      cases hf : ArchiveIndexVisitor.formatOfModality (ArchiveIndexVisitor.GetTag tags .MODALITY) with
      | none => simp [hf] at h
      | some format =>
        simp only [hf] at h
        injection h with h
        subst h
        exact ⟨⟨_, rfl⟩, rfl, rfl⟩
    | Instance => simp at h

/-- The loop of `Apply` at the instance level with the archive visitor, when
it returns: one `WriteInstance` per leaf is appended, and the totals grow by
the number of leaves and by the sum of their sizes. -/
theorem applyInstances_archive_totals (context : ServerContext) (toolbox : Toolbox) :
    ∀ (leaves : List Instance) (v v1 : ArchiveIndexVisitor),
      ArchiveIndex.applyInstances (ArchiveIndexVisitor.visitor context toolbox) leaves v = .ok v1 →
      v.commands_.instancesCount_ < 2 ^ 32 → v.commands_.uncompressedSize_ < 2 ^ 64 →
      ((v1.commands_.commands_.filter Command.IsWriteInstance).map (fun c => c.instanceId_) =
        (v.commands_.commands_.filter Command.IsWriteInstance).map (fun c => c.instanceId_) ++
          leaves.map (fun i => i.id_)) ∧
      v1.commands_.instancesCount_ = (v.commands_.instancesCount_ + leaves.length) % 2 ^ 32 ∧
      v1.commands_.uncompressedSize_ =
        (v.commands_.uncompressedSize_ + (leaves.map (fun i => i.uncompressedSize_)).sum) %
          2 ^ 64 := by
  intro leaves
  induction leaves with
  | nil =>
    intro v v1 h hc hu
    simp only [ArchiveIndex.applyInstances] at h
    injection h with h
    subst h
    refine ⟨by simp, ?_, ?_⟩
    · simp only [List.length_nil, Nat.add_zero]
      exact (Nat.mod_eq_of_lt hc).symm
    · simp only [List.map_nil, List.sum_nil, Nat.add_zero]
      exact (Nat.mod_eq_of_lt hu).symm
  | cons leaf rest ih =>
    intro v v1 h hc hu
    rw [ArchiveIndex.applyInstances] at h
    cases ha : (ArchiveIndexVisitor.visitor context toolbox).AddInstance leaf.id_
        leaf.uncompressedSize_ v with
    | error e => simp [ha] at h
    | ok v2 =>
      simp only [ha] at h
      simp only [ArchiveIndexVisitor.visitor, ArchiveIndexVisitor.AddInstance] at ha
      cases hn : snprintf 23 v.instanceFormat_ [.int (toSignedInt v.counter_)] with
      | none => simp [hn] at ha
      | some name =>
        simp only [hn] at ha
        injection ha with ha
        subst ha
        obtain ⟨h1, h2, h3⟩ := ih _ v1 h (Nat.mod_lt _ (by decide)) (Nat.mod_lt _ (by decide))
        refine ⟨?_, ?_, ?_⟩
        · rw [h1]
          simp [ZipCommands.AddWriteInstance, List.filter_append, Command.IsWriteInstance]
        · rw [h2]
          simp only [ZipCommands.AddWriteInstance, List.length_cons, Nat.mod_add_mod]
          congr 1
          omega
        · rw [h3]
          simp only [ZipCommands.AddWriteInstance, List.map_cons, List.sum_cons, Nat.mod_add_mod]
          congr 1
          omega

/-- The walk of the archive visitor over a tree, when it returns: the
`WriteInstance` commands appended are those of the leaves in traversal order,
and the totals grow by their number and by the sum of their sizes. -/
theorem apply_archive_totals (context : ServerContext) (toolbox : Toolbox) :
    ∀ (d : Nat) (tree : ArchiveIndex d) (v v1 : ArchiveIndexVisitor),
      ArchiveIndex.Apply (ArchiveIndexVisitor.visitor context toolbox) d tree v = .ok v1 →
      v.commands_.instancesCount_ < 2 ^ 32 → v.commands_.uncompressedSize_ < 2 ^ 64 →
      ((v1.commands_.commands_.filter Command.IsWriteInstance).map (fun c => c.instanceId_) =
        (v.commands_.commands_.filter Command.IsWriteInstance).map (fun c => c.instanceId_) ++
          (ArchiveIndex.leaves d tree).map (fun i => i.id_)) ∧
      v1.commands_.instancesCount_ =
        (v.commands_.instancesCount_ + (ArchiveIndex.leaves d tree).length) % 2 ^ 32 ∧
      v1.commands_.uncompressedSize_ =
        (v.commands_.uncompressedSize_ +
          ((ArchiveIndex.leaves d tree).map (fun i => i.uncompressedSize_)).sum) % 2 ^ 64 := by
  intro d
  induction d with
  | zero =>
    intro tree v v1 h hc hu
    exact applyInstances_archive_totals context toolbox tree v v1 h hc hu
  | succ d ih =>
    intro tree
    have key : ∀ (resources : Resources (ArchiveIndex d)) (v v1 : ArchiveIndexVisitor),
        ArchiveIndex.applyResources (ArchiveIndexVisitor.visitor context toolbox)
          (levelOfDepth (d + 1)) (ArchiveIndex.Apply (ArchiveIndexVisitor.visitor context toolbox) d)
          resources v = .ok v1 →
        v.commands_.instancesCount_ < 2 ^ 32 → v.commands_.uncompressedSize_ < 2 ^ 64 →
        ((v1.commands_.commands_.filter Command.IsWriteInstance).map (fun c => c.instanceId_) =
          (v.commands_.commands_.filter Command.IsWriteInstance).map (fun c => c.instanceId_) ++
            (ArchiveIndex.leaves (d + 1) resources).map (fun i => i.id_)) ∧
        v1.commands_.instancesCount_ =
          (v.commands_.instancesCount_ + (ArchiveIndex.leaves (d + 1) resources).length) %
            2 ^ 32 ∧
        v1.commands_.uncompressedSize_ =
          (v.commands_.uncompressedSize_ +
            ((ArchiveIndex.leaves (d + 1) resources).map (fun i => i.uncompressedSize_)).sum) %
              2 ^ 64 := by
      intro resources
      induction resources with
      | nil =>
        intro v v1 h hc hu
        simp only [ArchiveIndex.applyResources] at h
        injection h with h
        subst h
        have hl : ArchiveIndex.leaves (d + 1) ([] : Resources (ArchiveIndex d)) = [] := by
          simp [ArchiveIndex.leaves]
        rw [hl]
        refine ⟨by simp, ?_, ?_⟩
        · simp only [List.length_nil, Nat.add_zero]
          exact (Nat.mod_eq_of_lt hc).symm
        · simp only [List.map_nil, List.sum_nil, Nat.add_zero]
          exact (Nat.mod_eq_of_lt hu).symm
      | cons entry rest ihr =>
        intro v v1 h hc hu
        obtain ⟨id, value⟩ := entry
        cases value with
        | none => simp [ArchiveIndex.applyResources] at h
        | some child =>
          simp only [ArchiveIndex.applyResources] at h
          cases h1 : (ArchiveIndexVisitor.visitor context toolbox).Open (levelOfDepth (d + 1)) id
              v with
          | error e => simp [h1] at h
          | ok s1 =>
            simp only [h1] at h
            cases h2 : ArchiveIndex.Apply (ArchiveIndexVisitor.visitor context toolbox) d child
                s1 with
            | error e => simp [h2] at h
            | ok s2 =>
              simp only [h2] at h
              simp only [ArchiveIndexVisitor.visitor, ArchiveIndexVisitor.Close] at h
              obtain ⟨⟨name, ho1⟩, ho2, ho3⟩ := open_archive_totals context toolbox _ id v s1 h1
              obtain ⟨a1, a2, a3⟩ := ih child s1 s2 h2 (by rw [ho2]; exact hc)
                (by rw [ho3]; exact hu)
              have hc2 : s2.commands_.instancesCount_ < 2 ^ 32 := by
                rw [a2]; exact Nat.mod_lt _ (by decide)
              have hu2 : s2.commands_.uncompressedSize_ < 2 ^ 64 := by
                rw [a3]; exact Nat.mod_lt _ (by decide)
              obtain ⟨b1, b2, b3⟩ := ihr { s2 with commands_ := s2.commands_.AddCloseDirectory } v1
                h hc2 hu2
              have hl : ArchiveIndex.leaves (d + 1)
                  (((id, some child) :: rest : Resources (ArchiveIndex d))) =
                  ArchiveIndex.leaves d child ++ ArchiveIndex.leaves (d + 1) rest := by
                simp [ArchiveIndex.leaves]
              refine ⟨?_, ?_, ?_⟩
              · rw [b1, hl]
                simp only [ZipCommands.AddCloseDirectory, writeIds_append, a1, ho1]
                simp [Command.IsWriteInstance]
              · rw [b2, hl]
                simp only [ZipCommands.AddCloseDirectory, a2, ho2, List.length_append,
                  Nat.mod_add_mod]
                congr 1
                omega
              · rw [b3, hl]
                simp only [ZipCommands.AddCloseDirectory, a3, ho3, List.map_append,
                  List.sum_append, Nat.mod_add_mod]
                congr 1
                omega
    exact key tree

/-- The `WriteInstance` commands of a list built by `mapIdx` from leaves, one
`WriteInstance` per leaf, carry the identifiers of the leaves. -/
theorem writeIds_mapIdx (name : Nat → String) (leaves : List Instance) :
    ((leaves.mapIdx (fun k leaf => (⟨.Type_WriteInstance, name k, leaf.id_⟩ : Command))).filter
      Command.IsWriteInstance).map (fun c => c.instanceId_) = leaves.map (fun i => i.id_) := by
  have hall : (leaves.mapIdx (fun k leaf =>
      (⟨.Type_WriteInstance, name k, leaf.id_⟩ : Command))).filter Command.IsWriteInstance =
      leaves.mapIdx (fun k leaf => (⟨.Type_WriteInstance, name k, leaf.id_⟩ : Command)) := by
    rw [List.filter_eq_self]
    intro c hc
    rw [List.mem_mapIdx] at hc
    obtain ⟨i, hi, rfl⟩ := hc
    rfl
  rw [hall]
  apply List.ext_getElem?
  intro k
  simp [List.getElem?_mapIdx, List.getElem?_map]
  cases leaves[k]? <;> rfl

/-- The plan of a tree, in both modes: the `WriteInstance` commands are those
of the leaves of the expanded tree in traversal order, and the two aggregates
are the number of the leaves and the sum of their sizes, in the ranges of
`unsigned int` and `uint64_t`. -/
theorem plan_totals (context : ServerContext) (toolbox : Toolbox) (archive : ArchiveIndex 3)
    (isMedia : Bool) (planned : ArchiveIndex 3 × ZipCommands)
    (h : planCommands context toolbox archive isMedia = .ok planned) :
    planned.1 = ArchiveIndex.Expand context.index 3 archive ∧
    (planned.2.commands_.filter Command.IsWriteInstance).map (fun c => c.instanceId_) =
      (ArchiveIndex.leaves 3 planned.1).map (fun i => i.id_) ∧
    planned.2.instancesCount_ = (ArchiveIndex.leaves 3 planned.1).length % 2 ^ 32 ∧
    planned.2.uncompressedSize_ =
      ((ArchiveIndex.leaves 3 planned.1).map (fun i => i.uncompressedSize_)).sum % 2 ^ 64 := by
  cases isMedia with
  | true =>
    rw [plan_media] at h
    injection h with h
    subst h
    refine ⟨rfl, ?_, rfl, rfl⟩
    simp only [writeIds_append, writeIds_mapIdx]
    simp [Command.IsWriteInstance]
  | false =>
    unfold planCommands at h
    simp only [Bool.false_eq_true, if_false] at h
    cases hnew : ArchiveIndexVisitor.new ZipCommands.new with
    | error e => simp [hnew] at h
    | ok visitor =>
      simp only [hnew] at h
      have hv : visitor.commands_ = ZipCommands.new := by
        unfold ArchiveIndexVisitor.new at hnew
        split at hnew
        · simp at hnew
        · split at hnew
          · injection hnew with hnew
            subst hnew
            rfl
          · simp at hnew
      cases happly : ArchiveIndex.Apply (ArchiveIndexVisitor.visitor context toolbox) 3
          (ArchiveIndex.Expand context.index 3 archive) visitor with
      | error e => simp [happly] at h
      | ok visitor1 =>
        simp only [happly] at h
        injection h with h
        subst h
        obtain ⟨h1, h2, h3⟩ := apply_archive_totals context toolbox 3 _ visitor visitor1 happly
          (by rw [hv]; decide) (by rw [hv]; decide)
        refine ⟨rfl, ?_, ?_, ?_⟩
        · rw [h1, hv]
          simp [ZipCommands.new]
        · rw [h2, hv]
          simp [ZipCommands.new]
        · rw [h3, hv]
          simp [ZipCommands.new]

/-- What `Start` leaves in a job when it returns: the expanded tree, the
planned commands, and the two aggregates of the plan. -/
theorem start_totals (context : ServerContext) (toolbox : Toolbox) (framework : Framework)
    (j j0 : ArchiveJob)
    (hstart : ArchiveJob.Start context toolbox framework j = (j0, .ok ())) :
    ∃ planned, planCommands context toolbox j.archive_ j.isMedia_ = .ok planned ∧
      j0.archive_ = planned.1 ∧ j0.commands = planned.2.commands_ ∧
      j0.instancesCount_ = planned.2.instancesCount_ ∧
      j0.uncompressedSize_ = planned.2.uncompressedSize_ := by
  unfold ArchiveJob.Start at hstart
  cases hw : j.writer_ with
  | some w => simp [hw] at hstart
  | none =>
    simp only [hw] at hstart
    cases hplan : planCommands context toolbox j.archive_ j.isMedia_ with
    | error e =>
      cases hsync : j.synchronousTarget_ <;> cases hasync : j.asynchronousTarget_ <;>
        simp [hsync, hasync, ZipWriterIterator.new, hplan] at hstart
    | ok planned =>
      refine ⟨planned, rfl, ?_⟩
      obtain ⟨expanded, commands⟩ := planned
      cases hsync : j.synchronousTarget_ <;> cases hasync : j.asynchronousTarget_ <;>
        simp only [hsync, hasync, ZipWriterIterator.new, hplan, if_true, Bool.true_eq_false,
          if_false, ZipWriterIterator.SetOutputFile, ZipWriterIterator.AcquireOutputStream,
          Prod.mk.injEq, and_true, reduceCtorEq, and_false] at hstart
      all_goals (subst hstart; exact ⟨rfl, rfl, rfl, rfl⟩)

/-- The two totals and the settings are those `Start` left, after any
sequence of calls of `Step` and `Stop`. -/
theorem afterCalls_fixed (context : ServerContext) (framework : Framework) :
    ∀ (calls : List JobCall) (j : ArchiveJob),
      (ArchiveJob.afterCalls context framework calls j).fixed = j.fixed := by
  intro calls
  induction calls with
  | nil => intro j; rfl
  | cons call rest ih =>
    intro j
    cases call with
    | Step waiting =>
      rw [ArchiveJob.afterCalls, ih, (step_fixed context framework waiting j).1]
    | Stop reason =>
      rw [ArchiveJob.afterCalls, ih, (stop_fixed reason j).1]

/-! ## The published totals -/

/-- Claim C25: when `Start` returns, the `WriteInstance` commands of the
planned stream are those of the leaves of the tree; `InstancesCount` of
`GetPublicContent` is their number and `UncompressedSize` the decimal writing
of the sum of the sizes of these leaves, both as `AddWriteInstance` maintains
them, that is in the ranges of `unsigned int` and `uint64_t`, and
`UncompressedSizeMB` is that sum in megabytes; after any sequence of calls of
`Step` and `Stop`, whatever they return or throw, `GetPublicContent` reports
the same `InstancesCount`, `UncompressedSize`, `UncompressedSizeMB`,
`Description` and `Transcode`. -/
theorem published_totals_are_planned (context : ServerContext) (toolbox : Toolbox)
    (framework : Framework) (j j0 : ArchiveJob) (calls : List JobCall)
    (hstart : ArchiveJob.Start context toolbox framework j = (j0, .ok ())) :
    ((j0.commands.filter Command.IsWriteInstance).map (fun c => c.instanceId_) = j0.leafIds ∧
      j0.GetPublicContent.InstancesCount =
        (j0.commands.filter Command.IsWriteInstance).length % 2 ^ 32 ∧
      j0.GetPublicContent.UncompressedSize = String.mk (Nat.toDigits 10
        (((ArchiveIndex.leaves 3 j0.archive_).map (fun i => i.uncompressedSize_)).sum %
          2 ^ 64)) ∧
      j0.GetPublicContent.UncompressedSizeMB =
        ((((ArchiveIndex.leaves 3 j0.archive_).map (fun i => i.uncompressedSize_)).sum %
          2 ^ 64) / MEGA_BYTES) % 2 ^ 32) ∧
    ((ArchiveJob.afterCalls context framework calls j0).GetPublicContent.InstancesCount =
        j0.GetPublicContent.InstancesCount ∧
      (ArchiveJob.afterCalls context framework calls j0).GetPublicContent.UncompressedSize =
        j0.GetPublicContent.UncompressedSize ∧
      (ArchiveJob.afterCalls context framework calls j0).GetPublicContent.UncompressedSizeMB =
        j0.GetPublicContent.UncompressedSizeMB ∧
      (ArchiveJob.afterCalls context framework calls j0).GetPublicContent.Description =
        j0.GetPublicContent.Description ∧
      (ArchiveJob.afterCalls context framework calls j0).GetPublicContent.Transcode =
        j0.GetPublicContent.Transcode) := by
  obtain ⟨planned, hplan, ha, hc, hn, hu⟩ := start_totals context toolbox framework j j0 hstart
  obtain ⟨-, p2, p3, p4⟩ := plan_totals context toolbox j.archive_ j.isMedia_ planned hplan
  have hfixed := afterCalls_fixed context framework calls j0
  simp only [ArchiveJob.fixed, Prod.mk.injEq] at hfixed
  obtain ⟨f1, f2, f3, f4, f5⟩ := hfixed
  have hlen : (j0.commands.filter Command.IsWriteInstance).length =
      (ArchiveIndex.leaves 3 j0.archive_).length := by
    have := congrArg List.length p2
    simp only [List.length_map] at this
    rw [hc, ha]
    exact this
  refine ⟨⟨?_, ?_, ?_, ?_⟩, ?_, ?_, ?_, ?_, ?_⟩
  · rw [hc, ArchiveJob.leafIds, ha]
    exact p2
  · rw [hlen]
    simp only [ArchiveJob.GetPublicContent]
    rw [hn, ha, p3]
  · simp only [ArchiveJob.GetPublicContent]
    rw [hu, ha, p4]
  · simp only [ArchiveJob.GetPublicContent]
    rw [hu, ha, p4]
  · simp only [ArchiveJob.GetPublicContent, f1]
  · simp only [ArchiveJob.GetPublicContent, f2]
  · simp only [ArchiveJob.GetPublicContent, f2]
  · simp only [ArchiveJob.GetPublicContent, f3]
  · simp only [ArchiveJob.GetPublicContent, f4, f5]

/-- Witness of `published_totals_are_planned`: scenario S1 in archive mode
with the file of `I2` missing from the storage area.  The job is started, five
calls of `Step` are made, the engine stops it with `Failure` and calls `Step`
once more: the content still reports 3 instances and 2097152 bytes. -/
theorem published_totals_are_planned_witness :
    ArchiveJob.Start (contextMissing s1Index "I2") scenarioToolbox scenarioFramework
        (selectedJob (contextMissing s1Index "I2") false ["ST1"]) =
      (startedJob (contextMissing s1Index "I2") scenarioToolbox scenarioFramework false ["ST1"],
        .ok ()) ∧
    (ArchiveJob.afterCalls (contextMissing s1Index "I2") scenarioFramework
        [.Step 0, .Step 0, .Step 0, .Step 0, .Step 0, .Stop .Failure, .Step 0]
        (startedJob (contextMissing s1Index "I2") scenarioToolbox scenarioFramework false
          ["ST1"])).GetPublicContent.InstancesCount = 3 ∧
    (ArchiveJob.afterCalls (contextMissing s1Index "I2") scenarioFramework
        [.Step 0, .Step 0, .Step 0, .Step 0, .Step 0, .Stop .Failure, .Step 0]
        (startedJob (contextMissing s1Index "I2") scenarioToolbox scenarioFramework false
          ["ST1"])).GetPublicContent.UncompressedSize = "2097152" :=
  have hstart : ArchiveJob.Start (contextMissing s1Index "I2") scenarioToolbox scenarioFramework
        (selectedJob (contextMissing s1Index "I2") false ["ST1"]) =
      (startedJob (contextMissing s1Index "I2") scenarioToolbox scenarioFramework false ["ST1"],
        .ok ()) := Prod.ext_iff.mpr ⟨rfl, eq_ok_of_toOption (by decide!)⟩
  have h := published_totals_are_planned (contextMissing s1Index "I2") scenarioToolbox
    scenarioFramework (selectedJob (contextMissing s1Index "I2") false ["ST1"])
    (startedJob (contextMissing s1Index "I2") scenarioToolbox scenarioFramework false ["ST1"])
    [.Step 0, .Step 0, .Step 0, .Step 0, .Step 0, .Stop .Failure, .Step 0] hstart
  ⟨hstart, h.2.1.trans (by decide!), h.2.2.1.trans (by decide!)⟩

/-! ## The kind of target of the writer -/

theorem runStep_isStream (context : ServerContext) (w : ZipWriterIterator) (index : Nat)
    (transcode : Bool) (tsx : DicomTransferSyntax) (reading : Bool) (content : String) :
    (w.RunStep context index transcode tsx reading content).1.1.isStream_ = w.isStream_ := by
  unfold ZipWriterIterator.RunStep
  split
  · rfl
  · split
    · rfl
    · split
      · split
        · rfl
        · split
          · split <;> rfl
          · rfl
      · rfl

theorem runStepReadInstance_isStream (context : ServerContext) (numThread : Nat)
    (j : ArchiveJob) (b : Bool)
    (h : (ArchiveJob.RunStepReadInstance context numThread j).1.isStream = some b) :
    j.isStream = some b := by
  unfold ArchiveJob.RunStepReadInstance at h
  split at h
  · rename_i writer slot hw hs
    try dsimp only at h
    split at h
    · exact h
    · simp only [ArchiveJob.isStream, Option.map_some', runStep_isStream] at h
      simp only [ArchiveJob.isStream, hw, Option.map_some']
      exact h
  · exact h

theorem endThreadIndexOf_isStream (context : ServerContext) (threadNumber : Nat)
    (j : ArchiveJob) (b : Bool)
    (h : (ArchiveJob.EndThreadIndexOf context threadNumber j).1.isStream = some b) :
    j.isStream = some b := by
  unfold ArchiveJob.EndThreadIndexOf at h
  split at h
  · rename_i writer slot hw hs
    split at h
    · exact h
    · try dsimp only at h
      split at h <;>
      · simp only [ArchiveJob.isStream, Option.map_some', runStep_isStream] at h
        simp only [ArchiveJob.isStream, hw, Option.map_some']
        exact h
  · exact h

theorem launch_isStream (context : ServerContext) (i : Nat) (j : ArchiveJob) (b : Bool)
    (h : (ArchiveJob.launch context i j).1.isStream = some b) : j.isStream = some b := by
  unfold ArchiveJob.launch at h
  split at h
  · exact h
  · rename_i slot hslot
    split at h
    · exact h
    · exact runStepReadInstance_isStream context i
        { j with threads_ := j.threads_.set i { slot with thread := true } } b h

theorem endThreadsFrom_isStream (context : ServerContext) :
    ∀ (remaining i : Nat) (j : ArchiveJob) (b : Bool),
      (ArchiveJob.endThreadsFrom context remaining i j).1.isStream = some b →
      j.isStream = some b := by
  intro remaining
  induction remaining with
  | zero => intro i j b h; exact h
  | succ remaining ih =>
    intro i j b h
    have hE1 := endThreadIndexOf_isStream context i j b
    unfold ArchiveJob.endThreadsFrom at h
    cases hE : ArchiveJob.EndThreadIndexOf context i j with
    | mk j1 r =>
      rw [hE] at h hE1
      cases r with
      | error e => exact hE1 h
      | ok u => exact hE1 (ih (i + 1) j1 b h)

theorem stepDirectory_isStream (context : ServerContext) (j : ArchiveJob) (b : Bool)
    (h : (ArchiveJob.stepDirectory context j).1.isStream = some b) : j.isStream = some b := by
  have h1 := endThreadsFrom_isStream context j.threadsActive_ 0 j b
  unfold ArchiveJob.stepDirectory at h
  cases hE : ArchiveJob.endThreadsFrom context j.threadsActive_ 0 j with
  | mk j1 r =>
    rw [hE] at h h1
    cases r with
    | error e => exact h1 h
    | ok u =>
      try dsimp only at h
      split at h
      · exact h1 h
      · rename_i writer1 hw1
        try dsimp only at h
        apply h1
        split at h <;>
        · simp only [ArchiveJob.isStream, Option.map_some', runStep_isStream] at h
          simp only [ArchiveJob.isStream, hw1, Option.map_some']
          exact h

theorem stepInstance_isStream (context : ServerContext) (waiting : Nat) (j : ArchiveJob)
    (b : Bool) (h : (ArchiveJob.stepInstance context waiting j).1.isStream = some b) :
    j.isStream = some b := by
  unfold ArchiveJob.stepInstance at h
  split at h
  · split at h
    · exact h
    · rename_i slot hslot
      try dsimp only at h
      have h1 := launch_isStream context j.threadsActive_
        { j with
          threads_ := j.threads_.set j.threadsActive_
            { slot with threadFinished := false, boolRead := true,
                        threadCurrentStep := j.currentStep_ } } b
      cases hR : ArchiveJob.launch context j.threadsActive_
        { j with
          threads_ := j.threads_.set j.threadsActive_
            { slot with threadFinished := false, boolRead := true,
                        threadCurrentStep := j.currentStep_ } } with
      | mk j2 r =>
        rw [hR] at h h1
        cases r <;> exact h1 h
  · try dsimp only at h
    have h1 := endThreadIndexOf_isStream context (ArchiveJob.scanFinished waiting 0) j b
    cases hE : ArchiveJob.EndThreadIndexOf context (ArchiveJob.scanFinished waiting 0) j with
    | mk j1 r =>
      rw [hE] at h h1
      cases r with
      | error e => exact h1 h
      | ok u =>
        try dsimp only at h
        split at h
        · exact h1 h
        · rename_i slot hslot
          exact h1 (launch_isStream context (ArchiveJob.scanFinished waiting 0)
            { j1 with
              threads_ := j1.threads_.set (ArchiveJob.scanFinished waiting 0)
                { slot with threadFinished := false, threadCurrentStep := j1.currentStep_ } }
            b h)

theorem stepTry_isStream (context : ServerContext) (waiting : Nat) (writer : ZipWriterIterator)
    (j : ArchiveJob) (b : Bool)
    (h : (ArchiveJob.stepTry context waiting writer j).1.isStream = some b) :
    j.isStream = some b := by
  unfold ArchiveJob.stepTry at h
  split at h
  · split at h
    · exact h
    · exact stepDirectory_isStream context j b h
    · exact stepInstance_isStream context waiting j b h
  · exact h

theorem stepLast_isStream (context : ServerContext) (framework : Framework) (j : ArchiveJob)
    (b : Bool) (h : (ArchiveJob.stepLast context framework j).1.isStream = some b) :
    j.isStream = some b := by
  have h1 := endThreadsFrom_isStream context j.threadsActive_ 0 j b
  unfold ArchiveJob.stepLast at h
  cases hE : ArchiveJob.endThreadsFrom context j.threadsActive_ 0 j with
  | mk j1 r =>
    rw [hE] at h h1
    cases r with
    | error e => exact h1 h
    | ok u =>
      try dsimp only at h
      split at h
      · exact h1 h
      · rename_i writer1 hw1
        split at h
        · exact h1 h
        · rename_i writer2 hL
          apply h1
          unfold ZipWriterIterator.LastStep at hL
          simp only [ArchiveJob.isStream, Option.map_some'] at h
          simp only [ArchiveJob.isStream, hw1, Option.map_some']
          split at hL
          · split at hL
            · injection hL with hL
              subst hL
              exact h
            · simp at hL
          · injection hL with hL
            subst hL
            exact h

/-- A call of `Step` that returns `Continue` leaves a writer that holds a ZIP
writer, on the same kind of target as before the call. -/
theorem step_continue_holds (context : ServerContext) (framework : Framework) (waiting : Nat)
    (j j1 : ArchiveJob)
    (h : ArchiveJob.Step context framework waiting j = (j1, .ok .Continue)) :
    (∃ w zip, j1.writer_ = some w ∧ w.zip_ = some zip) ∧ j1.isStream = j.isStream := by
  unfold ArchiveJob.Step at h
  split at h
  · simp at h
  · rename_i writer hw
    split at h
    · split at h <;> simp at h
    · have hfinish : ∀ j2 : ArchiveJob,
          ArchiveJob.stepFinish framework writer j2 = (j1, .ok .Continue) →
          (∃ w zip, j1.writer_ = some w ∧ w.zip_ = some zip) ∧ j1.isStream = j2.isStream := by
        intro j2 hf
        unfold ArchiveJob.stepFinish at hf
        try dsimp only at hf
        split at hf
        · split at hf <;> simp at hf
        · split at hf
          · simp at hf
          · rename_i writer3 hw3
            split at hf
            · simp at hf
            · rename_i size hsize
              simp only [Prod.mk.injEq, and_true] at hf
              subst hf
              unfold ZipWriterIterator.GetArchiveSize at hsize
              split at hsize
              · simp at hsize
              · rename_i zip hzip
                exact ⟨⟨writer3, zip, hw3, hzip⟩, rfl⟩
      have hsome : ∀ j2 : ArchiveJob, (∃ w, j2.writer_ = some w) →
          (∀ b, j2.isStream = some b → j.isStream = some b) → j2.isStream = j.isStream := by
        intro j2 ⟨w, hw2⟩ hb
        have : j2.isStream = some w.isStream_ := by simp [ArchiveJob.isStream, hw2]
        rw [this, hb _ this]
      have hT1 := stepTry_isStream context waiting writer j
      cases hT : ArchiveJob.stepTry context waiting writer j with
      | mk j2 r =>
        rw [hT] at h hT1
        cases r with
        | error e => simp at h
        | ok u =>
          try dsimp only at h
          by_cases hlast : j2.currentStep_ = writer.GetStepsCount - 1
          · rw [if_pos hlast] at h
            have hL1 := stepLast_isStream context framework j2
            cases hL : ArchiveJob.stepLast context framework j2 with
            | mk j3 r3 =>
              rw [hL] at h hL1
              cases r3 with
              | error e => simp at h
              | ok u3 =>
                obtain ⟨hh, hs⟩ := hfinish j3 h
                refine ⟨hh, ?_⟩
                rw [hs]
                apply hsome
                · obtain ⟨w, zip, hw1, -⟩ := hh
                  have : j1.isStream = some w.isStream_ := by simp [ArchiveJob.isStream, hw1]
                  rw [hs] at this
                  simp only [ArchiveJob.isStream, Option.map_eq_some'] at this
                  obtain ⟨w3, hw3, -⟩ := this
                  exact ⟨w3, hw3⟩
                · intro b hb
                  exact hT1 b (hL1 b hb)
          · rw [if_neg hlast] at h
            obtain ⟨hh, hs⟩ := hfinish j2 h
            refine ⟨hh, ?_⟩
            rw [hs]
            apply hsome
            · obtain ⟨w, zip, hw1, -⟩ := hh
              have : j1.isStream = some w.isStream_ := by simp [ArchiveJob.isStream, hw1]
              rw [hs] at this
              simp only [ArchiveJob.isStream, Option.map_eq_some'] at this
              obtain ⟨w3, hw3, -⟩ := this
              exact ⟨w3, hw3⟩
            · intro b hb
              exact hT1 b hb

/-- When `Start` returns, the job holds a writer on a ZIP writer, bound to the
stream exactly when a synchronous target had been acquired, and
`mediaArchiveId_` is as before. -/
theorem start_holds (context : ServerContext) (toolbox : Toolbox) (framework : Framework)
    (j j0 : ArchiveJob)
    (hstart : ArchiveJob.Start context toolbox framework j = (j0, .ok ())) :
    (∃ w zip, j0.writer_ = some w ∧ w.zip_ = some zip ∧ zip.calls = []) ∧
      j0.isStream = some j.synchronousTarget_ ∧ j0.mediaArchiveId_ = j.mediaArchiveId_ := by
  unfold ArchiveJob.Start at hstart
  cases hw : j.writer_ with
  | some w => simp [hw] at hstart
  | none =>
    simp only [hw] at hstart
    cases hplan : planCommands context toolbox j.archive_ j.isMedia_ with
    | error e =>
      cases hsync : j.synchronousTarget_ <;> cases hasync : j.asynchronousTarget_ <;>
        simp [hsync, hasync, ZipWriterIterator.new, hplan] at hstart
    | ok planned =>
      obtain ⟨expanded, commands⟩ := planned
      cases hsync : j.synchronousTarget_ <;> cases hasync : j.asynchronousTarget_ <;>
        simp only [hsync, hasync, ZipWriterIterator.new, hplan, if_true, Bool.true_eq_false,
          if_false, ZipWriterIterator.SetOutputFile, ZipWriterIterator.AcquireOutputStream,
          Prod.mk.injEq, and_true, reduceCtorEq, and_false] at hstart
      all_goals (subst hstart; exact ⟨⟨_, _, rfl, rfl, rfl⟩, rfl, rfl⟩)

/-- While the calls of `Step` return `Continue`, the job holds a writer on a
ZIP writer, on the same kind of target, and `mediaArchiveId_` is not written. -/
theorem runSteps_continue_holds (context : ServerContext) (framework : Framework) :
    ∀ (sched : List Nat) (j j1 : ArchiveJob),
      (∃ w zip, j.writer_ = some w ∧ w.zip_ = some zip) →
      ArchiveJob.runSteps context framework sched j = (j1, .ok .Continue) →
      (∃ w zip, j1.writer_ = some w ∧ w.zip_ = some zip) ∧ j1.isStream = j.isStream ∧
        j1.mediaArchiveId_ = j.mediaArchiveId_ := by
  intro sched
  induction sched with
  | nil =>
    intro j j1 hj h
    simp only [ArchiveJob.runSteps, Prod.mk.injEq, and_true] at h
    subst h
    exact ⟨hj, rfl, rfl⟩
  | cons waiting rest ih =>
    intro j j1 hj h
    rw [ArchiveJob.runSteps] at h
    have hfix := (step_fixed context framework waiting j).2
    cases hS : ArchiveJob.Step context framework waiting j with
    | mk j2 r =>
      rw [hS] at h hfix
      cases r with
      | error e => simp at h
      | ok result =>
        cases result with
        | Continue =>
          simp only at h
          obtain ⟨hh, hs⟩ := step_continue_holds context framework waiting j j2 hS
          obtain ⟨a, b, c⟩ := ih j2 j1 hh h
          exact ⟨a, b.trans hs, c.trans (hfix rfl)⟩
        | Success => simp at h

/-- A job that holds no writer is left as it is by every call of `Step` and
`Stop`. -/
theorem afterCalls_stopped (context : ServerContext) (framework : Framework) :
    ∀ (calls : List JobCall) (j : ArchiveJob), j.writer_ = none →
      ArchiveJob.afterCalls context framework calls j = j := by
  intro calls
  induction calls with
  | nil => intro j _; rfl
  | cons call rest ih =>
    intro j hw
    cases call with
    | Step waiting =>
      have : (ArchiveJob.Step context framework waiting j).1 = j := by
        unfold ArchiveJob.Step
        rw [hw]
      rw [ArchiveJob.afterCalls, this, ih j hw]
    | Stop reason =>
      have : (ArchiveJob.Stop reason j).1 = j := by
        unfold ArchiveJob.Stop
        rw [hw]
        split <;> rfl
      rw [ArchiveJob.afterCalls, this, ih j hw]

/-! ## Stopping a running job -/

/-- What `Stop` does on a running job.  Take a job that has never been
finalized (`mediaArchiveId_` is empty, as the constructor leaves it), on which
`Start` has returned and any number of calls of `Step` have returned
`Continue`.  It holds a writer on a ZIP writer.  `Stop` with `Canceled`,
`Failure` or `Retry` returns; it calls `CancelStream` on the writer, which
passes it to the ZIP writer when the job writes to the stream of a synchronous
target and does nothing on a file; it leaves the job with no writer, no
synchronous target and no asynchronous target; and as long as only `Step` and
`Stop` are called after it, `GetOutput` returns no output for every key.
`Stop` with another reason returns and leaves the job as it is. -/
theorem stop_releases_the_job (context : ServerContext) (toolbox : Toolbox)
    (framework : Framework) (mediaArchive : String → Option String) (j j0 j1 : ArchiveJob)
    (sched : List Nat) (hnew : j.mediaArchiveId_ = "")
    (hstart : ArchiveJob.Start context toolbox framework j = (j0, .ok ()))
    (hsteps : ArchiveJob.runSteps context framework sched j0 = (j1, .ok .Continue)) :
    ∃ w zip, j1.writer_ = some w ∧ w.zip_ = some zip ∧ w.isStream_ = j.synchronousTarget_ ∧
      (∀ reason, reason ≠ JobStopReason.Other →
        ∃ j2, ArchiveJob.Stop reason j1 = (j2, .ok ()) ∧
          j2.writer_ = none ∧ j2.synchronousTarget_ = false ∧ j2.asynchronousTarget_ = none ∧
          j2.zipCalls = zip.calls ++ (if j.synchronousTarget_ then [.CancelStream] else []) ∧
          ∀ calls key,
            (ArchiveJob.afterCalls context framework calls j2).GetOutput mediaArchive key =
              none) ∧
      ArchiveJob.Stop .Other j1 = (j1, .ok ()) := by
  obtain ⟨⟨w0, zip0, hw0, hzip0, -⟩, hs0, hm0⟩ := start_holds context toolbox framework j j0 hstart
  obtain ⟨⟨w, zip, hw, hzip⟩, hs1, hm1⟩ :=
    runSteps_continue_holds context framework sched j0 j1 ⟨w0, zip0, hw0, hzip0⟩ hsteps
  have hstream : w.isStream_ = j.synchronousTarget_ := by
    rw [hs0] at hs1
    simp only [ArchiveJob.isStream, hw, Option.map_some', Option.some.injEq] at hs1
    exact hs1
  have hid : j1.mediaArchiveId_ = "" := by rw [hm1, hm0, hnew]
  refine ⟨w, zip, hw, hzip, hstream, ?_, ?_⟩
  · intro reason hreason
    have hr : reason = .Canceled ∨ reason = .Failure ∨ reason = .Retry := by
      cases reason <;> simp at hreason ⊢
    cases hsync : j.synchronousTarget_ with
    | false =>
      rw [hsync] at hstream
      refine ⟨{ j1 with writer_ := none, closed_ := some zip, synchronousTarget_ := false,
                        asynchronousTarget_ := none }, ?_, rfl, rfl, rfl, ?_, ?_⟩
      · unfold ArchiveJob.Stop
        rw [if_pos hr, hw]
        simp only [ZipWriterIterator.CancelStream, hzip, hstream, Bool.false_eq_true, if_false]
      · simp [ArchiveJob.zipCalls]
      · intro calls key
        rw [afterCalls_stopped context framework calls _ rfl]
        simp [ArchiveJob.GetOutput, hid]
    | true =>
      rw [hsync] at hstream
      refine ⟨{ j1 with writer_ := none, closed_ := some (zip.call .CancelStream),
                        synchronousTarget_ := false, asynchronousTarget_ := none },
        ?_, rfl, rfl, rfl, ?_, ?_⟩
      · unfold ArchiveJob.Stop
        rw [if_pos hr, hw]
        simp only [ZipWriterIterator.CancelStream, hzip, hstream, if_true]
      · simp [ArchiveJob.zipCalls, HierarchicalZipWriter.call]
      · intro calls key
        rw [afterCalls_stopped context framework calls _ rfl]
        simp [ArchiveJob.GetOutput, hid]
  · unfold ArchiveJob.Stop
    simp

/-- The statement `stop_releases_the_job` in scenario S1 in archive mode on a
synchronous target, stopped after three calls of `Step`. -/
theorem stop_releases_the_job_witness :
    (synchronousJob (contextOf s1Index) false ["ST1"]).mediaArchiveId_ = "" ∧
    ∃ j2, ArchiveJob.Stop .Canceled
        (ArchiveJob.runSteps (contextOf s1Index) scenarioFramework [0, 0, 0]
          (ArchiveJob.Start (contextOf s1Index) scenarioToolbox scenarioFramework
            (synchronousJob (contextOf s1Index) false ["ST1"])).1).1 = (j2, .ok ()) ∧
      j2.writer_ = none ∧ j2.synchronousTarget_ = false ∧ j2.asynchronousTarget_ = none ∧
      j2.zipCalls = [.OpenDirectory "P001 DOE^JOHN", .OpenDirectory "A1 Head",
        .OpenDirectory "CT Axial", .CancelStream] ∧
      j2.GetOutput (fun _ => some "zip") "archive" = none :=
  have h := stop_releases_the_job (contextOf s1Index) scenarioToolbox scenarioFramework
    (fun _ => some "zip") (synchronousJob (contextOf s1Index) false ["ST1"])
    (ArchiveJob.Start (contextOf s1Index) scenarioToolbox scenarioFramework
      (synchronousJob (contextOf s1Index) false ["ST1"])).1
    (ArchiveJob.runSteps (contextOf s1Index) scenarioFramework [0, 0, 0]
      (ArchiveJob.Start (contextOf s1Index) scenarioToolbox scenarioFramework
        (synchronousJob (contextOf s1Index) false ["ST1"])).1).1
    [0, 0, 0] rfl
    (Prod.ext_iff.mpr ⟨rfl, eq_ok_of_toOption (by decide!)⟩)
    (Prod.ext_iff.mpr ⟨rfl, eq_ok_of_toOption (by decide!)⟩)
  let ⟨w, zip, hw, hzip, _, hstop, _⟩ := h
  let ⟨j2, h1, h2, h3, h4, h5, h6⟩ := hstop .Canceled (by decide)
  have hcalls : zip.calls = [.OpenDirectory "P001 DOE^JOHN", .OpenDirectory "A1 Head",
      .OpenDirectory "CT Axial"] := by
    have hz : (ArchiveJob.runSteps (contextOf s1Index) scenarioFramework [0, 0, 0]
        (ArchiveJob.Start (contextOf s1Index) scenarioToolbox scenarioFramework
          (synchronousJob (contextOf s1Index) false ["ST1"])).1).1.zipCalls = zip.calls := by
      simp only [ArchiveJob.zipCalls, hw, hzip]
    rw [← hz]
    decide!
  ⟨rfl, j2, h1, h2, h3, h4, by rw [h5, hcalls]; rfl, h6 [] "archive"⟩

/-- Claim C24 fails: `Stop` does not end the job, and it joins no reading
thread.  In scenario S1, `Stop(Canceled)` right after `Start` returns and leaves
the job without writer and without output; `Start` tests `writer_` only, so a
second `Start` is accepted, the 12 calls of `Step` run to `Success`, and
`GetOutput("archive")` then returns the archive.  And `Stop(Canceled)` after the
two reading threads of `I1` and `I2` have been launched returns with the
handles of slots 0 and 1 still joinable and their buffers full; in the job
constructed next over these slots, the three calls of `Step` for the
directories return `Continue` and the call that launches the first reading
thread assigns to a joinable handle, which ends the program. -/
theorem stop_is_not_terminal :
    (s1Canceled.2 = .ok () ∧ s1Canceled.1.writer_ = none ∧
      s1Canceled.1.GetOutput (fun _ => some "zip") "archive" = none ∧
      (ArchiveJob.Start (contextOf s1Index) scenarioToolbox scenarioFramework
        s1Canceled.1).2 = .ok () ∧
      (ArchiveJob.runSteps (contextOf s1Index) scenarioFramework (List.replicate 12 0)
        (ArchiveJob.Start (contextOf s1Index) scenarioToolbox scenarioFramework
          s1Canceled.1).1).2 = .ok .Success ∧
      (ArchiveJob.runSteps (contextOf s1Index) scenarioFramework (List.replicate 12 0)
        (ArchiveJob.Start (contextOf s1Index) scenarioToolbox scenarioFramework
          s1Canceled.1).1).1.GetOutput (fun _ => some "zip") "archive" = some "zip") ∧
    (s1CanceledInFlight.2 = .ok () ∧ s1CanceledInFlight.1.writer_ = none ∧
      s1CanceledInFlight.1.threads_ =
        [⟨true, true, "dicom:I1", false, 3⟩, ⟨true, true, "dicom:I2", false, 4⟩,
         ⟨false, false, "", true, 0⟩] ∧
      (ArchiveJob.runSteps (contextOf s1Index) scenarioFramework (List.replicate 3 0)
        (ArchiveJob.Start (contextOf s1Index) scenarioToolbox scenarioFramework
          (jobOver s1CanceledInFlight.1.threads_ (contextOf s1Index) false ["ST1"])).1).2 =
        .ok .Continue ∧
      errorOf (ArchiveJob.runSteps (contextOf s1Index) scenarioFramework (List.replicate 4 0)
        (ArchiveJob.Start (contextOf s1Index) scenarioToolbox scenarioFramework
          (jobOver s1CanceledInFlight.1.threads_ (contextOf s1Index) false ["ST1"])).1).2 =
        some .Undefined) := by
  refine ⟨⟨eq_ok_of_toOption (by decide!), by decide!, by decide!,
    eq_ok_of_toOption (by decide!), eq_ok_of_toOption (by decide!), by decide!⟩,
    ⟨eq_ok_of_toOption (by decide!), by decide!, by decide!, eq_ok_of_toOption (by decide!),
      by decide!⟩⟩

/-! ## Instances without attachment -/

theorem flatten_mapAssign_mem {α β : Type} (g : String × Option α → List β) (x : β) :
    ∀ (m : Resources α) (id : String) (v : Option α),
      x ∈ ((mapAssign m id v).map g).flatten → x ∈ (m.map g).flatten ∨ x ∈ g (id, v) := by
  intro m
  induction m with
  | nil =>
    intro id v h
    simpa [mapAssign] using h
  | cons entry rest ih =>
    intro id v h
    obtain ⟨k, w⟩ := entry
    rw [mapAssign] at h
    by_cases hk : k = id
    · rw [if_pos hk] at h
      subst hk
      simp only [List.map_cons, List.flatten_cons, List.mem_append] at h ⊢
      rcases h with h | h
      · exact Or.inr h
      · exact Or.inl (Or.inr h)
    · rw [if_neg hk] at h
      by_cases hl : lexLess id.data k.data = true
      · rw [if_pos hl] at h
        simp only [List.map_cons, List.flatten_cons, List.mem_append] at h ⊢
        rcases h with h | h | h
        · exact Or.inr h
        · exact Or.inl (Or.inl h)
        · exact Or.inl (Or.inr h)
      · rw [if_neg hl] at h
        simp only [List.map_cons, List.flatten_cons, List.mem_append] at h ⊢
        rcases h with h | h
        · exact Or.inl (Or.inl h)
        · rcases ih id v h with h | h
          · exact Or.inl (Or.inr h)
          · exact Or.inr h

theorem flatten_mapReplace_mem {α β : Type} (g : String × Option α → List β) (x : β) :
    ∀ (m : Resources α) (id : String) (v : Option α),
      x ∈ ((mapReplace m id v).map g).flatten → x ∈ (m.map g).flatten ∨ x ∈ g (id, v) := by
  intro m
  induction m with
  | nil =>
    intro id v h
    simp [mapReplace] at h
  | cons entry rest ih =>
    intro id v h
    obtain ⟨k, w⟩ := entry
    rw [mapReplace] at h
    by_cases hk : k = id
    · rw [if_pos hk] at h
      subst hk
      simp only [List.map_cons, List.flatten_cons, List.mem_append] at h ⊢
      rcases h with h | h
      · exact Or.inr h
      · exact Or.inl (Or.inr h)
    · rw [if_neg hk] at h
      simp only [List.map_cons, List.flatten_cons, List.mem_append] at h ⊢
      rcases h with h | h
      · exact Or.inl (Or.inl h)
      · rcases ih id v h with h | h
        · exact Or.inl (Or.inr h)
        · exact Or.inr h

theorem flatten_mapAssign_new {α β : Type} (g : String × Option α → List β) :
    ∀ (m : Resources α) (id : String) (v : Option α), mapFind m id = none → g (id, v) = [] →
      ((mapAssign m id v).map g).flatten = (m.map g).flatten := by
  intro m
  induction m with
  | nil =>
    intro id v _ hg
    simp [mapAssign, hg]
  | cons entry rest ih =>
    intro id v hfind hg
    obtain ⟨k, w⟩ := entry
    rw [mapFind] at hfind
    by_cases hk : k = id
    · rw [if_pos hk] at hfind
      simp at hfind
    · rw [if_neg hk] at hfind
      rw [mapAssign, if_neg hk]
      by_cases hl : lexLess id.data k.data = true
      · rw [if_pos hl]
        simp [hg]
      · rw [if_neg hl]
        simp only [List.map_cons, List.flatten_cons, ih id v hfind hg]

theorem flatten_mapReplace_same {α β : Type} (g : String × Option α → List β) :
    ∀ (m : Resources α) (id : String) (previous v : Option α), mapFind m id = some previous →
      g (id, v) = g (id, previous) →
      ((mapReplace m id v).map g).flatten = (m.map g).flatten := by
  intro m
  induction m with
  | nil =>
    intro id previous v hfind _
    simp [mapFind] at hfind
  | cons entry rest ih =>
    intro id previous v hfind hg
    obtain ⟨k, w⟩ := entry
    rw [mapFind] at hfind
    by_cases hk : k = id
    · rw [if_pos hk] at hfind
      injection hfind with hfind
      subst hfind
      subst hk
      rw [mapReplace, if_pos rfl]
      simp only [List.map_cons, List.flatten_cons, hg]
    · rw [if_neg hk] at hfind
      rw [mapReplace, if_neg hk]
      simp only [List.map_cons, List.flatten_cons, ih id previous v hfind hg]

/-- The leaves of a node above the instance level, entry by entry. -/
theorem leaves_succ (d : Nat) (m : Resources (ArchiveIndex d)) :
    ArchiveIndex.leaves (d + 1) m =
      (m.map (fun entry : String × Option (ArchiveIndex d) =>
        match entry.2 with
        | none => []
        | some child => ArchiveIndex.leaves d child)).flatten := by
  simp only [ArchiveIndex.leaves]

/-- The leaves of an expanded node above the instance level, entry by
entry. -/
theorem leaves_expand_succ (index : ServerIndex) (d : Nat) (m : Resources (ArchiveIndex d)) :
    ArchiveIndex.leaves (d + 1) (ArchiveIndex.Expand index (d + 1) m) =
      (m.map (fun entry : String × Option (ArchiveIndex d) =>
        match entry.2 with
        | none =>
          ArchiveIndex.leaves d
            (ArchiveIndex.Expand index d (ArchiveIndex.expandChildren index d entry.1))
        | some child => ArchiveIndex.leaves d (ArchiveIndex.Expand index d child))).flatten := by
  simp only [ArchiveIndex.Expand, ArchiveIndex.leaves, List.map_map]
  congr 1
  apply List.map_congr_left
  intro entry _
  obtain ⟨k, w⟩ := entry
  cases w <;> rfl

theorem leaves_empty (d : Nat) : ArchiveIndex.leaves d (ArchiveIndex.empty d) = [] := by
  cases d <;> simp [ArchiveIndex.leaves, ArchiveIndex.empty]

theorem leaves_expand_empty (index : ServerIndex) (d : Nat) :
    ArchiveIndex.leaves d (ArchiveIndex.Expand index d (ArchiveIndex.empty d)) = [] := by
  cases d <;> simp [ArchiveIndex.leaves, ArchiveIndex.empty, ArchiveIndex.Expand]

/-- Selecting an instance that has no DICOM attachment: `Add` returns, and
the leaves of the tree, before and after `Expand` over any catalog, are as
they were. -/
theorem add_without_attachment (index index2 : ServerIndex) (resource : ResourceIdentifiers)
    (hlevel : resource.level_ = .Instance)
    (hnone : index.LookupAttachment resource.instance_ = none) :
    ∀ (d : Nat) (tree : ArchiveIndex d),
      ∃ tree1, ArchiveIndex.Add index resource d tree = .ok tree1 ∧
        ArchiveIndex.leaves d tree1 = ArchiveIndex.leaves d tree ∧
        ArchiveIndex.leaves d (ArchiveIndex.Expand index2 d tree1) =
          ArchiveIndex.leaves d (ArchiveIndex.Expand index2 d tree) := by
  have hid : ∀ level, ∃ id, resource.GetIdentifier level = .ok id ∧
      (level = .Instance → id = resource.instance_) := by
    intro level
    cases level <;>
      simp [ResourceIdentifiers.GetIdentifier, hlevel, ResourceType.rank]
  intro d
  induction d with
  | zero =>
    intro tree
    obtain ⟨id, h1, h2⟩ := hid (levelOfDepth 0)
    refine ⟨tree, ?_, rfl, rfl⟩
    rw [ArchiveIndex.Add, h1]
    simp only [ArchiveIndex.AddResourceToExpand, h2 rfl, hnone]
  | succ d ih =>
    intro tree
    obtain ⟨id, h1, -⟩ := hid (levelOfDepth (d + 1))
    have hne : resource.GetLevel ≠ levelOfDepth (d + 1) := by
      rw [ResourceIdentifiers.GetLevel, hlevel]
      rcases d with _ | _ | d <;> simp [levelOfDepth]
    rw [ArchiveIndex.Add, h1]
    simp only [hne, if_false]
    cases hfind : mapFind tree id with
    | none =>
      obtain ⟨child, hadd, hl, hle⟩ := ih (ArchiveIndex.empty d)
      simp only [hadd]
      refine ⟨_, rfl, ?_, ?_⟩
      · rw [leaves_succ, leaves_succ]
        apply flatten_mapAssign_new _ _ _ _ hfind
        simp only [hl, leaves_empty]
      · rw [leaves_expand_succ, leaves_expand_succ]
        apply flatten_mapAssign_new _ _ _ _ hfind
        simp only [hle, leaves_expand_empty]
    | some previous =>
      cases previous with
      | none => exact ⟨tree, rfl, rfl, rfl⟩
      | some child0 =>
        obtain ⟨child, hadd, hl, hle⟩ := ih child0
        simp only [hadd]
        refine ⟨_, rfl, ?_, ?_⟩
        · rw [leaves_succ, leaves_succ]
          apply flatten_mapReplace_same _ _ _ _ _ hfind
          simp only [hl]
        · rw [leaves_expand_succ, leaves_expand_succ]
          apply flatten_mapReplace_same _ _ _ _ _ hfind
          simp only [hle]

theorem flatten_mapFind_mem {α β : Type} (g : String × Option α → List β) (x : β) :
    ∀ (m : Resources α) (id : String) (v : Option α), mapFind m id = some v → x ∈ g (id, v) →
      x ∈ (m.map g).flatten := by
  intro m
  induction m with
  | nil =>
    intro id v hfind _
    simp [mapFind] at hfind
  | cons entry rest ih =>
    intro id v hfind hx
    obtain ⟨k, w⟩ := entry
    rw [mapFind] at hfind
    simp only [List.map_cons, List.flatten_cons, List.mem_append]
    by_cases hk : k = id
    · rw [if_pos hk] at hfind
      injection hfind with hfind
      subst hfind
      subst hk
      exact Or.inl hx
    · rw [if_neg hk] at hfind
      exact Or.inr (ih id v hfind hx)

/-- What holds of every leaf with an attachment holds of every leaf of the
node `AddResourceToExpand` returns, if it held of the leaves of the node. -/
theorem addResourceToExpand_leaves (index : ServerIndex) (P : Instance → Prop)
    (hP : ∀ id size, index.LookupAttachment id = some size → P ⟨id, size⟩) :
    ∀ (d : Nat) (tree : ArchiveIndex d) (id : String),
      (∀ leaf ∈ ArchiveIndex.leaves d tree, P leaf) →
      ∀ leaf ∈ ArchiveIndex.leaves d (ArchiveIndex.AddResourceToExpand index d tree id),
        P leaf := by
  intro d
  cases d with
  | zero =>
    intro tree id htree leaf hleaf
    simp only [ArchiveIndex.AddResourceToExpand] at hleaf
    cases hlook : index.LookupAttachment id with
    | none =>
      simp only [hlook] at hleaf
      exact htree leaf hleaf
    | some size =>
      simp only [hlook] at hleaf
      change leaf ∈ (_ ++ [_] : List Instance) at hleaf
      rw [List.mem_append, List.mem_singleton] at hleaf
      rcases hleaf with h | h
      · exact htree leaf h
      · rw [h]
        exact hP id size hlook
  | succ d =>
    intro tree id htree leaf hleaf
    simp only [ArchiveIndex.AddResourceToExpand] at hleaf
    rw [leaves_succ] at hleaf
    rcases flatten_mapAssign_mem _ leaf tree id none hleaf with h | h
    · rw [← leaves_succ] at h
      exact htree leaf h
    · simp at h

theorem expandChildren_leaves (index : ServerIndex) (P : Instance → Prop)
    (hP : ∀ id size, index.LookupAttachment id = some size → P ⟨id, size⟩) (d : Nat)
    (id : String) :
    ∀ leaf ∈ ArchiveIndex.leaves d (ArchiveIndex.expandChildren index d id), P leaf := by
  unfold ArchiveIndex.expandChildren
  have key : ∀ (children : List String) (tree : ArchiveIndex d),
      (∀ leaf ∈ ArchiveIndex.leaves d tree, P leaf) →
      ∀ leaf ∈ ArchiveIndex.leaves d (children.foldl
        (fun child id2 => ArchiveIndex.AddResourceToExpand index d child id2) tree), P leaf := by
    intro children
    induction children with
    | nil => intro tree h; exact h
    | cons c rest ih =>
      intro tree h
      exact ih _ (addResourceToExpand_leaves index P hP d tree c h)
  apply key
  rw [leaves_empty]
  intro leaf h
  simp at h

/-- What holds of every leaf with an attachment holds of every leaf of the
expanded tree, if it held of the leaves of the tree. -/
theorem expand_leaves (index : ServerIndex) (P : Instance → Prop)
    (hP : ∀ id size, index.LookupAttachment id = some size → P ⟨id, size⟩) :
    ∀ (d : Nat) (tree : ArchiveIndex d), (∀ leaf ∈ ArchiveIndex.leaves d tree, P leaf) →
      ∀ leaf ∈ ArchiveIndex.leaves d (ArchiveIndex.Expand index d tree), P leaf := by
  intro d
  induction d with
  | zero => intro tree h; exact h
  | succ d ih =>
    intro tree htree leaf hleaf
    rw [leaves_expand_succ, List.mem_flatten] at hleaf
    obtain ⟨l, hl, hmem⟩ := hleaf
    rw [List.mem_map] at hl
    obtain ⟨entry, hentry, rfl⟩ := hl
    obtain ⟨k, w⟩ := entry
    cases w with
    | none =>
      exact ih _ (expandChildren_leaves index P hP d k) leaf hmem
    | some child =>
      refine ih child ?_ leaf hmem
      intro leaf1 h1
      apply htree
      rw [leaves_succ, List.mem_flatten]
      exact ⟨_, List.mem_map.mpr ⟨(k, some child), hentry, rfl⟩, h1⟩

/-- What holds of every leaf with an attachment holds of every leaf of the
tree `Add` returns, if it held of the leaves of the tree. -/
theorem add_leaves (index : ServerIndex) (resource : ResourceIdentifiers) (P : Instance → Prop)
    (hP : ∀ id size, index.LookupAttachment id = some size → P ⟨id, size⟩) :
    ∀ (d : Nat) (tree tree1 : ArchiveIndex d), ArchiveIndex.Add index resource d tree = .ok tree1 →
      (∀ leaf ∈ ArchiveIndex.leaves d tree, P leaf) →
      ∀ leaf ∈ ArchiveIndex.leaves d tree1, P leaf := by
  intro d
  induction d with
  | zero =>
    intro tree tree1 hadd htree
    rw [ArchiveIndex.Add] at hadd
    cases hid : resource.GetIdentifier (levelOfDepth 0) with
    | error e => simp [hid] at hadd
    | ok id =>
      simp only [hid] at hadd
      injection hadd with hadd
      subst hadd
      exact addResourceToExpand_leaves index P hP 0 tree id htree
  | succ d ih =>
    intro tree tree1 hadd htree
    rw [ArchiveIndex.Add] at hadd
    cases hid : resource.GetIdentifier (levelOfDepth (d + 1)) with
    | error e => simp [hid] at hadd
    | ok id =>
      simp only [hid] at hadd
      by_cases hterm : resource.GetLevel = levelOfDepth (d + 1)
      · simp only [hterm, if_true] at hadd
        injection hadd with hadd
        subst hadd
        intro leaf hleaf
        rw [leaves_succ] at hleaf
        rcases flatten_mapAssign_mem _ leaf tree id none hleaf with h | h
        · rw [← leaves_succ] at h
          exact htree leaf h
        · simp at h
      · simp only [hterm, if_false] at hadd
        cases hfind : mapFind tree id with
        | none =>
          simp only [hfind] at hadd
          cases hchild : ArchiveIndex.Add index resource d (ArchiveIndex.empty d) with
          | error e => simp [hchild] at hadd
          | ok child =>
            simp only [hchild] at hadd
            injection hadd with hadd
            subst hadd
            intro leaf hleaf
            rw [leaves_succ] at hleaf
            rcases flatten_mapAssign_mem _ leaf tree id (some child) hleaf with h | h
            · rw [← leaves_succ] at h
              exact htree leaf h
            · refine ih _ child hchild ?_ leaf h
              rw [leaves_empty]
              intro leaf1 h1
              simp at h1
        | some previous =>
          cases previous with
          | none =>
            simp only [hfind] at hadd
            injection hadd with hadd
            subst hadd
            exact htree
          | some child0 =>
            simp only [hfind] at hadd
            cases hchild : ArchiveIndex.Add index resource d child0 with
            | error e => simp [hchild] at hadd
            | ok child =>
              simp only [hchild] at hadd
              injection hadd with hadd
              subst hadd
              intro leaf hleaf
              rw [leaves_succ] at hleaf
              rcases flatten_mapReplace_mem _ leaf tree id (some child) hleaf with h | h
              · rw [← leaves_succ] at h
                exact htree leaf h
              · refine ih child0 child hchild ?_ leaf h
                intro leaf1 h1
                apply htree
                rw [leaves_succ]
                exact flatten_mapFind_mem _ leaf1 tree id (some child0) hfind h1

theorem addResource_leaves (context : ServerContext) (P : Instance → Prop)
    (hP : ∀ id size, context.index.LookupAttachment id = some size → P ⟨id, size⟩)
    (publicId : String) (j : ArchiveJob) (h : ∀ leaf ∈ ArchiveIndex.leaves 3 j.archive_, P leaf) :
    ∀ leaf ∈ ArchiveIndex.leaves 3 (ArchiveJob.AddResource context publicId j).1.archive_,
      P leaf := by
  unfold ArchiveJob.AddResource
  split
  · exact h
  · split
    · exact h
    · split
      · exact h
      · rename_i archive hadd
        exact add_leaves context.index _ P hP 3 j.archive_ archive hadd h

/-- What holds of every leaf with an attachment holds of every leaf of the
tree of a job on which `AddResource` has been called any number of times. -/
theorem selectedJob_leaves (context : ServerContext) (isMedia : Bool) (P : Instance → Prop)
    (hP : ∀ id size, context.index.LookupAttachment id = some size → P ⟨id, size⟩)
    (publicIds : List String) :
    ∀ leaf ∈ ArchiveIndex.leaves 3 (selectedJob context isMedia publicIds).archive_, P leaf := by
  unfold selectedJob
  have key : ∀ (ids : List String) (j : ArchiveJob),
      (∀ leaf ∈ ArchiveIndex.leaves 3 j.archive_, P leaf) →
      ∀ leaf ∈ ArchiveIndex.leaves 3 (ids.foldl
        (fun j publicId => (ArchiveJob.AddResource context publicId j).1) j).archive_,
        P leaf := by
    intro ids
    induction ids with
    | nil => intro j h; exact h
    | cons id rest ih =>
      intro j h
      exact ih _ (addResource_leaves context P hP id j h)
  apply key
  intro leaf h
  have : ArchiveIndex.leaves 3 (ArchiveJob.new isMedia false).archive_ = [] := leaves_empty 3
  rw [this] at h
  simp at h

/-- Claim C27: let `X` be an identifier for which `LookupAttachment` finds
nothing, both in the catalog as it is while the job is built and in the
catalog as it is when the job starts.  Whatever the resources selected by
`AddResource`, when `Start` returns no `WriteInstance` of the planned stream
is for `X`.  When `X` is selected directly, `Add` returns without error and
the leaves of the tree, before and after `Expand`, are as they were.  When `X`
is among the children of a series that `Expand` expands, the leaves built for
the series are those of the other children, in the order of the catalog. -/
theorem missing_attachment_dropped (context1 context2 : ServerContext) (toolbox : Toolbox)
    (framework : Framework) (isMedia : Bool) (publicIds : List String) (j0 : ArchiveJob)
    (X : String) (hselect : context1.index.LookupAttachment X = none)
    (hexpand : context2.index.LookupAttachment X = none)
    (hstart : ArchiveJob.Start context2 toolbox framework
      (selectedJob context1 isMedia publicIds) = (j0, .ok ())) :
    (∀ c ∈ j0.commands, c.IsWriteInstance = true → c.instanceId_ ≠ X) ∧
    (∀ (resource : ResourceIdentifiers) (tree : ArchiveIndex 3),
      resource.level_ = .Instance → resource.instance_ = X →
      ∃ tree1, ArchiveIndex.Add context1.index resource 3 tree = .ok tree1 ∧
        ArchiveIndex.leaves 3 tree1 = ArchiveIndex.leaves 3 tree ∧
        ArchiveIndex.leaves 3 (ArchiveIndex.Expand context2.index 3 tree1) =
          ArchiveIndex.leaves 3 (ArchiveIndex.Expand context2.index 3 tree)) ∧
    (∀ series, ArchiveIndex.leaves 0 (ArchiveIndex.expandChildren context2.index 0 series) =
      ((context2.index.GetChildren series).filter (fun id => decide (id ≠ X))).filterMap
        (fun id => (context2.index.LookupAttachment id).map
          (fun size => (⟨id, size⟩ : Instance)))) := by
  refine ⟨?_, ?_, ?_⟩
  · intro c hc hwrite hX
    obtain ⟨planned, hplan, ha, hcmds, -, -⟩ :=
      start_totals context2 toolbox framework _ j0 hstart
    obtain ⟨p1, p2, -, -⟩ := plan_totals context2 toolbox _ _ planned hplan
    have hmem : c.instanceId_ ∈
        (planned.2.commands_.filter Command.IsWriteInstance).map (fun c => c.instanceId_) := by
      rw [← hcmds]
      exact List.mem_map.mpr ⟨c, List.mem_filter.mpr ⟨hc, hwrite⟩, rfl⟩
    rw [p2, p1, List.mem_map] at hmem
    obtain ⟨leaf, hleaf, hid⟩ := hmem
    have hsound : context1.index.LookupAttachment leaf.id_ ≠ none ∨
        context2.index.LookupAttachment leaf.id_ ≠ none := expand_leaves context2.index
      (fun leaf => context1.index.LookupAttachment leaf.id_ ≠ none ∨
        context2.index.LookupAttachment leaf.id_ ≠ none)
      (fun id size h => Or.inr (by simp [h])) 3
      (selectedJob context1 isMedia publicIds).archive_
      (selectedJob_leaves context1 isMedia _ (fun id size h => Or.inl (by simp [h])) publicIds)
      leaf hleaf
    rw [hid, hX] at hsound
    rcases hsound with h | h
    · exact h hselect
    · exact h hexpand
  · intro resource tree hlevel hinstance
    exact add_without_attachment context1.index context2.index resource hlevel
      (by rw [hinstance]; exact hselect) 3 tree
  · intro series
    rw [expandChildren_zero]
    unfold leavesOf
    change List.filterMap _ _ = _
    induction context2.index.GetChildren series with
    | nil => rfl
    | cons id rest ih =>
      by_cases hid : id = X
      · subst hid
        simp only [List.filterMap_cons, hexpand, Option.map_none', ne_eq, not_true_eq_false,
          decide_False, Bool.false_eq_true, not_false_eq_true, List.filter_cons_of_neg]
        exact ih
      · rw [List.filter_cons_of_pos (by simpa using hid)]
        simp only [List.filterMap_cons]
        rw [ih]

/-- Witness of `missing_attachment_dropped`: the catalog of scenario S1 in
which `I2` has no attachment; `I2` is selected, then the study `ST1`.  The
job starts, and the planned stream writes `I1` and `I3` only. -/
theorem missing_attachment_dropped_witness :
    (withoutAttachment s1Index "I2").LookupAttachment "I2" = none ∧
    ArchiveJob.Start (contextOf (withoutAttachment s1Index "I2")) scenarioToolbox
        scenarioFramework
        (selectedJob (contextOf (withoutAttachment s1Index "I2")) false ["I2", "ST1"]) =
      (startedJob (contextOf (withoutAttachment s1Index "I2")) scenarioToolbox scenarioFramework
        false ["I2", "ST1"], .ok ()) ∧
    (∀ c ∈ (startedJob (contextOf (withoutAttachment s1Index "I2")) scenarioToolbox
        scenarioFramework false ["I2", "ST1"]).commands,
      c.IsWriteInstance = true → c.instanceId_ ≠ "I2") ∧
    ((startedJob (contextOf (withoutAttachment s1Index "I2")) scenarioToolbox
        scenarioFramework false ["I2", "ST1"]).commands.filter Command.IsWriteInstance).map
      (fun c => c.instanceId_) = ["I1", "I3"] :=
  have hstart : ArchiveJob.Start (contextOf (withoutAttachment s1Index "I2")) scenarioToolbox
        scenarioFramework
        (selectedJob (contextOf (withoutAttachment s1Index "I2")) false ["I2", "ST1"]) =
      (startedJob (contextOf (withoutAttachment s1Index "I2")) scenarioToolbox scenarioFramework
        false ["I2", "ST1"], .ok ()) := Prod.ext_iff.mpr ⟨rfl, eq_ok_of_toOption (by decide!)⟩
  ⟨rfl, hstart,
    (missing_attachment_dropped (contextOf (withoutAttachment s1Index "I2"))
      (contextOf (withoutAttachment s1Index "I2")) scenarioToolbox scenarioFramework false
      ["I2", "ST1"] _ "I2" rfl rfl hstart).1,
    by decide!⟩

/-! ## An exception at the last step -/

/-- With an encoder that never throws, `StepOrThrow` is `Step`. -/
theorem stepOrThrow_ok (context : ServerContext) (framework : Framework) (waiting : Nat)
    (j : ArchiveJob) :
    ArchiveJob.StepOrThrow context framework (fun d => .ok (framework.Encode d)) waiting j =
      ArchiveJob.Step context framework waiting j := by
  have hlast : ∀ w : ZipWriterIterator,
      w.LastStepOrThrow (fun d => .ok (framework.Encode d)) = w.LastStep framework := by
    intro w
    obtain ⟨commands, zip, dicomDir, isMedia, isStream⟩ := w
    cases isMedia <;> cases zip <;> cases dicomDir <;> rfl
  have hstep : ∀ j1 : ArchiveJob,
      ArchiveJob.stepLastOrThrow context (fun d => .ok (framework.Encode d)) j1 =
        ArchiveJob.stepLast context framework j1 := by
    intro j1
    unfold ArchiveJob.stepLastOrThrow ArchiveJob.stepLast
    generalize ArchiveJob.endThreadsFrom context j1.threadsActive_ 0 j1 = r
    obtain ⟨j2, r2⟩ := r
    cases r2 with
    | error e => rfl
    | ok u =>
      try dsimp only
      cases j2.writer_ with
      | none => rfl
      | some writer1 =>
        try dsimp only
        rw [hlast]
  unfold ArchiveJob.StepOrThrow ArchiveJob.Step
  cases j.writer_ with
  | none => rfl
  | some writer =>
    try dsimp only
    by_cases hcount : writer.GetStepsCount = 0
    · rw [if_pos hcount, if_pos hcount]
    · rw [if_neg hcount, if_neg hcount]
      generalize ArchiveJob.stepTry context waiting writer j = r
      obtain ⟨j1, r1⟩ := r
      cases r1 with
      | error e => rfl
      | ok u =>
        try dsimp only
        rw [hstep]

/-- Claim C23, at the last step: a media job at its last step, with nothing
in flight, whose DICOMDIR encoder throws `e`.  The call of `Step` throws `e`
to its caller and leaves the job as it was: the writer is still held and the
ZIP writer has received no call, in particular no `CancelStream`. -/
theorem last_step_error_not_cancelled (context : ServerContext) (framework : Framework)
    (encode : DicomDirWriter → Except ErrorCode String) (waiting : Nat) (j : ArchiveJob)
    (w : ZipWriterIterator) (zip : HierarchicalZipWriter) (d : DicomDirWriter) (e : ErrorCode)
    (hw : j.writer_ = some w) (hmedia : w.isMedia_ = true) (hzip : w.zip_ = some zip)
    (hdir : w.dicomDir_ = some d) (hlast : j.currentStep_ = w.GetStepsCount - 1)
    (hidle : j.threadsActive_ = 0) (hthrow : encode d = .error e) :
    ArchiveJob.StepOrThrow context framework encode waiting j = (j, .error e) ∧
      j.zipCalls = zip.calls := by
  refine ⟨?_, by simp [ArchiveJob.zipCalls, hw, hzip]⟩
  have hcount : w.GetStepsCount ≠ 0 := by simp [ZipWriterIterator.GetStepsCount]
  have htry : ArchiveJob.stepTry context waiting w j = (j, .ok ()) := by
    unfold ArchiveJob.stepTry
    simp [hlast]
  have hstep : ArchiveJob.stepLastOrThrow context encode j = (j, .error e) := by
    unfold ArchiveJob.stepLastOrThrow
    simp only [hidle, ArchiveJob.endThreadsFrom, hw, ZipWriterIterator.LastStepOrThrow, hmedia,
      if_true, hdir, hzip, hthrow]
  unfold ArchiveJob.StepOrThrow
  simp only [hw, hcount, if_false, htry, hlast, if_true, hstep]

/-- Witness of `last_step_error_not_cancelled`: scenario S1 in media mode on
a synchronous target, at its last step, with an encoder that throws
`InternalError`.  The call throws `InternalError`; the ZIP writer, which
writes to the stream of the caller, has received the calls of the five
commands and no `CancelStream`. -/
theorem last_step_error_not_cancelled_witness :
    (∃ w, s1MediaAtLastStep.writer_ = some w ∧ w.isStream_ = true ∧
      s1MediaAtLastStep.currentStep_ = w.GetStepsCount - 1) ∧
    ArchiveJob.StepOrThrow (contextOf s1Index) scenarioFramework
        (fun _ => .error .InternalError) 0 s1MediaAtLastStep =
      (s1MediaAtLastStep, .error .InternalError) ∧
    s1MediaAtLastStep.zipCalls =
      [.OpenDirectory "IMAGES", .OpenFile "IM0", .Write "dicom:I1", .OpenFile "IM1",
        .Write "dicom:I2", .OpenFile "IM2", .Write "dicom:I3", .CloseDirectory] :=
  have hw : ∃ w zip d, s1MediaAtLastStep.writer_ = some w ∧ w.isMedia_ = true ∧
      w.zip_ = some zip ∧ w.dicomDir_ = some d ∧ w.isStream_ = true ∧
      s1MediaAtLastStep.currentStep_ = w.GetStepsCount - 1 := by
    cases h : s1MediaAtLastStep.writer_ with
    | none => exact absurd h (by decide!)
    | some w =>
      have hwr : s1MediaAtLastStep.writer_.map (fun w => (w.isMedia_, w.zip_.isSome,
          w.dicomDir_.isSome, w.isStream_, w.GetStepsCount - 1)) =
          some (true, true, true, true, s1MediaAtLastStep.currentStep_) := by decide!
      rw [h] at hwr
      simp only [Option.map_some', Option.some.injEq, Prod.mk.injEq] at hwr
      obtain ⟨h1, h2, h3, h4, h5⟩ := hwr
      obtain ⟨zip, hzip⟩ := Option.isSome_iff_exists.mp h2
      obtain ⟨d, hd⟩ := Option.isSome_iff_exists.mp h3
      exact ⟨w, zip, d, rfl, h1, hzip, hd, h4, h5.symm⟩
  let ⟨w, zip, d, h1, h2, h3, h4, h5, h6⟩ := hw
  have h := last_step_error_not_cancelled (contextOf s1Index) scenarioFramework
    (fun _ => .error .InternalError) 0 s1MediaAtLastStep w zip d .InternalError h1 h2 h3 h4 h6
    (by decide!) rfl
  ⟨⟨w, h1, h5, h6⟩, h.1, by decide!⟩

/-! ## Stop on a job that holds no writer -/

/-- Claim C35, evaluated where the code departs from it: `Stop` with
`Canceled`, `Failure` or `Retry` calls `writer_->CancelStream()` without
testing `writer_`, so on every job that holds no writer the call dereferences
a null pointer.  Such jobs are reachable through the public interface: a new
job, a job on which resources have been selected, a job whose last `Step`
has returned `Success`, and a job that `Stop` has already stopped. -/
theorem stop_uses_absent_writer :
    (∀ reason j, reason ≠ JobStopReason.Other → j.writer_ = none →
      ArchiveJob.Stop reason j = (j, .error .Undefined)) ∧
    (ArchiveJob.new false false).writer_ = none ∧
    (selectedJob (contextOf s1Index) false ["ST1"]).writer_ = none ∧
    (s1Finished.2 = .ok .Success ∧ s1Finished.1.writer_ = none) ∧
    (s1Canceled.2 = .ok () ∧ s1Canceled.1.writer_ = none) ∧
    ArchiveJob.Stop .Canceled (ArchiveJob.new false false) =
      (ArchiveJob.new false false, .error .Undefined) := by
  refine ⟨?_, rfl, by decide!, ⟨eq_ok_of_toOption (by decide!), by decide!⟩,
    ⟨eq_ok_of_toOption (by decide!), by decide!⟩, rfl⟩
  intro reason j hreason hw
  have hr : reason = .Canceled ∨ reason = .Failure ∨ reason = .Retry := by
    cases reason <;> simp at hreason ⊢
  unfold ArchiveJob.Stop
  rw [if_pos hr, hw]

/-! ## The subscripts of the slot array -/

/-- Claim C33, evaluated where the code departs from it: scenario S1 in media
mode plans `OpenDirectory`, three `WriteInstance` and `CloseDirectory`.  After
four calls of `Step` the three slots are in flight and the current command is
the `CloseDirectory`: the fifth call accesses `threads_` with the subscripts
0, 1, 2 and then 3, which is `NB_THREAD`, one past the last slot. -/
theorem barrier_reads_past_the_slots :
    NB_THREAD = 3 ∧
    ((ArchiveJob.runSteps (contextOf s1Index) scenarioFramework (List.replicate 4 0)
      (startedJob (contextOf s1Index) scenarioToolbox scenarioFramework true ["ST1"])).2 =
        .ok .Continue) ∧
    (ArchiveJob.runSteps (contextOf s1Index) scenarioFramework (List.replicate 4 0)
      (startedJob (contextOf s1Index) scenarioToolbox scenarioFramework true
        ["ST1"])).1.threads_.length = 3 ∧
    (ArchiveJob.runSteps (contextOf s1Index) scenarioFramework (List.replicate 4 0)
      (startedJob (contextOf s1Index) scenarioToolbox scenarioFramework true
        ["ST1"])).1.threadsActive_ = 3 ∧
    ((ArchiveJob.runSteps (contextOf s1Index) scenarioFramework (List.replicate 4 0)
      (startedJob (contextOf s1Index) scenarioToolbox scenarioFramework true
        ["ST1"])).1.commands[4]?).map (fun c => c.type_) = some .Type_CloseDirectory ∧
    ArchiveJob.slotIndices (contextOf s1Index) 0
      (ArchiveJob.runSteps (contextOf s1Index) scenarioFramework (List.replicate 4 0)
        (startedJob (contextOf s1Index) scenarioToolbox scenarioFramework true ["ST1"])).1 =
      [0, 1, 2, 3] := by
  refine ⟨rfl, eq_ok_of_toOption (by decide!), by decide!, by decide!, by decide!, by decide!⟩

/-! ## Two files of the same name in one directory -/

/-- Claim C38, evaluated where the code departs from it: a series whose
Modality is the one character `%`, holding the two instances `I1` and `I2`.
In archive mode the plan has, between the `OpenDirectory` of the series and
its `CloseDirectory`, two `WriteInstance` commands for the two instances with
the same file name `%07d.dcm`, and the run opens two files of that name in
the same directory of the ZIP. -/
theorem same_name_in_one_series :
    planOf (contextOf (seriesIndex "%")) scenarioToolbox ["SR1"] false = .ok
      { commands_ :=
          [⟨.Type_OpenDirectory, "Unknown Patient", ""⟩,
           ⟨.Type_OpenDirectory, "Unknown Study", ""⟩,
           ⟨.Type_OpenDirectory, "%", ""⟩,
           ⟨.Type_WriteInstance, "%07d.dcm", "I1"⟩,
           ⟨.Type_WriteInstance, "%07d.dcm", "I2"⟩,
           ⟨.Type_CloseDirectory, "", ""⟩,
           ⟨.Type_CloseDirectory, "", ""⟩,
           ⟨.Type_CloseDirectory, "", ""⟩]
        uncompressedSize_ := 2048
        instancesCount_ := 2 } ∧
    (ArchiveJob.runSteps (contextOf (seriesIndex "%")) scenarioFramework (List.replicate 9 0)
      (startedJob (contextOf (seriesIndex "%")) scenarioToolbox scenarioFramework false
        ["SR1"])).2 = .ok .Success ∧
    (ArchiveJob.runSteps (contextOf (seriesIndex "%")) scenarioFramework (List.replicate 9 0)
      (startedJob (contextOf (seriesIndex "%")) scenarioToolbox scenarioFramework false
        ["SR1"])).1.zipCalls =
      [.OpenDirectory "Unknown Patient", .OpenDirectory "Unknown Study", .OpenDirectory "%",
       .OpenFile "%07d.dcm", .Write "dicom:I1", .OpenFile "%07d.dcm", .Write "dicom:I2",
       .CloseDirectory, .CloseDirectory, .CloseDirectory, .Close] := by
  refine ⟨eq_ok_of_toOption (by decide!), eq_ok_of_toOption (by decide!), by decide!⟩

/-! ## The levels asked of a resource -/

/-- For a resource at or below the level of a node, `Add` on the node
returns, and asks the resource only for levels at or above its own. -/
theorem add_returns (index : ServerIndex) (resource : ResourceIdentifiers) :
    ∀ (d : Nat) (tree : ArchiveIndex d), d ≤ 3 →
      (levelOfDepth d).rank ≤ resource.level_.rank →
      (∃ tree1, ArchiveIndex.Add index resource d tree = .ok tree1) ∧
      ∀ level ∈ ArchiveIndex.addLevels resource d tree, level.rank ≤ resource.level_.rank := by
  intro d
  induction d with
  | zero =>
    intro tree _ hrank
    have hid : resource.GetIdentifier (levelOfDepth 0) = .ok resource.instance_ := by
      simp only [ResourceIdentifiers.GetIdentifier, levelOfDepth]
      rw [if_neg (by simpa [levelOfDepth] using hrank)]
    refine ⟨⟨_, by rw [ArchiveIndex.Add, hid]⟩, ?_⟩
    intro level hlevel
    simp only [ArchiveIndex.addLevels, List.mem_singleton] at hlevel
    rw [hlevel]
    exact hrank
  | succ d ih =>
    intro tree hd hrank
    have hbelow : resource.GetLevel ≠ levelOfDepth (d + 1) →
        (levelOfDepth d).rank ≤ resource.level_.rank := by
      intro hne
      have h3 : d = 0 ∨ d = 1 ∨ d = 2 := by omega
      rcases h3 with h | h | h <;> subst h <;>
        cases hl : resource.level_ <;>
        simp_all [ResourceIdentifiers.GetLevel, levelOfDepth, ResourceType.rank]
    obtain ⟨id, hid⟩ : ∃ id, resource.GetIdentifier (levelOfDepth (d + 1)) = .ok id := by
      simp only [ResourceIdentifiers.GetIdentifier]
      rw [if_neg (by omega)]
      cases levelOfDepth (d + 1) <;> exact ⟨_, rfl⟩
    constructor
    · rw [ArchiveIndex.Add, hid]
      by_cases hterm : resource.GetLevel = levelOfDepth (d + 1)
      · simp only [hterm, if_true]
        exact ⟨_, rfl⟩
      · simp only [hterm, if_false]
        cases hfind : mapFind tree id with
        | none =>
          obtain ⟨⟨child, hchild⟩, -⟩ := ih (ArchiveIndex.empty d) (by omega) (hbelow hterm)
          simp only [hchild]
          exact ⟨_, rfl⟩
        | some previous =>
          cases previous with
          | none => exact ⟨_, rfl⟩
          | some child0 =>
            obtain ⟨⟨child, hchild⟩, -⟩ := ih child0 (by omega) (hbelow hterm)
            simp only [hchild]
            exact ⟨_, rfl⟩
    · intro level hlevel
      rw [ArchiveIndex.addLevels, hid] at hlevel
      rcases List.mem_cons.mp hlevel with h | h
      · rw [h]; exact hrank
      · by_cases hterm : resource.GetLevel = levelOfDepth (d + 1)
        · simp [hterm] at h
        · simp only [hterm, if_false] at h
          cases hfind : mapFind tree id with
          | none =>
            simp only [hfind] at h
            exact (ih (ArchiveIndex.empty d) (by omega) (hbelow hterm)).2 level h
          | some previous =>
            cases previous with
            | none => simp [hfind] at h
            | some child0 =>
              simp only [hfind] at h
              exact (ih child0 (by omega) (hbelow hterm)).2 level h

/-- Claim C37: `Add` on the root, for every tree, index and resource, returns
without error; `GetIdentifier` is called only for levels at or above the
level of the resource, so it never throws `InternalError`; the root is at the
patient level, the node one step below a node is at the level
`GetChildResourceType` gives for it, and the nodes that hold a list of
instances are three steps below the root, at the instance level. -/
theorem add_never_internal_error (index : ServerIndex) (resource : ResourceIdentifiers)
    (tree : ArchiveIndex 3) :
    (∃ tree1, ArchiveIndex.Add index resource 3 tree = .ok tree1) ∧
    (∀ level ∈ ArchiveIndex.addLevels resource 3 tree,
      level.rank ≤ resource.GetLevel.rank ∧
      ∃ id, resource.GetIdentifier level = .ok id) ∧
    levelOfDepth 3 = .Patient ∧ levelOfDepth 0 = .Instance ∧
    (∀ d, d < 3 → GetChildResourceType (levelOfDepth (d + 1)) = some (levelOfDepth d)) := by
  have hrank : (levelOfDepth 3).rank ≤ resource.level_.rank := by
    cases hl : resource.level_ <;> simp [levelOfDepth, ResourceType.rank]
  obtain ⟨hok, hlevels⟩ := add_returns index resource 3 tree (le_refl 3) hrank
  refine ⟨hok, ?_, rfl, rfl, ?_⟩
  · intro level hlevel
    have h := hlevels level hlevel
    refine ⟨h, ?_⟩
    simp only [ResourceIdentifiers.GetIdentifier]
    rw [if_neg (by omega)]
    cases level <;> exact ⟨_, rfl⟩
  · intro d hd
    have h3 : d = 0 ∨ d = 1 ∨ d = 2 := by omega
    rcases h3 with h | h | h <;> subst h <;> rfl

/-! ## The order of the identifiers -/

theorem lexLess_irrefl : ∀ a : List Char, lexLess a a = false := by
  intro a
  induction a with
  | nil => rfl
  | cons c rest ih => simp [lexLess, ih]

theorem lexLess_trans : ∀ a b c : List Char, lexLess a b = true → lexLess b c = true →
    lexLess a c = true := by
  intro a
  induction a with
  | nil =>
    intro b c hab hbc
    cases b with
    | nil => simp [lexLess] at hab
    | cons y ys =>
      cases c with
      | nil => simp [lexLess] at hbc
      | cons z zs => simp [lexLess]
  | cons x xs ih =>
    intro b c hab hbc
    cases b with
    | nil => simp [lexLess] at hab
    | cons y ys =>
      cases c with
      | nil => simp [lexLess] at hbc
      | cons z zs =>
        simp only [lexLess] at hab hbc ⊢
        by_cases h1 : x.toNat < y.toNat
        · by_cases h2 : y.toNat < z.toNat
          · rw [if_pos (by omega)]
          · rw [if_neg h2] at hbc
            by_cases h3 : z.toNat < y.toNat
            · simp [h3] at hbc
            · rw [if_pos (by omega)]
        · rw [if_neg h1] at hab
          by_cases h1b : y.toNat < x.toNat
          · simp [h1b] at hab
          · rw [if_neg h1b] at hab
            by_cases h2 : y.toNat < z.toNat
            · rw [if_pos (by omega)]
            · rw [if_neg h2] at hbc
              by_cases h3 : z.toNat < y.toNat
              · simp [h3] at hbc
              · rw [if_neg h3] at hbc
                rw [if_neg (by omega), if_neg (by omega)]
                exact ih ys zs hab hbc

theorem lexLess_total : ∀ a b : List Char, a ≠ b → lexLess a b = false → lexLess b a = true := by
  intro a
  induction a with
  | nil =>
    intro b hne h
    cases b with
    | nil => exact absurd rfl hne
    | cons y ys => simp [lexLess] at h
  | cons x xs ih =>
    intro b hne h
    cases b with
    | nil => simp [lexLess]
    | cons y ys =>
      simp only [lexLess] at h ⊢
      by_cases h1 : x.toNat < y.toNat
      · simp [h1] at h
      · rw [if_neg h1] at h
        by_cases h2 : y.toNat < x.toNat
        · rw [if_pos h2]
        · rw [if_neg h2] at h
          rw [if_neg h2, if_neg h1]
          have hxy : x = y := by
            have hx := Char.ofNat_toNat x
            have hy := Char.ofNat_toNat y
            rw [← hx, ← hy, show x.toNat = y.toNat by omega]
          apply ih ys _ h
          intro hxs
          exact hne (by rw [hxy, hxs])

theorem mapAssign_mem {α : Type} (e : String × Option α) :
    ∀ (m : Resources α) (id : String) (v : Option α), e ∈ mapAssign m id v →
      e = (id, v) ∨ e ∈ m := by
  intro m
  induction m with
  | nil =>
    intro id v h
    simp only [mapAssign, List.mem_singleton] at h
    exact Or.inl h
  | cons entry rest ih =>
    intro id v h
    obtain ⟨k, w⟩ := entry
    rw [mapAssign] at h
    by_cases hk : k = id
    · rw [if_pos hk] at h
      rcases List.mem_cons.mp h with h | h
      · exact Or.inl (by rw [h, hk])
      · exact Or.inr (List.mem_cons_of_mem _ h)
    · rw [if_neg hk] at h
      by_cases hl : lexLess id.data k.data = true
      · rw [if_pos hl] at h
        rcases List.mem_cons.mp h with h | h
        · exact Or.inl h
        · exact Or.inr h
      · rw [if_neg hl] at h
        rcases List.mem_cons.mp h with h | h
        · exact Or.inr (by rw [h]; exact List.mem_cons_self _ _)
        · rcases ih id v h with h | h
          · exact Or.inl h
          · exact Or.inr (List.mem_cons_of_mem _ h)

theorem mapReplace_mem {α : Type} (e : String × Option α) :
    ∀ (m : Resources α) (id : String) (v : Option α), e ∈ mapReplace m id v →
      e = (id, v) ∨ e ∈ m := by
  intro m
  induction m with
  | nil =>
    intro id v h
    simp [mapReplace] at h
  | cons entry rest ih =>
    intro id v h
    obtain ⟨k, w⟩ := entry
    rw [mapReplace] at h
    by_cases hk : k = id
    · rw [if_pos hk] at h
      rcases List.mem_cons.mp h with h | h
      · exact Or.inl (by rw [h, hk])
      · exact Or.inr (List.mem_cons_of_mem _ h)
    · rw [if_neg hk] at h
      rcases List.mem_cons.mp h with h | h
      · exact Or.inr (by rw [h]; exact List.mem_cons_self _ _)
      · rcases ih id v h with h | h
        · exact Or.inl h
        · exact Or.inr (List.mem_cons_of_mem _ h)

theorem mapFind_mem {α : Type} :
    ∀ (m : Resources α) (id : String) (v : Option α), mapFind m id = some v → (id, v) ∈ m := by
  intro m
  induction m with
  | nil =>
    intro id v h
    simp [mapFind] at h
  | cons entry rest ih =>
    intro id v h
    obtain ⟨k, w⟩ := entry
    rw [mapFind] at h
    by_cases hk : k = id
    · rw [if_pos hk] at h
      injection h with h
      rw [hk, h]
      exact List.mem_cons_self _ _
    · rw [if_neg hk] at h
      exact List.mem_cons_of_mem _ (ih id v h)

theorem mapReplace_keys {α : Type} :
    ∀ (m : Resources α) (id : String) (v : Option α),
      (mapReplace m id v).map (fun entry => entry.1) = m.map (fun entry => entry.1) := by
  intro m
  induction m with
  | nil => intro id v; rfl
  | cons entry rest ih =>
    intro id v
    obtain ⟨k, w⟩ := entry
    rw [mapReplace]
    by_cases hk : k = id
    · rw [if_pos hk]
      rfl
    · rw [if_neg hk]
      simp only [List.map_cons, ih]

/-- `resources_[id] = value` keeps the keys in ascending order. -/
theorem mapAssign_ascending {α : Type} :
    ∀ (m : Resources α) (id : String) (v : Option α), keysAscending m →
      keysAscending (mapAssign m id v) := by
  intro m
  induction m with
  | nil =>
    intro id v _
    simp [keysAscending, mapAssign]
  | cons entry rest ih =>
    intro id v h
    obtain ⟨k, w⟩ := entry
    unfold keysAscending at h ⊢
    simp only [List.map_cons, List.pairwise_cons] at h
    obtain ⟨hk, hrest⟩ := h
    rw [mapAssign]
    by_cases heq : k = id
    · rw [if_pos heq]
      simp only [List.map_cons, List.pairwise_cons]
      exact ⟨hk, hrest⟩
    · rw [if_neg heq]
      by_cases hl : lexLess id.data k.data = true
      · rw [if_pos hl]
        simp only [List.map_cons, List.pairwise_cons]
        refine ⟨?_, hk, hrest⟩
        intro x hx
        rcases List.mem_cons.mp hx with hx | hx
        · rw [hx]; exact hl
        · exact lexLess_trans _ _ _ hl (hk x hx)
      · rw [if_neg hl]
        simp only [List.map_cons, List.pairwise_cons]
        refine ⟨?_, ih id v hrest⟩
        intro x hx
        obtain ⟨e, he, rfl⟩ := List.mem_map.mp hx
        rcases mapAssign_mem e rest id v he with h1 | h1
        · rw [h1]
          apply lexLess_total
          · intro hd
            exact heq (String.ext hd).symm
          · simpa using hl
        · exact hk _ (List.mem_map.mpr ⟨e, h1, rfl⟩)

theorem isSorted_empty (d : Nat) : ArchiveIndex.IsSorted d (ArchiveIndex.empty d) := by
  cases d with
  | zero => trivial
  | succ d =>
    refine ⟨by simp [keysAscending, ArchiveIndex.empty], ?_⟩
    intro entry h
    simp [ArchiveIndex.empty] at h

theorem isSorted_mapAssign (d : Nat) (m : Resources (ArchiveIndex d)) (id : String)
    (v : Option (ArchiveIndex d)) (hm : ArchiveIndex.IsSorted (d + 1) m)
    (hv : ∀ child, v = some child → ArchiveIndex.IsSorted d child) :
    ArchiveIndex.IsSorted (d + 1) (mapAssign m id v : Resources (ArchiveIndex d)) := by
  obtain ⟨h1, h2⟩ := hm
  refine ⟨mapAssign_ascending m id v h1, ?_⟩
  intro entry hentry
  rcases mapAssign_mem entry m id v hentry with h | h
  · rw [h]
    cases v with
    | none => trivial
    | some child => exact hv child rfl
  · exact h2 entry h

theorem isSorted_mapReplace (d : Nat) (m : Resources (ArchiveIndex d)) (id : String)
    (v : Option (ArchiveIndex d)) (hm : ArchiveIndex.IsSorted (d + 1) m)
    (hv : ∀ child, v = some child → ArchiveIndex.IsSorted d child) :
    ArchiveIndex.IsSorted (d + 1) (mapReplace m id v : Resources (ArchiveIndex d)) := by
  obtain ⟨h1, h2⟩ := hm
  refine ⟨?_, ?_⟩
  · unfold keysAscending at h1 ⊢
    rw [mapReplace_keys]
    exact h1
  · intro entry hentry
    rcases mapReplace_mem entry m id v hentry with h | h
    · rw [h]
      cases v with
      | none => trivial
      | some child => exact hv child rfl
    · exact h2 entry h

theorem addResourceToExpand_sorted (index : ServerIndex) (d : Nat) (tree : ArchiveIndex d)
    (id : String) (h : ArchiveIndex.IsSorted d tree) :
    ArchiveIndex.IsSorted d (ArchiveIndex.AddResourceToExpand index d tree id) := by
  cases d with
  | zero => trivial
  | succ d =>
    exact isSorted_mapAssign d tree id none h (fun child hc => by simp at hc)

theorem expandChildren_sorted (index : ServerIndex) (d : Nat) (id : String) :
    ArchiveIndex.IsSorted d (ArchiveIndex.expandChildren index d id) := by
  unfold ArchiveIndex.expandChildren
  have key : ∀ (children : List String) (tree : ArchiveIndex d), ArchiveIndex.IsSorted d tree →
      ArchiveIndex.IsSorted d (children.foldl
        (fun child id2 => ArchiveIndex.AddResourceToExpand index d child id2) tree) := by
    intro children
    induction children with
    | nil => intro tree h; exact h
    | cons c rest ih =>
      intro tree h
      exact ih _ (addResourceToExpand_sorted index d tree c h)
  exact key _ _ (isSorted_empty d)

/-- `Expand` keeps the entries of every level in ascending order. -/
theorem expand_sorted (index : ServerIndex) :
    ∀ (d : Nat) (tree : ArchiveIndex d), ArchiveIndex.IsSorted d tree →
      ArchiveIndex.IsSorted d (ArchiveIndex.Expand index d tree) := by
  intro d
  induction d with
  | zero => intro tree h; exact h
  | succ d ih =>
    intro tree h
    obtain ⟨h1, h2⟩ := h
    refine ⟨?_, ?_⟩
    · unfold keysAscending at h1 ⊢
      have hkeys : ((ArchiveIndex.Expand index (d + 1) tree : Resources (ArchiveIndex d))).map
          (fun entry => entry.1) = (tree : Resources (ArchiveIndex d)).map
          (fun entry => entry.1) := by
        simp only [ArchiveIndex.Expand, List.map_map]
        apply List.map_congr_left
        intro entry _
        obtain ⟨k, w⟩ := entry
        cases w <;> rfl
      rw [hkeys]
      exact h1
    · intro entry hentry
      simp only [ArchiveIndex.Expand] at hentry
      obtain ⟨e, he, rfl⟩ := List.mem_map.mp hentry
      obtain ⟨k, w⟩ := e
      cases w with
      | none => exact ih _ (expandChildren_sorted index d k)
      | some child => exact ih child (h2 (k, some child) he)

/-- `Add` keeps the entries of every level in ascending order. -/
theorem add_sorted (index : ServerIndex) (resource : ResourceIdentifiers) :
    ∀ (d : Nat) (tree tree1 : ArchiveIndex d), ArchiveIndex.Add index resource d tree = .ok tree1 →
      ArchiveIndex.IsSorted d tree → ArchiveIndex.IsSorted d tree1 := by
  intro d
  induction d with
  | zero => intro tree tree1 _ _; trivial
  | succ d ih =>
    intro tree tree1 hadd htree
    rw [ArchiveIndex.Add] at hadd
    cases hid : resource.GetIdentifier (levelOfDepth (d + 1)) with
    | error e => simp [hid] at hadd
    | ok id =>
      simp only [hid] at hadd
      by_cases hterm : resource.GetLevel = levelOfDepth (d + 1)
      · simp only [hterm, if_true] at hadd
        injection hadd with hadd
        subst hadd
        exact isSorted_mapAssign d tree id none htree (fun child hc => by simp at hc)
      · simp only [hterm, if_false] at hadd
        cases hfind : mapFind tree id with
        | none =>
          simp only [hfind] at hadd
          cases hchild : ArchiveIndex.Add index resource d (ArchiveIndex.empty d) with
          | error e => simp [hchild] at hadd
          | ok child =>
            simp only [hchild] at hadd
            injection hadd with hadd
            subst hadd
            refine isSorted_mapAssign d tree id (some child) htree ?_
            intro c hc
            injection hc with hc
            subst hc
            exact ih _ _ hchild (isSorted_empty d)
        | some previous =>
          cases previous with
          | none =>
            simp only [hfind] at hadd
            injection hadd with hadd
            subst hadd
            exact htree
          | some child0 =>
            simp only [hfind] at hadd
            cases hchild : ArchiveIndex.Add index resource d child0 with
            | error e => simp [hchild] at hadd
            | ok child =>
              simp only [hchild] at hadd
              injection hadd with hadd
              subst hadd
              refine isSorted_mapReplace d tree id (some child) htree ?_
              intro c hc
              injection hc with hc
              subst hc
              exact ih _ _ hchild (htree.2 (id, some child0) (mapFind_mem tree id _ hfind))

/-- The tree of a job on which `AddResource` has been called any number of
times has the entries of every level in ascending order. -/
theorem selectedJob_sorted (context : ServerContext) (isMedia : Bool)
    (publicIds : List String) :
    ArchiveIndex.IsSorted 3 (selectedJob context isMedia publicIds).archive_ := by
  unfold selectedJob
  have step : ∀ (id : String) (j : ArchiveJob), ArchiveIndex.IsSorted 3 j.archive_ →
      ArchiveIndex.IsSorted 3 (ArchiveJob.AddResource context id j).1.archive_ := by
    intro id j h
    unfold ArchiveJob.AddResource
    split
    · exact h
    · split
      · exact h
      · split
        · exact h
        · rename_i archive hadd
          exact add_sorted context.index _ 3 j.archive_ archive hadd h
  have key : ∀ (ids : List String) (j : ArchiveJob), ArchiveIndex.IsSorted 3 j.archive_ →
      ArchiveIndex.IsSorted 3 (ids.foldl
        (fun j publicId => (ArchiveJob.AddResource context publicId j).1) j).archive_ := by
    intro ids
    induction ids with
    | nil => intro j h; exact h
    | cons id rest ih =>
      intro j h
      exact ih _ (step id j h)
  exact key _ _ (isSorted_empty 3)

/-! ## The traversal of an expanded tree -/

/-- After `Expand`, no entry of the tree is NULL. -/
theorem isExpanded_expand (index : ServerIndex) :
    ∀ (d : Nat) (tree : ArchiveIndex d),
      ArchiveIndex.IsExpanded d (ArchiveIndex.Expand index d tree) = true := by
  intro d
  induction d with
  | zero => intro tree; rfl
  | succ d ih =>
    intro tree
    simp only [ArchiveIndex.IsExpanded, ArchiveIndex.Expand, List.all_eq_true, List.mem_map]
    rintro entry ⟨e, -, rfl⟩
    obtain ⟨k, w⟩ := e
    cases w with
    | none => exact ih _
    | some child => exact ih child

theorem applyInstances_recording :
    ∀ (leaves : List Instance) (calls : List VisitorCall),
      ArchiveIndex.applyInstances recordingVisitor leaves calls =
        .ok (calls ++ leaves.map (fun i => VisitorCall.AddInstance i.id_ i.uncompressedSize_)) := by
  intro leaves
  induction leaves with
  | nil => intro calls; simp [ArchiveIndex.applyInstances]
  | cons leaf rest ih =>
    intro calls
    simp only [ArchiveIndex.applyInstances, recordingVisitor, List.map_cons]
    have h := ih (calls ++ [VisitorCall.AddInstance leaf.id_ leaf.uncompressedSize_])
    simp only [recordingVisitor] at h
    rw [h, List.append_assoc]
    rfl

/-- On a tree without NULL entry, `Apply` makes on the visitor the calls that
the specification words, in that order, and returns. -/
theorem apply_recording :
    ∀ (d : Nat) (tree : ArchiveIndex d) (calls : List VisitorCall),
      ArchiveIndex.IsExpanded d tree = true →
      ArchiveIndex.Apply recordingVisitor d tree calls =
        .ok (calls ++ ArchiveIndex.preorder d tree) := by
  intro d
  induction d with
  | zero =>
    intro tree calls _
    exact applyInstances_recording tree calls
  | succ d ih =>
    intro tree
    have key : ∀ (resources : Resources (ArchiveIndex d)) (calls : List VisitorCall),
        ArchiveIndex.IsExpanded (d + 1) resources = true →
        ArchiveIndex.applyResources recordingVisitor (levelOfDepth (d + 1))
          (ArchiveIndex.Apply recordingVisitor d) resources calls =
          .ok (calls ++ ArchiveIndex.preorder (d + 1) resources) := by
      intro resources
      induction resources with
      | nil =>
        intro calls _
        simp [ArchiveIndex.applyResources, ArchiveIndex.preorder]
      | cons entry rest ihr =>
        intro calls hexp
        obtain ⟨k, w⟩ := entry
        simp only [ArchiveIndex.IsExpanded, List.all_cons, Bool.and_eq_true] at hexp
        obtain ⟨hw, hrest⟩ := hexp
        cases w with
        | none => simp at hw
        | some child =>
          have hchild := ih child (calls ++ [VisitorCall.Open (levelOfDepth (d + 1)) k]) hw
          have hr := ihr (calls ++ [VisitorCall.Open (levelOfDepth (d + 1)) k] ++
            ArchiveIndex.preorder d child ++ [VisitorCall.Close])
            (by simpa [ArchiveIndex.IsExpanded] using hrest)
          simp only [ArchiveIndex.applyResources]
          have hopen : recordingVisitor.Open (levelOfDepth (d + 1)) k calls =
              .ok (calls ++ [VisitorCall.Open (levelOfDepth (d + 1)) k]) := rfl
          have hclose : recordingVisitor.Close (calls ++
              [VisitorCall.Open (levelOfDepth (d + 1)) k] ++ ArchiveIndex.preorder d child) =
              .ok (calls ++ [VisitorCall.Open (levelOfDepth (d + 1)) k] ++
                ArchiveIndex.preorder d child ++ [VisitorCall.Close]) := rfl
          simp only [hopen, hchild, hclose, hr]
          simp [ArchiveIndex.preorder]
    exact key tree

/-- With a visitor whose three functions always return, `Apply` on a tree
without NULL entry returns: the assertion on the entries holds. -/
theorem apply_returns {σ : Type} (visitor : IArchiveVisitor σ)
    (hopen : ∀ level id s, ∃ s1, visitor.Open level id s = .ok s1)
    (hclose : ∀ s, ∃ s1, visitor.Close s = .ok s1)
    (hadd : ∀ id size s, ∃ s1, visitor.AddInstance id size s = .ok s1) :
    ∀ (d : Nat) (tree : ArchiveIndex d) (s : σ), ArchiveIndex.IsExpanded d tree = true →
      ∃ s1, ArchiveIndex.Apply visitor d tree s = .ok s1 := by
  intro d
  induction d with
  | zero =>
    intro tree
    have key : ∀ (leaves : List Instance) (s : σ),
        ∃ s1, ArchiveIndex.applyInstances visitor leaves s = .ok s1 := by
      intro leaves
      induction leaves with
      | nil => intro s; exact ⟨s, rfl⟩
      | cons leaf rest ihl =>
        intro s
        obtain ⟨s1, h1⟩ := hadd leaf.id_ leaf.uncompressedSize_ s
        obtain ⟨s2, h2⟩ := ihl s1
        exact ⟨s2, by simp only [ArchiveIndex.applyInstances, h1, h2]⟩
    intro s _
    exact key tree s
  | succ d ih =>
    intro tree
    have key : ∀ (resources : Resources (ArchiveIndex d)) (s : σ),
        ArchiveIndex.IsExpanded (d + 1) resources = true →
        ∃ s1, ArchiveIndex.applyResources visitor (levelOfDepth (d + 1))
          (ArchiveIndex.Apply visitor d) resources s = .ok s1 := by
      intro resources
      induction resources with
      | nil => intro s _; exact ⟨s, rfl⟩
      | cons entry rest ihr =>
        intro s hexp
        obtain ⟨k, w⟩ := entry
        simp only [ArchiveIndex.IsExpanded, List.all_cons, Bool.and_eq_true] at hexp
        obtain ⟨hw, hrest⟩ := hexp
        cases w with
        | none => simp at hw
        | some child =>
          obtain ⟨s1, h1⟩ := hopen (levelOfDepth (d + 1)) k s
          obtain ⟨s2, h2⟩ := ih child s1 hw
          obtain ⟨s3, h3⟩ := hclose s2
          obtain ⟨s4, h4⟩ := ihr s3 (by simpa [ArchiveIndex.IsExpanded] using hrest)
          exact ⟨s4, by simp only [ArchiveIndex.applyResources, h1, h2, h3, h4]⟩
    exact key tree

/-- Every entry of a tree, at every level, is opened by the traversal of the
expanded tree. -/
theorem entries_opened (index : ServerIndex) :
    ∀ (d : Nat) (tree : ArchiveIndex d), ∀ x ∈ ArchiveIndex.entries d tree,
      VisitorCall.Open x.1 x.2 ∈ ArchiveIndex.preorder d (ArchiveIndex.Expand index d tree) := by
  intro d
  induction d with
  | zero =>
    intro tree x hx
    simp [ArchiveIndex.entries] at hx
  | succ d ih =>
    intro tree x hx
    simp only [ArchiveIndex.entries, List.mem_flatten, List.mem_map] at hx
    obtain ⟨l, ⟨entry, hentry, rfl⟩, hmem⟩ := hx
    obtain ⟨k, w⟩ := entry
    simp only [ArchiveIndex.preorder, ArchiveIndex.Expand, List.mem_flatten, List.mem_map]
    cases w with
    | none =>
      simp only [List.mem_singleton] at hmem
      refine ⟨_, ⟨_, ⟨(k, none), hentry, rfl⟩, rfl⟩, ?_⟩
      rw [hmem]
      simp
    | some child =>
      refine ⟨_, ⟨_, ⟨(k, some child), hentry, rfl⟩, rfl⟩, ?_⟩
      rcases List.mem_cons.mp hmem with h | h
      · rw [h]
        simp
      · have := ih child x h
        simp only [List.mem_append, List.mem_singleton, List.mem_cons]
        exact Or.inl (Or.inr this)

/-! ## No entry is left to expand -/

/-- Claim C36: for every tree, whatever calls of `Add` built it, and every
index, after `Expand` no entry of the tree at any level is NULL.  So the
assertion of `Apply` holds: with a visitor whose functions return, `Apply`
returns, and it makes the calls of the traversal; every entry of the tree
before `Expand`, at every level, is opened in it. -/
theorem expand_leaves_no_pending (index : ServerIndex) (tree : ArchiveIndex 3) :
    ArchiveIndex.IsExpanded 3 (ArchiveIndex.Expand index 3 tree) = true ∧
    (∀ calls, ArchiveIndex.Apply recordingVisitor 3 (ArchiveIndex.Expand index 3 tree) calls =
      .ok (calls ++ ArchiveIndex.preorder 3 (ArchiveIndex.Expand index 3 tree))) ∧
    (∀ s, ∃ s1, ArchiveIndex.Apply MediaIndexVisitor.visitor 3
      (ArchiveIndex.Expand index 3 tree) s = .ok s1) ∧
    (∀ x ∈ ArchiveIndex.entries 3 tree,
      VisitorCall.Open x.1 x.2 ∈
        ArchiveIndex.preorder 3 (ArchiveIndex.Expand index 3 tree)) ∧
    ArchiveIndex.IsExpanded 3 s1SeriesPending = false := by
  refine ⟨isExpanded_expand index 3 tree,
    fun calls => apply_recording 3 _ calls (isExpanded_expand index 3 tree), ?_,
    entries_opened index 3 tree, by decide⟩
  intro s
  exact apply_returns MediaIndexVisitor.visitor (fun _ _ s => ⟨s, rfl⟩) (fun s => ⟨s, rfl⟩)
    (fun id size s => ⟨_, rfl⟩) 3 _ s (isExpanded_expand index 3 tree)

/-! ## The calls of the traversal -/

/-- Claim C31: on every tree without NULL entry, at every level, `Apply`
makes on the visitor exactly the calls of the traversal the specification
words: at an internal level, for each entry in the order of the map,
`Open(level, id)`, the calls of the subtree, `Close()`; at the instance level
one `AddInstance(id, size)` per leaf in the order of the list.  The order of
the map is the ascending order of the identifiers, in every tree that
`AddResource` and `Expand` build; the order of the list is that of insertion,
`AddResourceToExpand` appending at the end.  In scenario S1 the calls are
those listed. -/
theorem apply_is_the_traversal :
    (∀ (d : Nat) (tree : ArchiveIndex d) (calls : List VisitorCall),
      ArchiveIndex.IsExpanded d tree = true →
      ArchiveIndex.Apply recordingVisitor d tree calls =
        .ok (calls ++ ArchiveIndex.preorder d tree)) ∧
    (∀ (context : ServerContext) (index : ServerIndex) (isMedia : Bool)
      (publicIds : List String),
      ArchiveIndex.IsSorted 3
        (ArchiveIndex.Expand index 3 (selectedJob context isMedia publicIds).archive_)) ∧
    (∀ (index : ServerIndex) (instances : List Instance) (id : String) (size : Nat),
      index.LookupAttachment id = some size →
      ArchiveIndex.AddResourceToExpand index 0 instances id =
        (instances ++ [⟨id, size⟩] : List Instance)) ∧
    (ArchiveIndex.Apply recordingVisitor 3
      (ArchiveIndex.Expand s1Index 3
        (selectedJob (contextOf s1Index) false ["SR2", "SR1"]).archive_) []).toOption =
      some [.Open .Patient "PT1", .Open .Study "ST1",
        .Open .Series "SR1", .AddInstance "I1" 524288, .AddInstance "I2" 524288, .Close,
        .Open .Series "SR2", .AddInstance "I3" 1048576, .Close, .Close, .Close] := by
  refine ⟨apply_recording, ?_, ?_, by decide!⟩
  · intro context index isMedia publicIds
    exact expand_sorted index 3 _ (selectedJob_sorted context isMedia publicIds)
  · intro index instances id size h
    simp only [ArchiveIndex.AddResourceToExpand, h]

/-! ## Brackets of the planned stream -/

theorem wellBracketed_writes (seg : List Command)
    (h : ∀ c ∈ seg, c.type_ = .Type_WriteInstance) : WellBracketed 0 seg := by
  have hcount : ∀ l : List Command, (∀ c ∈ l, c.type_ = .Type_WriteInstance) →
      l.countP Command.IsOpenDirectory = 0 ∧ l.countP Command.IsCloseDirectory = 0 := by
    intro l hl
    constructor <;>
    · rw [List.countP_eq_zero]
      intro c hc
      simp [Command.IsOpenDirectory, Command.IsCloseDirectory, hl c hc]
  have htake : ∀ n, ∀ c ∈ seg.take n, c.type_ = .Type_WriteInstance :=
    fun n c hc => h c (List.mem_of_mem_take hc)
  refine ⟨by rw [(hcount seg h).1, (hcount seg h).2], ?_⟩
  intro n
  rw [(hcount _ (htake n)).1, (hcount _ (htake n)).2]
  exact ⟨le_refl _, by omega, fun _ _ _ => rfl⟩

theorem wellBracketed_append (depth : Nat) (a b : List Command) (ha : WellBracketed depth a)
    (hb : WellBracketed depth b) : WellBracketed depth (a ++ b) := by
  obtain ⟨ha0, ha1⟩ := ha
  obtain ⟨hb0, hb1⟩ := hb
  refine ⟨by rw [List.countP_append, List.countP_append, ha0, hb0], ?_⟩
  intro n
  by_cases hn : n < a.length
  · rw [List.take_append_of_le_length (le_of_lt hn), List.getElem?_append_left hn]
    exact ha1 n
  · have hn1 : a.length ≤ n := by omega
    rw [List.take_append_eq_append_take, List.take_of_length_le hn1,
      List.getElem?_append_right hn1, List.countP_append, List.countP_append, ha0]
    obtain ⟨h1, h2, h3⟩ := hb1 (n - a.length)
    refine ⟨by omega, by omega, ?_⟩
    intro c hc hw
    have := h3 c hc hw
    omega

theorem wellBracketed_wrap (depth : Nat) (o c : Command) (seg : List Command)
    (ho : o.type_ = .Type_OpenDirectory) (hc : c.type_ = .Type_CloseDirectory)
    (h : WellBracketed depth seg) : WellBracketed (depth + 1) (o :: (seg ++ [c])) := by
  obtain ⟨h0, h1⟩ := h
  have hoo : Command.IsOpenDirectory o = true := by simp [Command.IsOpenDirectory, ho]
  have hoc : Command.IsCloseDirectory o = false := by simp [Command.IsCloseDirectory, ho]
  have hco : Command.IsOpenDirectory c = false := by simp [Command.IsOpenDirectory, hc]
  have hcc : Command.IsCloseDirectory c = true := by simp [Command.IsCloseDirectory, hc]
  have how : Command.IsWriteInstance o = false := by simp [Command.IsWriteInstance, ho]
  have hcw : Command.IsWriteInstance c = false := by simp [Command.IsWriteInstance, hc]
  have hoc1 : ¬ Command.IsCloseDirectory o = true := by simp [hoc]
  have hco1 : ¬ Command.IsOpenDirectory c = true := by simp [hco]
  refine ⟨?_, ?_⟩
  · rw [List.countP_cons_of_neg _ _ hoc1, List.countP_cons_of_pos _ _ hoo, List.countP_append,
      List.countP_append, h0]
    simp [List.countP_cons, hcc, hco]
  · intro n
    cases n with
    | zero =>
      simp only [List.take_zero, List.countP_nil, List.getElem?_cons_zero, Option.some.injEq]
      refine ⟨le_refl _, by omega, ?_⟩
      intro x hx hw
      rw [← hx, how] at hw
      exact absurd hw (by simp)
    | succ m =>
      rw [List.take_succ_cons, List.countP_cons_of_neg _ _ hoc1, List.countP_cons_of_pos _ _ hoo,
        List.getElem?_cons_succ]
      by_cases hm : m < seg.length
      · rw [List.take_append_of_le_length (le_of_lt hm), List.getElem?_append_left hm]
        obtain ⟨a1, a2, a3⟩ := h1 m
        refine ⟨by omega, by omega, ?_⟩
        intro x hx hw
        have := a3 x hx hw
        omega
      · have hm1 : seg.length ≤ m := by omega
        rw [List.take_append_eq_append_take, List.take_of_length_le hm1,
          List.getElem?_append_right hm1, List.countP_append, List.countP_append, h0]
        by_cases hm2 : m = seg.length
        · rw [hm2, Nat.sub_self]
          simp only [List.take_zero, List.countP_nil, Nat.add_zero, List.getElem?_cons_zero,
            Option.some.injEq]
          refine ⟨by omega, by omega, ?_⟩
          intro x hx hw
          rw [← hx, hcw] at hw
          exact absurd hw (by simp)
        · have hpos : 0 < m - seg.length := by omega
          have htake : List.take (m - seg.length) [c] = [c] :=
            List.take_of_length_le (by simp only [List.length_singleton]; omega)
          have hnone : ([c] : List Command)[m - seg.length]? = none :=
            List.getElem?_eq_none (by simp only [List.length_singleton]; omega)
          rw [htake, hnone]
          simp only [List.countP_cons, List.countP_nil, hcc, hco, if_true, Bool.false_eq_true,
            if_false]
          refine ⟨by omega, by omega, ?_⟩
          intro x hx
          simp at hx

/-- The commands that the archive visitor appends for a tree are well
bracketed, with the files as deep as the tree is high. -/
theorem apply_archive_bracketed (context : ServerContext) (toolbox : Toolbox) :
    ∀ (d : Nat) (tree : ArchiveIndex d) (v v1 : ArchiveIndexVisitor),
      ArchiveIndex.Apply (ArchiveIndexVisitor.visitor context toolbox) d tree v = .ok v1 →
      ∃ seg, v1.commands_.commands_ = v.commands_.commands_ ++ seg ∧ WellBracketed d seg := by
  intro d
  induction d with
  | zero =>
    intro tree v v1 h
    obtain ⟨added, h1, h2, -⟩ := applyInstances_archive context toolbox tree v v1 h
    refine ⟨added, h1, wellBracketed_writes added ?_⟩
    intro c hc
    have hmem : c.type_ ∈ added.map (fun c => c.type_) := List.mem_map.mpr ⟨c, hc, rfl⟩
    rw [h2] at hmem
    exact (List.mem_replicate.mp hmem).2
  | succ d ih =>
    intro tree
    have key : ∀ (resources : Resources (ArchiveIndex d)) (v v1 : ArchiveIndexVisitor),
        ArchiveIndex.applyResources (ArchiveIndexVisitor.visitor context toolbox)
          (levelOfDepth (d + 1)) (ArchiveIndex.Apply (ArchiveIndexVisitor.visitor context toolbox) d)
          resources v = .ok v1 →
        ∃ seg, v1.commands_.commands_ = v.commands_.commands_ ++ seg ∧
          WellBracketed (d + 1) seg := by
      intro resources
      induction resources with
      | nil =>
        intro v v1 h
        simp only [ArchiveIndex.applyResources] at h
        injection h with h
        subst h
        refine ⟨[], by simp, ?_⟩
        have := wellBracketed_writes [] (by simp)
        exact ⟨this.1, fun n => by simp⟩
      | cons entry rest ihr =>
        intro v v1 h
        obtain ⟨id, value⟩ := entry
        cases value with
        | none => simp [ArchiveIndex.applyResources] at h
        | some child =>
          simp only [ArchiveIndex.applyResources] at h
          cases h1 : (ArchiveIndexVisitor.visitor context toolbox).Open (levelOfDepth (d + 1)) id
              v with
          | error e => simp [h1] at h
          | ok s1 =>
            simp only [h1] at h
            cases h2 : ArchiveIndex.Apply (ArchiveIndexVisitor.visitor context toolbox) d child
                s1 with
            | error e => simp [h2] at h
            | ok s2 =>
              simp only [h2] at h
              simp only [ArchiveIndexVisitor.visitor, ArchiveIndexVisitor.Close] at h
              obtain ⟨⟨name, ho1⟩, -, -⟩ := open_archive_totals context toolbox _ id v s1 h1
              obtain ⟨seg, hs1, hs2⟩ := ih child s1 s2 h2
              obtain ⟨seg2, hr1, hr2⟩ := ihr
                { s2 with commands_ := s2.commands_.AddCloseDirectory } v1 h
              refine ⟨(⟨.Type_OpenDirectory, name, ""⟩ :: (seg ++ [⟨.Type_CloseDirectory, "", ""⟩]))
                ++ seg2, ?_, ?_⟩
              · rw [hr1]
                simp only [ZipCommands.AddCloseDirectory, hs1, ho1]
                simp
              · exact wellBracketed_append _ _ _
                  (wellBracketed_wrap d _ _ seg rfl rfl hs2) hr2
    exact key tree

/-- Claim C34: for every tree, when the constructor of `ZipWriterIterator`
returns, the planned stream is well bracketed: before every position the
`CloseDirectory` are not more than the `OpenDirectory`, and over the whole
stream they are as many; in archive mode at most 3 directories are open at any
position and exactly 3 at every `WriteInstance`; in media mode at most 1 and
exactly 1. -/
theorem plan_well_bracketed (context : ServerContext) (toolbox : Toolbox)
    (archive : ArchiveIndex 3) (isMedia : Bool) (planned : ArchiveIndex 3 × ZipCommands)
    (h : planCommands context toolbox archive isMedia = .ok planned) :
    WellBracketed (if isMedia then 1 else 3) planned.2.commands_ := by
  cases isMedia with
  | true =>
    rw [plan_media] at h
    injection h with h
    subst h
    simp only [if_true]
    have hw := wellBracketed_writes
      ((ArchiveIndex.leaves 3 (ArchiveIndex.Expand context.index 3 archive)).mapIdx
        (fun k leaf => (⟨.Type_WriteInstance,
          "IM" ++ String.mk (Nat.toDigits 10 (k % 2 ^ 32)), leaf.id_⟩ : Command)))
      (by
        intro c hc
        rw [List.mem_mapIdx] at hc
        obtain ⟨i, hi, rfl⟩ := hc
        rfl)
    have := wellBracketed_wrap 0 ⟨.Type_OpenDirectory, MEDIA_IMAGES_FOLDER, ""⟩
      ⟨.Type_CloseDirectory, "", ""⟩ _ rfl rfl hw
    simpa using this
  | false =>
    unfold planCommands at h
    simp only [Bool.false_eq_true, if_false] at h ⊢
    cases hnew : ArchiveIndexVisitor.new ZipCommands.new with
    | error e => simp [hnew] at h
    | ok visitor =>
      simp only [hnew] at h
      have hv : visitor.commands_ = ZipCommands.new := by
        unfold ArchiveIndexVisitor.new at hnew
        split at hnew
        · simp at hnew
        · split at hnew
          · injection hnew with hnew
            subst hnew
            rfl
          · simp at hnew
      cases happly : ArchiveIndex.Apply (ArchiveIndexVisitor.visitor context toolbox) 3
          (ArchiveIndex.Expand context.index 3 archive) visitor with
      | error e => simp [happly] at h
      | ok visitor1 =>
        simp only [happly] at h
        injection h with h
        subst h
        obtain ⟨seg, h1, h2⟩ := apply_archive_bracketed context toolbox 3 _ visitor visitor1 happly
        rw [hv] at h1
        simp only [ZipCommands.new, List.nil_append] at h1
        show WellBracketed 3 visitor1.commands_.commands_
        rw [h1]
        exact h2

/-- Witness of `plan_well_bracketed`: the plan of scenario S1 in archive
mode. -/
theorem plan_well_bracketed_witness :
    ∃ planned, planCommands (contextOf s1Index) scenarioToolbox
        (selectedJob (contextOf s1Index) false ["ST1"]).archive_ false = .ok planned ∧
      planned.2.commands_.length = 11 ∧ WellBracketed 3 planned.2.commands_ := by
  have hlen : ((planCommands (contextOf s1Index) scenarioToolbox
      (selectedJob (contextOf s1Index) false ["ST1"]).archive_ false).toOption.map
        (fun planned => planned.2.commands_.length)) = some 11 := by decide!
  cases h : planCommands (contextOf s1Index) scenarioToolbox
      (selectedJob (contextOf s1Index) false ["ST1"]).archive_ false with
  | error e =>
    rw [h] at hlen
    simp [Except.toOption] at hlen
  | ok planned =>
    rw [h] at hlen
    simp only [Except.toOption, Option.map_some', Option.some.injEq] at hlen
    exact ⟨planned, rfl, hlen,
      plan_well_bracketed (contextOf s1Index) scenarioToolbox _ false planned h⟩

/-! ## Every instance is written once, with its own payload -/

theorem rank_injective (a b : ResourceType) (h : a.rank = b.rank) : a = b := by
  cases a <;> cases b <;> simp [ResourceType.rank] at h ⊢

/-- A level for which a resource has an identifier is not below its own. -/
theorem rank_le_of_getIdentifier (r : ResourceIdentifiers) (level : ResourceType) (id : String)
    (h : r.GetIdentifier level = .ok id) : level.rank ≤ r.GetLevel.rank := by
  by_contra hc
  simp [ResourceIdentifiers.GetIdentifier, ResourceIdentifiers.GetLevel] at h hc
  simp [hc] at h

/-- Adding a resource below an entry that is marked for expansion, or the
resource of an entry below it, changes nothing. -/
theorem add_under_pending (index : ServerIndex) (coarse other : ResourceIdentifiers)
    (hrank : coarse.GetLevel.rank ≤ other.GetLevel.rank)
    (hsame : ∀ level id, coarse.GetIdentifier level = .ok id → other.GetIdentifier level = .ok id) :
    ∀ (d : Nat) (archive : ArchiveIndex d),
      ArchiveIndex.IsUnderPending coarse d archive = true →
      ArchiveIndex.Add index other d archive = .ok archive := by
  intro d
  induction d with
  | zero => intro archive h; simp [ArchiveIndex.IsUnderPending] at h
  | succ d ih =>
    intro archive h
    rw [ArchiveIndex.IsUnderPending] at h
    rw [ArchiveIndex.Add]
    cases hid : coarse.GetIdentifier (levelOfDepth (d + 1)) with
    | error e => simp [hid] at h
    | ok id =>
      simp only [hid] at h
      have hle := rank_le_of_getIdentifier coarse _ id hid
      have hne : coarse.GetLevel ≠ levelOfDepth (d + 1) → other.GetLevel ≠ levelOfDepth (d + 1) := by
        intro hc heq
        apply hc
        apply rank_injective
        rw [heq] at hrank
        omega
      cases hfind : mapFind archive id with
      | none => simp [hfind] at h
      | some previous =>
        cases previous with
        | none =>
          simp only [hfind, Bool.not_eq_true', decide_eq_false_iff_not] at h
          simp only [hsame _ _ hid, hne h, if_false, hfind]
        | some child =>
          simp only [hfind, Bool.and_eq_true, Bool.not_eq_true', decide_eq_false_iff_not] at h
          simp only [hsame _ _ hid, hne h.1, if_false, hfind, ih child h.2]
          rw [mapReplace_of_mapFind _ _ _ hfind]

/-- Adding a resource that is not an instance marks its entry for expansion,
unless the entry of one of its ancestors is marked. -/
theorem add_marks_pending (index : ServerIndex) (resource : ResourceIdentifiers)
    (hlevel : resource.GetLevel ≠ .Instance) :
    ∀ (d : Nat) (archive added : ArchiveIndex d),
      ArchiveIndex.Add index resource d archive = .ok added →
      ArchiveIndex.IsUnderPending resource d archive = false →
      ArchiveIndex.IsPending resource d added = true := by
  intro d
  induction d with
  | zero =>
    intro archive added h _
    have : resource.GetIdentifier (levelOfDepth 0) = .error .InternalError := by
      cases hl : resource.level_ <;>
        simp_all [ResourceIdentifiers.GetIdentifier, ResourceIdentifiers.GetLevel, levelOfDepth,
          ResourceType.rank]
    simp [ArchiveIndex.Add, this] at h
  | succ d ih =>
    intro archive added h hu
    rw [ArchiveIndex.Add] at h
    rw [ArchiveIndex.IsUnderPending] at hu
    rw [ArchiveIndex.IsPending]
    cases hid : resource.GetIdentifier (levelOfDepth (d + 1)) with
    | error e => simp [hid] at h
    | ok id =>
      simp only [hid] at h hu ⊢
      by_cases hterm : resource.GetLevel = levelOfDepth (d + 1)
      · simp only [hterm, if_true] at h
        injection h with h
        subst h
        simp [mapFind_mapAssign, hterm]
      · simp only [hterm, if_false] at h
        cases hfind : mapFind archive id with
        | none =>
          simp only [hfind] at h
          cases hadd : ArchiveIndex.Add index resource d (ArchiveIndex.empty d) with
          | error e => simp [hadd] at h
          | ok child =>
            simp only [hadd] at h
            injection h with h
            subst h
            have hempty : ArchiveIndex.IsUnderPending resource d (ArchiveIndex.empty d) = false := by
              cases d with
              | zero => rfl
              | succ d =>
                rw [ArchiveIndex.IsUnderPending]
                cases resource.GetIdentifier (levelOfDepth (d + 1)) <;>
                  simp [ArchiveIndex.empty, mapFind]
            simp [mapFind_mapAssign, hterm, ih _ _ hadd hempty]
        | some previous =>
          cases previous with
          | none => simp [hfind, hterm] at hu
          | some child0 =>
            simp only [hfind] at h hu
            cases hadd : ArchiveIndex.Add index resource d child0 with
            | error e => simp [hadd] at h
            | ok child =>
              simp only [hadd] at h
              injection h with h
              subst h
              have hu2 : ArchiveIndex.IsUnderPending resource d child0 = false := by
                simpa [hterm] using hu
              simp [mapFind_mapReplace _ _ _ _ hfind, hterm, ih _ _ hadd hu2]

theorem levelOfDepth_succ_ne_instance (d : Nat) : levelOfDepth (d + 1) ≠ .Instance := by
  match d with
  | 0 => decide
  | 1 => decide
  | d + 2 => simp [levelOfDepth]

/-- Adding an instance marks no entry for expansion: the ancestors of a
resource that were not marked stay so. -/
theorem add_instance_keeps_ancestors (index : ServerIndex) (coarse fine : ResourceIdentifiers)
    (hfine : fine.GetLevel = .Instance)
    (hsame : ∀ level id, coarse.GetIdentifier level = .ok id → fine.GetIdentifier level = .ok id) :
    ∀ (d : Nat) (archive added : ArchiveIndex d),
      ArchiveIndex.Add index fine d archive = .ok added →
      ArchiveIndex.IsUnderPending coarse d added = ArchiveIndex.IsUnderPending coarse d archive := by
  intro d
  induction d with
  | zero => intro archive added _; rfl
  | succ d ih =>
    intro archive added h
    rw [ArchiveIndex.Add] at h
    rw [ArchiveIndex.IsUnderPending, ArchiveIndex.IsUnderPending]
    have hne : fine.GetLevel ≠ levelOfDepth (d + 1) := by
      rw [hfine]
      exact (levelOfDepth_succ_ne_instance d).symm
    cases hid : coarse.GetIdentifier (levelOfDepth (d + 1)) with
    | error e => rfl
    | ok id =>
      simp only [hsame _ _ hid, hne, if_false] at h
      simp only []
      cases hfind : mapFind archive id with
      | none =>
        simp only [hfind] at h
        cases hadd : ArchiveIndex.Add index fine d (ArchiveIndex.empty d) with
        | error e => simp [hadd] at h
        | ok child =>
          simp only [hadd] at h
          injection h with h
          subst h
          have hempty : ArchiveIndex.IsUnderPending coarse d (ArchiveIndex.empty d) = false := by
            cases d with
            | zero => rfl
            | succ d =>
              rw [ArchiveIndex.IsUnderPending]
              cases coarse.GetIdentifier (levelOfDepth (d + 1)) <;>
                simp [ArchiveIndex.empty, mapFind]
          simp [mapFind_mapAssign, ih _ _ hadd, hempty]
      | some previous =>
        cases previous with
        | none =>
          simp only [hfind] at h
          injection h with h
          subst h
          simp [hfind]
        | some child0 =>
          simp only [hfind] at h
          cases hadd : ArchiveIndex.Add index fine d child0 with
          | error e => simp [hadd] at h
          | ok child =>
            simp only [hadd] at h
            injection h with h
            subst h
            simp [mapFind_mapReplace _ _ _ _ hfind, ih _ _ hadd]

theorem leaves_cons (d : Nat) (entry : String × Option (ArchiveIndex d))
    (rest : Resources (ArchiveIndex d)) :
    ArchiveIndex.leaves (d + 1) (entry :: rest : Resources (ArchiveIndex d)) =
      ArchiveIndex.leaves (d + 1) ([entry] : Resources (ArchiveIndex d)) ++
        ArchiveIndex.leaves (d + 1) rest := by
  rw [leaves_succ, leaves_succ, leaves_succ]
  simp

theorem leaves_single (d : Nat) (k : String) (child : ArchiveIndex d) :
    ArchiveIndex.leaves (d + 1) ([(k, some child)] : Resources (ArchiveIndex d)) =
      ArchiveIndex.leaves d child := by
  rw [leaves_succ]
  simp

/-- The leaves of a node above the instance level hold, in a row, the leaves
of each of its expanded entries. -/
theorem leaves_of_mapFind (d : Nat) :
    ∀ (m : Resources (ArchiveIndex d)) (id : String) (child : ArchiveIndex d),
      mapFind m id = some (some child) →
      ∃ before after, ArchiveIndex.leaves (d + 1) m =
        before ++ ArchiveIndex.leaves d child ++ after := by
  intro m
  induction m with
  | nil => intro id child h; simp [mapFind] at h
  | cons entry rest ih =>
    intro id child h
    obtain ⟨k, v⟩ := entry
    rw [mapFind] at h
    by_cases hk : k = id
    · rw [if_pos hk] at h
      injection h with h
      subst h
      refine ⟨[], ArchiveIndex.leaves (d + 1) rest, ?_⟩
      rw [leaves_cons, leaves_single]
      simp
    · rw [if_neg hk] at h
      obtain ⟨before, after, hrest⟩ := ih id child h
      refine ⟨ArchiveIndex.leaves (d + 1) ([(k, v)] : Resources (ArchiveIndex d)) ++ before,
        after, ?_⟩
      rw [leaves_cons, hrest]
      simp only [List.append_assoc]

/-- A tree in which the entry of a series holds the node built from the index
has, in a row, one leaf per child of the series that has a DICOM attachment, in
the order of the index. -/
theorem leaves_of_expandedFromIndex (index : ServerIndex) (resource : ResourceIdentifiers)
    (S : String) (hlevel : resource.GetLevel = .Series)
    (hid : resource.GetIdentifier .Series = .ok S) :
    ∀ (d : Nat) (tree : ArchiveIndex d),
      ArchiveIndex.IsExpandedFromIndex index resource d tree →
      ∃ before after, ArchiveIndex.leaves d tree = before ++ leavesOf index S ++ after := by
  intro d
  induction d with
  | zero => intro tree h; simp [ArchiveIndex.IsExpandedFromIndex] at h
  | succ d ih =>
    intro tree h
    rw [ArchiveIndex.IsExpandedFromIndex] at h
    cases hi : resource.GetIdentifier (levelOfDepth (d + 1)) with
    | error e => simp [hi] at h
    | ok id =>
      simp only [hi] at h
      cases hfind : mapFind tree id with
      | none => simp [hfind] at h
      | some previous =>
        cases previous with
        | none => simp [hfind] at h
        | some child =>
          simp only [hfind] at h
          obtain ⟨b1, a1, hsplit⟩ := leaves_of_mapFind d tree id child hfind
          by_cases hterm : resource.GetLevel = levelOfDepth (d + 1)
          · rw [if_pos hterm] at h
            have hd : d = 0 := by
              rw [hlevel] at hterm
              match d, hterm with
              | 0, _ => rfl
              | 1, hterm => simp [levelOfDepth] at hterm
              | d + 2, hterm => simp [levelOfDepth] at hterm
            subst hd
            have hS : id = S := by
              have : levelOfDepth (0 + 1) = .Series := rfl
              rw [this, hid] at hi
              injection hi with hi
              exact hi.symm
            subst hS
            refine ⟨b1, a1, ?_⟩
            rw [hsplit, h]
            have : ArchiveIndex.leaves 0
                (ArchiveIndex.Expand index 0 (ArchiveIndex.expandChildren index 0 id)) =
                leavesOf index id := by
              rw [← expandChildren_zero]
              rfl
            rw [this]
          · rw [if_neg hterm] at h
            obtain ⟨b2, a2, hchild⟩ := ih child h
            refine ⟨b1 ++ b2, a2 ++ a1, ?_⟩
            rw [hsplit, hchild]
            simp only [List.append_assoc]

/-- Claim C4: for every catalog, every tree, every series S and every instance
I of S, `Add(I)` then `Add(S)` both return.  When no ancestor of S is marked for
expansion in the tree, the entry of S is marked after the two calls, whatever
the tree held for S; `Expand` gives that entry the node built from the children
the index returns for S; the leaves of the expanded tree hold, in a row, one
leaf per child of S that has a DICOM attachment, in the order of the index (not
only I); and every plan built from the tree, in either mode, has the
`WriteInstance` commands of these leaves in a row, in that order.  When an
ancestor of S is marked already, the two calls leave the tree as it is and S
comes with the expansion of that ancestor. -/
theorem series_supersedes_instance (context : ServerContext) (toolbox : Toolbox)
    (I S : String) (fine coarse : ResourceIdentifiers) (archive : ArchiveIndex 3)
    (hI : ResourceIdentifiers.create context.index I = .ok fine)
    (hS : ResourceIdentifiers.create context.index S = .ok coarse)
    (hfine : fine.GetLevel = .Instance) (hcoarse : coarse.GetLevel = .Series)
    (hanc : fine.GetIdentifier .Series = .ok S) :
    ∃ t1 t2, ArchiveIndex.Add context.index fine 3 archive = .ok t1 ∧
      ArchiveIndex.Add context.index coarse 3 t1 = .ok t2 ∧
      (ArchiveIndex.IsUnderPending coarse 3 archive = false →
        ArchiveIndex.IsPending coarse 3 t2 = true ∧
        ArchiveIndex.IsExpandedFromIndex context.index coarse 3
          (ArchiveIndex.Expand context.index 3 t2) ∧
        (∃ before after, ArchiveIndex.leaves 3 (ArchiveIndex.Expand context.index 3 t2) =
          before ++ leavesOf context.index S ++ after) ∧
        ∀ isMedia planned, planCommands context toolbox t2 isMedia = .ok planned →
          ∃ before after,
            (planned.2.commands_.filter Command.IsWriteInstance).map (fun c => c.instanceId_) =
              before ++ (leavesOf context.index S).map (fun i => i.id_) ++ after) ∧
      (ArchiveIndex.IsUnderPending coarse 3 archive = true → t1 = archive ∧ t2 = archive) := by
  have hsame := create_agree context.index S I coarse fine hS hI (by rw [hcoarse]; exact hanc)
  have hSid : coarse.GetIdentifier .Series = .ok S := by
    obtain ⟨-, -, -, c3, -⟩ := create_ok context.index S coarse hS
    have hl : coarse.level_ = .Series := hcoarse
    simp [ResourceIdentifiers.GetIdentifier, hl, (c3 hl).1]
  obtain ⟨⟨t1, h1⟩, -⟩ := add_returns context.index fine 3 archive (Nat.le_refl 3)
    (by cases fine.level_ <;> simp [levelOfDepth, ResourceType.rank])
  obtain ⟨⟨t2, h2⟩, -⟩ := add_returns context.index coarse 3 t1 (Nat.le_refl 3)
    (by cases coarse.level_ <;> simp [levelOfDepth, ResourceType.rank])
  refine ⟨t1, t2, h1, h2, ?_, ?_⟩
  · intro hu
    have hu1 : ArchiveIndex.IsUnderPending coarse 3 t1 = false := by
      rw [add_instance_keeps_ancestors context.index coarse fine hfine hsame 3 archive t1 h1]
      exact hu
    have hp := add_marks_pending context.index coarse (by rw [hcoarse]; decide) 3 t1 t2 h2 hu1
    have hexp := expand_pending context.index coarse 3 t2 hp
    obtain ⟨before, after, hleaves⟩ := leaves_of_expandedFromIndex context.index coarse S
      hcoarse hSid 3 _ hexp
    refine ⟨hp, hexp, ⟨before, after, hleaves⟩, ?_⟩
    intro isMedia planned hplan
    obtain ⟨he, hw, -⟩ := plan_totals context toolbox t2 isMedia planned hplan
    refine ⟨before.map (fun i => i.id_), after.map (fun i => i.id_), ?_⟩
    rw [hw, he, hleaves]
    simp only [List.map_append]
  · intro hu
    have e1 := add_under_pending context.index coarse fine
      (by rw [hcoarse, hfine]; decide) hsame 3 archive hu
    rw [e1] at h1
    injection h1 with h1
    subst h1
    have e2 := add_under_pending context.index coarse coarse (Nat.le_refl _)
      (fun _ _ h => h) 3 archive hu
    rw [e2] at h2
    injection h2 with h2
    exact ⟨rfl, h2.symm⟩

/-- Witness of `series_supersedes_instance`: in scenario S1, the instance `I1`
and its series `SR1` added to the tree that holds the instance `I2` of `SR1` and
the series `SR2`. -/
theorem series_supersedes_instance_witness :
    ∃ t1 t2,
      ArchiveIndex.Add s1Index ⟨.Instance, "PT1", "ST1", "SR1", "I1"⟩ 3
        (selectedJob (contextOf s1Index) false ["I2", "SR2"]).archive_ = .ok t1 ∧
      ArchiveIndex.Add s1Index ⟨.Series, "PT1", "ST1", "SR1", ""⟩ 3 t1 = .ok t2 ∧
      ArchiveIndex.IsPending ⟨.Series, "PT1", "ST1", "SR1", ""⟩ 3 t2 = true ∧
      ∃ before after, ArchiveIndex.leaves 3 (ArchiveIndex.Expand s1Index 3 t2) =
        before ++ leavesOf s1Index "SR1" ++ after :=
  have h := series_supersedes_instance (contextOf s1Index) scenarioToolbox "I1" "SR1"
    ⟨.Instance, "PT1", "ST1", "SR1", "I1"⟩ ⟨.Series, "PT1", "ST1", "SR1", ""⟩
    (selectedJob (contextOf s1Index) false ["I2", "SR2"]).archive_
    (eq_ok_of_toOption (by decide!)) (eq_ok_of_toOption (by decide!)) rfl rfl
    (eq_ok_of_toOption (by decide!))
  let ⟨t1, t2, h1, h2, h3, _⟩ := h
  ⟨t1, t2, h1, h2, (h3 (by decide!)).1, (h3 (by decide!)).2.2.1⟩


end Orthanc
